import Mathlib

/-!
# Verification development for the `spos` repository

Shallow embedding of `src/mutex.cpp` (bounded producer/consumer buffer,
readers-writers gate, dining philosophers) as interleaving transition systems.

Every thread is a small program-counter machine; one `step` executes one atomic
action of one thread (a mutex acquisition, a statement executed while a mutex is
held, a release, a notification).  `sleep_for` calls only influence timing and are
not actions.  A blocking operation (locking a taken mutex, waiting on a condition
variable) is a step that is not enabled: `step` returns `none`.

A schedule is a list of scheduler choices; `exec` runs it, and a state is reachable
when some schedule leads to it from the initial state.  `int` values are modelled as
mathematical integers: signed overflow is undefined in C++ and is out of reach of
the workloads of the three `run` functions.

The two sequential programs are embedded as functions: `src/ass_twopass.cpp` (the
two-pass assembler, namespace `Assembler`) on the text of its input files, and
`src/P5_roundrobin.cpp` (the round-robin scheduler, namespace `Scheduling`) on its
process vector, the main loop with a fuel argument.  There the `int` values computed
from the input (location counter, clock, turnaround and waiting time) wrap modulo
`2^32`, see `wrapInt`.
-/

/-! ## Part 1: definitions -/

namespace ProducerConsumer

/-- Source: `constexpr int BUFFER_SIZE = 5;` -/
def BUFFER_SIZE : Nat := 5

/-- Which of the two thread functions a worker runs. -/
inductive Role
  | producer
  | consumer
  deriving DecidableEq, Repr

/-- Program points of `producer` / `consumer` (the two functions have the same shape).
* `loopHead`: at the `for` test, about to construct `unique_lock<mutex> lock(mtx)`;
* `check`: owns `mtx`, about to evaluate the predicate of `wait`;
* `waiting`: inside `wait`, `mtx` released, blocked on the condition variable;
* `woken`: unblocked, about to re-acquire `mtx` inside `wait`;
* `ready`: owns `mtx`, predicate was true, about to `push` / `front`+`pop` (and print);
* `unlock`: owns `mtx`, about to run `lock.unlock()`;
* `notify`: about to run `notify_one()` on the other condition variable, then `++i`. -/
inductive Pc
  | loopHead
  | check
  | waiting
  | woken
  | ready
  | unlock
  | notify
  deriving DecidableEq, Repr

/-- One thread: its function, its arguments `id` and `produceCount`/`consumeCount`,
its loop counter `i` and its program point. -/
structure Worker where
  role : Role
  id : Int
  count : Int
  i : Nat
  pc : Pc
  deriving DecidableEq, Repr

/-- Shared state: the queue `buffer` (front = head of the list), the owner of `mtx`
(index of the owning thread), the threads, and the two console streams
`produced:` / `consumed:` in the order the lines were printed. -/
structure State where
  buffer : List Int
  mtx : Option Nat
  workers : List Worker
  produced : List Int
  consumed : List Int
  deriving DecidableEq, Repr

/-- Scheduler choices.  `run k wake`: thread `k` executes its next atomic action; when that
action is `notify_one`, `wake` names the waiter that is unblocked (`none`: there is no
waiter).  `spurious k`: thread `k`, blocked in `wait`, wakes up without a notification. -/
inductive Action
  | run (k : Nat) (wake : Option Nat)
  | spurious (k : Nat)
  deriving DecidableEq, Repr

/-- The predicate passed to `wait`: `buffer.size() < BUFFER_SIZE` for a producer,
`!buffer.empty()` for a consumer. -/
def waitPred (r : Role) (buffer : List Int) : Bool :=
  match r with
  | .producer => decide (buffer.length < BUFFER_SIZE)
  | .consumer => !buffer.isEmpty

/-- The role whose threads wait on the condition variable notified by role `r`:
a producer notifies `not_empty` (consumers wait there), a consumer notifies `not_full`. -/
def notifiedRole (r : Role) : Role :=
  match r with
  | .producer => .consumer
  | .consumer => .producer

/-- Thread `v` is blocked on the condition variable that role `r` notifies. -/
def isWaiter (r : Role) (v : Worker) : Bool :=
  decide (v.role = notifiedRole r) && decide (v.pc = .waiting)

/-- One atomic action of thread `k` (with record `w`). -/
def stepWorker (s : State) (k : Nat) (w : Worker) (wake : Option Nat) : Option State :=
  match w.pc with
  | .loopHead =>
      -- `i < count` and `unique_lock<mutex> lock(mtx)`
      if (w.i : Int) < w.count ∧ s.mtx = none then
        some { s with mtx := some k, workers := s.workers.set k { w with pc := .check } }
      else none
  | .check =>
      -- `wait(lock, pred)`: evaluate the predicate; when false release `mtx` and block
      if waitPred w.role s.buffer then
        some { s with workers := s.workers.set k { w with pc := .ready } }
      else
        some { s with mtx := none, workers := s.workers.set k { w with pc := .waiting } }
  | .waiting => none
  | .woken =>
      -- re-acquire `mtx`, then re-check the predicate
      if s.mtx = none then
        some { s with mtx := some k, workers := s.workers.set k { w with pc := .check } }
      else none
  | .ready =>
      match w.role with
      | .producer =>
          -- `int item = id * 100 + i; buffer.push(item); cout << ...`
          let item := w.id * 100 + (w.i : Int)
          some { s with buffer := s.buffer ++ [item],
                        produced := s.produced ++ [item],
                        workers := s.workers.set k { w with pc := .unlock } }
      | .consumer =>
          -- `int item = buffer.front(); buffer.pop(); cout << ...` (undefined on an empty queue)
          match s.buffer with
          | [] => none
          | item :: rest =>
              some { s with buffer := rest,
                            consumed := s.consumed ++ [item],
                            workers := s.workers.set k { w with pc := .unlock } }
  | .unlock =>
      -- `lock.unlock()`
      some { s with mtx := none, workers := s.workers.set k { w with pc := .notify } }
  | .notify =>
      -- `notify_one()` on the other condition variable, then `sleep_for`, `++i`
      let ws := s.workers.set k { w with i := w.i + 1, pc := .loopHead }
      match wake with
      | none =>
          if s.workers.all (fun v => !isWaiter w.role v) then some { s with workers := ws }
          else none
      | some j =>
          match s.workers[j]? with
          | none => none
          | some v =>
              if isWaiter w.role v then
                some { s with workers := ws.set j { v with pc := .woken } }
              else none

/-- The transition function of the system. -/
def step (s : State) (a : Action) : Option State :=
  match a with
  | .run k wake =>
      match s.workers[k]? with
      | none => none
      | some w => stepWorker s k w wake
  | .spurious k =>
      match s.workers[k]? with
      | none => none
      | some w =>
          if w.pc = .waiting then
            some { s with workers := s.workers.set k { w with pc := .woken } }
          else none

/-- Run a schedule; `none` when some action of the schedule is not enabled. -/
def exec (s : State) : List Action → Option State
  | [] => some s
  | a :: rest => (step s a).bind (fun t => exec t rest)

/-- A thread started as `thread(producer, id, count)` or `thread(consumer, id, count)`. -/
def spawn (r : Role) (id count : Int) : Worker :=
  { role := r, id := id, count := count, i := 0, pc := .loopHead }

/-- Initial state for the given threads: empty queue, free mutex, nothing printed. -/
def init (ws : List Worker) : State :=
  { buffer := [], mtx := none, workers := ws, produced := [], consumed := [] }

/-- Every thread is at its loop head with `i = 0` (a freshly started thread). -/
def Fresh (ws : List Worker) : Prop :=
  ∀ w ∈ ws, w.i = 0 ∧ w.pc = .loopHead

/-- States reachable from freshly started threads `ws` under any schedule. -/
def Reachable (ws : List Worker) (s : State) : Prop :=
  Fresh ws ∧ ∃ acts, exec (init ws) acts = some s

/-- Source: `ProducerConsumer::run` — two producers (ids 1, 2) and two consumers (ids 1, 2),
five operations each. -/
def runWorkers : List Worker :=
  [spawn .producer 1 5, spawn .producer 2 5, spawn .consumer 1 5, spawn .consumer 2 5]

/-- The thread owns `mtx` at this program point. -/
def Pc.holdsMtx : Pc → Bool
  | .check => true
  | .ready => true
  | .unlock => true
  | _ => false

/-- A schedule of `run`: producer 1 completes one iteration (pushing 100), then producer 2
locks `mtx` and passes its wait predicate. -/
def demoSchedule : List Action :=
  [.run 0 none, .run 0 none, .run 0 none, .run 0 none, .run 0 none, .run 1 none, .run 1 none]

/-- The state reached by `demoSchedule`. -/
def demoState : State :=
  { buffer := [100], mtx := some 1,
    workers := [{ role := .producer, id := 1, count := 5, i := 1, pc := .loopHead },
                { role := .producer, id := 2, count := 5, i := 0, pc := .ready },
                spawn .consumer 1 5, spawn .consumer 2 5],
    produced := [100], consumed := [] }

/-- Relational reading of `step`, one constructor per atomic action (used to reason by cases;
`step_sound` shows every transition of `step` is one of these). -/
inductive Step (s : State) : Action → State → Prop
  | lock (k : Nat) (wake : Option Nat) (w : Worker) (hw : s.workers[k]? = some w)
      (hpc : w.pc = .loopHead) (hi : (w.i : Int) < w.count) (hm : s.mtx = none) :
      Step s (.run k wake)
        { s with mtx := some k, workers := s.workers.set k { w with pc := .check } }
  | relock (k : Nat) (wake : Option Nat) (w : Worker) (hw : s.workers[k]? = some w)
      (hpc : w.pc = .woken) (hm : s.mtx = none) :
      Step s (.run k wake)
        { s with mtx := some k, workers := s.workers.set k { w with pc := .check } }
  | pass (k : Nat) (wake : Option Nat) (w : Worker) (hw : s.workers[k]? = some w)
      (hpc : w.pc = .check) (hp : waitPred w.role s.buffer = true) :
      Step s (.run k wake) { s with workers := s.workers.set k { w with pc := .ready } }
  | block (k : Nat) (wake : Option Nat) (w : Worker) (hw : s.workers[k]? = some w)
      (hpc : w.pc = .check) (hp : waitPred w.role s.buffer = false) :
      Step s (.run k wake)
        { s with mtx := none, workers := s.workers.set k { w with pc := .waiting } }
  | push (k : Nat) (wake : Option Nat) (w : Worker) (hw : s.workers[k]? = some w)
      (hpc : w.pc = .ready) (hr : w.role = .producer) :
      Step s (.run k wake)
        { s with buffer := s.buffer ++ [w.id * 100 + (w.i : Int)],
                 produced := s.produced ++ [w.id * 100 + (w.i : Int)],
                 workers := s.workers.set k { w with pc := .unlock } }
  | pop (k : Nat) (wake : Option Nat) (w : Worker) (item : Int) (rest : List Int)
      (hw : s.workers[k]? = some w) (hpc : w.pc = .ready) (hr : w.role = .consumer)
      (hb : s.buffer = item :: rest) :
      Step s (.run k wake)
        { s with buffer := rest, consumed := s.consumed ++ [item],
                 workers := s.workers.set k { w with pc := .unlock } }
  | unlock (k : Nat) (wake : Option Nat) (w : Worker) (hw : s.workers[k]? = some w)
      (hpc : w.pc = .unlock) :
      Step s (.run k wake)
        { s with mtx := none, workers := s.workers.set k { w with pc := .notify } }
  | notifyNone (k : Nat) (w : Worker) (hw : s.workers[k]? = some w) (hpc : w.pc = .notify)
      (hn : ∀ (j : Nat) (v : Worker), s.workers[j]? = some v → isWaiter w.role v = false) :
      Step s (.run k none)
        { s with workers := s.workers.set k { w with i := w.i + 1, pc := .loopHead } }
  | notifyOne (k j : Nat) (w v : Worker) (hw : s.workers[k]? = some w) (hpc : w.pc = .notify)
      (hv : s.workers[j]? = some v) (hwait : isWaiter w.role v = true) :
      Step s (.run k (some j))
        { s with workers := (s.workers.set k { w with i := w.i + 1, pc := .loopHead }).set j
                              { v with pc := .woken } }
  | spurious (k : Nat) (w : Worker) (hw : s.workers[k]? = some w) (hpc : w.pc = .waiting) :
      Step s (.spurious k) { s with workers := s.workers.set k { w with pc := .woken } }

/-- Safety invariant of the buffer: capacity bound, ownership of `mtx` by every thread at a
program point inside the locked region, and the wait predicate at `ready`. -/
structure SafeInv (s : State) : Prop where
  cap : s.buffer.length ≤ BUFFER_SIZE
  own : ∀ (k : Nat) (w : Worker), s.workers[k]? = some w → w.pc.holdsMtx = true →
    s.mtx = some k
  rdy : ∀ (k : Nat) (w : Worker), s.workers[k]? = some w → w.pc = .ready →
    waitPred w.role s.buffer = true

/-- Number of `push` calls a producer thread has executed: one per completed iteration, plus
one when it is past the push of the current iteration. -/
def pushed (w : Worker) : Nat :=
  w.i + (if w.pc = .unlock ∨ w.pc = .notify then 1 else 0)

/-- The items a producer with argument `id` pushes in its first `n` iterations, in order. -/
def itemsOf (id : Int) (n : Nat) : List Int :=
  (List.range n).map (fun j => id * 100 + (j : Int))

/-- Invariant of a system whose thread 0 is the only producer (`producer(pid, n)`): the
`produced` stream is exactly the items of the producer's executed pushes, in order. -/
structure SoloInv (pid n : Int) (s : State) : Prop where
  prod : ∃ p : Worker, s.workers[0]? = some p ∧ p.role = .producer ∧ p.id = pid ∧
    p.count = n ∧ s.produced = itemsOf pid (pushed p) ∧
    (p.pc ≠ .loopHead → (p.i : Int) < n) ∧ (p.i = 0 ∨ (p.i : Int) ≤ n)
  others : ∀ (k : Nat) (w : Worker), s.workers[k]? = some w → k ≠ 0 → w.role = .consumer

/-- A complete schedule of one producer `producer(1, 3)` (thread 0) and one consumer
`consumer(1, 3)` (thread 1): each item is produced and then consumed. -/
def soloSchedule : List Action :=
  [.run 0 none, .run 0 none, .run 0 none, .run 0 none, .run 0 none,
   .run 1 none, .run 1 none, .run 1 none, .run 1 none, .run 1 none,
   .run 0 none, .run 0 none, .run 0 none, .run 0 none, .run 0 none,
   .run 1 none, .run 1 none, .run 1 none, .run 1 none, .run 1 none,
   .run 0 none, .run 0 none, .run 0 none, .run 0 none, .run 0 none,
   .run 1 none, .run 1 none, .run 1 none, .run 1 none, .run 1 none]

/-- The state reached by `soloSchedule`: both threads have left their loops. -/
def soloFinal : State :=
  { buffer := [], mtx := none,
    workers := [{ role := .producer, id := 1, count := 3, i := 3, pc := .loopHead },
                { role := .consumer, id := 1, count := 3, i := 3, pc := .loopHead }],
    produced := [100, 101, 102], consumed := [100, 101, 102] }

/-- Pushes executed by a thread (0 for a consumer). -/
def pushedBy (w : Worker) : Nat :=
  if w.role = .producer then pushed w else 0

/-- Pops executed by a thread (0 for a producer). -/
def poppedBy (w : Worker) : Nat :=
  if w.role = .consumer then pushed w else 0

/-- Items a thread has pushed so far, in order (none for a consumer). -/
def emitted (w : Worker) : List Int :=
  if w.role = .producer then itemsOf w.id (pushed w) else []

/-- Wake-up credit towards the waiters of role `r`.  A thread of role `r` that is awake inside
`wait` or past it (`woken`, `check`, `ready`) will itself take what it waits for; a thread of
the other role that has pushed/popped and not yet called `notify_one` (`unlock`, `notify`)
still owes a notification. -/
def credit (r : Role) (w : Worker) : Nat :=
  if w.role = r then
    (if w.pc = .woken ∨ w.pc = .check ∨ w.pc = .ready then 1 else 0)
  else
    (if w.pc = .unlock ∨ w.pc = .notify then 1 else 0)

/-- What the waiters of role `r` wait for: items for consumers, free slots for producers. -/
def supply (r : Role) (buffer : List Int) : Nat :=
  match r with
  | .consumer => buffer.length
  | .producer => BUFFER_SIZE - buffer.length

/-- The thread has left its loop. -/
def Worker.done (w : Worker) : Prop :=
  w.pc = .loopHead ∧ ¬ ((w.i : Int) < w.count)

instance (w : Worker) : Decidable w.done := by
  unfold Worker.done
  exact inferInstance

/-- Progress measure of one thread: 8 per iteration still to start, plus what is left of the
current iteration.  A notified wake-up (`waiting` to `woken`) raises it by 2, which the
notifier pays for. -/
def Worker.fuel (w : Worker) : Nat :=
  match w.pc with
  | .loopHead => 8 * (w.count - (w.i : Int)).toNat
  | .check => 8 * (w.count - (w.i : Int) - 1).toNat + 7
  | .waiting => 8 * (w.count - (w.i : Int) - 1).toNat + 6
  | .woken => 8 * (w.count - (w.i : Int) - 1).toNat + 8
  | .ready => 8 * (w.count - (w.i : Int) - 1).toNat + 5
  | .unlock => 8 * (w.count - (w.i : Int) - 1).toNat + 4
  | .notify => 8 * (w.count - (w.i : Int) - 1).toNat + 3

/-- Progress measure of a state: the sum over its threads. -/
def fuel (s : State) : Nat :=
  (s.workers.map Worker.fuel).sum

/-- The arguments a thread was started with. -/
def Worker.args (w : Worker) : Role × Int × Int :=
  (w.role, w.id, w.count)

/-- Invariants behind deadlock freedom and the final contents of the streams. -/
structure LiveInv (ws : List Worker) (s : State) : Prop where
  args : s.workers.map Worker.args = ws.map Worker.args
  bound : ∀ (k : Nat) (w : Worker), s.workers[k]? = some w →
    (w.pc ≠ .loopHead → (w.i : Int) < w.count) ∧ (w.i = 0 ∨ (w.i : Int) ≤ w.count)
  held : ∀ (k : Nat), s.mtx = some k → ∃ w, s.workers[k]? = some w ∧ w.pc.holdsMtx = true
  nprod : s.produced.length = (s.workers.map pushedBy).sum
  ncons : s.consumed.length = (s.workers.map poppedBy).sum
  items : ∀ x : Int, s.produced.count x = (s.workers.map (fun w => (emitted w).count x)).sum
  wake : ∀ r : Role, (∃ (j : Nat) (v : Worker), s.workers[j]? = some v ∧ v.role = r ∧
    v.pc = .waiting) → supply r s.buffer ≤ (s.workers.map (credit r)).sum

/-- The action is a program action of a thread (not a spurious wake-up). -/
def Action.isRun : Action → Bool
  | .run _ _ => true
  | .spurious _ => false

/-- Every thread is done or blocked in `wait`. -/
def Quiescent (s : State) : Prop :=
  ∀ (k : Nat) (w : Worker), s.workers[k]? = some w → w.done ∨ w.pc = .waiting

/-- One full loop iteration of thread `k` when it never has to wait and nobody waits for it:
lock, pass the predicate, push/pop, unlock, notify. -/
def iteration (k : Nat) : List Action :=
  List.replicate 5 (.run k none)

/-- A complete schedule of `run`: producer 1 and consumer 1 alternate five times, then
producer 2 and consumer 2 alternate five times. -/
def runSchedule : List Action :=
  (List.replicate 5 (iteration 0 ++ iteration 2)).flatten ++
  (List.replicate 5 (iteration 1 ++ iteration 3)).flatten

/-- The state reached by `runSchedule`: all four threads have left their loops. -/
def runFinal : State :=
  { buffer := [], mtx := none,
    workers := [{ role := .producer, id := 1, count := 5, i := 5, pc := .loopHead },
                { role := .producer, id := 2, count := 5, i := 5, pc := .loopHead },
                { role := .consumer, id := 1, count := 5, i := 5, pc := .loopHead },
                { role := .consumer, id := 2, count := 5, i := 5, pc := .loopHead }],
    produced := [100, 101, 102, 103, 104, 200, 201, 202, 203, 204],
    consumed := [100, 101, 102, 103, 104, 200, 201, 202, 203, 204] }

end ProducerConsumer

namespace ProducerConsumer

/-- The state of `run` after consumer 1 (thread 2) has locked `mtx`, found the buffer empty
and blocked in `wait`. -/
def spinState : State :=
  { buffer := [], mtx := none,
    workers := [spawn .producer 1 5, spawn .producer 2 5,
                { role := .consumer, id := 1, count := 5, i := 0, pc := .waiting },
                spawn .consumer 2 5],
    produced := [], consumed := [] }

/-- Consumer 1 wakes up without a notification, re-acquires `mtx`, finds the buffer still
empty and blocks again. -/
def spinCycle : List Action :=
  [.spurious 2, .run 2 none, .run 2 none]

/-- A schedule of `run` in which consumer 1 blocks and then wakes up spuriously `n` times
while no other thread runs. -/
def spin (n : Nat) : List Action :=
  [.run 2 none, .run 2 none] ++ (List.replicate n spinCycle).flatten

/-- Number of spurious wake-ups in a schedule. -/
def spuriousCount (acts : List Action) : Nat :=
  (acts.filter (fun a => !a.isRun)).length

/-- Number of program actions in a schedule. -/
def runCount (acts : List Action) : Nat :=
  (acts.filter Action.isRun).length

end ProducerConsumer

namespace ReadersWriters

/-- Which of the two thread functions a worker runs. -/
inductive Role
  | reader
  | writer
  deriving DecidableEq, Repr

/-- Program points of `reader` and `writer`.
Reader:
* `loopHead`: at the `for` test, about to construct the entry `lock_guard` on
  `read_count_mutex`;
* `entryInc`: owns `read_count_mutex`, about to run `++read_count`;
* `entryTest`: about to test `read_count == 1`;
* `entryLockW`: test was true, about to run `write_mutex.lock()`;
* `entryRelease`: end of the entry block, about to release `read_count_mutex`;
* `reading`: about to print `shared_data`;
* `exitLock`: printed (sleeping), about to construct the exit `lock_guard`;
* `exitDec`: owns `read_count_mutex`, about to run `--read_count`;
* `exitTest`: about to test `read_count == 0`;
* `exitUnlockW`: test was true, about to run `write_mutex.unlock()`;
* `exitRelease`: end of the exit block, about to release `read_count_mutex`, then `++i`.
Writer:
* `loopHead`: at the `for` test, about to construct `lock_guard` on `write_mutex`;
* `wRead`: owns `write_mutex`, about to read `shared_data` for `++shared_data`;
* `wWrite`: about to store the incremented value;
* `wPrint`: about to print `shared_data`;
* `wRelease`: end of the loop body, about to release `write_mutex`, then `++i`. -/
inductive Pc
  | loopHead
  | entryInc
  | entryTest
  | entryLockW
  | entryRelease
  | reading
  | exitLock
  | exitDec
  | exitTest
  | exitUnlockW
  | exitRelease
  | wRead
  | wWrite
  | wPrint
  | wRelease
  deriving DecidableEq, Repr

/-- One thread: its function, its arguments `id` and `iterations`, its loop counter `i`, its
program point, and a local value `tmp` (the value a writer loaded for the increment, the
value a reader printed). -/
structure Worker where
  role : Role
  id : Int
  iterations : Int
  i : Nat
  pc : Pc
  tmp : Int
  deriving DecidableEq, Repr

/-- Shared state: `shared_data`, `read_count`, the owners of the two mutexes (index of the
thread that locked it), and the threads. -/
structure State where
  shared_data : Int
  read_count : Int
  read_count_mutex : Option Nat
  write_mutex : Option Nat
  workers : List Worker
  deriving DecidableEq, Repr

/-- One atomic action of reader thread `k` (with record `w`).  `write_mutex` is used as a
binary semaphore: the reader that runs `write_mutex.unlock()` (the last one out) need not be
the reader that ran `write_mutex.lock()` (the first one in); the model releases the mutex
whoever locked it. -/
def stepReader (s : State) (k : Nat) (w : Worker) : Option State :=
  match w.pc with
  | .loopHead =>
      -- `i < iterations` and `lock_guard<mutex> lock(read_count_mutex)`
      if (w.i : Int) < w.iterations ∧ s.read_count_mutex = none then
        some { s with read_count_mutex := some k,
                      workers := s.workers.set k { w with pc := .entryInc } }
      else none
  | .entryInc =>
      -- `++read_count`
      some { s with read_count := s.read_count + 1,
                    workers := s.workers.set k { w with pc := .entryTest } }
  | .entryTest =>
      -- `if (read_count == 1)`
      if s.read_count = 1 then
        some { s with workers := s.workers.set k { w with pc := .entryLockW } }
      else
        some { s with workers := s.workers.set k { w with pc := .entryRelease } }
  | .entryLockW =>
      -- `write_mutex.lock()`
      if s.write_mutex = none then
        some { s with write_mutex := some k,
                      workers := s.workers.set k { w with pc := .entryRelease } }
      else none
  | .entryRelease =>
      -- end of the entry block: `read_count_mutex` released
      some { s with read_count_mutex := none,
                    workers := s.workers.set k { w with pc := .reading } }
  | .reading =>
      -- `cout << ... << shared_data`
      some { s with workers := s.workers.set k { w with pc := .exitLock, tmp := s.shared_data } }
  | .exitLock =>
      -- `lock_guard<mutex> lock(read_count_mutex)`
      if s.read_count_mutex = none then
        some { s with read_count_mutex := some k,
                      workers := s.workers.set k { w with pc := .exitDec } }
      else none
  | .exitDec =>
      -- `--read_count`
      some { s with read_count := s.read_count - 1,
                    workers := s.workers.set k { w with pc := .exitTest } }
  | .exitTest =>
      -- `if (read_count == 0)`
      if s.read_count = 0 then
        some { s with workers := s.workers.set k { w with pc := .exitUnlockW } }
      else
        some { s with workers := s.workers.set k { w with pc := .exitRelease } }
  | .exitUnlockW =>
      -- `write_mutex.unlock()`
      some { s with write_mutex := none,
                    workers := s.workers.set k { w with pc := .exitRelease } }
  | .exitRelease =>
      -- end of the exit block: `read_count_mutex` released; `++i`
      some { s with read_count_mutex := none,
                    workers := s.workers.set k { w with i := w.i + 1, pc := .loopHead } }
  | _ => none

/-- One atomic action of writer thread `k` (with record `w`). -/
def stepWriter (s : State) (k : Nat) (w : Worker) : Option State :=
  match w.pc with
  | .loopHead =>
      -- `i < iterations` and `lock_guard<mutex> lock(write_mutex)`
      if (w.i : Int) < w.iterations ∧ s.write_mutex = none then
        some { s with write_mutex := some k,
                      workers := s.workers.set k { w with pc := .wRead } }
      else none
  | .wRead =>
      -- `++shared_data`: load
      some { s with workers := s.workers.set k { w with pc := .wWrite, tmp := s.shared_data } }
  | .wWrite =>
      -- `++shared_data`: store
      some { s with shared_data := w.tmp + 1,
                    workers := s.workers.set k { w with pc := .wPrint } }
  | .wPrint =>
      -- `cout << ... << shared_data`
      some { s with workers := s.workers.set k { w with pc := .wRelease } }
  | .wRelease =>
      -- end of the loop body: `write_mutex` released; `++i`
      some { s with write_mutex := none,
                    workers := s.workers.set k { w with i := w.i + 1, pc := .loopHead } }
  | _ => none

/-- The transition function: thread `k` executes its next atomic action. -/
def step (s : State) (k : Nat) : Option State :=
  match s.workers[k]? with
  | none => none
  | some w =>
      match w.role with
      | .reader => stepReader s k w
      | .writer => stepWriter s k w

/-- Run a schedule (a list of thread indices); `none` when some action is not enabled. -/
def exec (s : State) : List Nat → Option State
  | [] => some s
  | k :: rest => (step s k).bind (fun t => exec t rest)

/-- A thread started as `thread(reader, id, iterations)` or `thread(writer, id, iterations)`. -/
def spawn (r : Role) (id iterations : Int) : Worker :=
  { role := r, id := id, iterations := iterations, i := 0, pc := .loopHead, tmp := 0 }

/-- Initial state: `shared_data = 0`, `read_count = 0`, both mutexes free. -/
def init (ws : List Worker) : State :=
  { shared_data := 0, read_count := 0, read_count_mutex := none, write_mutex := none,
    workers := ws }

/-- Every thread is at its loop head with `i = 0`. -/
def Fresh (ws : List Worker) : Prop :=
  ∀ w ∈ ws, w.i = 0 ∧ w.pc = .loopHead

/-- States reachable from freshly started threads `ws` under any schedule. -/
def Reachable (ws : List Worker) (s : State) : Prop :=
  Fresh ws ∧ ∃ acts, exec (init ws) acts = some s

/-- Source: `ReadersWriters::run` — readers 1, 2, 3 with 3 iterations, writers 1, 2 with 2. -/
def runWorkers : List Worker :=
  [spawn .reader 1 3, spawn .reader 2 3, spawn .reader 3 3, spawn .writer 1 2,
   spawn .writer 2 2]

/-- The thread has left its loop. -/
def Worker.done (w : Worker) : Prop :=
  w.pc = .loopHead ∧ ¬ ((w.i : Int) < w.iterations)

instance (w : Worker) : Decidable w.done := by
  unfold Worker.done
  exact inferInstance

/-- A writer inside its critical section: from the acquisition of `write_mutex` (before the
increment) to its release (after the print). -/
def Worker.writing (w : Worker) : Bool :=
  decide (w.role = .writer) &&
    (decide (w.pc = .wRead) || decide (w.pc = .wWrite) || decide (w.pc = .wPrint) ||
      decide (w.pc = .wRelease))

/-- A reader inside its reading section: between the end of its entry block and the start of
its exit block. -/
def Worker.inReading (w : Worker) : Bool :=
  decide (w.role = .reader) && (decide (w.pc = .reading) || decide (w.pc = .exitLock))

/-- A reader that owns `read_count_mutex`. -/
def Worker.holdsRcm (w : Worker) : Bool :=
  decide (w.role = .reader) &&
    (decide (w.pc = .entryInc) || decide (w.pc = .entryTest) || decide (w.pc = .entryLockW) ||
      decide (w.pc = .entryRelease) || decide (w.pc = .exitDec) || decide (w.pc = .exitTest) ||
      decide (w.pc = .exitUnlockW) || decide (w.pc = .exitRelease))

/-- Contribution of a thread to `read_count`: 1 for a reader between its `++read_count` and
its `--read_count`. -/
def Worker.counted (w : Worker) : Nat :=
  if w.role = .reader ∧
      (w.pc = .entryTest ∨ w.pc = .entryLockW ∨ w.pc = .entryRelease ∨ w.pc = .reading ∨
        w.pc = .exitLock ∨ w.pc = .exitDec) then 1 else 0

/-- A reader on whose behalf `write_mutex` is held: from the end of the entry test to the
`write_mutex.unlock()` of the last reader. -/
def Worker.covered (w : Worker) : Bool :=
  decide (w.role = .reader) &&
    (decide (w.pc = .entryRelease) || decide (w.pc = .reading) || decide (w.pc = .exitLock) ||
      decide (w.pc = .exitDec) || decide (w.pc = .exitTest) || decide (w.pc = .exitUnlockW))

/-- Increments of `shared_data` a thread has stored: one per completed writer iteration, plus
one when the writer is past the store of the current iteration. -/
def Worker.written (w : Worker) : Nat :=
  if w.role = .writer then w.i + (if w.pc = .wPrint ∨ w.pc = .wRelease then 1 else 0) else 0

/-- `write_mutex` was locked by a reader thread. -/
def ReaderOwned (s : State) : Prop :=
  ∃ (m : Nat) (x : Worker), s.write_mutex = some m ∧ s.workers[m]? = some x ∧ x.role = .reader

/-- Relational reading of `step`, one constructor per atomic action. -/
inductive Step (s : State) (k : Nat) : State → Prop
  | rLockEntry (w : Worker) (hw : s.workers[k]? = some w) (hr : w.role = .reader)
      (hpc : w.pc = .loopHead) (hi : (w.i : Int) < w.iterations)
      (hm : s.read_count_mutex = none) :
      Step s k { s with read_count_mutex := some k,
                        workers := s.workers.set k { w with pc := .entryInc } }
  | rInc (w : Worker) (hw : s.workers[k]? = some w) (hr : w.role = .reader)
      (hpc : w.pc = .entryInc) :
      Step s k { s with read_count := s.read_count + 1,
                        workers := s.workers.set k { w with pc := .entryTest } }
  | rTestFirst (w : Worker) (hw : s.workers[k]? = some w) (hr : w.role = .reader)
      (hpc : w.pc = .entryTest) (hc : s.read_count = 1) :
      Step s k { s with workers := s.workers.set k { w with pc := .entryLockW } }
  | rTestMore (w : Worker) (hw : s.workers[k]? = some w) (hr : w.role = .reader)
      (hpc : w.pc = .entryTest) (hc : s.read_count ≠ 1) :
      Step s k { s with workers := s.workers.set k { w with pc := .entryRelease } }
  | rLockW (w : Worker) (hw : s.workers[k]? = some w) (hr : w.role = .reader)
      (hpc : w.pc = .entryLockW) (hm : s.write_mutex = none) :
      Step s k { s with write_mutex := some k,
                        workers := s.workers.set k { w with pc := .entryRelease } }
  | rReleaseEntry (w : Worker) (hw : s.workers[k]? = some w) (hr : w.role = .reader)
      (hpc : w.pc = .entryRelease) :
      Step s k { s with read_count_mutex := none,
                        workers := s.workers.set k { w with pc := .reading } }
  | rRead (w : Worker) (hw : s.workers[k]? = some w) (hr : w.role = .reader)
      (hpc : w.pc = .reading) :
      Step s k { s with workers :=
                        s.workers.set k { w with pc := .exitLock, tmp := s.shared_data } }
  | rLockExit (w : Worker) (hw : s.workers[k]? = some w) (hr : w.role = .reader)
      (hpc : w.pc = .exitLock) (hm : s.read_count_mutex = none) :
      Step s k { s with read_count_mutex := some k,
                        workers := s.workers.set k { w with pc := .exitDec } }
  | rDec (w : Worker) (hw : s.workers[k]? = some w) (hr : w.role = .reader)
      (hpc : w.pc = .exitDec) :
      Step s k { s with read_count := s.read_count - 1,
                        workers := s.workers.set k { w with pc := .exitTest } }
  | rTestLast (w : Worker) (hw : s.workers[k]? = some w) (hr : w.role = .reader)
      (hpc : w.pc = .exitTest) (hc : s.read_count = 0) :
      Step s k { s with workers := s.workers.set k { w with pc := .exitUnlockW } }
  | rTestNotLast (w : Worker) (hw : s.workers[k]? = some w) (hr : w.role = .reader)
      (hpc : w.pc = .exitTest) (hc : s.read_count ≠ 0) :
      Step s k { s with workers := s.workers.set k { w with pc := .exitRelease } }
  | rUnlockW (w : Worker) (hw : s.workers[k]? = some w) (hr : w.role = .reader)
      (hpc : w.pc = .exitUnlockW) :
      Step s k { s with write_mutex := none,
                        workers := s.workers.set k { w with pc := .exitRelease } }
  | rReleaseExit (w : Worker) (hw : s.workers[k]? = some w) (hr : w.role = .reader)
      (hpc : w.pc = .exitRelease) :
      Step s k { s with read_count_mutex := none,
                        workers := s.workers.set k { w with i := w.i + 1, pc := .loopHead } }
  | wLock (w : Worker) (hw : s.workers[k]? = some w) (hr : w.role = .writer)
      (hpc : w.pc = .loopHead) (hi : (w.i : Int) < w.iterations)
      (hm : s.write_mutex = none) :
      Step s k { s with write_mutex := some k,
                        workers := s.workers.set k { w with pc := .wRead } }
  | wRead (w : Worker) (hw : s.workers[k]? = some w) (hr : w.role = .writer)
      (hpc : w.pc = .wRead) :
      Step s k { s with workers :=
                        s.workers.set k { w with pc := .wWrite, tmp := s.shared_data } }
  | wWrite (w : Worker) (hw : s.workers[k]? = some w) (hr : w.role = .writer)
      (hpc : w.pc = .wWrite) :
      Step s k { s with shared_data := w.tmp + 1,
                        workers := s.workers.set k { w with pc := .wPrint } }
  | wPrint (w : Worker) (hw : s.workers[k]? = some w) (hr : w.role = .writer)
      (hpc : w.pc = .wPrint) :
      Step s k { s with workers := s.workers.set k { w with pc := .wRelease } }
  | wRelease (w : Worker) (hw : s.workers[k]? = some w) (hr : w.role = .writer)
      (hpc : w.pc = .wRelease) :
      Step s k { s with write_mutex := none,
                        workers := s.workers.set k { w with i := w.i + 1, pc := .loopHead } }

end ReadersWriters

namespace ReadersWriters

/-- The invariants of the readers-writers gate. -/
structure GateInv (s : State) : Prop where
  cnt : s.read_count = (((s.workers.map Worker.counted).sum : Nat) : Int)
  rcmOwn : ∀ (k : Nat) (w : Worker), s.workers[k]? = some w → w.holdsRcm = true →
    s.read_count_mutex = some k
  wOwn : ∀ (k : Nat) (w : Worker), s.workers[k]? = some w → w.writing = true →
    s.write_mutex = some k
  gate : ∀ (k : Nat) (w : Worker), s.workers[k]? = some w → w.covered = true → ReaderOwned s
  first : ∀ (k : Nat) (w : Worker), s.workers[k]? = some w → w.role = .reader →
    w.pc = .entryLockW → s.read_count = 1
  last : ∀ (k : Nat) (w : Worker), s.workers[k]? = some w → w.role = .reader →
    w.pc = .exitUnlockW → s.read_count = 0
  tmp : ∀ (k : Nat) (w : Worker), s.workers[k]? = some w → w.role = .writer →
    w.pc = .wWrite → w.tmp = s.shared_data
  sum : s.shared_data = (((s.workers.map Worker.written).sum : Nat) : Int)

end ReadersWriters

namespace ReadersWriters

/-- The arguments a thread was started with. -/
def Worker.args (w : Worker) : Role × Int × Int :=
  (w.role, w.id, w.iterations)

/-- Loop-counter invariants: thread arguments never change, a thread inside its loop body has
`i < iterations`, and `i` never passes `iterations`. -/
structure LoopInv (ws : List Worker) (s : State) : Prop where
  args : s.workers.map Worker.args = ws.map Worker.args
  bound : ∀ (k : Nat) (w : Worker), s.workers[k]? = some w →
    (w.pc ≠ .loopHead → (w.i : Int) < w.iterations) ∧ (w.i = 0 ∨ (w.i : Int) ≤ w.iterations)

/-- Schedule of `run`: writer 1 locks `write_mutex`, then reader 1 locks `read_count_mutex`
and increments `read_count`. -/
def blockedSchedule : List Nat := [3, 0, 0]

/-- The state reached by `blockedSchedule`: writer 1 is inside its critical section while
`read_count` is 1. -/
def blockedState : State :=
  { shared_data := 0, read_count := 1, read_count_mutex := some 0, write_mutex := some 3,
    workers := [{ role := .reader, id := 1, iterations := 3, i := 0, pc := .entryTest, tmp := 0 },
                spawn .reader 2 3, spawn .reader 3 3,
                { role := .writer, id := 1, iterations := 2, i := 0, pc := .wRead, tmp := 0 },
                spawn .writer 2 2] }

/-- Schedule of `run`: reader 1 completes its entry section (being the first reader, it locks
`write_mutex`) and is inside its reading section. -/
def readingSchedule : List Nat := [0, 0, 0, 0, 0]

/-- The state reached by `readingSchedule`. -/
def readingState : State :=
  { shared_data := 0, read_count := 1, read_count_mutex := none, write_mutex := some 0,
    workers := [{ role := .reader, id := 1, iterations := 3, i := 0, pc := .reading, tmp := 0 },
                spawn .reader 2 3, spawn .reader 3 3, spawn .writer 1 2, spawn .writer 2 2] }

/-- A complete schedule of `run`: each thread in turn runs all its iterations alone (11 actions
per reader iteration, 5 per writer iteration). -/
def runSchedule : List Nat :=
  List.replicate 33 0 ++ List.replicate 33 1 ++ List.replicate 33 2 ++
  List.replicate 10 3 ++ List.replicate 10 4

/-- The state reached by `runSchedule`: all five threads have left their loops. -/
def runFinal : State :=
  { shared_data := 4, read_count := 0, read_count_mutex := none, write_mutex := none,
    workers := [{ role := .reader, id := 1, iterations := 3, i := 3, pc := .loopHead, tmp := 0 },
                { role := .reader, id := 2, iterations := 3, i := 3, pc := .loopHead, tmp := 0 },
                { role := .reader, id := 3, iterations := 3, i := 3, pc := .loopHead, tmp := 0 },
                { role := .writer, id := 1, iterations := 2, i := 2, pc := .loopHead, tmp := 1 },
                { role := .writer, id := 2, iterations := 2, i := 2, pc := .loopHead, tmp := 3 }] }

end ReadersWriters

namespace ReadersWriters

/-- A writer thread is the owner of `write_mutex`. -/
def WriterHolds (s : State) : Prop :=
  ∃ (k : Nat) (w : Worker), s.workers[k]? = some w ∧ w.role = .writer ∧ s.write_mutex = some k

end ReadersWriters

namespace DiningPhilosophers

/-- Source: `constexpr int NUM_PHILOSOPHERS = 5;`.  The model takes the ring size `N` as a
parameter; the program is the instance `N = NUM_PHILOSOPHERS`. -/
def NUM_PHILOSOPHERS : Nat := 5

/-- Source: `int left = id;` -/
def left (id : Nat) : Nat := id

/-- Source: `int right = (id + 1) % NUM_PHILOSOPHERS;` -/
def right (N id : Nat) : Nat := (id + 1) % N

/-- The fork locked first: `forks[left]` when `id % 2 == 0`, else `forks[right]`. -/
def firstFork (N id : Nat) : Nat :=
  if id % 2 = 0 then left id else right N id

/-- The fork locked second: `forks[right]` when `id % 2 == 0`, else `forks[left]`. -/
def secondFork (N id : Nat) : Nat :=
  if id % 2 = 0 then right N id else left id

/-- Program points of `philosopher`.
* `thinking`: at the `for` test, about to print "is thinking" (then sleeps);
* `hungry1`: about to lock its first fork;
* `hungry2`: owns its first fork, about to lock its second fork;
* `eating`: owns both forks, about to print "is eating" (then sleeps);
* `putLeft`: about to run `forks[left].unlock()`;
* `putRight`: about to run `forks[right].unlock()`, then `++r`. -/
inductive Pc
  | thinking
  | hungry1
  | hungry2
  | eating
  | putLeft
  | putRight
  deriving DecidableEq, Repr

/-- One thread `philosopher(id, rounds)`, where `id` is its position in the thread vector of
`run`: its argument `rounds`, its loop counter `r` and its program point. -/
structure Phil where
  rounds : Int
  r : Nat
  pc : Pc
  deriving DecidableEq, Repr

/-- Shared state: for each fork the index of the thread that owns the mutex (if any), and the
threads. -/
structure State where
  forks : List (Option Nat)
  phils : List Phil
  deriving DecidableEq, Repr

/-- One atomic action of philosopher `k` in a ring of size `N`; `none` when the action is not
enabled (thread finished, or fork taken). -/
def step (N : Nat) (s : State) (k : Nat) : Option State :=
  match s.phils[k]? with
  | none => none
  | some p =>
      match p.pc with
      | .thinking =>
          -- `r < rounds`, print "is thinking"
          if (p.r : Int) < p.rounds then
            some { s with phils := s.phils.set k { p with pc := .hungry1 } }
          else none
      | .hungry1 =>
          -- `forks[left].lock()` (even id) or `forks[right].lock()` (odd id)
          if s.forks[firstFork N k]? = some none then
            some { forks := s.forks.set (firstFork N k) (some k),
                   phils := s.phils.set k { p with pc := .hungry2 } }
          else none
      | .hungry2 =>
          -- `forks[right].lock()` (even id) or `forks[left].lock()` (odd id)
          if s.forks[secondFork N k]? = some none then
            some { forks := s.forks.set (secondFork N k) (some k),
                   phils := s.phils.set k { p with pc := .eating } }
          else none
      | .eating =>
          -- print "is eating"
          some { s with phils := s.phils.set k { p with pc := .putLeft } }
      | .putLeft =>
          -- `forks[left].unlock()`
          some { forks := s.forks.set (left k) none,
                 phils := s.phils.set k { p with pc := .putRight } }
      | .putRight =>
          -- `forks[right].unlock()`, `++r`
          some { forks := s.forks.set (right N k) none,
                 phils := s.phils.set k { p with r := p.r + 1, pc := .thinking } }

/-- Run a schedule (a list of thread indices); `none` when some action is not enabled. -/
def exec (N : Nat) (s : State) : List Nat → Option State
  | [] => some s
  | k :: rest => (step N s k).bind (fun t => exec N t rest)

/-- Source: `DiningPhilosophers::run` generalised to `N` philosophers and `rounds` rounds:
all forks free, thread `i` is `philosopher(i, rounds)`. -/
def init (N : Nat) (rounds : Int) : State :=
  { forks := List.replicate N none,
    phils := List.replicate N { rounds := rounds, r := 0, pc := .thinking } }

/-- States reachable in a ring of size `N` under any schedule. -/
def Reachable (N : Nat) (rounds : Int) (s : State) : Prop :=
  ∃ acts, exec N (init N rounds) acts = some s

/-- The thread has finished all its rounds. -/
def Phil.done (p : Phil) : Prop :=
  p.pc = .thinking ∧ ¬ ((p.r : Int) < p.rounds)

instance (p : Phil) : Decidable p.done := by
  unfold Phil.done
  exact inferInstance

/-- The forks philosopher `k` has locked and not yet unlocked, as a function of its program
point. -/
def holdsAt (N k : Nat) (pc : Pc) (f : Nat) : Prop :=
  match pc with
  | .thinking => False
  | .hungry1 => False
  | .hungry2 => f = firstFork N k
  | .eating => f = left k ∨ f = right N k
  | .putLeft => f = left k ∨ f = right N k
  | .putRight => f = right N k

/-- Invariants of the ring: sizes, and agreement between the fork owners and the program
points of the philosophers. -/
structure RingInv (N : Nat) (s : State) : Prop where
  lenF : s.forks.length = N
  lenP : s.phils.length = N
  own : ∀ (f k : Nat), s.forks[f]? = some (some k) →
    ∃ p, s.phils[k]? = some p ∧ holdsAt N k p.pc f
  held : ∀ (k : Nat) (p : Phil), s.phils[k]? = some p → ∀ f : Nat, holdsAt N k p.pc f →
    s.forks[f]? = some (some k)

/-- Progress measure of one philosopher: 6 per round still to start, plus what is left of the
current round. -/
def Phil.fuel (p : Phil) : Nat :=
  match p.pc with
  | .thinking => 6 * (p.rounds - (p.r : Int)).toNat
  | .hungry1 => 6 * (p.rounds - (p.r : Int) - 1).toNat + 5
  | .hungry2 => 6 * (p.rounds - (p.r : Int) - 1).toNat + 4
  | .eating => 6 * (p.rounds - (p.r : Int) - 1).toNat + 3
  | .putLeft => 6 * (p.rounds - (p.r : Int) - 1).toNat + 2
  | .putRight => 6 * (p.rounds - (p.r : Int) - 1).toNat + 1

/-- Progress measure of a state. -/
def fuel (s : State) : Nat :=
  (s.phils.map Phil.fuel).sum

/-- Relational reading of `step`, one constructor per atomic action. -/
inductive Step (N : Nat) (s : State) (k : Nat) : State → Prop
  | think (p : Phil) (hp : s.phils[k]? = some p) (hpc : p.pc = .thinking)
      (hr : (p.r : Int) < p.rounds) :
      Step N s k { s with phils := s.phils.set k { p with pc := .hungry1 } }
  | takeFirst (p : Phil) (hp : s.phils[k]? = some p) (hpc : p.pc = .hungry1)
      (hf : s.forks[firstFork N k]? = some none) :
      Step N s k { forks := s.forks.set (firstFork N k) (some k),
                   phils := s.phils.set k { p with pc := .hungry2 } }
  | takeSecond (p : Phil) (hp : s.phils[k]? = some p) (hpc : p.pc = .hungry2)
      (hf : s.forks[secondFork N k]? = some none) :
      Step N s k { forks := s.forks.set (secondFork N k) (some k),
                   phils := s.phils.set k { p with pc := .eating } }
  | eat (p : Phil) (hp : s.phils[k]? = some p) (hpc : p.pc = .eating) :
      Step N s k { s with phils := s.phils.set k { p with pc := .putLeft } }
  | putLeft (p : Phil) (hp : s.phils[k]? = some p) (hpc : p.pc = .putLeft) :
      Step N s k { forks := s.forks.set (left k) none,
                   phils := s.phils.set k { p with pc := .putRight } }
  | putRight (p : Phil) (hp : s.phils[k]? = some p) (hpc : p.pc = .putRight) :
      Step N s k { forks := s.forks.set (right N k) none,
                   phils := s.phils.set k { p with r := p.r + 1, pc := .thinking } }

/-- A contended state of the program (`N = 5`, 3 rounds): philosophers 0, 1, 3 hold their
first forks 0, 2, 4; philosophers 2 and 4 wait for forks 2 and 4. -/
def contendedSchedule : List Nat := [0, 0, 1, 1, 3, 3, 2, 4]

/-- The state reached by `contendedSchedule`. -/
def contendedState : State :=
  { forks := [some 0, none, some 1, none, some 3],
    phils := [{ rounds := 3, r := 0, pc := .hungry2 }, { rounds := 3, r := 0, pc := .hungry2 },
              { rounds := 3, r := 0, pc := .hungry1 }, { rounds := 3, r := 0, pc := .hungry2 },
              { rounds := 3, r := 0, pc := .hungry1 }] }

/-- Philosopher 4 (even id) thinks and locks its first fork. -/
def lastSchedule : List Nat := [4, 4]

/-- The state reached by `lastSchedule`: philosopher 4 owns fork 4, its higher-indexed
neighbour, while its lower-indexed neighbour fork 0 is still free. -/
def lastState : State :=
  { forks := [none, none, none, none, some 4],
    phils := [{ rounds := 3, r := 0, pc := .thinking }, { rounds := 3, r := 0, pc := .thinking },
              { rounds := 3, r := 0, pc := .thinking }, { rounds := 3, r := 0, pc := .thinking },
              { rounds := 3, r := 0, pc := .hungry2 }] }

/-- Philosophers 0 and 2 are both eating (they are not adjacent). -/
def eatingSchedule : List Nat := [0, 0, 0, 2, 2, 2]

/-- The state reached by `eatingSchedule`. -/
def eatingState : State :=
  { forks := [some 0, some 0, some 2, some 2, none],
    phils := [{ rounds := 3, r := 0, pc := .eating }, { rounds := 3, r := 0, pc := .thinking },
              { rounds := 3, r := 0, pc := .eating }, { rounds := 3, r := 0, pc := .thinking },
              { rounds := 3, r := 0, pc := .thinking }] }

end DiningPhilosophers

/-- Two's-complement wrap-around of an `int` result (used where the program computes with
values that come from its input). -/
def wrapInt (x : Int) : Int :=
  (x + 2147483648) % 4294967296 - 2147483648

/-- Smallest `int`. -/
def INT_MIN : Int := -2147483648

/-- Largest `int`. -/
def INT_MAX : Int := 2147483647

namespace Assembler

/-! Shallow embedding of `src/ass_twopass.cpp`.  The files are modelled by their contents:
`input.txt` and `symtab.txt` as text read token by token (`fin >> x`), `intermediate.txt` and
`machinecode.txt` as lists of lines.  `int` arithmetic on the location counter wraps modulo
`2^32` (two's complement); an uncaught exception (`stoi`, `substr`) is the result `none`. -/

/-- Source: `struct Symbol { string name; int addr; };` -/
structure Symbol where
  name : String
  addr : Int
  deriving DecidableEq, Repr

/-- Source: the instruction set table `MOT`. -/
def MOT : List (String × String) :=
  [("STOP", "00"), ("ADD", "01"), ("SUB", "02"), ("MULT", "03"), ("MOVER", "04"),
   ("MOVEM", "05"), ("COMP", "06"), ("BC", "07"), ("DIV", "08"), ("READ", "09"),
   ("PRINT", "10")]

/-- The value of `MOT[opcode]`: the code of the opcode, the empty string for a missing key. -/
def motCode (opcode : String) : String :=
  (MOT.lookup opcode).getD ""

/-- Source: `addSymbol` — return unchanged when some entry has the name, else `push_back`. -/
def addSymbol (symtab : List Symbol) (label : String) (lc : Int) : List Symbol :=
  if symtab.any (fun s => decide (s.name = label)) then symtab
  else symtab ++ [{ name := label, addr := lc }]

/-- White space as skipped by `operator>>` (space, `\t`, `\n`, `\v`, `\f`, `\r`). -/
def isSpace (c : Char) : Bool :=
  c.toNat = 32 || c.toNat = 9 || c.toNat = 10 || c.toNat = 11 || c.toNat = 12 || c.toNat = 13

/-- Split text into its white-space separated tokens; `cur` is the token being read, reversed. -/
def tokensAux : List Char → List Char → List String
  | [], cur => if cur.isEmpty then [] else [String.mk cur.reverse]
  | c :: cs, cur =>
      if isSpace c then
        (if cur.isEmpty then tokensAux cs [] else String.mk cur.reverse :: tokensAux cs [])
      else tokensAux cs (c :: cur)

/-- The sequence of tokens successive `stream >> token` reads deliver from a text. -/
def tokens (text : String) : List String :=
  tokensAux text.data []

/-- Value of a string of decimal digits. -/
def digitsValue (ds : List Char) : Int :=
  ds.foldl (fun acc c => 10 * acc + ((c.toNat - 48 : Nat) : Int)) 0

/-- Read an optional sign and decimal digits from the front of `cs`: the value and the
unread rest, or `none` when no digit is found. -/
def parseIntPrefix (cs : List Char) : Option (Int × List Char) :=
  let neg : Bool := match cs with
    | c :: _ => decide (c.toNat = 45)
    | [] => false
  let body : List Char := match cs with
    | c :: r => if c.toNat = 45 || c.toNat = 43 then r else cs
    | [] => []
  let ds := body.takeWhile Char.isDigit
  if ds.isEmpty then none
  else some (if neg then - digitsValue ds else digitsValue ds, body.dropWhile Char.isDigit)

/-- Source: `stoi(op1)` — the leading integer of the string; `none` stands for the exceptions
`invalid_argument` (no digits) and `out_of_range`. -/
def stoi (s : String) : Option Int :=
  match parseIntPrefix (s.data.dropWhile isSpace) with
  | none => none
  | some (v, _) => if INT_MIN ≤ v ∧ v ≤ INT_MAX then some v else none

/-- Source: `stream >> intVariable` on a token stream.  Returns the value stored and the
tokens left; on failure (no token, no digit, out of range) the stream is failed, which is
modelled by the empty token list (every later read fails).  Characters of the token that do
not belong to the number stay in the stream. -/
def readInt (toks : List String) : Int × List String :=
  match toks with
  | [] => (0, [])
  | tok :: rest =>
      match parseIntPrefix tok.data with
      | none => (0, [])
      | some (v, unread) =>
          if INT_MAX < v then (INT_MAX, [])
          else if v < INT_MIN then (INT_MIN, [])
          else (v, if unread.isEmpty then rest else String.mk unread :: rest)

/-- One line of `intermediate.txt`. -/
inductive IRLine
  | start (lc startAddr : Int)
  | stop (lc : Int)
  | dl (lc : Int) (kind : String) (op1 : String)
  | is (lc : Int) (code : String) (op1 op2 : String)
  deriving DecidableEq, Repr

/-- The text `runPass1` writes for a line (without the final newline). -/
def IRLine.render : IRLine → String
  | .start lc startAddr => toString lc ++ "\tSTART\t" ++ toString startAddr
  | .stop lc => toString lc ++ "\tEND"
  | .dl lc kind op1 => toString lc ++ "\t(DL," ++ kind ++ ")\t(C," ++ op1 ++ ")"
  | .is lc code op1 op2 => toString lc ++ "\t(IS," ++ code ++ ")\t" ++ op1 ++ ",\t" ++ op2

/-- The address written in front of a line. -/
def IRLine.lc : IRLine → Int
  | .start lc _ => lc
  | .stop lc => lc
  | .dl lc _ _ => lc
  | .is lc _ _ _ => lc

/-- The variables of `runPass1` together with its outputs: the location counter `lc`, the
strings `opcode`, `op1`, `op2` (a failed read leaves them unchanged), the global `symtab` and
the lines written to `intermediate.txt`. -/
structure Pass1 where
  lc : Int
  opcode : String
  op1 : String
  op2 : String
  symtab : List Symbol
  out : List IRLine
  deriving DecidableEq, Repr

/-- Body of the loop for `opcode == "DS"`, after `fin >> op1`. -/
def stmtDS (r : Pass1) (label op1 : String) : Option Pass1 :=
  match stoi op1 with
  | none => none
  | some n =>
      some { r with opcode := "DS", op1 := op1,
                    symtab := addSymbol r.symtab label r.lc,
                    out := r.out ++ [.dl r.lc "02" op1],
                    lc := wrapInt (r.lc + n) }

/-- Body of the loop for `opcode == "DC"`, after `fin >> op1`. -/
def stmtDC (r : Pass1) (label op1 : String) : Pass1 :=
  { r with opcode := "DC", op1 := op1,
           symtab := addSymbol r.symtab label r.lc,
           out := r.out ++ [.dl r.lc "01" op1],
           lc := wrapInt (r.lc + 1) }

/-- Body of the loop for an imperative statement, after `fin >> op1 >> op2`. -/
def stmtIS (r : Pass1) (label opcode op1 op2 : String) : Pass1 :=
  { r with opcode := opcode, op1 := op1, op2 := op2,
           symtab := if label ≠ "" then addSymbol r.symtab label r.lc else r.symtab,
           out := r.out ++ [.is r.lc (motCode opcode) op1 op2],
           lc := wrapInt (r.lc + 1) }

/-- Body of the loop once `label`, `opcode`, `op1`, `op2` have their values. -/
def stmt (r : Pass1) (label opcode op1 op2 : String) : Option Pass1 :=
  if opcode = "DS" then stmtDS r label op1
  else if opcode = "DC" then some (stmtDC r label op1)
  else some (stmtIS r label opcode op1 op2)

/-- Source: the `while (fin >> label)` loop of `runPass1` on the remaining tokens.  When the
tokens run out inside a statement the failed reads leave the old strings in place, the body
is executed once more and the loop ends. -/
def pass1Loop : List String → Pass1 → Option Pass1
  | [], r => some r
  | label :: t1, r =>
      if label = "END" then some { r with out := r.out ++ [.stop r.lc] }
      else
        match t1 with
        | [] => stmt r label r.opcode r.op1 r.op2
        | opcode :: t2 =>
            if opcode = "DS" then
              match t2 with
              | [] => stmtDS r label r.op1
              | op1 :: t3 => (stmtDS r label op1).bind (pass1Loop t3)
            else if opcode = "DC" then
              match t2 with
              | [] => some (stmtDC r label r.op1)
              | op1 :: t3 => pass1Loop t3 (stmtDC r label op1)
            else
              match t2 with
              | [] => some (stmtIS r label opcode r.op1 r.op2)
              | op1 :: t3 =>
                  match t3 with
                  | [] => some (stmtIS r label opcode op1 r.op2)
                  | op2 :: t4 => pass1Loop t4 (stmtIS r label opcode op1 op2)

/-- Source: `runPass1` on the tokens of `input.txt`, starting with the given global `symtab`
(empty when called from `main`). -/
def pass1Tokens (toks : List String) (symtab : List Symbol) : Option Pass1 :=
  match toks with
  | [] => some { lc := 0, opcode := "", op1 := "", op2 := "", symtab := symtab, out := [] }
  | opcode :: rest =>
      if opcode = "START" then
        pass1Loop (readInt rest).2
          { lc := (readInt rest).1, opcode := opcode, op1 := "", op2 := "", symtab := symtab,
            out := [.start (readInt rest).1 (readInt rest).1] }
      else
        pass1Loop rest
          { lc := 0, opcode := opcode, op1 := "", op2 := "", symtab := symtab, out := [] }

/-- Source: `runPass1` on the text of `input.txt`. -/
def runPass1 (input : String) : Option Pass1 :=
  pass1Tokens (tokens input) []

/-- The lines of `intermediate.txt` after pass 1. -/
def Pass1.intermediateTxt (r : Pass1) : List String :=
  r.out.map IRLine.render

/-- The text of `symtab.txt` after pass 1: `name \t addr \n` for every entry. -/
def Pass1.symtabTxt (r : Pass1) : String :=
  String.join (r.symtab.map (fun s => s.name ++ "\t" ++ toString s.addr ++ "\n"))

/-- The documented sample `input.txt`. -/
def sampleInput : String :=
  "START 100\n** MOVER AREG, A\n** ADD BREG, B\nA DC 2\nB DS 5\nC DC 1\nEND\n"

end Assembler

namespace Assembler

/-- Source: `string::find(pat)` — the position of the first occurrence of `pat` in `cs`,
`none` for `string::npos`. -/
def findSub (pat : List Char) : List Char → Option Nat
  | [] => if pat.isEmpty then some 0 else none
  | c :: cs =>
      if pat.isPrefixOf (c :: cs) then some 0
      else (findSub pat cs).map (fun i => i + 1)

/-- Source: `s.find(pat) != string::npos`. -/
def contains (s pat : String) : Bool :=
  (findSub pat.data s.data).isSome

/-- Source: `string::substr(pos, len)`; `none` for the exception `out_of_range`
(`pos > size()`). -/
def substr (s : String) (pos len : Nat) : Option String :=
  if s.data.length < pos then none
  else some (String.mk ((s.data.drop pos).take len))

/-- Source: `string::substr(pos)`, for a position inside the string. -/
def substrFrom (s : String) (pos : Nat) : String :=
  String.mk (s.data.drop pos)

/-- Source: `if (!val.empty() && val.back() == ')') val.pop_back();` -/
def dropClosing (val : String) : String :=
  match val.data.getLast? with
  | some c => if c.toNat = 41 then String.mk val.data.dropLast else val
  | none => val

/-- Source: `symtab[sym] = addr` on the `map<string, int>` of pass 2. -/
def mapInsert (m : List (String × Int)) (sym : String) (addr : Int) : List (String × Int) :=
  (sym, addr) :: m.filter (fun e => decide (e.1 ≠ sym))

/-- Source: `while (fin2 >> sym >> addr) symtab[sym] = addr;` on the tokens of `symtab.txt`.
`fuel` bounds the number of reads (every read consumes at least one character). -/
def loadSymtab : Nat → List String → List (String × Int) → List (String × Int)
  | 0, _, m => m
  | fuel + 1, toks, m =>
      match toks with
      | [] => m
      | sym :: rest =>
          match rest with
          | [] => m
          | tok :: rest2 =>
              match parseIntPrefix tok.data with
              | none => m
              | some (v, unread) =>
                  if INT_MAX < v ∨ v < INT_MIN then m
                  else loadSymtab fuel
                    (if unread.isEmpty then rest2 else String.mk unread :: rest2)
                    (mapInsert m sym v)

/-- The symbol map pass 2 builds from the text of `symtab.txt`. -/
def readSymtab (text : String) : List (String × Int) :=
  loadSymtab (text.data.length + 1) (tokens text) []

/-- Source: the register code chosen by the `if` cascade over `reg.find(...)`. -/
def regCode (reg : String) : String :=
  if contains reg "AREG" then "01"
  else if contains reg "BREG" then "02"
  else if contains reg "CREG" then "03"
  else "00"

/-- What pass 2 does with one line of `intermediate.txt`: `some none` when it writes nothing,
`some (some text)` when it writes the line `text`, `none` for an uncaught exception. -/
def pass2Line (symtab : List (String × Int)) (line : String) : Option (Option String) :=
  if line.data.isEmpty then some none
  else
    let lc := (tokens line).getD 0 ""
    -- skip START and END lines
    if contains line "START" || contains line "END" then some none
    else if contains line "(DL," then
      match findSub "(C,".data line.data with
      | some pos => some (some (lc ++ "\t00 00 " ++ dropClosing (substrFrom line (pos + 3))))
      | none => some none
    else if contains line "(IS," then
      let opcodePart := (tokens line).getD 1 ""
      let reg := (tokens line).getD 2 ""
      let symb := (tokens line).getD 3 ""
      match substr opcodePart 4 2 with
      | none => none
      | some opcodeNum =>
          let symaddr : Int := (symtab.lookup symb).getD 0
          some (some (lc ++ "\t" ++ opcodeNum ++ " " ++ regCode reg ++ " " ++ toString symaddr))
    else some none

/-- Source: the loop of `runPass2` over the lines of `intermediate.txt`: the lines written to
`machinecode.txt`. -/
def pass2Lines (symtab : List (String × Int)) : List String → Option (List String)
  | [] => some []
  | line :: rest =>
      match pass2Line symtab line with
      | none => none
      | some out =>
          match pass2Lines symtab rest with
          | none => none
          | some outs => some (out.toList ++ outs)

/-- Source: `runPass2` on the contents of `intermediate.txt` and `symtab.txt`. -/
def runPass2 (intermediate : List String) (symtabTxt : String) : Option (List String) :=
  pass2Lines (readSymtab symtabTxt) intermediate

/-- Source: `main` — `runPass1(); runPass2();` on the text of `input.txt`: the lines of
`machinecode.txt`. -/
def assemble (input : String) : Option (List String) :=
  match runPass1 input with
  | none => none
  | some r => runPass2 r.intermediateTxt r.symtabTxt

/-- A program whose imperative statement has the operand `SEND`. -/
def sendInput : String :=
  "START 100\n** MOVER AREG, SEND\nSEND DC 7\nEND\n"

/-- A program whose imperative statement has the operand `RESTART`. -/
def restartInput : String :=
  "START 200\n** ADD BREG, RESTART\nRESTART DS 2\nEND\n"

end Assembler

namespace Assembler

/-- Source: a sequence of `addSymbol(label, lc)` calls on the global `symtab`. -/
def addAll (symtab : List Symbol) (calls : List (String × Int)) : List Symbol :=
  calls.foldl (fun t c => addSymbol t c.1 c.2) symtab

/-- The address recorded for a name, if any. -/
def lookupSym (symtab : List Symbol) (name : String) : Option Int :=
  (symtab.find? (fun s => decide (s.name = name))).map Symbol.addr

/-- The address of the first call with the given name, if any. -/
def firstCall (calls : List (String × Int)) (name : String) : Option Int :=
  (calls.find? (fun c => decide (c.1 = name))).map Prod.snd

/-- A statement of a source program of the documented form: a label (or the placeholder `**`),
then `DS n`, `DC c`, or an operation with two operands. -/
inductive Stmt
  | ds (label op1 : String)
  | dc (label op1 : String)
  | is (label opcode op1 op2 : String)
  deriving DecidableEq, Repr

/-- The tokens of a statement in `input.txt`. -/
def Stmt.toks : Stmt → List String
  | .ds label op1 => [label, "DS", op1]
  | .dc label op1 => [label, "DC", op1]
  | .is label opcode op1 op2 => [label, opcode, op1, op2]

/-- The tokens of the statements of a program. -/
def progToks : List Stmt → List String
  | [] => []
  | st :: rest => st.toks ++ progToks rest

/-- The statement is read back as written: its label is not `END`, the operation of an
imperative statement is neither `DS` nor `DC`, and the operand of `DS` is a number. -/
def Stmt.WF : Stmt → Prop
  | .ds label op1 => label ≠ "END" ∧ (stoi op1).isSome = true
  | .dc label _ => label ≠ "END"
  | .is label opcode _ _ => label ≠ "END" ∧ opcode ≠ "DS" ∧ opcode ≠ "DC"

instance (st : Stmt) : Decidable st.WF := by
  cases st <;> unfold Stmt.WF <;> infer_instance

/-- Size of a statement in words: `n` for `DS n`, 1 for `DC` and for imperative statements. -/
def Stmt.size : Stmt → Int
  | .ds _ op1 => (stoi op1).getD 0
  | .dc _ _ => 1
  | .is _ _ _ _ => 1

/-- The line of `intermediate.txt` for a statement at address `lc`. -/
def Stmt.line (lc : Int) : Stmt → IRLine
  | .ds _ op1 => .dl lc "02" op1
  | .dc _ op1 => .dl lc "01" op1
  | .is _ opcode op1 op2 => .is lc (motCode opcode) op1 op2

/-- Sum of the sizes of the statements. -/
def sizeSum (stmts : List Stmt) : Int :=
  (stmts.map Stmt.size).sum

/-- The lines pass 1 writes for the statements when the location counter starts at `lc`. -/
def listing (lc : Int) : List Stmt → List IRLine
  | [] => []
  | st :: rest => st.line lc :: listing (wrapInt (lc + st.size)) rest

/-- The location counter after the statements when it starts at `lc`. -/
def finalLc (lc : Int) : List Stmt → Int
  | [] => lc
  | st :: rest => finalLc (wrapInt (lc + st.size)) rest

/-- The statements of the documented sample. -/
def sampleStmts : List Stmt :=
  [.is "**" "MOVER" "AREG," "A", .is "**" "ADD" "BREG," "B", .dc "A" "2", .ds "B" "5",
   .dc "C" "1"]

end Assembler

namespace Assembler

/-- A program with statements of fewer than two operands: `READ A` and `STOP`. -/
def shortInput : String :=
  "START 100\n** READ A\n** STOP\nA DS 1\nEND\n"

/-- A program that stops after the label of its last statement, without `END`. -/
def truncatedInput : String :=
  "START 100\n** PRINT A\n** STOP\n"

/-- A program that stops after the label `B`, following a `DS` statement. -/
def truncatedAfterDS : String :=
  "START 100\n** MOVER AREG, A\nA DS 3\nB"

/-- A program that stops after the label `B`, following a `DC` statement. -/
def truncatedAfterDC : String :=
  "START 100\n** MOVER AREG, A\nA DC 3\nB"

end Assembler

namespace Scheduling

/-! Shallow embedding of `src/P5_roundrobin.cpp`.  Indices and counters are natural numbers;
times are `int`, the clock wraps modulo `2^32`; reading past the end of a vector or the front
of an empty queue is the result `none`. -/

/-- Source: `struct Process` (`at_` is the field `at`, the arrival time). -/
structure Process where
  pid : Int
  at_ : Int
  bt : Int
  ct : Int
  tat : Int
  wt : Int
  remaining : Int
  deriving DecidableEq, Repr

/-- A process as `main` creates it: value-initialised, then `pid`, `at` and `bt` are set. -/
def mkProcess (pid arrival burst : Int) : Process :=
  { pid := pid, at_ := arrival, bt := burst, ct := 0, tat := 0, wt := 0, remaining := 0 }

/-- The variables of `RoundRobin`: the process vector `p`, the ready queue `q` (front = head),
the clock `time`, the counter `completed`, the flags `inQ`, and `last_arrival_check`. -/
structure State where
  p : List Process
  q : List Nat
  time : Int
  completed : Nat
  inQ : List Bool
  last_arrival_check : Nat
  deriving DecidableEq, Repr

/-- Source: `sort(p.begin(), p.end(), by at)`.  `std::sort` leaves the order of processes
with equal arrival times unspecified; insertion sort (which keeps their input order) stands
for one admissible outcome, and a library may order ties differently.  What is proved about
the scheduling loop is therefore stated for every ordering of the input, see `schedule`. -/
def sortByAt (p : List Process) : List Process :=
  p.insertionSort (fun a b => a.at_ ≤ b.at_)

/-- Source: steps 2 and 3 of `RoundRobin` on the sorted vector: `remaining = bt` for all,
`time = p[0].at`, `q.push(0)`, `inQ[0] = true`.  `none` for an empty vector (`p[0]`). -/
def start (p : List Process) : Option State :=
  match p with
  | [] => none
  | x :: _ =>
      some { p := p.map (fun y => { y with remaining := y.bt }),
             q := [0],
             time := x.at_,
             completed := 0,
             inQ := (List.replicate p.length false).set 0 true,
             last_arrival_check := 1 }

/-- Source: the `for` loop of the empty-queue branch: the first index with
`remaining > 0`. -/
def firstUnfinished : List Process → Option Nat
  | [] => none
  | x :: xs => if 0 < x.remaining then some 0 else (firstUnfinished xs).map (fun i => i + 1)

/-- Source: `if (q.empty()) { ... }` — jump the clock to the first unfinished process and
enqueue it. -/
def refill (st : State) : State :=
  if st.q.isEmpty then
    match firstUnfinished st.p with
    | some i =>
        match st.p[i]? with
        | some x =>
            { st with time := max st.time x.at_, q := st.q ++ [i], inQ := st.inQ.set i true,
                      last_arrival_check := i + 1 }
        | none => st
    | none => st
  else st

/-- Source: the body of the inner loop — push `last_arrival_check` when the process `x` there
still needs CPU time and is not flagged, then advance `last_arrival_check`. -/
def arrive (st : State) (x : Process) : State :=
  if 0 < x.remaining ∧ st.inQ[st.last_arrival_check]? = some false then
    { st with q := st.q ++ [st.last_arrival_check],
              inQ := st.inQ.set st.last_arrival_check true,
              last_arrival_check := st.last_arrival_check + 1 }
  else { st with last_arrival_check := st.last_arrival_check + 1 }

/-- Source: the inner `while (last_arrival_check < n && p[last_arrival_check].at <= time)`
loop; `fuel` is `n - last_arrival_check`, the largest number of iterations it can make. -/
def arrivals : Nat → State → State
  | 0, st => st
  | fuel + 1, st =>
      match st.p[st.last_arrival_check]? with
      | none => st
      | some x => if x.at_ ≤ st.time then arrivals fuel (arrive st x) else st

/-- Source: dequeue `idx` (the front of the queue, `rest` is what stays), clear its flag, run
it for `exec = min(quantum, remaining)` and advance the clock; `x` is `p[idx]`. -/
def run (quantum : Int) (idx : Nat) (x : Process) (rest : List Nat) (st : State) : State :=
  { st with q := rest,
            inQ := st.inQ.set idx false,
            p := st.p.set idx { x with remaining := x.remaining - min quantum x.remaining },
            time := wrapInt (st.time + min quantum x.remaining) }

/-- Source: step 5 — when `p[idx].remaining == 0` record `ct`, `tat`, `wt` and count the
process, otherwise push it back to the queue. -/
def finish (idx : Nat) (st : State) : Option State :=
  match st.p[idx]? with
  | none => none
  | some y =>
      if y.remaining = 0 then
        some { st with
          p := st.p.set idx
            { y with ct := st.time,
                     tat := wrapInt (st.time - y.at_),
                     wt := wrapInt (wrapInt (st.time - y.at_) - y.bt) },
          completed := st.completed + 1 }
      else
        some { st with q := st.q ++ [idx], inQ := st.inQ.set idx true }

/-- Source: one iteration of the main `while (completed < n)` loop. -/
def rrStep (quantum : Int) (st : State) : Option State :=
  match (refill st).q with
  | [] => none
  | idx :: rest =>
      match (refill st).p[idx]? with
      | none => none
      | some x =>
          finish idx
            (arrivals ((refill st).p.length - (refill st).last_arrival_check)
              (run quantum idx x rest (refill st)))

/-- Source: the main loop `while (completed < n)`, run for at most `fuel` iterations; `none`
when the fuel runs out or an iteration has no defined result. -/
def rrLoop (quantum : Int) : Nat → State → Option State
  | 0, st => if st.completed < st.p.length then none else some st
  | fuel + 1, st =>
      if st.completed < st.p.length then (rrStep quantum st).bind (rrLoop quantum fuel)
      else some st

/-- Source: `RoundRobin` after the sort: the process vector handed to `display`. -/
def schedule (sorted : List Process) (quantum : Int) (fuel : Nat) : Option (List Process) :=
  match start sorted with
  | none => none
  | some st => (rrLoop quantum fuel st).map State.p

/-- Source: `RoundRobin(p, quantum)`. -/
def RoundRobin (p : List Process) (quantum : Int) (fuel : Nat) : Option (List Process) :=
  schedule (sortByAt p) quantum fuel

/-- Total CPU time still needed: an upper bound on the number of iterations left. -/
def work (p : List Process) : Nat :=
  (p.map (fun x => x.remaining.toNat)).sum

/-- Total burst time: enough fuel for the main loop. -/
def totalBurst (p : List Process) : Nat :=
  (p.map (fun x => x.bt.toNat)).sum

/-- What `RoundRobin` never changes in a process. -/
def Process.key (x : Process) : Int × Int × Int :=
  (x.pid, x.at_, x.bt)

/-- Number of processes with `remaining == 0`. -/
def doneCount (p : List Process) : Nat :=
  (p.map (fun x => if x.remaining = 0 then 1 else 0)).sum

/-- Invariant of the ready queue: it holds each index at most once, only indices below
`last_arrival_check`, and only of processes that still need CPU time. -/
structure QInv (st : State) : Prop where
  hq : ∀ i : Nat, i ∈ st.q → ∃ x : Process, st.p[i]? = some x ∧ 0 < x.remaining
  hnd : st.q.Nodup
  hlac : ∀ i : Nat, i ∈ st.q → i < st.last_arrival_check

/-- Invariant of the process vector, relative to the sorted input `ps`: identity, arrival and
burst of every process are unchanged, no `remaining` is negative, `completed` counts the
finished processes, and a finished process has its `tat` and `wt` computed from `ct`. -/
structure PInv (ps : List Process) (st : State) : Prop where
  hkey : st.p.map Process.key = ps.map Process.key
  hrem : ∀ x : Process, x ∈ st.p → 0 ≤ x.remaining
  hcomp : st.completed = doneCount st.p
  hdone : ∀ x : Process, x ∈ st.p → x.remaining = 0 →
    x.tat = wrapInt (x.ct - x.at_) ∧ x.wt = wrapInt (x.tat - x.bt)

/-- Every process has either been credited its CPU time after its arrival (`at` plus the
time it has run is at most the clock), or it has not run yet and is not in the queue. -/
def Arrived (st : State) : Prop :=
  ∀ (i : Nat) (x : Process), st.p[i]? = some x →
    x.at_ + (x.bt - x.remaining) ≤ st.time ∨ (i ∉ st.q ∧ x.remaining = x.bt)

/-- Invariant of the clock when no arrival time exceeds `A` and `A` plus the total burst
time is an `int`: the clock never wraps, and a finished process has the exact `tat` and
`wt`. -/
structure XInv (ps : List Process) (A : Int) (st : State) : Prop where
  xt0 : 0 ≤ st.time
  xt1 : st.time + (work st.p : Int) ≤ A + (totalBurst ps : Int)
  xw : work st.p ≤ totalBurst ps
  xarr : Arrived st
  xdone : ∀ x : Process, x ∈ st.p → x.remaining = 0 →
    x.tat = x.ct - x.at_ ∧ x.wt = x.tat - x.bt ∧ x.at_ + x.bt ≤ x.ct

/-- The result `res` of scheduling the sorted vector `sorted`: the same processes in the
same order, each with `remaining = 0`, `tat = ct - at` and `wt = tat - bt` (as `int`
operations). -/
def Completed (sorted res : List Process) : Prop :=
  res.map Process.key = sorted.map Process.key ∧
  ∀ x : Process, x ∈ res →
    x.remaining = 0 ∧ x.tat = wrapInt (x.ct - x.at_) ∧ x.wt = wrapInt (x.tat - x.bt)

/-- The values of `tat` and `wt` are the exact differences, and no process completes
before its arrival time plus its burst time. -/
def Exact (res : List Process) : Prop :=
  ∀ x : Process, x ∈ res → x.tat = x.ct - x.at_ ∧ x.wt = x.tat - x.bt ∧ x.at_ + x.bt ≤ x.ct

/-- An input `main` accepts: three processes with (arrival, burst) = (1, 3), (0, 5), (2, 1). -/
def demoInput : List Process :=
  [mkProcess 1 1 3, mkProcess 2 0 5, mkProcess 3 2 1]

end Scheduling
/-! ## Part 2: theorems -/

/-- Looking up an updated list: position `k` holds the new value, the others are unchanged. -/
theorem lookup_set {α : Type} {l : List α} {k : Nat} {w : α} (h : l[k]? = some w) (a : α)
    (j : Nat) : (l.set k a)[j]? = if j = k then some a else l[j]? := by
  have hk : k < l.length := by
    rcases List.getElem?_eq_some_iff.mp h with ⟨hk, _⟩
    exact hk
  rw [List.getElem?_set]
  by_cases hjk : j = k
  · subst hjk
    simp [hk]
  · have : ¬ k = j := fun e => hjk e.symm
    simp [hjk, this]


/-- Looking up a list updated at two positions. -/
theorem lookup_set_set {α : Type} {l : List α} {k j : Nat} {w v : α} (hk : l[k]? = some w)
    (hj : l[j]? = some v) (a b : α) (m : Nat) :
    ((l.set k a).set j b)[m]? = if m = j then some b else if m = k then some a else l[m]? := by
  have hj2 : (l.set k a)[j]? = some (if j = k then a else v) := by
    rw [lookup_set hk]
    by_cases e : j = k <;> simp [e, hj]
  rw [lookup_set hj2, lookup_set hk]

/-- Updating one position of a list changes the sum of `f` over it by the difference of the
two values. -/
theorem sum_map_set {α : Type} (f : α → Nat) {l : List α} {k : Nat} {w : α}
    (h : l[k]? = some w) (a : α) :
    ((l.set k a).map f).sum + f w = (l.map f).sum + f a := by
  induction l generalizing k with
  | nil => simp at h
  | cons x xs ih =>
    cases k with
    | zero =>
      simp only [List.getElem?_cons_zero, Option.some.injEq] at h
      subst h
      simp only [List.set_cons_zero, List.map_cons, List.sum_cons]
      omega
    | succ n =>
      simp only [List.getElem?_cons_succ] at h
      have := ih h
      simp only [List.set_cons_succ, List.map_cons, List.sum_cons]
      omega

/-- A summand is at most the sum. -/
theorem le_sum_map {α : Type} (f : α → Nat) {l : List α} {k : Nat} {w : α}
    (h : l[k]? = some w) : f w ≤ (l.map f).sum := by
  induction l generalizing k with
  | nil => simp at h
  | cons x xs ih =>
    cases k with
    | zero =>
      simp only [List.getElem?_cons_zero, Option.some.injEq] at h
      subst h
      simp
    | succ n =>
      simp only [List.getElem?_cons_succ] at h
      have := ih h
      simp only [List.map_cons, List.sum_cons]
      omega

/-- A sum of zeros is zero. -/
theorem sum_map_eq_zero {α : Type} (f : α → Nat) {l : List α}
    (h : ∀ (k : Nat) (w : α), l[k]? = some w → f w = 0) : (l.map f).sum = 0 := by
  induction l with
  | nil => simp
  | cons x xs ih =>
    have h0 := h 0 x (by simp)
    have := ih (fun k w hk => h (k + 1) w (by simpa using hk))
    simp only [List.map_cons, List.sum_cons]
    omega

namespace ProducerConsumer

/-- An invariant of `step` that holds in a state holds after every schedule run from it. -/
theorem exec_preserves (Inv : State → Prop)
    (hstep : ∀ s a t, Inv s → step s a = some t → Inv t) :
    ∀ (acts : List Action) (s t : State), Inv s → exec s acts = some t → Inv t := by
  intro acts
  induction acts with
  | nil =>
    intro s t hs h
    simp only [exec, Option.some.injEq] at h
    exact h ▸ hs
  | cons a rest ih =>
    intro s t hs h
    simp only [exec] at h
    cases hsa : step s a with
    | none => simp [hsa] at h
    | some u =>
      rw [hsa] at h
      exact ih u t (hstep s a u hs hsa) h

/-- Every transition of `step` is one of the atomic actions listed by `Step`. -/
theorem step_sound (s : State) (a : Action) (t : State) (h : step s a = some t) :
    Step s a t := by
  cases a with
  | spurious k =>
    simp only [step] at h
    cases hw : s.workers[k]? with
    | none => simp [hw] at h
    | some w =>
      simp only [hw] at h
      split at h
      · simp only [Option.some.injEq] at h
        subst h
        exact Step.spurious k w hw (by assumption)
      · simp at h
  | run k wake =>
    simp only [step] at h
    cases hw : s.workers[k]? with
    | none => simp [hw] at h
    | some w =>
      simp only [hw, stepWorker] at h
      cases hpc : w.pc with
      | loopHead =>
        simp only [hpc] at h
        split at h
        · rename_i hc
          simp only [Option.some.injEq] at h
          subst h
          exact Step.lock k wake w hw hpc hc.1 hc.2
        · simp at h
      | check =>
        simp only [hpc] at h
        split at h
        · rename_i hc
          simp only [Option.some.injEq] at h
          subst h
          exact Step.pass k wake w hw hpc hc
        · rename_i hc
          simp only [Option.some.injEq] at h
          subst h
          exact Step.block k wake w hw hpc (by simpa using hc)
      | waiting => simp [hpc] at h
      | woken =>
        simp only [hpc] at h
        split at h
        · rename_i hc
          simp only [Option.some.injEq] at h
          subst h
          exact Step.relock k wake w hw hpc hc
        · simp at h
      | ready =>
        simp only [hpc] at h
        cases hr : w.role with
        | producer =>
          simp only [hr, Option.some.injEq] at h
          subst h
          simpa only [hr] using Step.push k wake w hw hpc hr
        | consumer =>
          simp only [hr] at h
          cases hb : s.buffer with
          | nil => simp [hb] at h
          | cons item rest =>
            simp only [hb, Option.some.injEq] at h
            subst h
            simpa only [hr] using Step.pop k wake w item rest hw hpc hr hb
      | unlock =>
        simp only [hpc, Option.some.injEq] at h
        subst h
        exact Step.unlock k wake w hw hpc
      | notify =>
        simp only [hpc] at h
        cases wake with
        | none =>
          simp only at h
          split at h
          · rename_i hc
            simp only [Option.some.injEq] at h
            subst h
            refine Step.notifyNone k w hw hpc ?_
            intro j v hj
            have := (List.all_eq_true.mp hc) v (List.getElem?_mem hj)
            simpa using this
          · simp at h
        | some j =>
          simp only at h
          cases hv : s.workers[j]? with
          | none => simp [hv] at h
          | some v =>
            simp only [hv] at h
            split at h
            · rename_i hc
              simp only [Option.some.injEq] at h
              subst h
              exact Step.notifyOne k j w v hw hpc hv hc
            · simp at h

theorem safeInv_step (s : State) (a : Action) (t : State) (hI : SafeInv s)
    (h : step s a = some t) : SafeInv t := by
  obtain ⟨hcap, hown, hrdy⟩ := hI
  cases step_sound s a t h with
  | lock k wake w hw hpc hi hm =>
    refine ⟨hcap, ?_, ?_⟩
    · intro j v hj hv
      simp only [lookup_set hw] at hj
      split at hj
      · simp_all
      · have := hown j v hj hv
        simp_all
    · intro j v hj hv
      simp only [lookup_set hw] at hj
      split at hj
      · simp only [Option.some.injEq] at hj
        subst hj
        simp at hv
      · exact hrdy j v hj hv
  | relock k wake w hw hpc hm =>
    refine ⟨hcap, ?_, ?_⟩
    · intro j v hj hv
      simp only [lookup_set hw] at hj
      split at hj
      · simp_all
      · have := hown j v hj hv
        simp_all
    · intro j v hj hv
      simp only [lookup_set hw] at hj
      split at hj
      · simp only [Option.some.injEq] at hj
        subst hj
        simp at hv
      · exact hrdy j v hj hv
  | pass k wake w hw hpc hp =>
    refine ⟨hcap, ?_, ?_⟩
    · intro j v hj hv
      simp only [lookup_set hw] at hj
      split at hj
      · have := hown k w hw (by simp [hpc, Pc.holdsMtx])
        simp_all
      · exact hown j v hj hv
    · intro j v hj hv
      simp only [lookup_set hw] at hj
      split at hj
      · simp only [Option.some.injEq] at hj
        subst hj
        exact hp
      · exact hrdy j v hj hv
  | block k wake w hw hpc hp =>
    have hk := hown k w hw (by simp [hpc, Pc.holdsMtx])
    refine ⟨hcap, ?_, ?_⟩
    · intro j v hj hv
      simp only [lookup_set hw] at hj
      split at hj
      · simp only [Option.some.injEq] at hj
        subst hj
        simp [Pc.holdsMtx] at hv
      · have := hown j v hj hv
        simp_all
    · intro j v hj hv
      simp only [lookup_set hw] at hj
      split at hj
      · simp only [Option.some.injEq] at hj
        subst hj
        simp at hv
      · exact hrdy j v hj hv
  | push k wake w hw hpc hr =>
    have hk := hown k w hw (by simp [hpc, Pc.holdsMtx])
    have hp := hrdy k w hw hpc
    simp only [hr, waitPred, decide_eq_true_eq] at hp
    refine ⟨?_, ?_, ?_⟩
    · simp only [List.length_append, List.length_singleton]
      omega
    · intro j v hj hv
      simp only [lookup_set hw] at hj
      split at hj
      · simp_all
      · exact hown j v hj hv
    · intro j v hj hv
      simp only [lookup_set hw] at hj
      split at hj
      · simp only [Option.some.injEq] at hj
        subst hj
        simp at hv
      · have := hown j v hj (by simp [hv, Pc.holdsMtx])
        simp_all
  | pop k wake w item rest hw hpc hr hb =>
    have hk := hown k w hw (by simp [hpc, Pc.holdsMtx])
    refine ⟨?_, ?_, ?_⟩
    · simp only [hb, List.length_cons] at hcap
      simp only
      omega
    · intro j v hj hv
      simp only [lookup_set hw] at hj
      split at hj
      · simp_all
      · exact hown j v hj hv
    · intro j v hj hv
      simp only [lookup_set hw] at hj
      split at hj
      · simp only [Option.some.injEq] at hj
        subst hj
        simp at hv
      · have := hown j v hj (by simp [hv, Pc.holdsMtx])
        simp_all
  | unlock k wake w hw hpc =>
    have hk := hown k w hw (by simp [hpc, Pc.holdsMtx])
    refine ⟨hcap, ?_, ?_⟩
    · intro j v hj hv
      simp only [lookup_set hw] at hj
      split at hj
      · simp only [Option.some.injEq] at hj
        subst hj
        simp [Pc.holdsMtx] at hv
      · have := hown j v hj hv
        simp_all
    · intro j v hj hv
      simp only [lookup_set hw] at hj
      split at hj
      · simp only [Option.some.injEq] at hj
        subst hj
        simp at hv
      · exact hrdy j v hj hv
  | notifyNone k w hw hpc hn =>
    refine ⟨hcap, ?_, ?_⟩
    · intro j v hj hv
      simp only [lookup_set hw] at hj
      split at hj
      · simp only [Option.some.injEq] at hj
        subst hj
        simp [Pc.holdsMtx] at hv
      · exact hown j v hj hv
    · intro j v hj hv
      simp only [lookup_set hw] at hj
      split at hj
      · simp only [Option.some.injEq] at hj
        subst hj
        simp at hv
      · exact hrdy j v hj hv
  | notifyOne k j w v hw hpc hv hwait =>
    refine ⟨hcap, ?_, ?_⟩
    · intro m u hm hu
      simp only [lookup_set_set hw hv] at hm
      split at hm
      · simp only [Option.some.injEq] at hm
        subst hm
        simp [Pc.holdsMtx] at hu
      · split at hm
        · simp only [Option.some.injEq] at hm
          subst hm
          simp [Pc.holdsMtx] at hu
        · exact hown m u hm hu
    · intro m u hm hu
      simp only [lookup_set_set hw hv] at hm
      split at hm
      · simp only [Option.some.injEq] at hm
        subst hm
        simp at hu
      · split at hm
        · simp only [Option.some.injEq] at hm
          subst hm
          simp at hu
        · exact hrdy m u hm hu
  | spurious k w hw hpc =>
    refine ⟨hcap, ?_, ?_⟩
    · intro j v hj hv
      simp only [lookup_set hw] at hj
      split at hj
      · simp only [Option.some.injEq] at hj
        subst hj
        simp [Pc.holdsMtx] at hv
      · exact hown j v hj hv
    · intro j v hj hv
      simp only [lookup_set hw] at hj
      split at hj
      · simp only [Option.some.injEq] at hj
        subst hj
        simp at hv
      · exact hrdy j v hj hv

theorem safeInv_init (ws : List Worker) (h : Fresh ws) : SafeInv (init ws) := by
  refine ⟨by simp [init], ?_, ?_⟩
  · intro k w hk hpc
    have := (h w (List.getElem?_mem hk)).2
    simp [this, Pc.holdsMtx] at hpc
  · intro k w hk hpc
    have := (h w (List.getElem?_mem hk)).2
    simp [this] at hpc

theorem safeInv_reachable (ws : List Worker) (s : State) (h : Reachable ws s) : SafeInv s := by
  obtain ⟨hf, acts, hacts⟩ := h
  exact exec_preserves SafeInv safeInv_step acts (init ws) s (safeInv_init ws hf) hacts

theorem demoState_reachable : Reachable runWorkers demoState :=
  ⟨by unfold Fresh; decide, demoSchedule, by decide⟩

/-- C1 (capacity invariant).  In every state reachable from any list of freshly started
producer and consumer threads, under any schedule (spurious wake-ups included), the buffer
holds at most `BUFFER_SIZE = 5` items (its length is a natural number, so it is never
negative); only a thread at its push/pop program point changes the buffer; a producer at its
push point sees `length < 5` and a consumer at its pop point sees `length > 0`. -/
theorem capacity_invariant (ws : List Worker) (s : State) (h : Reachable ws s) :
    0 ≤ s.buffer.length ∧ s.buffer.length ≤ BUFFER_SIZE ∧ BUFFER_SIZE = 5 ∧
    (∀ (a : Action) (t : State), step s a = some t → t.buffer ≠ s.buffer →
      ∃ k wake w, a = .run k wake ∧ s.workers[k]? = some w ∧ w.pc = .ready) ∧
    (∀ (k : Nat) (w : Worker), s.workers[k]? = some w → w.pc = .ready →
      (w.role = .producer → s.buffer.length < BUFFER_SIZE) ∧
      (w.role = .consumer → 0 < s.buffer.length)) := by
  have hI := safeInv_reachable ws s h
  refine ⟨Nat.zero_le _, hI.cap, rfl, ?_, ?_⟩
  · intro a t hst hne
    cases step_sound s a t hst with
    | push k wake w hw hpc hr => exact ⟨k, wake, w, rfl, hw, hpc⟩
    | pop k wake w item rest hw hpc hr hb => exact ⟨k, wake, w, rfl, hw, hpc⟩
    | lock => exact absurd rfl hne
    | relock => exact absurd rfl hne
    | pass => exact absurd rfl hne
    | block => exact absurd rfl hne
    | unlock => exact absurd rfl hne
    | notifyNone => exact absurd rfl hne
    | notifyOne => exact absurd rfl hne
    | spurious => exact absurd rfl hne
  · intro k w hw hpc
    have hp := hI.rdy k w hw hpc
    constructor
    · intro hr
      simpa [hr, waitPred] using hp
    · intro hr
      simp only [hr, waitPred] at hp
      cases hb : s.buffer with
      | nil => simp [hb] at hp
      | cons x xs => simp

/-- Witness of C1 at `demoState`: producer 2 is at its push point with one item queued. -/
theorem capacity_invariant_witness :
    Reachable runWorkers demoState ∧
    (0 ≤ demoState.buffer.length ∧ demoState.buffer.length ≤ BUFFER_SIZE ∧ BUFFER_SIZE = 5 ∧
    (∀ (a : Action) (t : State), step demoState a = some t → t.buffer ≠ demoState.buffer →
      ∃ k wake w, a = .run k wake ∧ demoState.workers[k]? = some w ∧ w.pc = .ready) ∧
    (∀ (k : Nat) (w : Worker), demoState.workers[k]? = some w → w.pc = .ready →
      (w.role = .producer → demoState.buffer.length < BUFFER_SIZE) ∧
      (w.role = .consumer → 0 < demoState.buffer.length))) :=
  ⟨demoState_reachable, capacity_invariant runWorkers demoState demoState_reachable⟩

/-- What a transition does to the queue and the two console streams: nothing, or an enqueue
(the item goes to the tail of the queue and of `produced`), or a dequeue (the item leaves the
head of the queue and goes to the tail of `consumed`). -/
theorem step_streams (s : State) (a : Action) (t : State) (h : step s a = some t) :
    (t.buffer = s.buffer ∧ t.produced = s.produced ∧ t.consumed = s.consumed) ∨
    (∃ x, t.buffer = s.buffer ++ [x] ∧ t.produced = s.produced ++ [x] ∧
      t.consumed = s.consumed) ∨
    (∃ x, s.buffer = x :: t.buffer ∧ t.consumed = s.consumed ++ [x] ∧
      t.produced = s.produced) := by
  cases step_sound s a t h with
  | push k wake w hw hpc hr => exact Or.inr (Or.inl ⟨_, rfl, rfl, rfl⟩)
  | pop k wake w item rest hw hpc hr hb => exact Or.inr (Or.inr ⟨item, hb, rfl, rfl⟩)
  | lock => exact Or.inl ⟨rfl, rfl, rfl⟩
  | relock => exact Or.inl ⟨rfl, rfl, rfl⟩
  | pass => exact Or.inl ⟨rfl, rfl, rfl⟩
  | block => exact Or.inl ⟨rfl, rfl, rfl⟩
  | unlock => exact Or.inl ⟨rfl, rfl, rfl⟩
  | notifyNone => exact Or.inl ⟨rfl, rfl, rfl⟩
  | notifyOne => exact Or.inl ⟨rfl, rfl, rfl⟩
  | spurious => exact Or.inl ⟨rfl, rfl, rfl⟩

theorem conservation_step (s : State) (a : Action) (t : State)
    (hI : s.consumed ++ s.buffer = s.produced) (h : step s a = some t) :
    t.consumed ++ t.buffer = t.produced := by
  rcases step_streams s a t h with ⟨hb, hp, hc⟩ | ⟨x, hb, hp, hc⟩ | ⟨x, hb, hc, hp⟩
  · rw [hb, hp, hc]
    exact hI
  · rw [hb, hp, hc, ← hI, List.append_assoc]
  · rw [hc, hp, ← hI, hb]
    simp

theorem conservation_reachable (ws : List Worker) (s : State) (h : Reachable ws s) :
    s.consumed ++ s.buffer = s.produced := by
  obtain ⟨_, acts, hacts⟩ := h
  exact exec_preserves (fun u => u.consumed ++ u.buffer = u.produced) conservation_step
    acts (init ws) s rfl hacts

theorem itemsOf_succ (id : Int) (n : Nat) :
    itemsOf id (n + 1) = itemsOf id n ++ [id * 100 + (n : Int)] := by
  simp [itemsOf, List.range_succ]

/-- Updating one thread keeps `SoloInv` when the thread keeps its arguments and, if it is the
producer, the `produced` stream still matches its executed pushes. -/
theorem soloInv_update (pid n : Int) (s t : State) (k : Nat) (w u : Worker)
    (hI : SoloInv pid n s) (hw : s.workers[k]? = some w)
    (ht : t.workers = s.workers.set k u)
    (hrole : u.role = w.role) (hid : u.id = w.id) (hcnt : u.count = w.count)
    (hprod : k = 0 → w.role = .producer → w.count = n →
      s.produced = itemsOf pid (pushed w) →
      (w.pc ≠ .loopHead → (w.i : Int) < n) → (w.i = 0 ∨ (w.i : Int) ≤ n) →
      t.produced = itemsOf pid (pushed u) ∧ (u.pc ≠ .loopHead → (u.i : Int) < n) ∧
        (u.i = 0 ∨ (u.i : Int) ≤ n))
    (hkeep : k ≠ 0 → t.produced = s.produced) : SoloInv pid n t := by
  obtain ⟨⟨p, hp0, hprole, hpid, hpcnt, hpprod, hpin, hple⟩, hoth⟩ := hI
  refine ⟨?_, ?_⟩
  · by_cases hk : k = 0
    · subst hk
      rw [hw] at hp0
      simp only [Option.some.injEq] at hp0
      subst hp0
      obtain ⟨h1, h2, h3⟩ := hprod rfl hprole hpcnt hpprod hpin hple
      refine ⟨u, ?_, ?_, ?_, ?_, h1, h2, h3⟩
      · rw [ht, lookup_set hw]
        simp
      · rw [hrole, hprole]
      · rw [hid, hpid]
      · rw [hcnt, hpcnt]
    · refine ⟨p, ?_, hprole, hpid, hpcnt, ?_, hpin, hple⟩
      · rw [ht, lookup_set hw]
        have : ¬ (0 = k) := fun e => hk e.symm
        simp [this, hp0]
      · rw [hkeep hk]
        exact hpprod
  · intro j v hj hj0
    rw [ht, lookup_set hw] at hj
    split at hj
    · rename_i hjk
      simp only [Option.some.injEq] at hj
      subst hj
      rw [hrole]
      exact hoth k w hw (hjk ▸ hj0)
    · exact hoth j v hj hj0

theorem soloInv_step (pid n : Int) (s : State) (a : Action) (t : State)
    (hI : SoloInv pid n s) (h : step s a = some t) : SoloInv pid n t := by
  cases step_sound s a t h with
  | lock k wake w hw hpc hi hm =>
    refine soloInv_update pid n s _ k w _ hI hw rfl rfl rfl rfl ?_ (fun _ => rfl)
    intro _ _ hc hp hin hle
    refine ⟨?_, ?_, hle⟩
    · simpa [pushed, hpc] using hp
    · intro _
      rw [← hc]
      exact hi
  | relock k wake w hw hpc hm =>
    refine soloInv_update pid n s _ k w _ hI hw rfl rfl rfl rfl ?_ (fun _ => rfl)
    intro _ _ hc hp hin hle
    refine ⟨?_, ?_, hle⟩
    · simpa [pushed, hpc] using hp
    · intro _
      exact hin (by simp [hpc])
  | pass k wake w hw hpc hq =>
    refine soloInv_update pid n s _ k w _ hI hw rfl rfl rfl rfl ?_ (fun _ => rfl)
    intro _ _ hc hp hin hle
    refine ⟨?_, ?_, hle⟩
    · simpa [pushed, hpc] using hp
    · intro _
      exact hin (by simp [hpc])
  | block k wake w hw hpc hq =>
    refine soloInv_update pid n s _ k w _ hI hw rfl rfl rfl rfl ?_ (fun _ => rfl)
    intro _ _ hc hp hin hle
    refine ⟨?_, ?_, hle⟩
    · simpa [pushed, hpc] using hp
    · intro _
      exact hin (by simp [hpc])
  | push k wake w hw hpc hr =>
    refine soloInv_update pid n s _ k w _ hI hw rfl rfl rfl rfl ?_ ?_
    · intro _ _ hc hp hin hle
      have hid : w.id = pid := by
        obtain ⟨⟨p, hp0, _, hpid, _⟩, _⟩ := hI
        subst k
        rw [hw] at hp0
        simp only [Option.some.injEq] at hp0
        rw [hp0]
        exact hpid
      refine ⟨?_, ?_, hle⟩
      · simp only [pushed, hpc] at hp
        simp only [pushed, true_or, if_true, itemsOf_succ, hp, hid]
        simp
      · intro _
        exact hin (by simp [hpc])
    · intro hk
      have := hI.others k w hw hk
      rw [hr] at this
      exact absurd this (by decide)
  | pop k wake w item rest hw hpc hr hb =>
    refine soloInv_update pid n s _ k w _ hI hw rfl rfl rfl rfl ?_ (fun _ => rfl)
    intro _ hrp
    rw [hr] at hrp
    exact absurd hrp (by decide)
  | unlock k wake w hw hpc =>
    refine soloInv_update pid n s _ k w _ hI hw rfl rfl rfl rfl ?_ (fun _ => rfl)
    intro _ _ hc hp hin hle
    refine ⟨?_, ?_, hle⟩
    · simpa [pushed, hpc] using hp
    · intro _
      exact hin (by simp [hpc])
  | notifyNone k w hw hpc hn =>
    refine soloInv_update pid n s _ k w _ hI hw rfl rfl rfl rfl ?_ (fun _ => rfl)
    intro _ _ hc hp hin hle
    have hlt := hin (by simp [hpc])
    refine ⟨?_, ?_, ?_⟩
    · simpa [pushed, hpc] using hp
    · intro hne
      exact absurd rfl hne
    · right
      push_cast
      omega
  | notifyOne k j w v hw hpc hv hwait =>
    have hjk : j ≠ k := by
      intro e
      subst e
      rw [hw] at hv
      simp only [Option.some.injEq] at hv
      subst hv
      simp [isWaiter, hpc] at hwait
    have hpcv : v.pc = .waiting := by
      simp only [isWaiter, Bool.and_eq_true, decide_eq_true_eq] at hwait
      exact hwait.2
    have h1 : SoloInv pid n
        { s with workers := s.workers.set k { w with i := w.i + 1, pc := .loopHead } } := by
      refine soloInv_update pid n s _ k w _ hI hw rfl rfl rfl rfl ?_ (fun _ => rfl)
      intro _ _ hc hp hin hle
      have hlt := hin (by simp [hpc])
      refine ⟨?_, ?_, ?_⟩
      · simpa [pushed, hpc] using hp
      · intro hne
        exact absurd rfl hne
      · right
        push_cast
        omega
    have hv1 : (s.workers.set k { w with i := w.i + 1, pc := .loopHead })[j]? = some v := by
      rw [lookup_set hw]
      simp [hjk, hv]
    refine soloInv_update pid n _ _ j v _ h1 hv1 rfl rfl rfl rfl ?_ (fun _ => rfl)
    intro _ _ hc hp hin hle
    refine ⟨?_, ?_, hle⟩
    · simpa [pushed, hpcv] using hp
    · intro _
      exact hin (by simp [hpcv])
  | spurious k w hw hpc =>
    refine soloInv_update pid n s _ k w _ hI hw rfl rfl rfl rfl ?_ (fun _ => rfl)
    intro _ _ hc hp hin hle
    refine ⟨?_, ?_, hle⟩
    · simpa [pushed, hpc] using hp
    · intro _
      exact hin (by simp [hpc])


theorem nprod_step (s : State) (a : Action) (t : State)
    (hI : s.produced.length = (s.workers.map pushedBy).sum) (h : step s a = some t) :
    t.produced.length = (t.workers.map pushedBy).sum := by
  cases step_sound s a t h with
  | lock k wake w hw hpc hi hm =>
    have e := sum_map_set pushedBy hw { w with pc := .check }
    generalize ((s.workers.set k { w with pc := .check }).map pushedBy).sum = S at e ⊢
    cases hr : w.role <;> simp [pushedBy, pushed, hpc, hr] at e <;> simp <;> omega
  | relock k wake w hw hpc hm =>
    have e := sum_map_set pushedBy hw { w with pc := .check }
    generalize ((s.workers.set k { w with pc := .check }).map pushedBy).sum = S at e ⊢
    cases hr : w.role <;> simp [pushedBy, pushed, hpc, hr] at e <;> simp <;> omega
  | pass k wake w hw hpc hp =>
    have e := sum_map_set pushedBy hw { w with pc := .ready }
    generalize ((s.workers.set k { w with pc := .ready }).map pushedBy).sum = S at e ⊢
    cases hr : w.role <;> simp [pushedBy, pushed, hpc, hr] at e <;> simp <;> omega
  | block k wake w hw hpc hp =>
    have e := sum_map_set pushedBy hw { w with pc := .waiting }
    generalize ((s.workers.set k { w with pc := .waiting }).map pushedBy).sum = S at e ⊢
    cases hr : w.role <;> simp [pushedBy, pushed, hpc, hr] at e <;> simp <;> omega
  | push k wake w hw hpc hr =>
    have e := sum_map_set pushedBy hw { w with pc := .unlock }
    generalize ((s.workers.set k { w with pc := .unlock }).map pushedBy).sum = S at e ⊢
    simp [pushedBy, pushed, hpc, hr] at e
    simp
    omega
  | pop k wake w item rest hw hpc hr hb =>
    have e := sum_map_set pushedBy hw { w with pc := .unlock }
    generalize ((s.workers.set k { w with pc := .unlock }).map pushedBy).sum = S at e ⊢
    simp [pushedBy, pushed, hpc, hr] at e
    simp
    omega
  | unlock k wake w hw hpc =>
    have e := sum_map_set pushedBy hw { w with pc := .notify }
    generalize ((s.workers.set k { w with pc := .notify }).map pushedBy).sum = S at e ⊢
    cases hr : w.role <;> simp [pushedBy, pushed, hpc, hr] at e <;> simp <;> omega
  | notifyNone k w hw hpc hn =>
    have e := sum_map_set pushedBy hw { w with i := w.i + 1, pc := .loopHead }
    generalize ((s.workers.set k { w with i := w.i + 1, pc := .loopHead }).map pushedBy).sum = S at e ⊢
    cases hr : w.role <;> simp [pushedBy, pushed, hpc, hr] at e <;> simp <;> omega
  | spurious k w hw hpc =>
    have e := sum_map_set pushedBy hw { w with pc := .woken }
    generalize ((s.workers.set k { w with pc := .woken }).map pushedBy).sum = S at e ⊢
    cases hr : w.role <;> simp [pushedBy, pushed, hpc, hr] at e <;> simp <;> omega
  | notifyOne k j w v hw hpc hv hwait =>
    have hjk : j ≠ k := by
      intro e
      subst e
      rw [hw] at hv
      simp only [Option.some.injEq] at hv
      subst hv
      simp [isWaiter, hpc] at hwait
    have hpcv : v.pc = .waiting := by
      simp only [isWaiter, Bool.and_eq_true, decide_eq_true_eq] at hwait
      exact hwait.2
    have hrv : v.role = notifiedRole w.role := by
      simp only [isWaiter, Bool.and_eq_true, decide_eq_true_eq] at hwait
      exact hwait.1
    have hv1 : (s.workers.set k { w with i := w.i + 1, pc := .loopHead })[j]? = some v := by
      rw [lookup_set hw]
      simp [hjk, hv]
    have e1 := sum_map_set pushedBy hw { w with i := w.i + 1, pc := .loopHead }
    have e2 := sum_map_set pushedBy hv1 { v with pc := .woken }
    generalize (((s.workers.set k { w with i := w.i + 1, pc := .loopHead }).set j { v with pc := .woken }).map pushedBy).sum = S at e2 ⊢
    generalize ((s.workers.set k { w with i := w.i + 1, pc := .loopHead }).map pushedBy).sum = S1 at e1 e2
    cases hr : w.role <;> cases hr2 : v.role <;>
      simp [pushedBy, pushed, hpc, hpcv, hr, hr2] at e1 e2 <;> simp <;> omega

theorem ncons_step (s : State) (a : Action) (t : State)
    (hI : s.consumed.length = (s.workers.map poppedBy).sum) (h : step s a = some t) :
    t.consumed.length = (t.workers.map poppedBy).sum := by
  cases step_sound s a t h with
  | lock k wake w hw hpc hi hm =>
    have e := sum_map_set poppedBy hw { w with pc := .check }
    generalize ((s.workers.set k { w with pc := .check }).map poppedBy).sum = S at e ⊢
    cases hr : w.role <;> simp [poppedBy, pushed, hpc, hr] at e <;> simp <;> omega
  | relock k wake w hw hpc hm =>
    have e := sum_map_set poppedBy hw { w with pc := .check }
    generalize ((s.workers.set k { w with pc := .check }).map poppedBy).sum = S at e ⊢
    cases hr : w.role <;> simp [poppedBy, pushed, hpc, hr] at e <;> simp <;> omega
  | pass k wake w hw hpc hp =>
    have e := sum_map_set poppedBy hw { w with pc := .ready }
    generalize ((s.workers.set k { w with pc := .ready }).map poppedBy).sum = S at e ⊢
    cases hr : w.role <;> simp [poppedBy, pushed, hpc, hr] at e <;> simp <;> omega
  | block k wake w hw hpc hp =>
    have e := sum_map_set poppedBy hw { w with pc := .waiting }
    generalize ((s.workers.set k { w with pc := .waiting }).map poppedBy).sum = S at e ⊢
    cases hr : w.role <;> simp [poppedBy, pushed, hpc, hr] at e <;> simp <;> omega
  | push k wake w hw hpc hr =>
    have e := sum_map_set poppedBy hw { w with pc := .unlock }
    generalize ((s.workers.set k { w with pc := .unlock }).map poppedBy).sum = S at e ⊢
    simp [poppedBy, pushed, hpc, hr] at e
    simp
    omega
  | pop k wake w item rest hw hpc hr hb =>
    have e := sum_map_set poppedBy hw { w with pc := .unlock }
    generalize ((s.workers.set k { w with pc := .unlock }).map poppedBy).sum = S at e ⊢
    simp [poppedBy, pushed, hpc, hr] at e
    simp
    omega
  | unlock k wake w hw hpc =>
    have e := sum_map_set poppedBy hw { w with pc := .notify }
    generalize ((s.workers.set k { w with pc := .notify }).map poppedBy).sum = S at e ⊢
    cases hr : w.role <;> simp [poppedBy, pushed, hpc, hr] at e <;> simp <;> omega
  | notifyNone k w hw hpc hn =>
    have e := sum_map_set poppedBy hw { w with i := w.i + 1, pc := .loopHead }
    generalize ((s.workers.set k { w with i := w.i + 1, pc := .loopHead }).map poppedBy).sum = S at e ⊢
    cases hr : w.role <;> simp [poppedBy, pushed, hpc, hr] at e <;> simp <;> omega
  | spurious k w hw hpc =>
    have e := sum_map_set poppedBy hw { w with pc := .woken }
    generalize ((s.workers.set k { w with pc := .woken }).map poppedBy).sum = S at e ⊢
    cases hr : w.role <;> simp [poppedBy, pushed, hpc, hr] at e <;> simp <;> omega
  | notifyOne k j w v hw hpc hv hwait =>
    have hjk : j ≠ k := by
      intro e
      subst e
      rw [hw] at hv
      simp only [Option.some.injEq] at hv
      subst hv
      simp [isWaiter, hpc] at hwait
    have hpcv : v.pc = .waiting := by
      simp only [isWaiter, Bool.and_eq_true, decide_eq_true_eq] at hwait
      exact hwait.2
    have hrv : v.role = notifiedRole w.role := by
      simp only [isWaiter, Bool.and_eq_true, decide_eq_true_eq] at hwait
      exact hwait.1
    have hv1 : (s.workers.set k { w with i := w.i + 1, pc := .loopHead })[j]? = some v := by
      rw [lookup_set hw]
      simp [hjk, hv]
    have e1 := sum_map_set poppedBy hw { w with i := w.i + 1, pc := .loopHead }
    have e2 := sum_map_set poppedBy hv1 { v with pc := .woken }
    generalize (((s.workers.set k { w with i := w.i + 1, pc := .loopHead }).set j { v with pc := .woken }).map poppedBy).sum = S at e2 ⊢
    generalize ((s.workers.set k { w with i := w.i + 1, pc := .loopHead }).map poppedBy).sum = S1 at e1 e2
    cases hr : w.role <;> cases hr2 : v.role <;>
      simp [poppedBy, pushed, hpc, hpcv, hr, hr2] at e1 e2 <;> simp <;> omega


theorem items_step (s : State) (a : Action) (t : State)
    (hI : ∀ x : Int, s.produced.count x = (s.workers.map (fun w => (emitted w).count x)).sum)
    (h : step s a = some t) :
    ∀ x : Int, t.produced.count x = (t.workers.map (fun w => (emitted w).count x)).sum := by
  cases step_sound s a t h with
  | lock k wake w hw hpc hi hm =>
    intro x
    have e := sum_map_set (fun w => (emitted w).count x) hw { w with pc := .check }
    have hu : emitted { w with pc := .check } = emitted w := by
      simp [emitted, pushed, hpc]
    simp only [hu] at e
    have h0 := hI x
    generalize ((s.workers.set k { w with pc := .check }).map (fun w => (emitted w).count x)).sum = S at e ⊢
    simp only at h0 ⊢
    omega
  | relock k wake w hw hpc hm =>
    intro x
    have e := sum_map_set (fun w => (emitted w).count x) hw { w with pc := .check }
    have hu : emitted { w with pc := .check } = emitted w := by
      simp [emitted, pushed, hpc]
    simp only [hu] at e
    have h0 := hI x
    generalize ((s.workers.set k { w with pc := .check }).map (fun w => (emitted w).count x)).sum = S at e ⊢
    simp only at h0 ⊢
    omega
  | pass k wake w hw hpc hp =>
    intro x
    have e := sum_map_set (fun w => (emitted w).count x) hw { w with pc := .ready }
    have hu : emitted { w with pc := .ready } = emitted w := by
      simp [emitted, pushed, hpc]
    simp only [hu] at e
    have h0 := hI x
    generalize ((s.workers.set k { w with pc := .ready }).map (fun w => (emitted w).count x)).sum = S at e ⊢
    simp only at h0 ⊢
    omega
  | block k wake w hw hpc hp =>
    intro x
    have e := sum_map_set (fun w => (emitted w).count x) hw { w with pc := .waiting }
    have hu : emitted { w with pc := .waiting } = emitted w := by
      simp [emitted, pushed, hpc]
    simp only [hu] at e
    have h0 := hI x
    generalize ((s.workers.set k { w with pc := .waiting }).map (fun w => (emitted w).count x)).sum = S at e ⊢
    simp only at h0 ⊢
    omega
  | push k wake w hw hpc hr =>
    intro x
    have e := sum_map_set (fun w => (emitted w).count x) hw { w with pc := .unlock }
    have hu : emitted { w with pc := .unlock } = emitted w ++ [w.id * 100 + (w.i : Int)] := by
      simp [emitted, pushed, hpc, hr, itemsOf_succ]
    simp only [hu, List.count_append] at e
    have h0 := hI x
    generalize ((s.workers.set k { w with pc := .unlock }).map (fun w => (emitted w).count x)).sum = S at e ⊢
    simp only [List.count_append] at h0 ⊢
    omega
  | pop k wake w item rest hw hpc hr hb =>
    intro x
    have e := sum_map_set (fun w => (emitted w).count x) hw { w with pc := .unlock }
    have hu : emitted { w with pc := .unlock } = emitted w := by
      simp [emitted, pushed, hpc, hr]
    simp only [hu] at e
    have h0 := hI x
    generalize ((s.workers.set k { w with pc := .unlock }).map (fun w => (emitted w).count x)).sum = S at e ⊢
    simp only at h0 ⊢
    omega
  | unlock k wake w hw hpc =>
    intro x
    have e := sum_map_set (fun w => (emitted w).count x) hw { w with pc := .notify }
    have hu : emitted { w with pc := .notify } = emitted w := by
      simp [emitted, pushed, hpc]
    simp only [hu] at e
    have h0 := hI x
    generalize ((s.workers.set k { w with pc := .notify }).map (fun w => (emitted w).count x)).sum = S at e ⊢
    simp only at h0 ⊢
    omega
  | notifyNone k w hw hpc hn =>
    intro x
    have e := sum_map_set (fun w => (emitted w).count x) hw { w with i := w.i + 1, pc := .loopHead }
    have hu : emitted { w with i := w.i + 1, pc := .loopHead } = emitted w := by
      simp [emitted, pushed, hpc]
    simp only [hu] at e
    have h0 := hI x
    generalize ((s.workers.set k { w with i := w.i + 1, pc := .loopHead }).map (fun w => (emitted w).count x)).sum = S at e ⊢
    simp only at h0 ⊢
    omega
  | spurious k w hw hpc =>
    intro x
    have e := sum_map_set (fun w => (emitted w).count x) hw { w with pc := .woken }
    have hu : emitted { w with pc := .woken } = emitted w := by
      simp [emitted, pushed, hpc]
    simp only [hu] at e
    have h0 := hI x
    generalize ((s.workers.set k { w with pc := .woken }).map (fun w => (emitted w).count x)).sum = S at e ⊢
    simp only at h0 ⊢
    omega
  | notifyOne k j w v hw hpc hv hwait =>
    have hjk : j ≠ k := by
      intro e
      subst e
      rw [hw] at hv
      simp only [Option.some.injEq] at hv
      subst hv
      simp [isWaiter, hpc] at hwait
    have hpcv : v.pc = .waiting := by
      simp only [isWaiter, Bool.and_eq_true, decide_eq_true_eq] at hwait
      exact hwait.2
    have hrv : v.role = notifiedRole w.role := by
      simp only [isWaiter, Bool.and_eq_true, decide_eq_true_eq] at hwait
      exact hwait.1
    have hv1 : (s.workers.set k { w with i := w.i + 1, pc := .loopHead })[j]? = some v := by
      rw [lookup_set hw]
      simp [hjk, hv]
    intro x
    have e1 := sum_map_set (fun w => (emitted w).count x) hw { w with i := w.i + 1, pc := .loopHead }
    have e2 := sum_map_set (fun w => (emitted w).count x) hv1 { v with pc := .woken }
    have hu1 : emitted { w with i := w.i + 1, pc := .loopHead } = emitted w := by
      simp [emitted, pushed, hpc]
    have hu2 : emitted { v with pc := .woken } = emitted v := by
      simp [emitted, pushed, hpcv]
    simp only [hu1] at e1
    simp only [hu2] at e2
    have h0 := hI x
    generalize (((s.workers.set k { w with i := w.i + 1, pc := .loopHead }).set j { v with pc := .woken }).map
      (fun w => (emitted w).count x)).sum = S at e2 ⊢
    generalize ((s.workers.set k { w with i := w.i + 1, pc := .loopHead }).map (fun w => (emitted w).count x)).sum = S1 at e1 e2
    simp only at h0 ⊢
    omega

end ProducerConsumer

/-- Mapping a function over a list updated with a value of the same image. -/
theorem map_set_same {α β : Type} (f : α → β) {l : List α} {k : Nat} {w : α}
    (hw : l[k]? = some w) (u : α) (hu : f u = f w) : (l.set k u).map f = l.map f := by
  apply List.ext_getElem?
  intro n
  simp only [List.getElem?_map, lookup_set hw]
  by_cases e : n = k
  · subst e
    simp [hw, hu]
  · simp [e]

namespace ProducerConsumer

theorem args_step (ws : List Worker) (s : State) (a : Action) (t : State)
    (hI : s.workers.map Worker.args = ws.map Worker.args) (h : step s a = some t) :
    t.workers.map Worker.args = ws.map Worker.args := by
  cases step_sound s a t h with
  | lock k wake w hw hpc hi hm =>
    show (s.workers.set k { w with pc := .check }).map Worker.args = _
    rw [map_set_same Worker.args hw { w with pc := .check } rfl]
    exact hI
  | relock k wake w hw hpc hm =>
    show (s.workers.set k { w with pc := .check }).map Worker.args = _
    rw [map_set_same Worker.args hw { w with pc := .check } rfl]
    exact hI
  | pass k wake w hw hpc hp =>
    show (s.workers.set k { w with pc := .ready }).map Worker.args = _
    rw [map_set_same Worker.args hw { w with pc := .ready } rfl]
    exact hI
  | block k wake w hw hpc hp =>
    show (s.workers.set k { w with pc := .waiting }).map Worker.args = _
    rw [map_set_same Worker.args hw { w with pc := .waiting } rfl]
    exact hI
  | push k wake w hw hpc hr =>
    show (s.workers.set k { w with pc := .unlock }).map Worker.args = _
    rw [map_set_same Worker.args hw { w with pc := .unlock } rfl]
    exact hI
  | pop k wake w item rest hw hpc hr hb =>
    show (s.workers.set k { w with pc := .unlock }).map Worker.args = _
    rw [map_set_same Worker.args hw { w with pc := .unlock } rfl]
    exact hI
  | unlock k wake w hw hpc =>
    show (s.workers.set k { w with pc := .notify }).map Worker.args = _
    rw [map_set_same Worker.args hw { w with pc := .notify } rfl]
    exact hI
  | notifyNone k w hw hpc hn =>
    show (s.workers.set k { w with i := w.i + 1, pc := .loopHead }).map Worker.args = _
    rw [map_set_same Worker.args hw { w with i := w.i + 1, pc := .loopHead } rfl]
    exact hI
  | spurious k w hw hpc =>
    show (s.workers.set k { w with pc := .woken }).map Worker.args = _
    rw [map_set_same Worker.args hw { w with pc := .woken } rfl]
    exact hI
  | notifyOne k j w v hw hpc hv hwait =>
    have hjk : j ≠ k := by
      intro e
      subst e
      rw [hw] at hv
      simp only [Option.some.injEq] at hv
      subst hv
      simp [isWaiter, hpc] at hwait
    have hpcv : v.pc = .waiting := by
      simp only [isWaiter, Bool.and_eq_true, decide_eq_true_eq] at hwait
      exact hwait.2
    have hrv : v.role = notifiedRole w.role := by
      simp only [isWaiter, Bool.and_eq_true, decide_eq_true_eq] at hwait
      exact hwait.1
    have hv1 : (s.workers.set k { w with i := w.i + 1, pc := .loopHead })[j]? = some v := by
      rw [lookup_set hw]
      simp [hjk, hv]
    show ((s.workers.set k { w with i := w.i + 1, pc := .loopHead }).set j { v with pc := .woken }).map Worker.args = _
    rw [map_set_same Worker.args hv1 { v with pc := .woken } rfl,
      map_set_same Worker.args hw { w with i := w.i + 1, pc := .loopHead } rfl]
    exact hI

theorem bound_step (s : State) (a : Action) (t : State)
    (hI : ∀ (k : Nat) (w : Worker), s.workers[k]? = some w →
      (w.pc ≠ .loopHead → (w.i : Int) < w.count) ∧ (w.i = 0 ∨ (w.i : Int) ≤ w.count))
    (h : step s a = some t) :
    ∀ (k : Nat) (w : Worker), t.workers[k]? = some w →
      (w.pc ≠ .loopHead → (w.i : Int) < w.count) ∧ (w.i = 0 ∨ (w.i : Int) ≤ w.count) := by
  cases step_sound s a t h with
  | lock k wake w hw hpc hi hm =>
    intro m x hm
    have h0 := hI k w hw
    simp only [lookup_set hw] at hm
    split at hm
    · simp only [Option.some.injEq] at hm
      subst hm
      exact ⟨fun _ => hi, h0.2⟩
    · exact hI m x hm
  | relock k wake w hw hpc hm =>
    intro m x hm
    have h0 := hI k w hw
    simp only [lookup_set hw] at hm
    split at hm
    · simp only [Option.some.injEq] at hm
      subst hm
      exact ⟨fun _ => h0.1 (by simp [hpc]), h0.2⟩
    · exact hI m x hm
  | pass k wake w hw hpc hp =>
    intro m x hm
    have h0 := hI k w hw
    simp only [lookup_set hw] at hm
    split at hm
    · simp only [Option.some.injEq] at hm
      subst hm
      exact ⟨fun _ => h0.1 (by simp [hpc]), h0.2⟩
    · exact hI m x hm
  | block k wake w hw hpc hp =>
    intro m x hm
    have h0 := hI k w hw
    simp only [lookup_set hw] at hm
    split at hm
    · simp only [Option.some.injEq] at hm
      subst hm
      exact ⟨fun _ => h0.1 (by simp [hpc]), h0.2⟩
    · exact hI m x hm
  | push k wake w hw hpc hr =>
    intro m x hm
    have h0 := hI k w hw
    simp only [lookup_set hw] at hm
    split at hm
    · simp only [Option.some.injEq] at hm
      subst hm
      exact ⟨fun _ => h0.1 (by simp [hpc]), h0.2⟩
    · exact hI m x hm
  | pop k wake w item rest hw hpc hr hb =>
    intro m x hm
    have h0 := hI k w hw
    simp only [lookup_set hw] at hm
    split at hm
    · simp only [Option.some.injEq] at hm
      subst hm
      exact ⟨fun _ => h0.1 (by simp [hpc]), h0.2⟩
    · exact hI m x hm
  | unlock k wake w hw hpc =>
    intro m x hm
    have h0 := hI k w hw
    simp only [lookup_set hw] at hm
    split at hm
    · simp only [Option.some.injEq] at hm
      subst hm
      exact ⟨fun _ => h0.1 (by simp [hpc]), h0.2⟩
    · exact hI m x hm
  | notifyNone k w hw hpc hn =>
    intro m x hm
    have h0 := hI k w hw
    simp only [lookup_set hw] at hm
    split at hm
    · simp only [Option.some.injEq] at hm
      subst hm
      have hlt := h0.1 (by simp [hpc])
      refine ⟨fun hne => absurd rfl hne, Or.inr ?_⟩
      show ((w.i + 1 : Nat) : Int) ≤ w.count
      push_cast
      omega
    · exact hI m x hm
  | spurious k w hw hpc =>
    intro m x hm
    have h0 := hI k w hw
    simp only [lookup_set hw] at hm
    split at hm
    · simp only [Option.some.injEq] at hm
      subst hm
      exact ⟨fun _ => h0.1 (by simp [hpc]), h0.2⟩
    · exact hI m x hm
  | notifyOne k j w v hw hpc hv hwait =>
    have hjk : j ≠ k := by
      intro e
      subst e
      rw [hw] at hv
      simp only [Option.some.injEq] at hv
      subst hv
      simp [isWaiter, hpc] at hwait
    have hpcv : v.pc = .waiting := by
      simp only [isWaiter, Bool.and_eq_true, decide_eq_true_eq] at hwait
      exact hwait.2
    have hrv : v.role = notifiedRole w.role := by
      simp only [isWaiter, Bool.and_eq_true, decide_eq_true_eq] at hwait
      exact hwait.1
    have hv1 : (s.workers.set k { w with i := w.i + 1, pc := .loopHead })[j]? = some v := by
      rw [lookup_set hw]
      simp [hjk, hv]
    intro m x hm
    have h0 := hI k w hw
    have h1 := hI j v hv
    simp only [lookup_set_set hw hv] at hm
    split at hm
    · simp only [Option.some.injEq] at hm
      subst hm
      exact ⟨fun _ => h1.1 (by simp [hpcv]), h1.2⟩
    · split at hm
      · simp only [Option.some.injEq] at hm
        subst hm
        have hlt := h0.1 (by simp [hpc])
        refine ⟨fun hne => absurd rfl hne, Or.inr ?_⟩
        show ((w.i + 1 : Nat) : Int) ≤ w.count
        push_cast
        omega
      · exact hI m x hm

theorem held_step (s : State) (a : Action) (t : State)
    (hI : ∀ (k : Nat), s.mtx = some k → ∃ w, s.workers[k]? = some w ∧ w.pc.holdsMtx = true)
    (h : step s a = some t) :
    ∀ (k : Nat), t.mtx = some k → ∃ w, t.workers[k]? = some w ∧ w.pc.holdsMtx = true := by
  cases step_sound s a t h with
  | lock k wake w hw hpc hi hm =>
    intro m hm
    simp only [Option.some.injEq] at hm
    subst hm
    exact ⟨{ w with pc := .check }, by simp [lookup_set hw], rfl⟩
  | relock k wake w hw hpc hm =>
    intro m hm
    simp only [Option.some.injEq] at hm
    subst hm
    exact ⟨{ w with pc := .check }, by simp [lookup_set hw], rfl⟩
  | pass k wake w hw hpc hp =>
    intro m hm
    obtain ⟨x, hx, hxp⟩ := hI m hm
    by_cases e : m = k
    · subst e
      rw [hw] at hx
      simp only [Option.some.injEq] at hx
      subst hx
      exact ⟨{ w with pc := .ready }, by simp [lookup_set hw], rfl⟩
    · exact ⟨x, by simp [lookup_set hw, e, hx], hxp⟩
  | block k wake w hw hpc hp =>
    intro m hm
    simp at hm
  | push k wake w hw hpc hr =>
    intro m hm
    obtain ⟨x, hx, hxp⟩ := hI m hm
    by_cases e : m = k
    · subst e
      rw [hw] at hx
      simp only [Option.some.injEq] at hx
      subst hx
      exact ⟨{ w with pc := .unlock }, by simp [lookup_set hw], rfl⟩
    · exact ⟨x, by simp [lookup_set hw, e, hx], hxp⟩
  | pop k wake w item rest hw hpc hr hb =>
    intro m hm
    obtain ⟨x, hx, hxp⟩ := hI m hm
    by_cases e : m = k
    · subst e
      rw [hw] at hx
      simp only [Option.some.injEq] at hx
      subst hx
      exact ⟨{ w with pc := .unlock }, by simp [lookup_set hw], rfl⟩
    · exact ⟨x, by simp [lookup_set hw, e, hx], hxp⟩
  | unlock k wake w hw hpc =>
    intro m hm
    simp at hm
  | notifyNone k w hw hpc hn =>
    intro m hm
    obtain ⟨x, hx, hxp⟩ := hI m hm
    by_cases e : m = k
    · subst e
      rw [hw] at hx
      simp only [Option.some.injEq] at hx
      subst hx
      simp [hpc, Pc.holdsMtx] at hxp
    · exact ⟨x, by simp [lookup_set hw, e, hx], hxp⟩
  | spurious k w hw hpc =>
    intro m hm
    obtain ⟨x, hx, hxp⟩ := hI m hm
    by_cases e : m = k
    · subst e
      rw [hw] at hx
      simp only [Option.some.injEq] at hx
      subst hx
      simp [hpc, Pc.holdsMtx] at hxp
    · exact ⟨x, by simp [lookup_set hw, e, hx], hxp⟩
  | notifyOne k j w v hw hpc hv hwait =>
    have hjk : j ≠ k := by
      intro e
      subst e
      rw [hw] at hv
      simp only [Option.some.injEq] at hv
      subst hv
      simp [isWaiter, hpc] at hwait
    have hpcv : v.pc = .waiting := by
      simp only [isWaiter, Bool.and_eq_true, decide_eq_true_eq] at hwait
      exact hwait.2
    have hrv : v.role = notifiedRole w.role := by
      simp only [isWaiter, Bool.and_eq_true, decide_eq_true_eq] at hwait
      exact hwait.1
    have hv1 : (s.workers.set k { w with i := w.i + 1, pc := .loopHead })[j]? = some v := by
      rw [lookup_set hw]
      simp [hjk, hv]
    intro m hm
    obtain ⟨x, hx, hxp⟩ := hI m hm
    have e1 : m ≠ k := by
      intro e
      subst e
      rw [hw] at hx
      simp only [Option.some.injEq] at hx
      subst hx
      simp [hpc, Pc.holdsMtx] at hxp
    have e2 : m ≠ j := by
      intro e
      subst e
      rw [hv] at hx
      simp only [Option.some.injEq] at hx
      subst hx
      simp [hpcv, Pc.holdsMtx] at hxp
    exact ⟨x, by simp [lookup_set_set hw hv, e1, e2, hx], hxp⟩

end ProducerConsumer

namespace ProducerConsumer

theorem wake_step (s : State) (a : Action) (t : State)
    (hI : ∀ r : Role, (∃ (j : Nat) (v : Worker), s.workers[j]? = some v ∧ v.role = r ∧
      v.pc = .waiting) → supply r s.buffer ≤ (s.workers.map (credit r)).sum)
    (h : step s a = some t) :
    ∀ r : Role, (∃ (j : Nat) (v : Worker), t.workers[j]? = some v ∧ v.role = r ∧
      v.pc = .waiting) → supply r t.buffer ≤ (t.workers.map (credit r)).sum := by
  cases step_sound s a t h with
  | lock k wake w hw hpc hi hm =>
    intro r hex
    obtain ⟨m, x, hm, hxr, hxpc⟩ := hex
    have hold : ∃ (j : Nat) (v : Worker), s.workers[j]? = some v ∧ v.role = r ∧ v.pc = .waiting := by
      simp only [lookup_set hw] at hm
      split at hm
      · simp only [Option.some.injEq] at hm
        subst hm
        simp at hxpc
      · exact ⟨m, x, hm, hxr, hxpc⟩
    have h0 := hI r hold
    have e := sum_map_set (credit r) hw { w with pc := .check }
    generalize ((s.workers.set k { w with pc := .check }).map (credit r)).sum = S at e ⊢
    generalize (s.workers.map (credit r)).sum = S0 at e h0
    clear hold hm
    cases r <;> cases hr : w.role <;>
      simp [credit, supply, hpc, hr, BUFFER_SIZE] at e h0 ⊢ <;> omega
  | relock k wake w hw hpc hm =>
    intro r hex
    obtain ⟨m, x, hm, hxr, hxpc⟩ := hex
    have hold : ∃ (j : Nat) (v : Worker), s.workers[j]? = some v ∧ v.role = r ∧ v.pc = .waiting := by
      simp only [lookup_set hw] at hm
      split at hm
      · simp only [Option.some.injEq] at hm
        subst hm
        simp at hxpc
      · exact ⟨m, x, hm, hxr, hxpc⟩
    have h0 := hI r hold
    have e := sum_map_set (credit r) hw { w with pc := .check }
    generalize ((s.workers.set k { w with pc := .check }).map (credit r)).sum = S at e ⊢
    generalize (s.workers.map (credit r)).sum = S0 at e h0
    clear hold hm
    cases r <;> cases hr : w.role <;>
      simp [credit, supply, hpc, hr, BUFFER_SIZE] at e h0 ⊢ <;> omega
  | pass k wake w hw hpc hp =>
    intro r hex
    obtain ⟨m, x, hm, hxr, hxpc⟩ := hex
    have hold : ∃ (j : Nat) (v : Worker), s.workers[j]? = some v ∧ v.role = r ∧ v.pc = .waiting := by
      simp only [lookup_set hw] at hm
      split at hm
      · simp only [Option.some.injEq] at hm
        subst hm
        simp at hxpc
      · exact ⟨m, x, hm, hxr, hxpc⟩
    have h0 := hI r hold
    have e := sum_map_set (credit r) hw { w with pc := .ready }
    generalize ((s.workers.set k { w with pc := .ready }).map (credit r)).sum = S at e ⊢
    generalize (s.workers.map (credit r)).sum = S0 at e h0
    clear hold hm
    cases r <;> cases hr : w.role <;>
      simp [credit, supply, hpc, hr, BUFFER_SIZE] at e h0 ⊢ <;> omega
  | block k wake w hw hpc hp =>
    intro r hex
    obtain ⟨m, x, hm, hxr, hxpc⟩ := hex
    by_cases hrr : w.role = r
    · have hz : supply r s.buffer = 0 := by
        subst hrr
        cases hr : w.role
        · simp only [waitPred, hr, decide_eq_false_iff_not] at hp
          simp only [supply, BUFFER_SIZE] at hp ⊢
          omega
        · simp only [waitPred, hr] at hp
          cases hb : s.buffer with
          | nil => rfl
          | cons y ys => simp [hb] at hp
      show supply r s.buffer ≤ _
      omega
    · have hold : ∃ (j : Nat) (v : Worker), s.workers[j]? = some v ∧ v.role = r ∧ v.pc = .waiting := by
        simp only [lookup_set hw] at hm
        split at hm
        · simp only [Option.some.injEq] at hm
          subst hm
          exact absurd hxr hrr
        · exact ⟨m, x, hm, hxr, hxpc⟩
      have h0 := hI r hold
      have e := sum_map_set (credit r) hw { w with pc := .waiting }
      generalize ((s.workers.set k { w with pc := .waiting }).map (credit r)).sum = S at e ⊢
      generalize (s.workers.map (credit r)).sum = S0 at e h0
      clear hold hm
      cases r <;> cases hr : w.role <;>
        simp [credit, supply, hpc, hr, BUFFER_SIZE] at e h0 hrr ⊢ <;> omega
  | push k wake w hw hpc hr =>
    intro r hex
    obtain ⟨m, x, hm, hxr, hxpc⟩ := hex
    have hold : ∃ (j : Nat) (v : Worker), s.workers[j]? = some v ∧ v.role = r ∧ v.pc = .waiting := by
      simp only [lookup_set hw] at hm
      split at hm
      · simp only [Option.some.injEq] at hm
        subst hm
        simp at hxpc
      · exact ⟨m, x, hm, hxr, hxpc⟩
    have h0 := hI r hold
    have e := sum_map_set (credit r) hw { w with pc := .unlock }
    generalize ((s.workers.set k { w with pc := .unlock }).map (credit r)).sum = S at e ⊢
    generalize (s.workers.map (credit r)).sum = S0 at e h0
    clear hold hm
    cases r <;> simp [credit, supply, hpc, hr, BUFFER_SIZE] at e h0 ⊢ <;> omega
  | pop k wake w item rest hw hpc hr hb =>
    intro r hex
    obtain ⟨m, x, hm, hxr, hxpc⟩ := hex
    have hold : ∃ (j : Nat) (v : Worker), s.workers[j]? = some v ∧ v.role = r ∧ v.pc = .waiting := by
      simp only [lookup_set hw] at hm
      split at hm
      · simp only [Option.some.injEq] at hm
        subst hm
        simp at hxpc
      · exact ⟨m, x, hm, hxr, hxpc⟩
    have h0 := hI r hold
    have e := sum_map_set (credit r) hw { w with pc := .unlock }
    generalize ((s.workers.set k { w with pc := .unlock }).map (credit r)).sum = S at e ⊢
    generalize (s.workers.map (credit r)).sum = S0 at e h0
    clear hold hm
    cases r <;> simp [credit, supply, hpc, hr, BUFFER_SIZE, hb] at e h0 ⊢ <;> omega
  | unlock k wake w hw hpc =>
    intro r hex
    obtain ⟨m, x, hm, hxr, hxpc⟩ := hex
    have hold : ∃ (j : Nat) (v : Worker), s.workers[j]? = some v ∧ v.role = r ∧ v.pc = .waiting := by
      simp only [lookup_set hw] at hm
      split at hm
      · simp only [Option.some.injEq] at hm
        subst hm
        simp at hxpc
      · exact ⟨m, x, hm, hxr, hxpc⟩
    have h0 := hI r hold
    have e := sum_map_set (credit r) hw { w with pc := .notify }
    generalize ((s.workers.set k { w with pc := .notify }).map (credit r)).sum = S at e ⊢
    generalize (s.workers.map (credit r)).sum = S0 at e h0
    clear hold hm
    cases r <;> cases hr : w.role <;>
      simp [credit, supply, hpc, hr, BUFFER_SIZE] at e h0 ⊢ <;> omega
  | notifyNone k w hw hpc hn =>
    intro r hex
    obtain ⟨m, x, hm, hxr, hxpc⟩ := hex
    have hold : ∃ (j : Nat) (v : Worker), s.workers[j]? = some v ∧ v.role = r ∧ v.pc = .waiting := by
      simp only [lookup_set hw] at hm
      split at hm
      · simp only [Option.some.injEq] at hm
        subst hm
        simp at hxpc
      · exact ⟨m, x, hm, hxr, hxpc⟩
    by_cases hrr : notifiedRole w.role = r
    · obtain ⟨m2, x2, hm2, hxr2, hxpc2⟩ := hold
      have := hn m2 x2 hm2
      simp [isWaiter, hxr2, hrr, hxpc2] at this
    · have h0 := hI r hold
      have e := sum_map_set (credit r) hw { w with i := w.i + 1, pc := .loopHead }
      generalize ((s.workers.set k { w with i := w.i + 1, pc := .loopHead }).map (credit r)).sum = S at e ⊢
      generalize (s.workers.map (credit r)).sum = S0 at e h0
      clear hold hm
      cases r <;> cases hr : w.role <;>
        simp [credit, supply, hpc, hr, notifiedRole, BUFFER_SIZE] at e h0 hrr ⊢ <;> omega
  | spurious k w hw hpc =>
    intro r hex
    obtain ⟨m, x, hm, hxr, hxpc⟩ := hex
    have hold : ∃ (j : Nat) (v : Worker), s.workers[j]? = some v ∧ v.role = r ∧ v.pc = .waiting := by
      simp only [lookup_set hw] at hm
      split at hm
      · simp only [Option.some.injEq] at hm
        subst hm
        simp at hxpc
      · exact ⟨m, x, hm, hxr, hxpc⟩
    have h0 := hI r hold
    have e := sum_map_set (credit r) hw { w with pc := .woken }
    generalize ((s.workers.set k { w with pc := .woken }).map (credit r)).sum = S at e ⊢
    generalize (s.workers.map (credit r)).sum = S0 at e h0
    clear hold hm
    cases r <;> cases hr : w.role <;>
      simp [credit, supply, hpc, hr, BUFFER_SIZE] at e h0 ⊢ <;> omega
  | notifyOne k j w v hw hpc hv hwait =>
    have hjk : j ≠ k := by
      intro e
      subst e
      rw [hw] at hv
      simp only [Option.some.injEq] at hv
      subst hv
      simp [isWaiter, hpc] at hwait
    have hpcv : v.pc = .waiting := by
      simp only [isWaiter, Bool.and_eq_true, decide_eq_true_eq] at hwait
      exact hwait.2
    have hrv : v.role = notifiedRole w.role := by
      simp only [isWaiter, Bool.and_eq_true, decide_eq_true_eq] at hwait
      exact hwait.1
    have hv1 : (s.workers.set k { w with i := w.i + 1, pc := .loopHead })[j]? = some v := by
      rw [lookup_set hw]
      simp [hjk, hv]
    intro r hex
    obtain ⟨m, x, hm, hxr, hxpc⟩ := hex
    have hold : ∃ (j : Nat) (v : Worker), s.workers[j]? = some v ∧ v.role = r ∧ v.pc = .waiting := by
      simp only [lookup_set_set hw hv] at hm
      split at hm
      · simp only [Option.some.injEq] at hm
        subst hm
        simp at hxpc
      · split at hm
        · simp only [Option.some.injEq] at hm
          subst hm
          simp at hxpc
        · exact ⟨m, x, hm, hxr, hxpc⟩
    have h0 := hI r hold
    have e1 := sum_map_set (credit r) hw { w with i := w.i + 1, pc := .loopHead }
    have e2 := sum_map_set (credit r) hv1 { v with pc := .woken }
    generalize (((s.workers.set k { w with i := w.i + 1, pc := .loopHead }).set j { v with pc := .woken }).map (credit r)).sum = S at e2 ⊢
    generalize ((s.workers.set k { w with i := w.i + 1, pc := .loopHead }).map (credit r)).sum = S1 at e1 e2
    generalize (s.workers.map (credit r)).sum = S0 at e1 h0
    clear hold hm
    cases r <;> cases hr : w.role <;> cases hr2 : v.role <;>
      simp [credit, supply, hpc, hpcv, hr, hr2, notifiedRole, BUFFER_SIZE] at e1 e2 h0 hrv ⊢ <;>
      omega

end ProducerConsumer

namespace ProducerConsumer

theorem liveInv_step (ws : List Worker) (s : State) (a : Action) (t : State)
    (hI : LiveInv ws s) (h : step s a = some t) : LiveInv ws t :=
  ⟨args_step ws s a t hI.args h, bound_step s a t hI.bound h, held_step s a t hI.held h,
    nprod_step s a t hI.nprod h, ncons_step s a t hI.ncons h, items_step s a t hI.items h,
    wake_step s a t hI.wake h⟩

theorem liveInv_init (ws : List Worker) (h : Fresh ws) : LiveInv ws (init ws) := by
  have hf : ∀ (k : Nat) (w : Worker), ws[k]? = some w → w.i = 0 ∧ w.pc = .loopHead :=
    fun k w hk => h w (List.getElem?_mem hk)
  refine ⟨rfl, ?_, ?_, ?_, ?_, ?_, ?_⟩
  · intro k w hk
    obtain ⟨h1, h2⟩ := hf k w hk
    exact ⟨fun hne => absurd h2 hne, Or.inl h1⟩
  · intro k hk
    simp [init] at hk
  · show 0 = (ws.map pushedBy).sum
    rw [sum_map_eq_zero pushedBy]
    intro k w hk
    obtain ⟨h1, h2⟩ := hf k w hk
    simp [pushedBy, pushed, h1, h2]
  · show 0 = (ws.map poppedBy).sum
    rw [sum_map_eq_zero poppedBy]
    intro k w hk
    obtain ⟨h1, h2⟩ := hf k w hk
    simp [poppedBy, pushed, h1, h2]
  · intro x
    show List.count x [] = (ws.map (fun w => (emitted w).count x)).sum
    rw [sum_map_eq_zero (fun w => (emitted w).count x)]
    · simp
    · intro k w hk
      obtain ⟨h1, h2⟩ := hf k w hk
      simp [emitted, pushed, h1, h2, itemsOf]
  · intro r hex
    obtain ⟨j, v, hj, _, hpc⟩ := hex
    have := (hf j v hj).2
    rw [this] at hpc
    exact absurd hpc (by decide)

theorem liveInv_reachable (ws : List Worker) (s : State) (h : Reachable ws s) :
    LiveInv ws s := by
  obtain ⟨hf, acts, hacts⟩ := h
  exact exec_preserves (LiveInv ws) (liveInv_step ws) acts (init ws) s (liveInv_init ws hf) hacts

/-- Every program action (a `run` step) strictly decreases the progress measure. -/
theorem fuel_step (s : State) (k : Nat) (wake : Option Nat) (t : State)
    (h : step s (.run k wake) = some t) : fuel t < fuel s := by
  unfold fuel
  cases step_sound s (.run k wake) t h with
  | lock k wake w hw hpc hi hm =>
    have e := sum_map_set Worker.fuel hw { w with pc := .check }
    simp only [Worker.fuel, hpc] at e
    show ((s.workers.set k { w with pc := .check }).map Worker.fuel).sum < _
    omega
  | relock k wake w hw hpc hm =>
    have e := sum_map_set Worker.fuel hw { w with pc := .check }
    simp only [Worker.fuel, hpc] at e
    show ((s.workers.set k { w with pc := .check }).map Worker.fuel).sum < _
    omega
  | pass k wake w hw hpc hp =>
    have e := sum_map_set Worker.fuel hw { w with pc := .ready }
    simp only [Worker.fuel, hpc] at e
    show ((s.workers.set k { w with pc := .ready }).map Worker.fuel).sum < _
    omega
  | block k wake w hw hpc hp =>
    have e := sum_map_set Worker.fuel hw { w with pc := .waiting }
    simp only [Worker.fuel, hpc] at e
    show ((s.workers.set k { w with pc := .waiting }).map Worker.fuel).sum < _
    omega
  | push k wake w hw hpc hr =>
    have e := sum_map_set Worker.fuel hw { w with pc := .unlock }
    simp only [Worker.fuel, hpc] at e
    show ((s.workers.set k { w with pc := .unlock }).map Worker.fuel).sum < _
    omega
  | pop k wake w item rest hw hpc hr hb =>
    have e := sum_map_set Worker.fuel hw { w with pc := .unlock }
    simp only [Worker.fuel, hpc] at e
    show ((s.workers.set k { w with pc := .unlock }).map Worker.fuel).sum < _
    omega
  | unlock k wake w hw hpc =>
    have e := sum_map_set Worker.fuel hw { w with pc := .notify }
    simp only [Worker.fuel, hpc] at e
    show ((s.workers.set k { w with pc := .notify }).map Worker.fuel).sum < _
    omega
  | notifyNone k w hw hpc hn =>
    have e := sum_map_set Worker.fuel hw { w with i := w.i + 1, pc := .loopHead }
    simp only [Worker.fuel, hpc] at e
    show ((s.workers.set k { w with i := w.i + 1, pc := .loopHead }).map Worker.fuel).sum < _
    push_cast at e
    omega
  | notifyOne k j w v hw hpc hv hwait =>
    have hjk : j ≠ k := by
      intro e
      subst e
      rw [hw] at hv
      simp only [Option.some.injEq] at hv
      subst hv
      simp [isWaiter, hpc] at hwait
    have hpcv : v.pc = .waiting := by
      simp only [isWaiter, Bool.and_eq_true, decide_eq_true_eq] at hwait
      exact hwait.2
    have hv1 : (s.workers.set k { w with i := w.i + 1, pc := .loopHead })[j]? = some v := by
      rw [lookup_set hw]
      simp [hjk, hv]
    have e1 := sum_map_set Worker.fuel hw { w with i := w.i + 1, pc := .loopHead }
    have e2 := sum_map_set Worker.fuel hv1 { v with pc := .woken }
    simp only [Worker.fuel, hpc] at e1
    simp only [Worker.fuel, hpcv] at e2
    show (((s.workers.set k { w with i := w.i + 1, pc := .loopHead }).set j
      { v with pc := .woken }).map Worker.fuel).sum < _
    push_cast at e1
    omega

end ProducerConsumer

namespace ProducerConsumer

/-- The owner of `mtx` can always execute its next action. -/
theorem holder_enabled (s : State) (hS : SafeInv s) (m : Nat) (x : Worker)
    (hx : s.workers[m]? = some x) (hp : x.pc.holdsMtx = true) :
    ∃ t, step s (.run m none) = some t := by
  cases hpc : x.pc with
  | loopHead => simp [hpc, Pc.holdsMtx] at hp
  | waiting => simp [hpc, Pc.holdsMtx] at hp
  | woken => simp [hpc, Pc.holdsMtx] at hp
  | notify => simp [hpc, Pc.holdsMtx] at hp
  | check =>
    by_cases hq : waitPred x.role s.buffer = true
    · simp only [step, hx, stepWorker, hpc, hq, if_true]
      exact ⟨_, rfl⟩
    · simp only [step, hx, stepWorker, hpc, hq, if_false]
      exact ⟨_, rfl⟩
  | unlock =>
    simp only [step, hx, stepWorker, hpc]
    exact ⟨_, rfl⟩
  | ready =>
    cases hr : x.role with
    | producer =>
      simp only [step, hx, stepWorker, hpc, hr]
      exact ⟨_, rfl⟩
    | consumer =>
      have hq := hS.rdy m x hx hpc
      simp only [hr, waitPred] at hq
      cases hb : s.buffer with
      | nil => simp [hb] at hq
      | cons item rest =>
        simp only [step, hx, stepWorker, hpc, hr, hb]
        exact ⟨_, rfl⟩

/-- A thread that is neither done nor blocked in `wait` guarantees that some program action
is enabled (its own, or the one of the owner of `mtx`). -/
theorem enabled_of_active (ws : List Worker) (s : State) (hS : SafeInv s) (hL : LiveInv ws s)
    (k : Nat) (w : Worker) (hw : s.workers[k]? = some w) (hnd : ¬ w.done)
    (hnw : w.pc ≠ .waiting) : ∃ m wake t, step s (.run m wake) = some t := by
  cases hm : s.mtx with
  | some m =>
    obtain ⟨x, hx, hp⟩ := hL.held m hm
    obtain ⟨t, ht⟩ := holder_enabled s hS m x hx hp
    exact ⟨m, none, t, ht⟩
  | none =>
    cases hpc : w.pc with
    | waiting => exact absurd hpc hnw
    | check =>
      have := hS.own k w hw (by simp [hpc, Pc.holdsMtx])
      simp [hm] at this
    | ready =>
      have := hS.own k w hw (by simp [hpc, Pc.holdsMtx])
      simp [hm] at this
    | unlock =>
      have := hS.own k w hw (by simp [hpc, Pc.holdsMtx])
      simp [hm] at this
    | loopHead =>
      have hi : (w.i : Int) < w.count := by
        by_contra hc
        exact hnd ⟨hpc, hc⟩
      refine ⟨k, none, ?_⟩
      simp only [step, hw, stepWorker, hpc, hi, hm, and_self, if_true]
      exact ⟨_, rfl⟩
    | woken =>
      refine ⟨k, none, ?_⟩
      simp only [step, hw, stepWorker, hpc, hm, if_true]
      exact ⟨_, rfl⟩
    | notify =>
      by_cases hall : s.workers.all (fun v => !isWaiter w.role v) = true
      · refine ⟨k, none, ?_⟩
        simp only [step, hw, stepWorker, hpc, hall, if_true]
        exact ⟨_, rfl⟩
      · have hex : ∃ v ∈ s.workers, isWaiter w.role v = true := by
          by_contra hc
          apply hall
          rw [List.all_eq_true]
          intro v hv
          cases hwv : isWaiter w.role v with
          | false => rfl
          | true => exact absurd ⟨v, hv, hwv⟩ hc
        obtain ⟨v, hv, hwv⟩ := hex
        obtain ⟨j, hj⟩ := List.mem_iff_getElem?.mp hv
        refine ⟨k, some j, ?_⟩
        simp only [step, hw, stepWorker, hpc, hj, hwv, if_true]
        exact ⟨_, rfl⟩

/-- Shape of the thread list in a state of `run`: the four threads with their arguments. -/
theorem runWorkers_shape (s : State) (hL : LiveInv runWorkers s) :
    ∃ a b c d : Worker, s.workers = [a, b, c, d] ∧
      a.args = (.producer, 1, 5) ∧ b.args = (.producer, 2, 5) ∧
      c.args = (.consumer, 1, 5) ∧ d.args = (.consumer, 2, 5) := by
  have h := hL.args
  rcases hws : s.workers with _ | ⟨a, _ | ⟨b, _ | ⟨c, _ | ⟨d, _ | ⟨e, l⟩⟩⟩⟩⟩ <;>
    simp [hws, runWorkers, spawn] at h
  exact ⟨a, b, c, d, rfl, h.1, h.2.1, h.2.2.1, h.2.2.2⟩

end ProducerConsumer

namespace ProducerConsumer

theorem pushed_quiet (x : Worker) (h : x.done ∨ x.pc = .waiting) : pushed x = x.i := by
  rcases h with ⟨h, _⟩ | h <;> simp [pushed, h]

theorem credit_quiet (r : Role) (x : Worker) (h : x.done ∨ x.pc = .waiting) :
    credit r x = 0 := by
  rcases h with ⟨h, _⟩ | h <;> simp [credit, h]

/-- Arithmetic facts about a quiescent state of `run`. -/
theorem quiescent_facts (s : State) (hC : s.consumed ++ s.buffer = s.produced)
    (hL : LiveInv runWorkers s) (hq : Quiescent s) :
    ∃ a b c d : Worker, s.workers = [a, b, c, d] ∧
      a.args = (.producer, 1, 5) ∧ b.args = (.producer, 2, 5) ∧
      c.args = (.consumer, 1, 5) ∧ d.args = (.consumer, 2, 5) ∧
      s.produced.length = a.i + b.i ∧ s.consumed.length = c.i + d.i ∧
      s.consumed.length + s.buffer.length = s.produced.length ∧
      a.i ≤ 5 ∧ b.i ≤ 5 ∧ c.i ≤ 5 ∧ d.i ≤ 5 ∧
      (a.done ∧ 5 ≤ a.i ∨ a.pc = .waiting ∧ a.i < 5 ∧ 5 ≤ s.buffer.length) ∧
      (b.done ∧ 5 ≤ b.i ∨ b.pc = .waiting ∧ b.i < 5 ∧ 5 ≤ s.buffer.length) ∧
      (c.done ∧ 5 ≤ c.i ∨ c.pc = .waiting ∧ c.i < 5 ∧ s.buffer.length = 0) ∧
      (d.done ∧ 5 ≤ d.i ∨ d.pc = .waiting ∧ d.i < 5 ∧ s.buffer.length = 0) := by
  obtain ⟨a, b, c, d, hws, ha, hb, hc, hd⟩ := runWorkers_shape s hL
  have hlen : s.consumed.length + s.buffer.length = s.produced.length := by
    rw [← hC]
    simp
  have h0 : s.workers[0]? = some a := by simp [hws]
  have h1 : s.workers[1]? = some b := by simp [hws]
  have h2 : s.workers[2]? = some c := by simp [hws]
  have h3 : s.workers[3]? = some d := by simp [hws]
  have qa := hq 0 a h0
  have qb := hq 1 b h1
  have qc := hq 2 c h2
  have qd := hq 3 d h3
  have hsum : ∀ r : Role, (s.workers.map (credit r)).sum = 0 := fun r =>
    sum_map_eq_zero (credit r) (fun k w hk => credit_quiet r w (hq k w hk))
  have hwake : ∀ (k : Nat) (x : Worker), s.workers[k]? = some x → x.pc = .waiting →
      supply x.role s.buffer = 0 := by
    intro k x hk hx
    have := hL.wake x.role ⟨k, x, hk, rfl, hx⟩
    rw [hsum] at this
    omega
  simp only [Worker.args, Prod.mk.injEq] at ha hb hc hd
  have np := hL.nprod
  have nc := hL.ncons
  simp only [hws, List.map_cons, List.map_nil, List.sum_cons, List.sum_nil, pushedBy, poppedBy,
    ha.1, hb.1, hc.1, hd.1, pushed_quiet a qa, pushed_quiet b qb, pushed_quiet c qc,
    pushed_quiet d qd] at np nc
  simp only [if_true, reduceCtorEq, if_false] at np nc
  have ba := hL.bound 0 a h0
  have bb := hL.bound 1 b h1
  have bc := hL.bound 2 c h2
  have bd := hL.bound 3 d h3
  rw [ha.2.2] at ba
  rw [hb.2.2] at bb
  rw [hc.2.2] at bc
  rw [hd.2.2] at bd
  refine ⟨a, b, c, d, hws, ?_, ?_, ?_, ?_, ?_, ?_, hlen, ?_, ?_, ?_, ?_, ?_, ?_, ?_, ?_⟩
  · simp [Worker.args, ha]
  · simp [Worker.args, hb]
  · simp [Worker.args, hc]
  · simp [Worker.args, hd]
  · omega
  · omega
  · omega
  · omega
  · omega
  · omega
  · rcases qa with q | q
    · left
      have := q.2
      rw [ha.2.2] at this
      exact ⟨q, by omega⟩
    · right
      have hs := hwake 0 a h0 q
      rw [ha.1] at hs
      simp only [supply, BUFFER_SIZE] at hs
      have := ba.1 (by simp [q])
      exact ⟨q, by omega, by omega⟩
  · rcases qb with q | q
    · left
      have := q.2
      rw [hb.2.2] at this
      exact ⟨q, by omega⟩
    · right
      have hs := hwake 1 b h1 q
      rw [hb.1] at hs
      simp only [supply, BUFFER_SIZE] at hs
      have := bb.1 (by simp [q])
      exact ⟨q, by omega, by omega⟩
  · rcases qc with q | q
    · left
      have := q.2
      rw [hc.2.2] at this
      exact ⟨q, by omega⟩
    · right
      have hs := hwake 2 c h2 q
      rw [hc.1] at hs
      simp only [supply] at hs
      have := bc.1 (by simp [q])
      exact ⟨q, by omega, hs⟩
  · rcases qd with q | q
    · left
      have := q.2
      rw [hd.2.2] at this
      exact ⟨q, by omega⟩
    · right
      have hs := hwake 3 d h3 q
      rw [hd.1] at hs
      simp only [supply] at hs
      have := bd.1 (by simp [q])
      exact ⟨q, by omega, hs⟩

/-- In a state of `run` where every thread is done or blocked, every thread is done. -/
theorem quiescent_done (s : State) (hC : s.consumed ++ s.buffer = s.produced)
    (hL : LiveInv runWorkers s) (hq : Quiescent s) :
    ∀ (k : Nat) (w : Worker), s.workers[k]? = some w → w.done := by
  obtain ⟨a, b, c, d, hws, -, -, -, -, np, nc, hlen, ua, ub, uc, ud, fa, fb, fc, fd⟩ :=
    quiescent_facts s hC hL hq
  have da : a.done := by
    rcases fa with h | h
    · exact h.1
    · exfalso
      omega
  have db : b.done := by
    rcases fb with h | h
    · exact h.1
    · exfalso
      omega
  have dc : c.done := by
    rcases fc with h | h
    · exact h.1
    · exfalso
      omega
  have dd : d.done := by
    rcases fd with h | h
    · exact h.1
    · exfalso
      omega
  intro k w hk
  rw [hws] at hk
  rcases k with _ | _ | _ | _ | k <;> simp at hk <;> subst hk <;> assumption

end ProducerConsumer

namespace ProducerConsumer

theorem exec_append (s : State) (as bs : List Action) :
    exec s (as ++ bs) = (exec s as).bind (fun t => exec t bs) := by
  induction as generalizing s with
  | nil => simp [exec]
  | cons a rest ih =>
    simp only [List.cons_append, exec]
    cases step s a with
    | none => simp
    | some u => simpa using ih u

/-- A schedule of program actions is no longer than the progress measure it uses up. -/
theorem exec_fuel (acts : List Action) :
    ∀ (s t : State), (∀ a ∈ acts, a.isRun = true) → exec s acts = some t →
      acts.length + fuel t ≤ fuel s := by
  induction acts with
  | nil =>
    intro s t _ h
    simp only [exec, Option.some.injEq] at h
    subst h
    simp
  | cons a rest ih =>
    intro s t hrun h
    simp only [exec] at h
    cases hsa : step s a with
    | none => simp [hsa] at h
    | some u =>
      rw [hsa] at h
      have h1 := ih u t (fun b hb => hrun b (List.mem_cons_of_mem a hb)) h
      have ha := hrun a (List.mem_cons_self a rest)
      cases a with
      | spurious k => simp [Action.isRun] at ha
      | run k wake =>
        have := fuel_step s k wake u hsa
        simp only [List.length_cons]
        omega

/-- A thread that has left its loop has no action, and no spurious wake-up either. -/
theorem done_no_step (s : State) (hd : ∀ (k : Nat) (w : Worker), s.workers[k]? = some w → w.done)
    (a : Action) : step s a = none := by
  cases a with
  | run k wake =>
    simp only [step]
    cases hw : s.workers[k]? with
    | none => rfl
    | some w =>
      obtain ⟨h1, h2⟩ := hd k w hw
      simp [stepWorker, h1, h2]
  | spurious k =>
    simp only [step]
    cases hw : s.workers[k]? with
    | none => rfl
    | some w =>
      obtain ⟨h1, h2⟩ := hd k w hw
      simp [h1]

/-- Contents of the queue and of the streams once all four threads of `run` are done. -/
theorem final_contents (s : State) (hC : s.consumed ++ s.buffer = s.produced)
    (hL : LiveInv runWorkers s)
    (hd : ∀ (k : Nat) (w : Worker), s.workers[k]? = some w → w.done) :
    s.buffer = [] ∧ s.consumed = s.produced ∧ s.consumed.length = 10 ∧
    s.consumed.Perm [100, 101, 102, 103, 104, 200, 201, 202, 203, 204] := by
  have hq : Quiescent s := fun k w hk => Or.inl (hd k w hk)
  obtain ⟨a, b, c, d, hws, ha, hb, hc, hd4, np, nc, hlen, ua, ub, uc, ud, fa, fb, fc, fd⟩ :=
    quiescent_facts s hC hL hq
  have h0 : s.workers[0]? = some a := by simp [hws]
  have h1 : s.workers[1]? = some b := by simp [hws]
  have h2 : s.workers[2]? = some c := by simp [hws]
  have h3 : s.workers[3]? = some d := by simp [hws]
  have da := hd 0 a h0
  have db := hd 1 b h1
  have dc := hd 2 c h2
  have dd := hd 3 d h3
  have ia : a.i = 5 := by
    rcases fa with h | h
    · omega
    · rw [da.1] at h
      exact absurd h.1 (by decide)
  have ib : b.i = 5 := by
    rcases fb with h | h
    · omega
    · rw [db.1] at h
      exact absurd h.1 (by decide)
  have ic : c.i = 5 := by
    rcases fc with h | h
    · omega
    · rw [dc.1] at h
      exact absurd h.1 (by decide)
  have id : d.i = 5 := by
    rcases fd with h | h
    · omega
    · rw [dd.1] at h
      exact absurd h.1 (by decide)
  have hb0 : s.buffer = [] := List.eq_nil_of_length_eq_zero (by omega)
  have hcp : s.consumed = s.produced := by
    rw [← hC, hb0, List.append_nil]
  refine ⟨hb0, hcp, by omega, ?_⟩
  rw [hcp, List.perm_iff_count]
  intro x
  have hx := hL.items x
  simp only [Worker.args, Prod.mk.injEq] at ha hb hc hd4
  simp only [hws, List.map_cons, List.map_nil, List.sum_cons, List.sum_nil, emitted,
    ha.1, hb.1, hc.1, hd4.1, ha.2.1, hb.2.1, pushed_quiet a (hq 0 a h0),
    pushed_quiet b (hq 1 b h1), ia, ib, if_true, reduceCtorEq, if_false, List.count_nil,
    Nat.add_zero] at hx
  rw [hx, ← List.count_append]
  rfl

theorem runFinal_reachable : Reachable runWorkers runFinal :=
  ⟨by unfold Fresh; decide, runSchedule, by decide⟩

end ProducerConsumer

namespace ProducerConsumer

theorem soloInv_reachable (pid n cid m : Int) (s : State)
    (h : Reachable [spawn .producer pid n, spawn .consumer cid m] s) : SoloInv pid n s := by
  obtain ⟨_, acts, hacts⟩ := h
  refine exec_preserves (SoloInv pid n) (soloInv_step pid n) acts _ s ?_ hacts
  refine ⟨⟨spawn .producer pid n, rfl, rfl, rfl, rfl, ?_, ?_, Or.inl rfl⟩, ?_⟩
  · simp [init, spawn, pushed, itemsOf]
  · intro hne
    exact absurd rfl hne
  · intro k w hk hk0
    rcases k with _ | _ | k
    · exact absurd rfl hk0
    · simp only [init, List.getElem?_cons_succ, List.getElem?_cons_zero, Option.some.injEq] at hk
      rw [← hk]
      rfl
    · simp [init] at hk

theorem soloFinal_reachable :
    Reachable [spawn .producer 1 3, spawn .consumer 1 3] soloFinal :=
  ⟨by unfold Fresh; decide, soloSchedule, by decide⟩

/-- A state with an unfinished thread has an enabled program action, provided quiescent
states (every thread done or blocked in `wait`) are final for the given threads. -/
theorem progress_of_quiescent (ws : List Worker) (s : State) (hS : SafeInv s)
    (hL : LiveInv ws s)
    (hq : Quiescent s → ∀ (k : Nat) (w : Worker), s.workers[k]? = some w → w.done)
    (hex : ∃ (k : Nat) (w : Worker), s.workers[k]? = some w ∧ ¬ w.done) :
    ∃ m wake t, step s (.run m wake) = some t := by
  by_cases hact : ∃ (k : Nat) (w : Worker), s.workers[k]? = some w ∧ ¬ w.done ∧
      w.pc ≠ .waiting
  · obtain ⟨k, w, hw, hnd, hnw⟩ := hact
    exact enabled_of_active ws s hS hL k w hw hnd hnw
  · exfalso
    have hqs : Quiescent s := by
      intro k w hw
      by_cases hd : w.done
      · exact Or.inl hd
      · right
        by_contra hnw
        exact hact ⟨k, w, hw, hd, hnw⟩
    obtain ⟨k, w, hw, hnd⟩ := hex
    exact hnd (hq hqs k w hw)

/-- With one producer `producer(1, 3)` and one consumer `consumer(cid, 3)`, a state in which
both threads are done or blocked has both threads done. -/
theorem solo_quiescent_done (cid : Int) (s : State)
    (hC : s.consumed ++ s.buffer = s.produced)
    (hL : LiveInv [spawn .producer 1 3, spawn .consumer cid 3] s) (hq : Quiescent s) :
    ∀ (k : Nat) (w : Worker), s.workers[k]? = some w → w.done := by
  have hargs := hL.args
  rcases hws : s.workers with _ | ⟨a, _ | ⟨b, _ | ⟨e, l⟩⟩⟩ <;>
    simp [hws, spawn] at hargs
  simp only [Worker.args, Prod.mk.injEq] at hargs
  obtain ⟨ha, hb⟩ := hargs
  have h0 : s.workers[0]? = some a := by simp [hws]
  have h1 : s.workers[1]? = some b := by simp [hws]
  have qa := hq 0 a h0
  have qb := hq 1 b h1
  have hlen : s.consumed.length + s.buffer.length = s.produced.length := by
    rw [← hC]
    simp
  have hsum : ∀ r : Role, (s.workers.map (credit r)).sum = 0 := fun r =>
    sum_map_eq_zero (credit r) (fun k w hk => credit_quiet r w (hq k w hk))
  have hwake : ∀ (k : Nat) (x : Worker), s.workers[k]? = some x → x.pc = .waiting →
      supply x.role s.buffer = 0 := by
    intro k x hk hx
    have := hL.wake x.role ⟨k, x, hk, rfl, hx⟩
    rw [hsum] at this
    omega
  have np := hL.nprod
  have nc := hL.ncons
  simp only [hws, List.map_cons, List.map_nil, List.sum_cons, List.sum_nil, pushedBy, poppedBy,
    ha.1, hb.1, pushed_quiet a qa, pushed_quiet b qb] at np nc
  simp only [if_true, reduceCtorEq, if_false] at np nc
  have ba := hL.bound 0 a h0
  have bb := hL.bound 1 b h1
  rw [ha.2.2] at ba
  rw [hb.2.2] at bb
  have fa : a.done ∧ 3 ≤ a.i ∨ a.pc = .waiting ∧ a.i < 3 ∧ 5 ≤ s.buffer.length := by
    rcases qa with q | q
    · left
      have := q.2
      rw [ha.2.2] at this
      exact ⟨q, by omega⟩
    · right
      have hs := hwake 0 a h0 q
      rw [ha.1] at hs
      simp only [supply, BUFFER_SIZE] at hs
      have := ba.1 (by simp [q])
      exact ⟨q, by omega, by omega⟩
  have fb : b.done ∧ 3 ≤ b.i ∨ b.pc = .waiting ∧ b.i < 3 ∧ s.buffer.length = 0 := by
    rcases qb with q | q
    · left
      have := q.2
      rw [hb.2.2] at this
      exact ⟨q, by omega⟩
    · right
      have hs := hwake 1 b h1 q
      rw [hb.1] at hs
      simp only [supply] at hs
      have := bb.1 (by simp [q])
      exact ⟨q, by omega, hs⟩
  have ua : a.i ≤ 3 := by omega
  have ub : b.i ≤ 3 := by omega
  have da : a.done := by
    rcases fa with h | h
    · exact h.1
    · exfalso
      omega
  have db : b.done := by
    rcases fb with h | h
    · exact h.1
    · exfalso
      omega
  intro k w hk
  rcases k with _ | _ | k <;> simp at hk <;> subst hk <;> assumption

/-- Prefixes of the stream `100, 101, 102`. -/
theorem itemsOf_initial (k : Nat) (hk : k ≤ 3) : itemsOf 1 k <+: [100, 101, 102] := by
  interval_cases k
  · exact ⟨[100, 101, 102], rfl⟩
  · exact ⟨[101, 102], rfl⟩
  · exact ⟨[102], rfl⟩
  · exact ⟨[], rfl⟩

/-- C2 (queue conservation and FIFO order).  In every state reachable from any freshly
started producer and consumer threads, the items consumed so far (in dequeue order) followed
by the queue contents are exactly the items produced so far (in enqueue order); every
transition leaves the queue and the streams alone, or enqueues one item at the tail of queue
and `produced`, or moves the head of the queue to the tail of `consumed`.  With one producer
`producer(1, 3)` and one consumer, what the consumer has observed is always a prefix of
`100, 101, 102`, it is exactly `100, 101, 102` once three items were taken, a consumer
`consumer(cid, 3)` that has left its loop has taken three items, and a state of that pair
without enabled program action has both threads done and the consumer has observed exactly
`100, 101, 102`. -/
theorem fifo_conservation (ws : List Worker) (s : State) (h : Reachable ws s) :
    s.consumed ++ s.buffer = s.produced ∧
    (∀ (a : Action) (t : State), step s a = some t →
      (t.buffer = s.buffer ∧ t.produced = s.produced ∧ t.consumed = s.consumed) ∨
      (∃ x, t.buffer = s.buffer ++ [x] ∧ t.produced = s.produced ++ [x] ∧
        t.consumed = s.consumed) ∨
      (∃ x, s.buffer = x :: t.buffer ∧ t.consumed = s.consumed ++ [x] ∧
        t.produced = s.produced)) ∧
    (∀ cid m : Int, ws = [spawn .producer 1 3, spawn .consumer cid m] →
      s.consumed <+: [100, 101, 102] ∧
      (s.consumed.length = 3 → s.consumed = [100, 101, 102]) ∧
      (m = 3 → ∀ c : Worker, s.workers[1]? = some c → c.done →
        s.consumed = [100, 101, 102]) ∧
      (m = 3 → (∀ (k : Nat) (wake : Option Nat), step s (.run k wake) = none) →
        (∀ (k : Nat) (w : Worker), s.workers[k]? = some w → w.done) ∧
        s.consumed = [100, 101, 102])) := by
  have hC := conservation_reachable ws s h
  refine ⟨hC, step_streams s, ?_⟩
  intro cid m hws
  subst hws
  obtain ⟨⟨p, hp0, hrole, hid, hcnt, hprod, hin, hle⟩, hoth⟩ := soloInv_reachable 1 3 cid m s h
  have hpk : pushed p ≤ 3 := by
    unfold pushed
    split
    · rename_i hpc
      have := hin (by rcases hpc with e | e <;> simp [e])
      omega
    · omega
  have hpre : s.consumed <+: [100, 101, 102] := by
    have h1 : s.consumed <+: s.produced := ⟨s.buffer, hC⟩
    have h2 : s.produced <+: [100, 101, 102] := hprod ▸ itemsOf_initial (pushed p) hpk
    exact h1.trans h2
  have hfull : s.consumed.length = 3 → s.consumed = [100, 101, 102] := by
    intro h3
    exact List.IsPrefix.eq_of_length hpre (by simpa using h3)
  have hcons : m = 3 → ∀ c : Worker, s.workers[1]? = some c → c.done →
      s.consumed = [100, 101, 102] := ?_
  · refine ⟨hpre, hfull, hcons, ?_⟩
    intro hm hnone
    have hS := safeInv_reachable _ s h
    have hL := liveInv_reachable _ s h
    subst hm
    have hd : ∀ (k : Nat) (w : Worker), s.workers[k]? = some w → w.done := by
      intro k w hw
      by_contra hnd
      obtain ⟨j, wake, t, ht⟩ := progress_of_quiescent _ s hS hL
        (solo_quiescent_done cid s hC hL) ⟨k, w, hw, hnd⟩
      rw [hnone j wake] at ht
      exact absurd ht (by simp)
    refine ⟨hd, ?_⟩
    have hlen : s.workers.length = 2 := by
      have := congrArg List.length hL.args
      simpa using this
    have h1 : (1 : Nat) < s.workers.length := by omega
    exact hcons rfl s.workers[1] (List.getElem?_eq_getElem h1)
      (hd 1 _ (List.getElem?_eq_getElem h1))
  intro hm c hc hdone
  subst hm
  apply hfull
  have hL := liveInv_reachable _ s h
  have hargs := hL.args
  have nc := hL.ncons
  rcases hws : s.workers with _ | ⟨a, _ | ⟨b, _ | ⟨e, l⟩⟩⟩ <;>
    simp [hws, spawn] at hargs
  rw [hws] at hc hp0
  simp only [List.getElem?_cons_succ, List.getElem?_cons_zero, Option.some.injEq] at hc hp0
  subst hc hp0
  have hb := hL.bound 1 b (by simp [hws])
  simp only [Worker.args, Prod.mk.injEq] at hargs
  obtain ⟨hd1, hd2⟩ := hdone
  rw [hargs.2.2.2] at hd2 hb
  simp only [hws, List.map_cons, List.map_nil, List.sum_cons, List.sum_nil, poppedBy,
    hargs.1.1, hargs.2.1, pushed, hd1, if_true, reduceCtorEq, if_false] at nc
  simp only [false_or, if_false] at nc
  omega

/-- Witness of C2 at `soloFinal`, the final state of `producer(1, 3)` with `consumer(1, 3)`. -/
theorem fifo_conservation_witness :
    Reachable [spawn .producer 1 3, spawn .consumer 1 3] soloFinal ∧
    (soloFinal.consumed ++ soloFinal.buffer = soloFinal.produced ∧
    (∀ (a : Action) (t : State), step soloFinal a = some t →
      (t.buffer = soloFinal.buffer ∧ t.produced = soloFinal.produced ∧
        t.consumed = soloFinal.consumed) ∨
      (∃ x, t.buffer = soloFinal.buffer ++ [x] ∧ t.produced = soloFinal.produced ++ [x] ∧
        t.consumed = soloFinal.consumed) ∨
      (∃ x, soloFinal.buffer = x :: t.buffer ∧ t.consumed = soloFinal.consumed ++ [x] ∧
        t.produced = soloFinal.produced)) ∧
    (∀ cid m : Int,
      [spawn .producer 1 3, spawn .consumer 1 3] = [spawn .producer 1 3, spawn .consumer cid m] →
      soloFinal.consumed <+: [100, 101, 102] ∧
      (soloFinal.consumed.length = 3 → soloFinal.consumed = [100, 101, 102]) ∧
      (m = 3 → ∀ c : Worker, soloFinal.workers[1]? = some c → c.done →
        soloFinal.consumed = [100, 101, 102]) ∧
      (m = 3 → (∀ (k : Nat) (wake : Option Nat), step soloFinal (.run k wake) = none) →
        (∀ (k : Nat) (w : Worker), soloFinal.workers[k]? = some w → w.done) ∧
        soloFinal.consumed = [100, 101, 102]))) :=
  ⟨soloFinal_reachable,
    fifo_conservation [spawn .producer 1 3, spawn .consumer 1 3] soloFinal soloFinal_reachable⟩

end ProducerConsumer

namespace ProducerConsumer

/-- A spurious wake-up raises the progress measure by 2. -/
theorem spurious_fuel (s : State) (k : Nat) (t : State)
    (h : step s (.spurious k) = some t) : fuel t = fuel s + 2 := by
  unfold fuel
  cases step_sound s (.spurious k) t h with
  | spurious k w hw hpc =>
    have e := sum_map_set Worker.fuel hw { w with pc := .woken }
    simp only [Worker.fuel, hpc] at e
    show ((s.workers.set k { w with pc := .woken }).map Worker.fuel).sum = _
    omega

/-- A schedule is no longer than the progress measure it uses up plus three steps for each
of its spurious wake-ups (the wake-up, the re-acquisition of `mtx` and the re-check). -/
theorem exec_fuel_mixed (acts : List Action) :
    ∀ (s t : State), exec s acts = some t →
      acts.length + fuel t ≤ fuel s + 3 * spuriousCount acts := by
  induction acts with
  | nil =>
    intro s t h
    simp only [exec, Option.some.injEq] at h
    subst h
    simp [spuriousCount]
  | cons a rest ih =>
    intro s t h
    simp only [exec] at h
    cases hsa : step s a with
    | none => simp [hsa] at h
    | some u =>
      rw [hsa] at h
      have h1 := ih u t h
      cases a with
      | spurious k =>
        have := spurious_fuel s k u hsa
        have hc : spuriousCount (Action.spurious k :: rest) = spuriousCount rest + 1 := by
          simp [spuriousCount, Action.isRun]
        rw [hc]
        simp only [List.length_cons]
        omega
      | run k wake =>
        have := fuel_step s k wake u hsa
        have hc : spuriousCount (Action.run k wake :: rest) = spuriousCount rest := by
          simp [spuriousCount, Action.isRun]
        rw [hc]
        simp only [List.length_cons]
        omega

theorem spin_exec (n : Nat) : exec (init runWorkers) (spin n) = some spinState := by
  induction n with
  | zero => decide
  | succ n ih =>
    have e : spin (n + 1) = spin n ++ spinCycle := by
      simp [spin, List.replicate_succ', List.flatten_append]
    rw [e, exec_append, ih]
    decide

theorem spin_length (n : Nat) : (spin n).length = 3 * n + 2 ∧ runCount (spin n) = 2 * n + 2 := by
  induction n with
  | zero => decide
  | succ n ih =>
    have e : spin (n + 1) = spin n ++ spinCycle := by
      simp [spin, List.replicate_succ', List.flatten_append]
    rw [e]
    unfold runCount at ih ⊢
    rw [List.length_append, List.filter_append, List.length_append, ih.1, ih.2]
    have h1 : spinCycle.length = 3 := by decide
    have h2 : (spinCycle.filter Action.isRun).length = 2 := by decide
    omega

theorem spin_initial (n : Nat) : spin n <+: spin (n + 1) := by
  have e : spin (n + 1) = spin n ++ spinCycle := by
    simp [spin, List.replicate_succ', List.flatten_append]
  rw [e]
  exact List.prefix_append _ _

theorem spinState_reachable : Reachable runWorkers spinState :=
  ⟨by unfold Fresh; decide, spin 0, spin_exec 0⟩

theorem runFinal_done : ∀ (k : Nat) (w : Worker), runFinal.workers[k]? = some w → w.done := by
  intro k w hw
  have hm := List.getElem?_mem hw
  simp only [runFinal, List.mem_cons, List.mem_singleton, List.not_mem_nil, or_false] at hm
  rcases hm with e | e | e | e <;> rw [e] <;> decide

/-- C9, counterexample.  In `ProducerConsumer::run`, consumer 1 can lock `mtx`, find the
buffer empty and block in `wait`; from that state a spurious wake-up, the re-acquisition of
`mtx` and the re-check of the predicate lead back to the same state.  So for every `n` the
schedule `spin n` is an execution from the start, each one extended by the next, with
`3 * n + 2` steps of which `2 * n + 2` are program actions: the executions of `run` are not
bounded, and this one never ends although producers are ready to run. -/
theorem channel_spin_counterexample :
    Reachable runWorkers spinState ∧
    exec spinState spinCycle = some spinState ∧
    (∀ n : Nat, exec (init runWorkers) (spin n) = some spinState ∧
      spin n <+: spin (n + 1) ∧ (spin n).length = 3 * n + 2 ∧
      runCount (spin n) = 2 * n + 2) ∧
    (exec (init runWorkers) (spin 100) = some spinState ∧ runCount (spin 100) = 202) ∧
    ¬ ∃ B : Nat, ∀ (acts : List Action) (t : State),
      exec (init runWorkers) acts = some t → runCount acts ≤ B := by
  refine ⟨spinState_reachable, by decide,
    fun n => ⟨spin_exec n, spin_initial n, (spin_length n).1, (spin_length n).2⟩,
    ⟨spin_exec 100, (spin_length 100).2⟩, ?_⟩
  rintro ⟨B, hB⟩
  have h1 := hB (spin B) spinState (spin_exec B)
  have h2 := (spin_length B).2
  omega

/-- C9, amended.  In every state reachable by `ProducerConsumer::run` (capacity 5, producers
1 and 2 with 5 puts each, consumers 1 and 2 with 5 takes each; spurious wake-ups allowed): if
some thread has not finished, some program action is enabled; every program action strictly
decreases a progress measure, so a schedule of program actions continuing from the state is
no longer than the measure left, and one from the start is no longer than 160; a schedule
with spurious wake-ups is longer by at most three steps for each of them
(`160 + 3 * spuriousCount` from the start); a state without enabled program action is final:
all four threads are done, the buffer is empty and the consumed stream is the produced
stream, a permutation of the ten items 100..104, 200..204. -/
theorem channel_no_deadlock_amended (s : State) (h : Reachable runWorkers s) :
    ((∃ (k : Nat) (w : Worker), s.workers[k]? = some w ∧ ¬ w.done) →
      ∃ m wake t, step s (.run m wake) = some t) ∧
    (∀ (acts : List Action) (t : State), (∀ a ∈ acts, a.isRun = true) →
      exec s acts = some t → acts.length + fuel t ≤ fuel s) ∧
    (∀ acts : List Action, (∀ a ∈ acts, a.isRun = true) →
      exec (init runWorkers) acts = some s → acts.length ≤ 160) ∧
    (∀ (acts : List Action) (t : State), exec s acts = some t →
      acts.length + fuel t ≤ fuel s + 3 * spuriousCount acts) ∧
    (∀ acts : List Action, exec (init runWorkers) acts = some s →
      acts.length ≤ 160 + 3 * spuriousCount acts) ∧
    ((∀ (m : Nat) (wake : Option Nat), step s (.run m wake) = none) →
      s.workers.length = 4 ∧ (∀ (k : Nat) (w : Worker), s.workers[k]? = some w → w.done) ∧
      s.buffer = [] ∧ s.consumed = s.produced ∧ s.consumed.length = 10 ∧
      s.consumed.Perm [100, 101, 102, 103, 104, 200, 201, 202, 203, 204]) := by
  have hS := safeInv_reachable runWorkers s h
  have hL := liveInv_reachable runWorkers s h
  have hC := conservation_reachable runWorkers s h
  have h0 : fuel (init runWorkers) = 160 := by decide
  have hprog : (∃ (k : Nat) (w : Worker), s.workers[k]? = some w ∧ ¬ w.done) →
      ∃ m wake t, step s (.run m wake) = some t := by
    exact progress_of_quiescent runWorkers s hS hL (quiescent_done s hC hL)
  refine ⟨hprog, fun acts t => exec_fuel acts s t, ?_,
    fun acts t => exec_fuel_mixed acts s t, ?_, ?_⟩
  · intro acts hrun hex
    have := exec_fuel acts (init runWorkers) s hrun hex
    omega
  · intro acts hex
    have := exec_fuel_mixed acts (init runWorkers) s hex
    omega
  · intro hnone
    have hd : ∀ (k : Nat) (w : Worker), s.workers[k]? = some w → w.done := by
      intro k w hw
      by_contra hnd
      obtain ⟨m, wake, t, ht⟩ := hprog ⟨k, w, hw, hnd⟩
      rw [hnone m wake] at ht
      exact absurd ht (by simp)
    have hlen : s.workers.length = 4 := by
      have := congrArg List.length hL.args
      simpa [runWorkers] using this
    exact ⟨hlen, hd, final_contents s hC hL hd⟩

/-- Witness of C9 (amended) at two reachable states: at `spinState`, where consumer 1 is
blocked in `wait` and the other threads have not started, a program action is enabled; at
`runFinal`, the final state of a complete schedule of `run`, no program action is enabled
and the streams are complete. -/
theorem channel_no_deadlock_amended_witness :
    (Reachable runWorkers spinState ∧
      (∃ (k : Nat) (w : Worker), spinState.workers[k]? = some w ∧ ¬ w.done) ∧
      ∃ m wake t, step spinState (.run m wake) = some t) ∧
    (Reachable runWorkers runFinal ∧
      (∀ (m : Nat) (wake : Option Nat), step runFinal (.run m wake) = none) ∧
      (∀ acts : List Action, exec (init runWorkers) acts = some runFinal →
        acts.length ≤ 160 + 3 * spuriousCount acts) ∧
      runFinal.workers.length = 4 ∧
      (∀ (k : Nat) (w : Worker), runFinal.workers[k]? = some w → w.done) ∧
      runFinal.buffer = [] ∧ runFinal.consumed = runFinal.produced ∧
      runFinal.consumed.length = 10 ∧
      runFinal.consumed.Perm [100, 101, 102, 103, 104, 200, 201, 202, 203, 204]) :=
  ⟨⟨spinState_reachable, ⟨0, spawn .producer 1 5, rfl, by decide⟩,
    (channel_no_deadlock_amended spinState spinState_reachable).1
      ⟨0, spawn .producer 1 5, rfl, by decide⟩⟩,
   ⟨runFinal_reachable, fun m wake => done_no_step runFinal runFinal_done (.run m wake),
    (channel_no_deadlock_amended runFinal runFinal_reachable).2.2.2.2.1,
    (channel_no_deadlock_amended runFinal runFinal_reachable).2.2.2.2.2
      (fun m wake => done_no_step runFinal runFinal_done (.run m wake))⟩⟩

end ProducerConsumer

namespace ReadersWriters

/-- An invariant of `step` that holds in a state holds after every schedule run from it. -/
theorem rw_exec_preserves (Inv : State → Prop)
    (hstep : ∀ s k t, Inv s → step s k = some t → Inv t) :
    ∀ (acts : List Nat) (s t : State), Inv s → exec s acts = some t → Inv t := by
  intro acts
  induction acts with
  | nil =>
    intro s t hs h
    simp only [exec, Option.some.injEq] at h
    exact h ▸ hs
  | cons a rest ih =>
    intro s t hs h
    simp only [exec] at h
    cases hsa : step s a with
    | none => simp [hsa] at h
    | some u =>
      rw [hsa] at h
      exact ih u t (hstep s a u hs hsa) h

/-- Every transition of `step` is one of the atomic actions listed by `Step`. -/
theorem rw_step_sound (s : State) (k : Nat) (t : State) (h : step s k = some t) :
    Step s k t := by
  simp only [step] at h
  cases hw : s.workers[k]? with
  | none => simp [hw] at h
  | some w =>
    simp only [hw] at h
    cases hr : w.role with
    | reader =>
      simp only [hr] at h
      simp only [stepReader] at h
      cases hpc : w.pc <;> simp only [hpc] at h
      case loopHead =>
        split at h
        · rename_i hc
          simp only [Option.some.injEq] at h
          subst h
          exact Step.rLockEntry w hw hr hpc hc.1 hc.2
        · simp at h
      case entryInc =>
        simp only [Option.some.injEq] at h
        subst h
        exact Step.rInc w hw hr hpc
      case entryTest =>
        split at h
        · rename_i hc
          simp only [Option.some.injEq] at h
          subst h
          exact Step.rTestFirst w hw hr hpc hc
        · rename_i hc
          simp only [Option.some.injEq] at h
          subst h
          exact Step.rTestMore w hw hr hpc hc
      case entryLockW =>
        split at h
        · rename_i hc
          simp only [Option.some.injEq] at h
          subst h
          exact Step.rLockW w hw hr hpc hc
        · simp at h
      case entryRelease =>
        simp only [Option.some.injEq] at h
        subst h
        exact Step.rReleaseEntry w hw hr hpc
      case reading =>
        simp only [Option.some.injEq] at h
        subst h
        exact Step.rRead w hw hr hpc
      case exitLock =>
        split at h
        · rename_i hc
          simp only [Option.some.injEq] at h
          subst h
          exact Step.rLockExit w hw hr hpc hc
        · simp at h
      case exitDec =>
        simp only [Option.some.injEq] at h
        subst h
        exact Step.rDec w hw hr hpc
      case exitTest =>
        split at h
        · rename_i hc
          simp only [Option.some.injEq] at h
          subst h
          exact Step.rTestLast w hw hr hpc hc
        · rename_i hc
          simp only [Option.some.injEq] at h
          subst h
          exact Step.rTestNotLast w hw hr hpc hc
      case exitUnlockW =>
        simp only [Option.some.injEq] at h
        subst h
        exact Step.rUnlockW w hw hr hpc
      case exitRelease =>
        simp only [Option.some.injEq] at h
        subst h
        exact Step.rReleaseExit w hw hr hpc
      all_goals simp at h
    | writer =>
      simp only [hr] at h
      simp only [stepWriter] at h
      cases hpc : w.pc <;> simp only [hpc] at h
      case loopHead =>
        split at h
        · rename_i hc
          simp only [Option.some.injEq] at h
          subst h
          exact Step.wLock w hw hr hpc hc.1 hc.2
        · simp at h
      case wRead =>
        simp only [Option.some.injEq] at h
        subst h
        exact Step.wRead w hw hr hpc
      case wWrite =>
        simp only [Option.some.injEq] at h
        subst h
        exact Step.wWrite w hw hr hpc
      case wPrint =>
        simp only [Option.some.injEq] at h
        subst h
        exact Step.wPrint w hw hr hpc
      case wRelease =>
        simp only [Option.some.injEq] at h
        subst h
        exact Step.wRelease w hw hr hpc
      all_goals simp at h

end ReadersWriters

set_option linter.unreachableTactic false
set_option linter.unusedTactic false

namespace ReadersWriters

theorem cnt_step (s : State) (k : Nat) (t : State) (hI : GateInv s) (h : step s k = some t) :
    t.read_count = (((t.workers.map Worker.counted).sum : Nat) : Int) := by
  cases rw_step_sound s k t h with
  | rLockEntry w hw hr hpc hi hm =>
    have e := sum_map_set Worker.counted hw { w with pc := .entryInc }
    have h0 := hI.cnt
    generalize ((s.workers.set k { w with pc := .entryInc }).map Worker.counted).sum = S at e ⊢
    generalize (s.workers.map Worker.counted).sum = S0 at e h0
    simp [Worker.counted, hr, hpc] at e
    simp only at h0 ⊢
    omega
  | rInc w hw hr hpc =>
    have e := sum_map_set Worker.counted hw { w with pc := .entryTest }
    have h0 := hI.cnt
    generalize ((s.workers.set k { w with pc := .entryTest }).map Worker.counted).sum = S at e ⊢
    generalize (s.workers.map Worker.counted).sum = S0 at e h0
    simp [Worker.counted, hr, hpc] at e
    simp only at h0 ⊢
    omega
  | rTestFirst w hw hr hpc hc =>
    have e := sum_map_set Worker.counted hw { w with pc := .entryLockW }
    have h0 := hI.cnt
    generalize ((s.workers.set k { w with pc := .entryLockW }).map Worker.counted).sum = S at e ⊢
    generalize (s.workers.map Worker.counted).sum = S0 at e h0
    simp [Worker.counted, hr, hpc] at e
    simp only at h0 ⊢
    omega
  | rTestMore w hw hr hpc hc =>
    have e := sum_map_set Worker.counted hw { w with pc := .entryRelease }
    have h0 := hI.cnt
    generalize ((s.workers.set k { w with pc := .entryRelease }).map Worker.counted).sum = S at e ⊢
    generalize (s.workers.map Worker.counted).sum = S0 at e h0
    simp [Worker.counted, hr, hpc] at e
    simp only at h0 ⊢
    omega
  | rLockW w hw hr hpc hm =>
    have e := sum_map_set Worker.counted hw { w with pc := .entryRelease }
    have h0 := hI.cnt
    generalize ((s.workers.set k { w with pc := .entryRelease }).map Worker.counted).sum = S at e ⊢
    generalize (s.workers.map Worker.counted).sum = S0 at e h0
    simp [Worker.counted, hr, hpc] at e
    simp only at h0 ⊢
    omega
  | rReleaseEntry w hw hr hpc =>
    have e := sum_map_set Worker.counted hw { w with pc := .reading }
    have h0 := hI.cnt
    generalize ((s.workers.set k { w with pc := .reading }).map Worker.counted).sum = S at e ⊢
    generalize (s.workers.map Worker.counted).sum = S0 at e h0
    simp [Worker.counted, hr, hpc] at e
    simp only at h0 ⊢
    omega
  | rRead w hw hr hpc =>
    have e := sum_map_set Worker.counted hw { w with pc := .exitLock, tmp := s.shared_data }
    have h0 := hI.cnt
    generalize ((s.workers.set k { w with pc := .exitLock, tmp := s.shared_data }).map Worker.counted).sum = S at e ⊢
    generalize (s.workers.map Worker.counted).sum = S0 at e h0
    simp [Worker.counted, hr, hpc] at e
    simp only at h0 ⊢
    omega
  | rLockExit w hw hr hpc hm =>
    have e := sum_map_set Worker.counted hw { w with pc := .exitDec }
    have h0 := hI.cnt
    generalize ((s.workers.set k { w with pc := .exitDec }).map Worker.counted).sum = S at e ⊢
    generalize (s.workers.map Worker.counted).sum = S0 at e h0
    simp [Worker.counted, hr, hpc] at e
    simp only at h0 ⊢
    omega
  | rDec w hw hr hpc =>
    have e := sum_map_set Worker.counted hw { w with pc := .exitTest }
    have h0 := hI.cnt
    generalize ((s.workers.set k { w with pc := .exitTest }).map Worker.counted).sum = S at e ⊢
    generalize (s.workers.map Worker.counted).sum = S0 at e h0
    simp [Worker.counted, hr, hpc] at e
    simp only at h0 ⊢
    omega
  | rTestLast w hw hr hpc hc =>
    have e := sum_map_set Worker.counted hw { w with pc := .exitUnlockW }
    have h0 := hI.cnt
    generalize ((s.workers.set k { w with pc := .exitUnlockW }).map Worker.counted).sum = S at e ⊢
    generalize (s.workers.map Worker.counted).sum = S0 at e h0
    simp [Worker.counted, hr, hpc] at e
    simp only at h0 ⊢
    omega
  | rTestNotLast w hw hr hpc hc =>
    have e := sum_map_set Worker.counted hw { w with pc := .exitRelease }
    have h0 := hI.cnt
    generalize ((s.workers.set k { w with pc := .exitRelease }).map Worker.counted).sum = S at e ⊢
    generalize (s.workers.map Worker.counted).sum = S0 at e h0
    simp [Worker.counted, hr, hpc] at e
    simp only at h0 ⊢
    omega
  | rUnlockW w hw hr hpc =>
    have e := sum_map_set Worker.counted hw { w with pc := .exitRelease }
    have h0 := hI.cnt
    generalize ((s.workers.set k { w with pc := .exitRelease }).map Worker.counted).sum = S at e ⊢
    generalize (s.workers.map Worker.counted).sum = S0 at e h0
    simp [Worker.counted, hr, hpc] at e
    simp only at h0 ⊢
    omega
  | rReleaseExit w hw hr hpc =>
    have e := sum_map_set Worker.counted hw { w with i := w.i + 1, pc := .loopHead }
    have h0 := hI.cnt
    generalize ((s.workers.set k { w with i := w.i + 1, pc := .loopHead }).map Worker.counted).sum = S at e ⊢
    generalize (s.workers.map Worker.counted).sum = S0 at e h0
    simp [Worker.counted, hr, hpc] at e
    simp only at h0 ⊢
    omega
  | wLock w hw hr hpc hi hm =>
    have e := sum_map_set Worker.counted hw { w with pc := .wRead }
    have h0 := hI.cnt
    generalize ((s.workers.set k { w with pc := .wRead }).map Worker.counted).sum = S at e ⊢
    generalize (s.workers.map Worker.counted).sum = S0 at e h0
    simp [Worker.counted, hr, hpc] at e
    simp only at h0 ⊢
    omega
  | wRead w hw hr hpc =>
    have e := sum_map_set Worker.counted hw { w with pc := .wWrite, tmp := s.shared_data }
    have h0 := hI.cnt
    generalize ((s.workers.set k { w with pc := .wWrite, tmp := s.shared_data }).map Worker.counted).sum = S at e ⊢
    generalize (s.workers.map Worker.counted).sum = S0 at e h0
    simp [Worker.counted, hr, hpc] at e
    simp only at h0 ⊢
    omega
  | wWrite w hw hr hpc =>
    have e := sum_map_set Worker.counted hw { w with pc := .wPrint }
    have h0 := hI.cnt
    generalize ((s.workers.set k { w with pc := .wPrint }).map Worker.counted).sum = S at e ⊢
    generalize (s.workers.map Worker.counted).sum = S0 at e h0
    simp [Worker.counted, hr, hpc] at e
    simp only at h0 ⊢
    omega
  | wPrint w hw hr hpc =>
    have e := sum_map_set Worker.counted hw { w with pc := .wRelease }
    have h0 := hI.cnt
    generalize ((s.workers.set k { w with pc := .wRelease }).map Worker.counted).sum = S at e ⊢
    generalize (s.workers.map Worker.counted).sum = S0 at e h0
    simp [Worker.counted, hr, hpc] at e
    simp only at h0 ⊢
    omega
  | wRelease w hw hr hpc =>
    have e := sum_map_set Worker.counted hw { w with i := w.i + 1, pc := .loopHead }
    have h0 := hI.cnt
    generalize ((s.workers.set k { w with i := w.i + 1, pc := .loopHead }).map Worker.counted).sum = S at e ⊢
    generalize (s.workers.map Worker.counted).sum = S0 at e h0
    simp [Worker.counted, hr, hpc] at e
    simp only at h0 ⊢
    omega

theorem sum_step (s : State) (k : Nat) (t : State) (hI : GateInv s) (h : step s k = some t) :
    t.shared_data = (((t.workers.map Worker.written).sum : Nat) : Int) := by
  cases rw_step_sound s k t h with
  | rLockEntry w hw hr hpc hi hm =>
    have e := sum_map_set Worker.written hw { w with pc := .entryInc }
    have h0 := hI.sum
    generalize ((s.workers.set k { w with pc := .entryInc }).map Worker.written).sum = S at e ⊢
    generalize (s.workers.map Worker.written).sum = S0 at e h0
    simp [Worker.written, hr, hpc] at e
    simp only at h0 ⊢
    omega
  | rInc w hw hr hpc =>
    have e := sum_map_set Worker.written hw { w with pc := .entryTest }
    have h0 := hI.sum
    generalize ((s.workers.set k { w with pc := .entryTest }).map Worker.written).sum = S at e ⊢
    generalize (s.workers.map Worker.written).sum = S0 at e h0
    simp [Worker.written, hr, hpc] at e
    simp only at h0 ⊢
    omega
  | rTestFirst w hw hr hpc hc =>
    have e := sum_map_set Worker.written hw { w with pc := .entryLockW }
    have h0 := hI.sum
    generalize ((s.workers.set k { w with pc := .entryLockW }).map Worker.written).sum = S at e ⊢
    generalize (s.workers.map Worker.written).sum = S0 at e h0
    simp [Worker.written, hr, hpc] at e
    simp only at h0 ⊢
    omega
  | rTestMore w hw hr hpc hc =>
    have e := sum_map_set Worker.written hw { w with pc := .entryRelease }
    have h0 := hI.sum
    generalize ((s.workers.set k { w with pc := .entryRelease }).map Worker.written).sum = S at e ⊢
    generalize (s.workers.map Worker.written).sum = S0 at e h0
    simp [Worker.written, hr, hpc] at e
    simp only at h0 ⊢
    omega
  | rLockW w hw hr hpc hm =>
    have e := sum_map_set Worker.written hw { w with pc := .entryRelease }
    have h0 := hI.sum
    generalize ((s.workers.set k { w with pc := .entryRelease }).map Worker.written).sum = S at e ⊢
    generalize (s.workers.map Worker.written).sum = S0 at e h0
    simp [Worker.written, hr, hpc] at e
    simp only at h0 ⊢
    omega
  | rReleaseEntry w hw hr hpc =>
    have e := sum_map_set Worker.written hw { w with pc := .reading }
    have h0 := hI.sum
    generalize ((s.workers.set k { w with pc := .reading }).map Worker.written).sum = S at e ⊢
    generalize (s.workers.map Worker.written).sum = S0 at e h0
    simp [Worker.written, hr, hpc] at e
    simp only at h0 ⊢
    omega
  | rRead w hw hr hpc =>
    have e := sum_map_set Worker.written hw { w with pc := .exitLock, tmp := s.shared_data }
    have h0 := hI.sum
    generalize ((s.workers.set k { w with pc := .exitLock, tmp := s.shared_data }).map Worker.written).sum = S at e ⊢
    generalize (s.workers.map Worker.written).sum = S0 at e h0
    simp [Worker.written, hr, hpc] at e
    simp only at h0 ⊢
    omega
  | rLockExit w hw hr hpc hm =>
    have e := sum_map_set Worker.written hw { w with pc := .exitDec }
    have h0 := hI.sum
    generalize ((s.workers.set k { w with pc := .exitDec }).map Worker.written).sum = S at e ⊢
    generalize (s.workers.map Worker.written).sum = S0 at e h0
    simp [Worker.written, hr, hpc] at e
    simp only at h0 ⊢
    omega
  | rDec w hw hr hpc =>
    have e := sum_map_set Worker.written hw { w with pc := .exitTest }
    have h0 := hI.sum
    generalize ((s.workers.set k { w with pc := .exitTest }).map Worker.written).sum = S at e ⊢
    generalize (s.workers.map Worker.written).sum = S0 at e h0
    simp [Worker.written, hr, hpc] at e
    simp only at h0 ⊢
    omega
  | rTestLast w hw hr hpc hc =>
    have e := sum_map_set Worker.written hw { w with pc := .exitUnlockW }
    have h0 := hI.sum
    generalize ((s.workers.set k { w with pc := .exitUnlockW }).map Worker.written).sum = S at e ⊢
    generalize (s.workers.map Worker.written).sum = S0 at e h0
    simp [Worker.written, hr, hpc] at e
    simp only at h0 ⊢
    omega
  | rTestNotLast w hw hr hpc hc =>
    have e := sum_map_set Worker.written hw { w with pc := .exitRelease }
    have h0 := hI.sum
    generalize ((s.workers.set k { w with pc := .exitRelease }).map Worker.written).sum = S at e ⊢
    generalize (s.workers.map Worker.written).sum = S0 at e h0
    simp [Worker.written, hr, hpc] at e
    simp only at h0 ⊢
    omega
  | rUnlockW w hw hr hpc =>
    have e := sum_map_set Worker.written hw { w with pc := .exitRelease }
    have h0 := hI.sum
    generalize ((s.workers.set k { w with pc := .exitRelease }).map Worker.written).sum = S at e ⊢
    generalize (s.workers.map Worker.written).sum = S0 at e h0
    simp [Worker.written, hr, hpc] at e
    simp only at h0 ⊢
    omega
  | rReleaseExit w hw hr hpc =>
    have e := sum_map_set Worker.written hw { w with i := w.i + 1, pc := .loopHead }
    have h0 := hI.sum
    generalize ((s.workers.set k { w with i := w.i + 1, pc := .loopHead }).map Worker.written).sum = S at e ⊢
    generalize (s.workers.map Worker.written).sum = S0 at e h0
    simp [Worker.written, hr, hpc] at e
    simp only at h0 ⊢
    omega
  | wLock w hw hr hpc hi hm =>
    have e := sum_map_set Worker.written hw { w with pc := .wRead }
    have h0 := hI.sum
    generalize ((s.workers.set k { w with pc := .wRead }).map Worker.written).sum = S at e ⊢
    generalize (s.workers.map Worker.written).sum = S0 at e h0
    simp [Worker.written, hr, hpc] at e
    simp only at h0 ⊢
    omega
  | wRead w hw hr hpc =>
    have e := sum_map_set Worker.written hw { w with pc := .wWrite, tmp := s.shared_data }
    have h0 := hI.sum
    generalize ((s.workers.set k { w with pc := .wWrite, tmp := s.shared_data }).map Worker.written).sum = S at e ⊢
    generalize (s.workers.map Worker.written).sum = S0 at e h0
    simp [Worker.written, hr, hpc] at e
    simp only at h0 ⊢
    omega
  | wWrite w hw hr hpc =>
    have e := sum_map_set Worker.written hw { w with pc := .wPrint }
    have h0 := hI.sum
    have h1 := hI.tmp k w hw hr hpc
    generalize ((s.workers.set k { w with pc := .wPrint }).map Worker.written).sum = S at e ⊢
    generalize (s.workers.map Worker.written).sum = S0 at e h0
    simp [Worker.written, hr, hpc] at e
    simp only at h0 ⊢
    omega
  | wPrint w hw hr hpc =>
    have e := sum_map_set Worker.written hw { w with pc := .wRelease }
    have h0 := hI.sum
    generalize ((s.workers.set k { w with pc := .wRelease }).map Worker.written).sum = S at e ⊢
    generalize (s.workers.map Worker.written).sum = S0 at e h0
    simp [Worker.written, hr, hpc] at e
    simp only at h0 ⊢
    omega
  | wRelease w hw hr hpc =>
    have e := sum_map_set Worker.written hw { w with i := w.i + 1, pc := .loopHead }
    have h0 := hI.sum
    generalize ((s.workers.set k { w with i := w.i + 1, pc := .loopHead }).map Worker.written).sum = S at e ⊢
    generalize (s.workers.map Worker.written).sum = S0 at e h0
    simp [Worker.written, hr, hpc] at e
    simp only at h0 ⊢
    omega

/-- At most one thread owns `read_count_mutex`. -/
theorem rcm_unique (s : State) (hI : GateInv s) (j k : Nat) (x w : Worker)
    (hj : s.workers[j]? = some x) (hx : x.holdsRcm = true)
    (hk : s.workers[k]? = some w) (hw : w.holdsRcm = true) : j = k := by
  have h1 := hI.rcmOwn j x hj hx
  have h2 := hI.rcmOwn k w hk hw
  rw [h1] at h2
  simpa using h2

/-- At most one writer is inside its critical section. -/
theorem writing_unique (s : State) (hI : GateInv s) (j k : Nat) (x w : Worker)
    (hj : s.workers[j]? = some x) (hx : x.writing = true)
    (hk : s.workers[k]? = some w) (hw : w.writing = true) : j = k := by
  have h1 := hI.wOwn j x hj hx
  have h2 := hI.wOwn k w hk hw
  rw [h1] at h2
  simpa using h2

/-- While `write_mutex` is held on behalf of readers, no writer is inside its critical
section. -/
theorem covered_not_writing (s : State) (hI : GateInv s) (j k : Nat) (x w : Worker)
    (hj : s.workers[j]? = some x) (hx : x.covered = true)
    (hk : s.workers[k]? = some w) (hw : w.writing = true) : False := by
  obtain ⟨m, y, hm, hy, hyr⟩ := hI.gate j x hj hx
  have h2 := hI.wOwn k w hk hw
  rw [hm] at h2
  simp only [Option.some.injEq] at h2
  subst h2
  rw [hk] at hy
  simp only [Option.some.injEq] at hy
  subst hy
  simp [Worker.writing, hyr] at hw

theorem rcmOwn_step (s : State) (k : Nat) (t : State) (hI : GateInv s)
    (h : step s k = some t) :
    ∀ (j : Nat) (x : Worker), t.workers[j]? = some x → x.holdsRcm = true →
      t.read_count_mutex = some j := by
  cases rw_step_sound s k t h with
  | rLockEntry w hw hr hpc hi hm =>
    intro j x hj hx
    simp only [lookup_set hw] at hj
    split at hj
    · rename_i hjk
      simp only [Option.some.injEq] at hj
      subst hj
      subst hjk
      first
        | rfl
        | (refine hI.rcmOwn _ w hw ?_
           simp [Worker.holdsRcm, hr, hpc]
           done)
        | (exfalso
           simp [Worker.holdsRcm, hr] at hx
           done)
    · rename_i hjk
      have h1 := hI.rcmOwn j x hj hx
      first
        | exact h1
        | (rw [hm] at h1
           exact absurd h1 (by simp))
        | (refine absurd (rcm_unique s hI j k x w hj hx hw ?_) hjk
           simp [Worker.holdsRcm, hr, hpc]
           done)
  | rInc w hw hr hpc =>
    intro j x hj hx
    simp only [lookup_set hw] at hj
    split at hj
    · rename_i hjk
      simp only [Option.some.injEq] at hj
      subst hj
      subst hjk
      first
        | rfl
        | (refine hI.rcmOwn _ w hw ?_
           simp [Worker.holdsRcm, hr, hpc]
           done)
        | (exfalso
           simp [Worker.holdsRcm, hr] at hx
           done)
    · rename_i hjk
      have h1 := hI.rcmOwn j x hj hx
      first
        | exact h1
        | (rw [hm] at h1
           exact absurd h1 (by simp))
        | (refine absurd (rcm_unique s hI j k x w hj hx hw ?_) hjk
           simp [Worker.holdsRcm, hr, hpc]
           done)
  | rTestFirst w hw hr hpc hc =>
    intro j x hj hx
    simp only [lookup_set hw] at hj
    split at hj
    · rename_i hjk
      simp only [Option.some.injEq] at hj
      subst hj
      subst hjk
      first
        | rfl
        | (refine hI.rcmOwn _ w hw ?_
           simp [Worker.holdsRcm, hr, hpc]
           done)
        | (exfalso
           simp [Worker.holdsRcm, hr] at hx
           done)
    · rename_i hjk
      have h1 := hI.rcmOwn j x hj hx
      first
        | exact h1
        | (rw [hm] at h1
           exact absurd h1 (by simp))
        | (refine absurd (rcm_unique s hI j k x w hj hx hw ?_) hjk
           simp [Worker.holdsRcm, hr, hpc]
           done)
  | rTestMore w hw hr hpc hc =>
    intro j x hj hx
    simp only [lookup_set hw] at hj
    split at hj
    · rename_i hjk
      simp only [Option.some.injEq] at hj
      subst hj
      subst hjk
      first
        | rfl
        | (refine hI.rcmOwn _ w hw ?_
           simp [Worker.holdsRcm, hr, hpc]
           done)
        | (exfalso
           simp [Worker.holdsRcm, hr] at hx
           done)
    · rename_i hjk
      have h1 := hI.rcmOwn j x hj hx
      first
        | exact h1
        | (rw [hm] at h1
           exact absurd h1 (by simp))
        | (refine absurd (rcm_unique s hI j k x w hj hx hw ?_) hjk
           simp [Worker.holdsRcm, hr, hpc]
           done)
  | rLockW w hw hr hpc hm =>
    intro j x hj hx
    simp only [lookup_set hw] at hj
    split at hj
    · rename_i hjk
      simp only [Option.some.injEq] at hj
      subst hj
      subst hjk
      first
        | rfl
        | (refine hI.rcmOwn _ w hw ?_
           simp [Worker.holdsRcm, hr, hpc]
           done)
        | (exfalso
           simp [Worker.holdsRcm, hr] at hx
           done)
    · rename_i hjk
      have h1 := hI.rcmOwn j x hj hx
      first
        | exact h1
        | (rw [hm] at h1
           exact absurd h1 (by simp))
        | (refine absurd (rcm_unique s hI j k x w hj hx hw ?_) hjk
           simp [Worker.holdsRcm, hr, hpc]
           done)
  | rReleaseEntry w hw hr hpc =>
    intro j x hj hx
    simp only [lookup_set hw] at hj
    split at hj
    · rename_i hjk
      simp only [Option.some.injEq] at hj
      subst hj
      subst hjk
      first
        | rfl
        | (refine hI.rcmOwn _ w hw ?_
           simp [Worker.holdsRcm, hr, hpc]
           done)
        | (exfalso
           simp [Worker.holdsRcm, hr] at hx
           done)
    · rename_i hjk
      have h1 := hI.rcmOwn j x hj hx
      first
        | exact h1
        | (rw [hm] at h1
           exact absurd h1 (by simp))
        | (refine absurd (rcm_unique s hI j k x w hj hx hw ?_) hjk
           simp [Worker.holdsRcm, hr, hpc]
           done)
  | rRead w hw hr hpc =>
    intro j x hj hx
    simp only [lookup_set hw] at hj
    split at hj
    · rename_i hjk
      simp only [Option.some.injEq] at hj
      subst hj
      subst hjk
      first
        | rfl
        | (refine hI.rcmOwn _ w hw ?_
           simp [Worker.holdsRcm, hr, hpc]
           done)
        | (exfalso
           simp [Worker.holdsRcm, hr] at hx
           done)
    · rename_i hjk
      have h1 := hI.rcmOwn j x hj hx
      first
        | exact h1
        | (rw [hm] at h1
           exact absurd h1 (by simp))
        | (refine absurd (rcm_unique s hI j k x w hj hx hw ?_) hjk
           simp [Worker.holdsRcm, hr, hpc]
           done)
  | rLockExit w hw hr hpc hm =>
    intro j x hj hx
    simp only [lookup_set hw] at hj
    split at hj
    · rename_i hjk
      simp only [Option.some.injEq] at hj
      subst hj
      subst hjk
      first
        | rfl
        | (refine hI.rcmOwn _ w hw ?_
           simp [Worker.holdsRcm, hr, hpc]
           done)
        | (exfalso
           simp [Worker.holdsRcm, hr] at hx
           done)
    · rename_i hjk
      have h1 := hI.rcmOwn j x hj hx
      first
        | exact h1
        | (rw [hm] at h1
           exact absurd h1 (by simp))
        | (refine absurd (rcm_unique s hI j k x w hj hx hw ?_) hjk
           simp [Worker.holdsRcm, hr, hpc]
           done)
  | rDec w hw hr hpc =>
    intro j x hj hx
    simp only [lookup_set hw] at hj
    split at hj
    · rename_i hjk
      simp only [Option.some.injEq] at hj
      subst hj
      subst hjk
      first
        | rfl
        | (refine hI.rcmOwn _ w hw ?_
           simp [Worker.holdsRcm, hr, hpc]
           done)
        | (exfalso
           simp [Worker.holdsRcm, hr] at hx
           done)
    · rename_i hjk
      have h1 := hI.rcmOwn j x hj hx
      first
        | exact h1
        | (rw [hm] at h1
           exact absurd h1 (by simp))
        | (refine absurd (rcm_unique s hI j k x w hj hx hw ?_) hjk
           simp [Worker.holdsRcm, hr, hpc]
           done)
  | rTestLast w hw hr hpc hc =>
    intro j x hj hx
    simp only [lookup_set hw] at hj
    split at hj
    · rename_i hjk
      simp only [Option.some.injEq] at hj
      subst hj
      subst hjk
      first
        | rfl
        | (refine hI.rcmOwn _ w hw ?_
           simp [Worker.holdsRcm, hr, hpc]
           done)
        | (exfalso
           simp [Worker.holdsRcm, hr] at hx
           done)
    · rename_i hjk
      have h1 := hI.rcmOwn j x hj hx
      first
        | exact h1
        | (rw [hm] at h1
           exact absurd h1 (by simp))
        | (refine absurd (rcm_unique s hI j k x w hj hx hw ?_) hjk
           simp [Worker.holdsRcm, hr, hpc]
           done)
  | rTestNotLast w hw hr hpc hc =>
    intro j x hj hx
    simp only [lookup_set hw] at hj
    split at hj
    · rename_i hjk
      simp only [Option.some.injEq] at hj
      subst hj
      subst hjk
      first
        | rfl
        | (refine hI.rcmOwn _ w hw ?_
           simp [Worker.holdsRcm, hr, hpc]
           done)
        | (exfalso
           simp [Worker.holdsRcm, hr] at hx
           done)
    · rename_i hjk
      have h1 := hI.rcmOwn j x hj hx
      first
        | exact h1
        | (rw [hm] at h1
           exact absurd h1 (by simp))
        | (refine absurd (rcm_unique s hI j k x w hj hx hw ?_) hjk
           simp [Worker.holdsRcm, hr, hpc]
           done)
  | rUnlockW w hw hr hpc =>
    intro j x hj hx
    simp only [lookup_set hw] at hj
    split at hj
    · rename_i hjk
      simp only [Option.some.injEq] at hj
      subst hj
      subst hjk
      first
        | rfl
        | (refine hI.rcmOwn _ w hw ?_
           simp [Worker.holdsRcm, hr, hpc]
           done)
        | (exfalso
           simp [Worker.holdsRcm, hr] at hx
           done)
    · rename_i hjk
      have h1 := hI.rcmOwn j x hj hx
      first
        | exact h1
        | (rw [hm] at h1
           exact absurd h1 (by simp))
        | (refine absurd (rcm_unique s hI j k x w hj hx hw ?_) hjk
           simp [Worker.holdsRcm, hr, hpc]
           done)
  | rReleaseExit w hw hr hpc =>
    intro j x hj hx
    simp only [lookup_set hw] at hj
    split at hj
    · rename_i hjk
      simp only [Option.some.injEq] at hj
      subst hj
      subst hjk
      first
        | rfl
        | (refine hI.rcmOwn _ w hw ?_
           simp [Worker.holdsRcm, hr, hpc]
           done)
        | (exfalso
           simp [Worker.holdsRcm, hr] at hx
           done)
    · rename_i hjk
      have h1 := hI.rcmOwn j x hj hx
      first
        | exact h1
        | (rw [hm] at h1
           exact absurd h1 (by simp))
        | (refine absurd (rcm_unique s hI j k x w hj hx hw ?_) hjk
           simp [Worker.holdsRcm, hr, hpc]
           done)
  | wLock w hw hr hpc hi hm =>
    intro j x hj hx
    simp only [lookup_set hw] at hj
    split at hj
    · rename_i hjk
      simp only [Option.some.injEq] at hj
      subst hj
      subst hjk
      first
        | rfl
        | (refine hI.rcmOwn _ w hw ?_
           simp [Worker.holdsRcm, hr, hpc]
           done)
        | (exfalso
           simp [Worker.holdsRcm, hr] at hx
           done)
    · rename_i hjk
      have h1 := hI.rcmOwn j x hj hx
      first
        | exact h1
        | (rw [hm] at h1
           exact absurd h1 (by simp))
        | (refine absurd (rcm_unique s hI j k x w hj hx hw ?_) hjk
           simp [Worker.holdsRcm, hr, hpc]
           done)
  | wRead w hw hr hpc =>
    intro j x hj hx
    simp only [lookup_set hw] at hj
    split at hj
    · rename_i hjk
      simp only [Option.some.injEq] at hj
      subst hj
      subst hjk
      first
        | rfl
        | (refine hI.rcmOwn _ w hw ?_
           simp [Worker.holdsRcm, hr, hpc]
           done)
        | (exfalso
           simp [Worker.holdsRcm, hr] at hx
           done)
    · rename_i hjk
      have h1 := hI.rcmOwn j x hj hx
      first
        | exact h1
        | (rw [hm] at h1
           exact absurd h1 (by simp))
        | (refine absurd (rcm_unique s hI j k x w hj hx hw ?_) hjk
           simp [Worker.holdsRcm, hr, hpc]
           done)
  | wWrite w hw hr hpc =>
    intro j x hj hx
    simp only [lookup_set hw] at hj
    split at hj
    · rename_i hjk
      simp only [Option.some.injEq] at hj
      subst hj
      subst hjk
      first
        | rfl
        | (refine hI.rcmOwn _ w hw ?_
           simp [Worker.holdsRcm, hr, hpc]
           done)
        | (exfalso
           simp [Worker.holdsRcm, hr] at hx
           done)
    · rename_i hjk
      have h1 := hI.rcmOwn j x hj hx
      first
        | exact h1
        | (rw [hm] at h1
           exact absurd h1 (by simp))
        | (refine absurd (rcm_unique s hI j k x w hj hx hw ?_) hjk
           simp [Worker.holdsRcm, hr, hpc]
           done)
  | wPrint w hw hr hpc =>
    intro j x hj hx
    simp only [lookup_set hw] at hj
    split at hj
    · rename_i hjk
      simp only [Option.some.injEq] at hj
      subst hj
      subst hjk
      first
        | rfl
        | (refine hI.rcmOwn _ w hw ?_
           simp [Worker.holdsRcm, hr, hpc]
           done)
        | (exfalso
           simp [Worker.holdsRcm, hr] at hx
           done)
    · rename_i hjk
      have h1 := hI.rcmOwn j x hj hx
      first
        | exact h1
        | (rw [hm] at h1
           exact absurd h1 (by simp))
        | (refine absurd (rcm_unique s hI j k x w hj hx hw ?_) hjk
           simp [Worker.holdsRcm, hr, hpc]
           done)
  | wRelease w hw hr hpc =>
    intro j x hj hx
    simp only [lookup_set hw] at hj
    split at hj
    · rename_i hjk
      simp only [Option.some.injEq] at hj
      subst hj
      subst hjk
      first
        | rfl
        | (refine hI.rcmOwn _ w hw ?_
           simp [Worker.holdsRcm, hr, hpc]
           done)
        | (exfalso
           simp [Worker.holdsRcm, hr] at hx
           done)
    · rename_i hjk
      have h1 := hI.rcmOwn j x hj hx
      first
        | exact h1
        | (rw [hm] at h1
           exact absurd h1 (by simp))
        | (refine absurd (rcm_unique s hI j k x w hj hx hw ?_) hjk
           simp [Worker.holdsRcm, hr, hpc]
           done)

theorem wOwn_step (s : State) (k : Nat) (t : State) (hI : GateInv s)
    (h : step s k = some t) :
    ∀ (j : Nat) (x : Worker), t.workers[j]? = some x → x.writing = true →
      t.write_mutex = some j := by
  cases rw_step_sound s k t h with
  | rLockEntry w hw hr hpc hi hm =>
    intro j x hj hx
    simp only [lookup_set hw] at hj
    split at hj
    · rename_i hjk
      simp only [Option.some.injEq] at hj
      subst hj
      subst hjk
      first
        | rfl
        | (refine hI.wOwn _ w hw ?_
           simp [Worker.writing, hr, hpc]
           done)
        | (exfalso
           simp [Worker.writing, hr] at hx
           done)
    · rename_i hjk
      have h1 := hI.wOwn j x hj hx
      first
        | exact h1
        | (rw [hm] at h1
           exact absurd h1 (by simp))
        | (refine absurd (writing_unique s hI j k x w hj hx hw ?_) hjk
           simp [Worker.writing, hr, hpc]
           done)
        | (exfalso
           refine covered_not_writing s hI k j w x hw ?_ hj hx
           simp [Worker.covered, hr, hpc]
           done)
  | rInc w hw hr hpc =>
    intro j x hj hx
    simp only [lookup_set hw] at hj
    split at hj
    · rename_i hjk
      simp only [Option.some.injEq] at hj
      subst hj
      subst hjk
      first
        | rfl
        | (refine hI.wOwn _ w hw ?_
           simp [Worker.writing, hr, hpc]
           done)
        | (exfalso
           simp [Worker.writing, hr] at hx
           done)
    · rename_i hjk
      have h1 := hI.wOwn j x hj hx
      first
        | exact h1
        | (rw [hm] at h1
           exact absurd h1 (by simp))
        | (refine absurd (writing_unique s hI j k x w hj hx hw ?_) hjk
           simp [Worker.writing, hr, hpc]
           done)
        | (exfalso
           refine covered_not_writing s hI k j w x hw ?_ hj hx
           simp [Worker.covered, hr, hpc]
           done)
  | rTestFirst w hw hr hpc hc =>
    intro j x hj hx
    simp only [lookup_set hw] at hj
    split at hj
    · rename_i hjk
      simp only [Option.some.injEq] at hj
      subst hj
      subst hjk
      first
        | rfl
        | (refine hI.wOwn _ w hw ?_
           simp [Worker.writing, hr, hpc]
           done)
        | (exfalso
           simp [Worker.writing, hr] at hx
           done)
    · rename_i hjk
      have h1 := hI.wOwn j x hj hx
      first
        | exact h1
        | (rw [hm] at h1
           exact absurd h1 (by simp))
        | (refine absurd (writing_unique s hI j k x w hj hx hw ?_) hjk
           simp [Worker.writing, hr, hpc]
           done)
        | (exfalso
           refine covered_not_writing s hI k j w x hw ?_ hj hx
           simp [Worker.covered, hr, hpc]
           done)
  | rTestMore w hw hr hpc hc =>
    intro j x hj hx
    simp only [lookup_set hw] at hj
    split at hj
    · rename_i hjk
      simp only [Option.some.injEq] at hj
      subst hj
      subst hjk
      first
        | rfl
        | (refine hI.wOwn _ w hw ?_
           simp [Worker.writing, hr, hpc]
           done)
        | (exfalso
           simp [Worker.writing, hr] at hx
           done)
    · rename_i hjk
      have h1 := hI.wOwn j x hj hx
      first
        | exact h1
        | (rw [hm] at h1
           exact absurd h1 (by simp))
        | (refine absurd (writing_unique s hI j k x w hj hx hw ?_) hjk
           simp [Worker.writing, hr, hpc]
           done)
        | (exfalso
           refine covered_not_writing s hI k j w x hw ?_ hj hx
           simp [Worker.covered, hr, hpc]
           done)
  | rLockW w hw hr hpc hm =>
    intro j x hj hx
    simp only [lookup_set hw] at hj
    split at hj
    · rename_i hjk
      simp only [Option.some.injEq] at hj
      subst hj
      subst hjk
      first
        | rfl
        | (refine hI.wOwn _ w hw ?_
           simp [Worker.writing, hr, hpc]
           done)
        | (exfalso
           simp [Worker.writing, hr] at hx
           done)
    · rename_i hjk
      have h1 := hI.wOwn j x hj hx
      first
        | exact h1
        | (rw [hm] at h1
           exact absurd h1 (by simp))
        | (refine absurd (writing_unique s hI j k x w hj hx hw ?_) hjk
           simp [Worker.writing, hr, hpc]
           done)
        | (exfalso
           refine covered_not_writing s hI k j w x hw ?_ hj hx
           simp [Worker.covered, hr, hpc]
           done)
  | rReleaseEntry w hw hr hpc =>
    intro j x hj hx
    simp only [lookup_set hw] at hj
    split at hj
    · rename_i hjk
      simp only [Option.some.injEq] at hj
      subst hj
      subst hjk
      first
        | rfl
        | (refine hI.wOwn _ w hw ?_
           simp [Worker.writing, hr, hpc]
           done)
        | (exfalso
           simp [Worker.writing, hr] at hx
           done)
    · rename_i hjk
      have h1 := hI.wOwn j x hj hx
      first
        | exact h1
        | (rw [hm] at h1
           exact absurd h1 (by simp))
        | (refine absurd (writing_unique s hI j k x w hj hx hw ?_) hjk
           simp [Worker.writing, hr, hpc]
           done)
        | (exfalso
           refine covered_not_writing s hI k j w x hw ?_ hj hx
           simp [Worker.covered, hr, hpc]
           done)
  | rRead w hw hr hpc =>
    intro j x hj hx
    simp only [lookup_set hw] at hj
    split at hj
    · rename_i hjk
      simp only [Option.some.injEq] at hj
      subst hj
      subst hjk
      first
        | rfl
        | (refine hI.wOwn _ w hw ?_
           simp [Worker.writing, hr, hpc]
           done)
        | (exfalso
           simp [Worker.writing, hr] at hx
           done)
    · rename_i hjk
      have h1 := hI.wOwn j x hj hx
      first
        | exact h1
        | (rw [hm] at h1
           exact absurd h1 (by simp))
        | (refine absurd (writing_unique s hI j k x w hj hx hw ?_) hjk
           simp [Worker.writing, hr, hpc]
           done)
        | (exfalso
           refine covered_not_writing s hI k j w x hw ?_ hj hx
           simp [Worker.covered, hr, hpc]
           done)
  | rLockExit w hw hr hpc hm =>
    intro j x hj hx
    simp only [lookup_set hw] at hj
    split at hj
    · rename_i hjk
      simp only [Option.some.injEq] at hj
      subst hj
      subst hjk
      first
        | rfl
        | (refine hI.wOwn _ w hw ?_
           simp [Worker.writing, hr, hpc]
           done)
        | (exfalso
           simp [Worker.writing, hr] at hx
           done)
    · rename_i hjk
      have h1 := hI.wOwn j x hj hx
      first
        | exact h1
        | (rw [hm] at h1
           exact absurd h1 (by simp))
        | (refine absurd (writing_unique s hI j k x w hj hx hw ?_) hjk
           simp [Worker.writing, hr, hpc]
           done)
        | (exfalso
           refine covered_not_writing s hI k j w x hw ?_ hj hx
           simp [Worker.covered, hr, hpc]
           done)
  | rDec w hw hr hpc =>
    intro j x hj hx
    simp only [lookup_set hw] at hj
    split at hj
    · rename_i hjk
      simp only [Option.some.injEq] at hj
      subst hj
      subst hjk
      first
        | rfl
        | (refine hI.wOwn _ w hw ?_
           simp [Worker.writing, hr, hpc]
           done)
        | (exfalso
           simp [Worker.writing, hr] at hx
           done)
    · rename_i hjk
      have h1 := hI.wOwn j x hj hx
      first
        | exact h1
        | (rw [hm] at h1
           exact absurd h1 (by simp))
        | (refine absurd (writing_unique s hI j k x w hj hx hw ?_) hjk
           simp [Worker.writing, hr, hpc]
           done)
        | (exfalso
           refine covered_not_writing s hI k j w x hw ?_ hj hx
           simp [Worker.covered, hr, hpc]
           done)
  | rTestLast w hw hr hpc hc =>
    intro j x hj hx
    simp only [lookup_set hw] at hj
    split at hj
    · rename_i hjk
      simp only [Option.some.injEq] at hj
      subst hj
      subst hjk
      first
        | rfl
        | (refine hI.wOwn _ w hw ?_
           simp [Worker.writing, hr, hpc]
           done)
        | (exfalso
           simp [Worker.writing, hr] at hx
           done)
    · rename_i hjk
      have h1 := hI.wOwn j x hj hx
      first
        | exact h1
        | (rw [hm] at h1
           exact absurd h1 (by simp))
        | (refine absurd (writing_unique s hI j k x w hj hx hw ?_) hjk
           simp [Worker.writing, hr, hpc]
           done)
        | (exfalso
           refine covered_not_writing s hI k j w x hw ?_ hj hx
           simp [Worker.covered, hr, hpc]
           done)
  | rTestNotLast w hw hr hpc hc =>
    intro j x hj hx
    simp only [lookup_set hw] at hj
    split at hj
    · rename_i hjk
      simp only [Option.some.injEq] at hj
      subst hj
      subst hjk
      first
        | rfl
        | (refine hI.wOwn _ w hw ?_
           simp [Worker.writing, hr, hpc]
           done)
        | (exfalso
           simp [Worker.writing, hr] at hx
           done)
    · rename_i hjk
      have h1 := hI.wOwn j x hj hx
      first
        | exact h1
        | (rw [hm] at h1
           exact absurd h1 (by simp))
        | (refine absurd (writing_unique s hI j k x w hj hx hw ?_) hjk
           simp [Worker.writing, hr, hpc]
           done)
        | (exfalso
           refine covered_not_writing s hI k j w x hw ?_ hj hx
           simp [Worker.covered, hr, hpc]
           done)
  | rUnlockW w hw hr hpc =>
    intro j x hj hx
    simp only [lookup_set hw] at hj
    split at hj
    · rename_i hjk
      simp only [Option.some.injEq] at hj
      subst hj
      subst hjk
      first
        | rfl
        | (refine hI.wOwn _ w hw ?_
           simp [Worker.writing, hr, hpc]
           done)
        | (exfalso
           simp [Worker.writing, hr] at hx
           done)
    · rename_i hjk
      have h1 := hI.wOwn j x hj hx
      first
        | exact h1
        | (rw [hm] at h1
           exact absurd h1 (by simp))
        | (refine absurd (writing_unique s hI j k x w hj hx hw ?_) hjk
           simp [Worker.writing, hr, hpc]
           done)
        | (exfalso
           refine covered_not_writing s hI k j w x hw ?_ hj hx
           simp [Worker.covered, hr, hpc]
           done)
  | rReleaseExit w hw hr hpc =>
    intro j x hj hx
    simp only [lookup_set hw] at hj
    split at hj
    · rename_i hjk
      simp only [Option.some.injEq] at hj
      subst hj
      subst hjk
      first
        | rfl
        | (refine hI.wOwn _ w hw ?_
           simp [Worker.writing, hr, hpc]
           done)
        | (exfalso
           simp [Worker.writing, hr] at hx
           done)
    · rename_i hjk
      have h1 := hI.wOwn j x hj hx
      first
        | exact h1
        | (rw [hm] at h1
           exact absurd h1 (by simp))
        | (refine absurd (writing_unique s hI j k x w hj hx hw ?_) hjk
           simp [Worker.writing, hr, hpc]
           done)
        | (exfalso
           refine covered_not_writing s hI k j w x hw ?_ hj hx
           simp [Worker.covered, hr, hpc]
           done)
  | wLock w hw hr hpc hi hm =>
    intro j x hj hx
    simp only [lookup_set hw] at hj
    split at hj
    · rename_i hjk
      simp only [Option.some.injEq] at hj
      subst hj
      subst hjk
      first
        | rfl
        | (refine hI.wOwn _ w hw ?_
           simp [Worker.writing, hr, hpc]
           done)
        | (exfalso
           simp [Worker.writing, hr] at hx
           done)
    · rename_i hjk
      have h1 := hI.wOwn j x hj hx
      first
        | exact h1
        | (rw [hm] at h1
           exact absurd h1 (by simp))
        | (refine absurd (writing_unique s hI j k x w hj hx hw ?_) hjk
           simp [Worker.writing, hr, hpc]
           done)
        | (exfalso
           refine covered_not_writing s hI k j w x hw ?_ hj hx
           simp [Worker.covered, hr, hpc]
           done)
  | wRead w hw hr hpc =>
    intro j x hj hx
    simp only [lookup_set hw] at hj
    split at hj
    · rename_i hjk
      simp only [Option.some.injEq] at hj
      subst hj
      subst hjk
      first
        | rfl
        | (refine hI.wOwn _ w hw ?_
           simp [Worker.writing, hr, hpc]
           done)
        | (exfalso
           simp [Worker.writing, hr] at hx
           done)
    · rename_i hjk
      have h1 := hI.wOwn j x hj hx
      first
        | exact h1
        | (rw [hm] at h1
           exact absurd h1 (by simp))
        | (refine absurd (writing_unique s hI j k x w hj hx hw ?_) hjk
           simp [Worker.writing, hr, hpc]
           done)
        | (exfalso
           refine covered_not_writing s hI k j w x hw ?_ hj hx
           simp [Worker.covered, hr, hpc]
           done)
  | wWrite w hw hr hpc =>
    intro j x hj hx
    simp only [lookup_set hw] at hj
    split at hj
    · rename_i hjk
      simp only [Option.some.injEq] at hj
      subst hj
      subst hjk
      first
        | rfl
        | (refine hI.wOwn _ w hw ?_
           simp [Worker.writing, hr, hpc]
           done)
        | (exfalso
           simp [Worker.writing, hr] at hx
           done)
    · rename_i hjk
      have h1 := hI.wOwn j x hj hx
      first
        | exact h1
        | (rw [hm] at h1
           exact absurd h1 (by simp))
        | (refine absurd (writing_unique s hI j k x w hj hx hw ?_) hjk
           simp [Worker.writing, hr, hpc]
           done)
        | (exfalso
           refine covered_not_writing s hI k j w x hw ?_ hj hx
           simp [Worker.covered, hr, hpc]
           done)
  | wPrint w hw hr hpc =>
    intro j x hj hx
    simp only [lookup_set hw] at hj
    split at hj
    · rename_i hjk
      simp only [Option.some.injEq] at hj
      subst hj
      subst hjk
      first
        | rfl
        | (refine hI.wOwn _ w hw ?_
           simp [Worker.writing, hr, hpc]
           done)
        | (exfalso
           simp [Worker.writing, hr] at hx
           done)
    · rename_i hjk
      have h1 := hI.wOwn j x hj hx
      first
        | exact h1
        | (rw [hm] at h1
           exact absurd h1 (by simp))
        | (refine absurd (writing_unique s hI j k x w hj hx hw ?_) hjk
           simp [Worker.writing, hr, hpc]
           done)
        | (exfalso
           refine covered_not_writing s hI k j w x hw ?_ hj hx
           simp [Worker.covered, hr, hpc]
           done)
  | wRelease w hw hr hpc =>
    intro j x hj hx
    simp only [lookup_set hw] at hj
    split at hj
    · rename_i hjk
      simp only [Option.some.injEq] at hj
      subst hj
      subst hjk
      first
        | rfl
        | (refine hI.wOwn _ w hw ?_
           simp [Worker.writing, hr, hpc]
           done)
        | (exfalso
           simp [Worker.writing, hr] at hx
           done)
    · rename_i hjk
      have h1 := hI.wOwn j x hj hx
      first
        | exact h1
        | (rw [hm] at h1
           exact absurd h1 (by simp))
        | (refine absurd (writing_unique s hI j k x w hj hx hw ?_) hjk
           simp [Worker.writing, hr, hpc]
           done)
        | (exfalso
           refine covered_not_writing s hI k j w x hw ?_ hj hx
           simp [Worker.covered, hr, hpc]
           done)

theorem first_step (s : State) (k : Nat) (t : State) (hI : GateInv s)
    (h : step s k = some t) :
    ∀ (j : Nat) (x : Worker), t.workers[j]? = some x → x.role = .reader →
      x.pc = .entryLockW → t.read_count = 1 := by
  cases rw_step_sound s k t h with
  | rLockEntry w hw hr hpc hi hm =>
    intro j x hj hxr hxp
    simp only [lookup_set hw] at hj
    split at hj
    · rename_i hjk
      simp only [Option.some.injEq] at hj
      subst hj
      subst hjk
      first
        | (exfalso
           simp at hxp
           done)
        | (exfalso
           simp [hr] at hxr
           done)
        | exact hc
        | rfl
        | exact hI.first _ w hw hr hpc
    · rename_i hjk
      have h1 := hI.first j x hj hxr hxp
      first
        | exact h1
        | (refine absurd (rcm_unique s hI j k x w hj ?_ hw ?_) hjk
           · simp [Worker.holdsRcm, hxr, hxp]
           · simp [Worker.holdsRcm, hr, hpc])
  | rInc w hw hr hpc =>
    intro j x hj hxr hxp
    simp only [lookup_set hw] at hj
    split at hj
    · rename_i hjk
      simp only [Option.some.injEq] at hj
      subst hj
      subst hjk
      first
        | (exfalso
           simp at hxp
           done)
        | (exfalso
           simp [hr] at hxr
           done)
        | exact hc
        | rfl
        | exact hI.first _ w hw hr hpc
    · rename_i hjk
      have h1 := hI.first j x hj hxr hxp
      first
        | exact h1
        | (refine absurd (rcm_unique s hI j k x w hj ?_ hw ?_) hjk
           · simp [Worker.holdsRcm, hxr, hxp]
           · simp [Worker.holdsRcm, hr, hpc])
  | rTestFirst w hw hr hpc hc =>
    intro j x hj hxr hxp
    simp only [lookup_set hw] at hj
    split at hj
    · rename_i hjk
      simp only [Option.some.injEq] at hj
      subst hj
      subst hjk
      first
        | (exfalso
           simp at hxp
           done)
        | (exfalso
           simp [hr] at hxr
           done)
        | exact hc
        | rfl
        | exact hI.first _ w hw hr hpc
    · rename_i hjk
      have h1 := hI.first j x hj hxr hxp
      first
        | exact h1
        | (refine absurd (rcm_unique s hI j k x w hj ?_ hw ?_) hjk
           · simp [Worker.holdsRcm, hxr, hxp]
           · simp [Worker.holdsRcm, hr, hpc])
  | rTestMore w hw hr hpc hc =>
    intro j x hj hxr hxp
    simp only [lookup_set hw] at hj
    split at hj
    · rename_i hjk
      simp only [Option.some.injEq] at hj
      subst hj
      subst hjk
      first
        | (exfalso
           simp at hxp
           done)
        | (exfalso
           simp [hr] at hxr
           done)
        | exact hc
        | rfl
        | exact hI.first _ w hw hr hpc
    · rename_i hjk
      have h1 := hI.first j x hj hxr hxp
      first
        | exact h1
        | (refine absurd (rcm_unique s hI j k x w hj ?_ hw ?_) hjk
           · simp [Worker.holdsRcm, hxr, hxp]
           · simp [Worker.holdsRcm, hr, hpc])
  | rLockW w hw hr hpc hm =>
    intro j x hj hxr hxp
    simp only [lookup_set hw] at hj
    split at hj
    · rename_i hjk
      simp only [Option.some.injEq] at hj
      subst hj
      subst hjk
      first
        | (exfalso
           simp at hxp
           done)
        | (exfalso
           simp [hr] at hxr
           done)
        | exact hc
        | rfl
        | exact hI.first _ w hw hr hpc
    · rename_i hjk
      have h1 := hI.first j x hj hxr hxp
      first
        | exact h1
        | (refine absurd (rcm_unique s hI j k x w hj ?_ hw ?_) hjk
           · simp [Worker.holdsRcm, hxr, hxp]
           · simp [Worker.holdsRcm, hr, hpc])
  | rReleaseEntry w hw hr hpc =>
    intro j x hj hxr hxp
    simp only [lookup_set hw] at hj
    split at hj
    · rename_i hjk
      simp only [Option.some.injEq] at hj
      subst hj
      subst hjk
      first
        | (exfalso
           simp at hxp
           done)
        | (exfalso
           simp [hr] at hxr
           done)
        | exact hc
        | rfl
        | exact hI.first _ w hw hr hpc
    · rename_i hjk
      have h1 := hI.first j x hj hxr hxp
      first
        | exact h1
        | (refine absurd (rcm_unique s hI j k x w hj ?_ hw ?_) hjk
           · simp [Worker.holdsRcm, hxr, hxp]
           · simp [Worker.holdsRcm, hr, hpc])
  | rRead w hw hr hpc =>
    intro j x hj hxr hxp
    simp only [lookup_set hw] at hj
    split at hj
    · rename_i hjk
      simp only [Option.some.injEq] at hj
      subst hj
      subst hjk
      first
        | (exfalso
           simp at hxp
           done)
        | (exfalso
           simp [hr] at hxr
           done)
        | exact hc
        | rfl
        | exact hI.first _ w hw hr hpc
    · rename_i hjk
      have h1 := hI.first j x hj hxr hxp
      first
        | exact h1
        | (refine absurd (rcm_unique s hI j k x w hj ?_ hw ?_) hjk
           · simp [Worker.holdsRcm, hxr, hxp]
           · simp [Worker.holdsRcm, hr, hpc])
  | rLockExit w hw hr hpc hm =>
    intro j x hj hxr hxp
    simp only [lookup_set hw] at hj
    split at hj
    · rename_i hjk
      simp only [Option.some.injEq] at hj
      subst hj
      subst hjk
      first
        | (exfalso
           simp at hxp
           done)
        | (exfalso
           simp [hr] at hxr
           done)
        | exact hc
        | rfl
        | exact hI.first _ w hw hr hpc
    · rename_i hjk
      have h1 := hI.first j x hj hxr hxp
      first
        | exact h1
        | (refine absurd (rcm_unique s hI j k x w hj ?_ hw ?_) hjk
           · simp [Worker.holdsRcm, hxr, hxp]
           · simp [Worker.holdsRcm, hr, hpc])
  | rDec w hw hr hpc =>
    intro j x hj hxr hxp
    simp only [lookup_set hw] at hj
    split at hj
    · rename_i hjk
      simp only [Option.some.injEq] at hj
      subst hj
      subst hjk
      first
        | (exfalso
           simp at hxp
           done)
        | (exfalso
           simp [hr] at hxr
           done)
        | exact hc
        | rfl
        | exact hI.first _ w hw hr hpc
    · rename_i hjk
      have h1 := hI.first j x hj hxr hxp
      first
        | exact h1
        | (refine absurd (rcm_unique s hI j k x w hj ?_ hw ?_) hjk
           · simp [Worker.holdsRcm, hxr, hxp]
           · simp [Worker.holdsRcm, hr, hpc])
  | rTestLast w hw hr hpc hc =>
    intro j x hj hxr hxp
    simp only [lookup_set hw] at hj
    split at hj
    · rename_i hjk
      simp only [Option.some.injEq] at hj
      subst hj
      subst hjk
      first
        | (exfalso
           simp at hxp
           done)
        | (exfalso
           simp [hr] at hxr
           done)
        | exact hc
        | rfl
        | exact hI.first _ w hw hr hpc
    · rename_i hjk
      have h1 := hI.first j x hj hxr hxp
      first
        | exact h1
        | (refine absurd (rcm_unique s hI j k x w hj ?_ hw ?_) hjk
           · simp [Worker.holdsRcm, hxr, hxp]
           · simp [Worker.holdsRcm, hr, hpc])
  | rTestNotLast w hw hr hpc hc =>
    intro j x hj hxr hxp
    simp only [lookup_set hw] at hj
    split at hj
    · rename_i hjk
      simp only [Option.some.injEq] at hj
      subst hj
      subst hjk
      first
        | (exfalso
           simp at hxp
           done)
        | (exfalso
           simp [hr] at hxr
           done)
        | exact hc
        | rfl
        | exact hI.first _ w hw hr hpc
    · rename_i hjk
      have h1 := hI.first j x hj hxr hxp
      first
        | exact h1
        | (refine absurd (rcm_unique s hI j k x w hj ?_ hw ?_) hjk
           · simp [Worker.holdsRcm, hxr, hxp]
           · simp [Worker.holdsRcm, hr, hpc])
  | rUnlockW w hw hr hpc =>
    intro j x hj hxr hxp
    simp only [lookup_set hw] at hj
    split at hj
    · rename_i hjk
      simp only [Option.some.injEq] at hj
      subst hj
      subst hjk
      first
        | (exfalso
           simp at hxp
           done)
        | (exfalso
           simp [hr] at hxr
           done)
        | exact hc
        | rfl
        | exact hI.first _ w hw hr hpc
    · rename_i hjk
      have h1 := hI.first j x hj hxr hxp
      first
        | exact h1
        | (refine absurd (rcm_unique s hI j k x w hj ?_ hw ?_) hjk
           · simp [Worker.holdsRcm, hxr, hxp]
           · simp [Worker.holdsRcm, hr, hpc])
  | rReleaseExit w hw hr hpc =>
    intro j x hj hxr hxp
    simp only [lookup_set hw] at hj
    split at hj
    · rename_i hjk
      simp only [Option.some.injEq] at hj
      subst hj
      subst hjk
      first
        | (exfalso
           simp at hxp
           done)
        | (exfalso
           simp [hr] at hxr
           done)
        | exact hc
        | rfl
        | exact hI.first _ w hw hr hpc
    · rename_i hjk
      have h1 := hI.first j x hj hxr hxp
      first
        | exact h1
        | (refine absurd (rcm_unique s hI j k x w hj ?_ hw ?_) hjk
           · simp [Worker.holdsRcm, hxr, hxp]
           · simp [Worker.holdsRcm, hr, hpc])
  | wLock w hw hr hpc hi hm =>
    intro j x hj hxr hxp
    simp only [lookup_set hw] at hj
    split at hj
    · rename_i hjk
      simp only [Option.some.injEq] at hj
      subst hj
      subst hjk
      first
        | (exfalso
           simp at hxp
           done)
        | (exfalso
           simp [hr] at hxr
           done)
        | exact hc
        | rfl
        | exact hI.first _ w hw hr hpc
    · rename_i hjk
      have h1 := hI.first j x hj hxr hxp
      first
        | exact h1
        | (refine absurd (rcm_unique s hI j k x w hj ?_ hw ?_) hjk
           · simp [Worker.holdsRcm, hxr, hxp]
           · simp [Worker.holdsRcm, hr, hpc])
  | wRead w hw hr hpc =>
    intro j x hj hxr hxp
    simp only [lookup_set hw] at hj
    split at hj
    · rename_i hjk
      simp only [Option.some.injEq] at hj
      subst hj
      subst hjk
      first
        | (exfalso
           simp at hxp
           done)
        | (exfalso
           simp [hr] at hxr
           done)
        | exact hc
        | rfl
        | exact hI.first _ w hw hr hpc
    · rename_i hjk
      have h1 := hI.first j x hj hxr hxp
      first
        | exact h1
        | (refine absurd (rcm_unique s hI j k x w hj ?_ hw ?_) hjk
           · simp [Worker.holdsRcm, hxr, hxp]
           · simp [Worker.holdsRcm, hr, hpc])
  | wWrite w hw hr hpc =>
    intro j x hj hxr hxp
    simp only [lookup_set hw] at hj
    split at hj
    · rename_i hjk
      simp only [Option.some.injEq] at hj
      subst hj
      subst hjk
      first
        | (exfalso
           simp at hxp
           done)
        | (exfalso
           simp [hr] at hxr
           done)
        | exact hc
        | rfl
        | exact hI.first _ w hw hr hpc
    · rename_i hjk
      have h1 := hI.first j x hj hxr hxp
      first
        | exact h1
        | (refine absurd (rcm_unique s hI j k x w hj ?_ hw ?_) hjk
           · simp [Worker.holdsRcm, hxr, hxp]
           · simp [Worker.holdsRcm, hr, hpc])
  | wPrint w hw hr hpc =>
    intro j x hj hxr hxp
    simp only [lookup_set hw] at hj
    split at hj
    · rename_i hjk
      simp only [Option.some.injEq] at hj
      subst hj
      subst hjk
      first
        | (exfalso
           simp at hxp
           done)
        | (exfalso
           simp [hr] at hxr
           done)
        | exact hc
        | rfl
        | exact hI.first _ w hw hr hpc
    · rename_i hjk
      have h1 := hI.first j x hj hxr hxp
      first
        | exact h1
        | (refine absurd (rcm_unique s hI j k x w hj ?_ hw ?_) hjk
           · simp [Worker.holdsRcm, hxr, hxp]
           · simp [Worker.holdsRcm, hr, hpc])
  | wRelease w hw hr hpc =>
    intro j x hj hxr hxp
    simp only [lookup_set hw] at hj
    split at hj
    · rename_i hjk
      simp only [Option.some.injEq] at hj
      subst hj
      subst hjk
      first
        | (exfalso
           simp at hxp
           done)
        | (exfalso
           simp [hr] at hxr
           done)
        | exact hc
        | rfl
        | exact hI.first _ w hw hr hpc
    · rename_i hjk
      have h1 := hI.first j x hj hxr hxp
      first
        | exact h1
        | (refine absurd (rcm_unique s hI j k x w hj ?_ hw ?_) hjk
           · simp [Worker.holdsRcm, hxr, hxp]
           · simp [Worker.holdsRcm, hr, hpc])

theorem last_step (s : State) (k : Nat) (t : State) (hI : GateInv s)
    (h : step s k = some t) :
    ∀ (j : Nat) (x : Worker), t.workers[j]? = some x → x.role = .reader →
      x.pc = .exitUnlockW → t.read_count = 0 := by
  cases rw_step_sound s k t h with
  | rLockEntry w hw hr hpc hi hm =>
    intro j x hj hxr hxp
    simp only [lookup_set hw] at hj
    split at hj
    · rename_i hjk
      simp only [Option.some.injEq] at hj
      subst hj
      subst hjk
      first
        | (exfalso
           simp at hxp
           done)
        | (exfalso
           simp [hr] at hxr
           done)
        | exact hc
        | rfl
        | exact hI.last _ w hw hr hpc
    · rename_i hjk
      have h1 := hI.last j x hj hxr hxp
      first
        | exact h1
        | (refine absurd (rcm_unique s hI j k x w hj ?_ hw ?_) hjk
           · simp [Worker.holdsRcm, hxr, hxp]
           · simp [Worker.holdsRcm, hr, hpc])
  | rInc w hw hr hpc =>
    intro j x hj hxr hxp
    simp only [lookup_set hw] at hj
    split at hj
    · rename_i hjk
      simp only [Option.some.injEq] at hj
      subst hj
      subst hjk
      first
        | (exfalso
           simp at hxp
           done)
        | (exfalso
           simp [hr] at hxr
           done)
        | exact hc
        | rfl
        | exact hI.last _ w hw hr hpc
    · rename_i hjk
      have h1 := hI.last j x hj hxr hxp
      first
        | exact h1
        | (refine absurd (rcm_unique s hI j k x w hj ?_ hw ?_) hjk
           · simp [Worker.holdsRcm, hxr, hxp]
           · simp [Worker.holdsRcm, hr, hpc])
  | rTestFirst w hw hr hpc hc =>
    intro j x hj hxr hxp
    simp only [lookup_set hw] at hj
    split at hj
    · rename_i hjk
      simp only [Option.some.injEq] at hj
      subst hj
      subst hjk
      first
        | (exfalso
           simp at hxp
           done)
        | (exfalso
           simp [hr] at hxr
           done)
        | exact hc
        | rfl
        | exact hI.last _ w hw hr hpc
    · rename_i hjk
      have h1 := hI.last j x hj hxr hxp
      first
        | exact h1
        | (refine absurd (rcm_unique s hI j k x w hj ?_ hw ?_) hjk
           · simp [Worker.holdsRcm, hxr, hxp]
           · simp [Worker.holdsRcm, hr, hpc])
  | rTestMore w hw hr hpc hc =>
    intro j x hj hxr hxp
    simp only [lookup_set hw] at hj
    split at hj
    · rename_i hjk
      simp only [Option.some.injEq] at hj
      subst hj
      subst hjk
      first
        | (exfalso
           simp at hxp
           done)
        | (exfalso
           simp [hr] at hxr
           done)
        | exact hc
        | rfl
        | exact hI.last _ w hw hr hpc
    · rename_i hjk
      have h1 := hI.last j x hj hxr hxp
      first
        | exact h1
        | (refine absurd (rcm_unique s hI j k x w hj ?_ hw ?_) hjk
           · simp [Worker.holdsRcm, hxr, hxp]
           · simp [Worker.holdsRcm, hr, hpc])
  | rLockW w hw hr hpc hm =>
    intro j x hj hxr hxp
    simp only [lookup_set hw] at hj
    split at hj
    · rename_i hjk
      simp only [Option.some.injEq] at hj
      subst hj
      subst hjk
      first
        | (exfalso
           simp at hxp
           done)
        | (exfalso
           simp [hr] at hxr
           done)
        | exact hc
        | rfl
        | exact hI.last _ w hw hr hpc
    · rename_i hjk
      have h1 := hI.last j x hj hxr hxp
      first
        | exact h1
        | (refine absurd (rcm_unique s hI j k x w hj ?_ hw ?_) hjk
           · simp [Worker.holdsRcm, hxr, hxp]
           · simp [Worker.holdsRcm, hr, hpc])
  | rReleaseEntry w hw hr hpc =>
    intro j x hj hxr hxp
    simp only [lookup_set hw] at hj
    split at hj
    · rename_i hjk
      simp only [Option.some.injEq] at hj
      subst hj
      subst hjk
      first
        | (exfalso
           simp at hxp
           done)
        | (exfalso
           simp [hr] at hxr
           done)
        | exact hc
        | rfl
        | exact hI.last _ w hw hr hpc
    · rename_i hjk
      have h1 := hI.last j x hj hxr hxp
      first
        | exact h1
        | (refine absurd (rcm_unique s hI j k x w hj ?_ hw ?_) hjk
           · simp [Worker.holdsRcm, hxr, hxp]
           · simp [Worker.holdsRcm, hr, hpc])
  | rRead w hw hr hpc =>
    intro j x hj hxr hxp
    simp only [lookup_set hw] at hj
    split at hj
    · rename_i hjk
      simp only [Option.some.injEq] at hj
      subst hj
      subst hjk
      first
        | (exfalso
           simp at hxp
           done)
        | (exfalso
           simp [hr] at hxr
           done)
        | exact hc
        | rfl
        | exact hI.last _ w hw hr hpc
    · rename_i hjk
      have h1 := hI.last j x hj hxr hxp
      first
        | exact h1
        | (refine absurd (rcm_unique s hI j k x w hj ?_ hw ?_) hjk
           · simp [Worker.holdsRcm, hxr, hxp]
           · simp [Worker.holdsRcm, hr, hpc])
  | rLockExit w hw hr hpc hm =>
    intro j x hj hxr hxp
    simp only [lookup_set hw] at hj
    split at hj
    · rename_i hjk
      simp only [Option.some.injEq] at hj
      subst hj
      subst hjk
      first
        | (exfalso
           simp at hxp
           done)
        | (exfalso
           simp [hr] at hxr
           done)
        | exact hc
        | rfl
        | exact hI.last _ w hw hr hpc
    · rename_i hjk
      have h1 := hI.last j x hj hxr hxp
      first
        | exact h1
        | (refine absurd (rcm_unique s hI j k x w hj ?_ hw ?_) hjk
           · simp [Worker.holdsRcm, hxr, hxp]
           · simp [Worker.holdsRcm, hr, hpc])
  | rDec w hw hr hpc =>
    intro j x hj hxr hxp
    simp only [lookup_set hw] at hj
    split at hj
    · rename_i hjk
      simp only [Option.some.injEq] at hj
      subst hj
      subst hjk
      first
        | (exfalso
           simp at hxp
           done)
        | (exfalso
           simp [hr] at hxr
           done)
        | exact hc
        | rfl
        | exact hI.last _ w hw hr hpc
    · rename_i hjk
      have h1 := hI.last j x hj hxr hxp
      first
        | exact h1
        | (refine absurd (rcm_unique s hI j k x w hj ?_ hw ?_) hjk
           · simp [Worker.holdsRcm, hxr, hxp]
           · simp [Worker.holdsRcm, hr, hpc])
  | rTestLast w hw hr hpc hc =>
    intro j x hj hxr hxp
    simp only [lookup_set hw] at hj
    split at hj
    · rename_i hjk
      simp only [Option.some.injEq] at hj
      subst hj
      subst hjk
      first
        | (exfalso
           simp at hxp
           done)
        | (exfalso
           simp [hr] at hxr
           done)
        | exact hc
        | rfl
        | exact hI.last _ w hw hr hpc
    · rename_i hjk
      have h1 := hI.last j x hj hxr hxp
      first
        | exact h1
        | (refine absurd (rcm_unique s hI j k x w hj ?_ hw ?_) hjk
           · simp [Worker.holdsRcm, hxr, hxp]
           · simp [Worker.holdsRcm, hr, hpc])
  | rTestNotLast w hw hr hpc hc =>
    intro j x hj hxr hxp
    simp only [lookup_set hw] at hj
    split at hj
    · rename_i hjk
      simp only [Option.some.injEq] at hj
      subst hj
      subst hjk
      first
        | (exfalso
           simp at hxp
           done)
        | (exfalso
           simp [hr] at hxr
           done)
        | exact hc
        | rfl
        | exact hI.last _ w hw hr hpc
    · rename_i hjk
      have h1 := hI.last j x hj hxr hxp
      first
        | exact h1
        | (refine absurd (rcm_unique s hI j k x w hj ?_ hw ?_) hjk
           · simp [Worker.holdsRcm, hxr, hxp]
           · simp [Worker.holdsRcm, hr, hpc])
  | rUnlockW w hw hr hpc =>
    intro j x hj hxr hxp
    simp only [lookup_set hw] at hj
    split at hj
    · rename_i hjk
      simp only [Option.some.injEq] at hj
      subst hj
      subst hjk
      first
        | (exfalso
           simp at hxp
           done)
        | (exfalso
           simp [hr] at hxr
           done)
        | exact hc
        | rfl
        | exact hI.last _ w hw hr hpc
    · rename_i hjk
      have h1 := hI.last j x hj hxr hxp
      first
        | exact h1
        | (refine absurd (rcm_unique s hI j k x w hj ?_ hw ?_) hjk
           · simp [Worker.holdsRcm, hxr, hxp]
           · simp [Worker.holdsRcm, hr, hpc])
  | rReleaseExit w hw hr hpc =>
    intro j x hj hxr hxp
    simp only [lookup_set hw] at hj
    split at hj
    · rename_i hjk
      simp only [Option.some.injEq] at hj
      subst hj
      subst hjk
      first
        | (exfalso
           simp at hxp
           done)
        | (exfalso
           simp [hr] at hxr
           done)
        | exact hc
        | rfl
        | exact hI.last _ w hw hr hpc
    · rename_i hjk
      have h1 := hI.last j x hj hxr hxp
      first
        | exact h1
        | (refine absurd (rcm_unique s hI j k x w hj ?_ hw ?_) hjk
           · simp [Worker.holdsRcm, hxr, hxp]
           · simp [Worker.holdsRcm, hr, hpc])
  | wLock w hw hr hpc hi hm =>
    intro j x hj hxr hxp
    simp only [lookup_set hw] at hj
    split at hj
    · rename_i hjk
      simp only [Option.some.injEq] at hj
      subst hj
      subst hjk
      first
        | (exfalso
           simp at hxp
           done)
        | (exfalso
           simp [hr] at hxr
           done)
        | exact hc
        | rfl
        | exact hI.last _ w hw hr hpc
    · rename_i hjk
      have h1 := hI.last j x hj hxr hxp
      first
        | exact h1
        | (refine absurd (rcm_unique s hI j k x w hj ?_ hw ?_) hjk
           · simp [Worker.holdsRcm, hxr, hxp]
           · simp [Worker.holdsRcm, hr, hpc])
  | wRead w hw hr hpc =>
    intro j x hj hxr hxp
    simp only [lookup_set hw] at hj
    split at hj
    · rename_i hjk
      simp only [Option.some.injEq] at hj
      subst hj
      subst hjk
      first
        | (exfalso
           simp at hxp
           done)
        | (exfalso
           simp [hr] at hxr
           done)
        | exact hc
        | rfl
        | exact hI.last _ w hw hr hpc
    · rename_i hjk
      have h1 := hI.last j x hj hxr hxp
      first
        | exact h1
        | (refine absurd (rcm_unique s hI j k x w hj ?_ hw ?_) hjk
           · simp [Worker.holdsRcm, hxr, hxp]
           · simp [Worker.holdsRcm, hr, hpc])
  | wWrite w hw hr hpc =>
    intro j x hj hxr hxp
    simp only [lookup_set hw] at hj
    split at hj
    · rename_i hjk
      simp only [Option.some.injEq] at hj
      subst hj
      subst hjk
      first
        | (exfalso
           simp at hxp
           done)
        | (exfalso
           simp [hr] at hxr
           done)
        | exact hc
        | rfl
        | exact hI.last _ w hw hr hpc
    · rename_i hjk
      have h1 := hI.last j x hj hxr hxp
      first
        | exact h1
        | (refine absurd (rcm_unique s hI j k x w hj ?_ hw ?_) hjk
           · simp [Worker.holdsRcm, hxr, hxp]
           · simp [Worker.holdsRcm, hr, hpc])
  | wPrint w hw hr hpc =>
    intro j x hj hxr hxp
    simp only [lookup_set hw] at hj
    split at hj
    · rename_i hjk
      simp only [Option.some.injEq] at hj
      subst hj
      subst hjk
      first
        | (exfalso
           simp at hxp
           done)
        | (exfalso
           simp [hr] at hxr
           done)
        | exact hc
        | rfl
        | exact hI.last _ w hw hr hpc
    · rename_i hjk
      have h1 := hI.last j x hj hxr hxp
      first
        | exact h1
        | (refine absurd (rcm_unique s hI j k x w hj ?_ hw ?_) hjk
           · simp [Worker.holdsRcm, hxr, hxp]
           · simp [Worker.holdsRcm, hr, hpc])
  | wRelease w hw hr hpc =>
    intro j x hj hxr hxp
    simp only [lookup_set hw] at hj
    split at hj
    · rename_i hjk
      simp only [Option.some.injEq] at hj
      subst hj
      subst hjk
      first
        | (exfalso
           simp at hxp
           done)
        | (exfalso
           simp [hr] at hxr
           done)
        | exact hc
        | rfl
        | exact hI.last _ w hw hr hpc
    · rename_i hjk
      have h1 := hI.last j x hj hxr hxp
      first
        | exact h1
        | (refine absurd (rcm_unique s hI j k x w hj ?_ hw ?_) hjk
           · simp [Worker.holdsRcm, hxr, hxp]
           · simp [Worker.holdsRcm, hr, hpc])

theorem tmp_step (s : State) (k : Nat) (t : State) (hI : GateInv s)
    (h : step s k = some t) :
    ∀ (j : Nat) (x : Worker), t.workers[j]? = some x → x.role = .writer →
      x.pc = .wWrite → x.tmp = t.shared_data := by
  cases rw_step_sound s k t h with
  | rLockEntry w hw hr hpc hi hm =>
    intro j x hj hxr hxp
    simp only [lookup_set hw] at hj
    split at hj
    · rename_i hjk
      simp only [Option.some.injEq] at hj
      subst hj
      subst hjk
      first
        | (exfalso
           simp at hxp
           done)
        | (exfalso
           simp [hr] at hxr
           done)
        | exact hc
        | rfl
        | exact hI.tmp _ w hw hr hpc
    · rename_i hjk
      have h1 := hI.tmp j x hj hxr hxp
      first
        | exact h1
        | (refine absurd (writing_unique s hI j k x w hj ?_ hw ?_) hjk
           · simp [Worker.writing, hxr, hxp]
           · simp [Worker.writing, hr, hpc])
  | rInc w hw hr hpc =>
    intro j x hj hxr hxp
    simp only [lookup_set hw] at hj
    split at hj
    · rename_i hjk
      simp only [Option.some.injEq] at hj
      subst hj
      subst hjk
      first
        | (exfalso
           simp at hxp
           done)
        | (exfalso
           simp [hr] at hxr
           done)
        | exact hc
        | rfl
        | exact hI.tmp _ w hw hr hpc
    · rename_i hjk
      have h1 := hI.tmp j x hj hxr hxp
      first
        | exact h1
        | (refine absurd (writing_unique s hI j k x w hj ?_ hw ?_) hjk
           · simp [Worker.writing, hxr, hxp]
           · simp [Worker.writing, hr, hpc])
  | rTestFirst w hw hr hpc hc =>
    intro j x hj hxr hxp
    simp only [lookup_set hw] at hj
    split at hj
    · rename_i hjk
      simp only [Option.some.injEq] at hj
      subst hj
      subst hjk
      first
        | (exfalso
           simp at hxp
           done)
        | (exfalso
           simp [hr] at hxr
           done)
        | exact hc
        | rfl
        | exact hI.tmp _ w hw hr hpc
    · rename_i hjk
      have h1 := hI.tmp j x hj hxr hxp
      first
        | exact h1
        | (refine absurd (writing_unique s hI j k x w hj ?_ hw ?_) hjk
           · simp [Worker.writing, hxr, hxp]
           · simp [Worker.writing, hr, hpc])
  | rTestMore w hw hr hpc hc =>
    intro j x hj hxr hxp
    simp only [lookup_set hw] at hj
    split at hj
    · rename_i hjk
      simp only [Option.some.injEq] at hj
      subst hj
      subst hjk
      first
        | (exfalso
           simp at hxp
           done)
        | (exfalso
           simp [hr] at hxr
           done)
        | exact hc
        | rfl
        | exact hI.tmp _ w hw hr hpc
    · rename_i hjk
      have h1 := hI.tmp j x hj hxr hxp
      first
        | exact h1
        | (refine absurd (writing_unique s hI j k x w hj ?_ hw ?_) hjk
           · simp [Worker.writing, hxr, hxp]
           · simp [Worker.writing, hr, hpc])
  | rLockW w hw hr hpc hm =>
    intro j x hj hxr hxp
    simp only [lookup_set hw] at hj
    split at hj
    · rename_i hjk
      simp only [Option.some.injEq] at hj
      subst hj
      subst hjk
      first
        | (exfalso
           simp at hxp
           done)
        | (exfalso
           simp [hr] at hxr
           done)
        | exact hc
        | rfl
        | exact hI.tmp _ w hw hr hpc
    · rename_i hjk
      have h1 := hI.tmp j x hj hxr hxp
      first
        | exact h1
        | (refine absurd (writing_unique s hI j k x w hj ?_ hw ?_) hjk
           · simp [Worker.writing, hxr, hxp]
           · simp [Worker.writing, hr, hpc])
  | rReleaseEntry w hw hr hpc =>
    intro j x hj hxr hxp
    simp only [lookup_set hw] at hj
    split at hj
    · rename_i hjk
      simp only [Option.some.injEq] at hj
      subst hj
      subst hjk
      first
        | (exfalso
           simp at hxp
           done)
        | (exfalso
           simp [hr] at hxr
           done)
        | exact hc
        | rfl
        | exact hI.tmp _ w hw hr hpc
    · rename_i hjk
      have h1 := hI.tmp j x hj hxr hxp
      first
        | exact h1
        | (refine absurd (writing_unique s hI j k x w hj ?_ hw ?_) hjk
           · simp [Worker.writing, hxr, hxp]
           · simp [Worker.writing, hr, hpc])
  | rRead w hw hr hpc =>
    intro j x hj hxr hxp
    simp only [lookup_set hw] at hj
    split at hj
    · rename_i hjk
      simp only [Option.some.injEq] at hj
      subst hj
      subst hjk
      first
        | (exfalso
           simp at hxp
           done)
        | (exfalso
           simp [hr] at hxr
           done)
        | exact hc
        | rfl
        | exact hI.tmp _ w hw hr hpc
    · rename_i hjk
      have h1 := hI.tmp j x hj hxr hxp
      first
        | exact h1
        | (refine absurd (writing_unique s hI j k x w hj ?_ hw ?_) hjk
           · simp [Worker.writing, hxr, hxp]
           · simp [Worker.writing, hr, hpc])
  | rLockExit w hw hr hpc hm =>
    intro j x hj hxr hxp
    simp only [lookup_set hw] at hj
    split at hj
    · rename_i hjk
      simp only [Option.some.injEq] at hj
      subst hj
      subst hjk
      first
        | (exfalso
           simp at hxp
           done)
        | (exfalso
           simp [hr] at hxr
           done)
        | exact hc
        | rfl
        | exact hI.tmp _ w hw hr hpc
    · rename_i hjk
      have h1 := hI.tmp j x hj hxr hxp
      first
        | exact h1
        | (refine absurd (writing_unique s hI j k x w hj ?_ hw ?_) hjk
           · simp [Worker.writing, hxr, hxp]
           · simp [Worker.writing, hr, hpc])
  | rDec w hw hr hpc =>
    intro j x hj hxr hxp
    simp only [lookup_set hw] at hj
    split at hj
    · rename_i hjk
      simp only [Option.some.injEq] at hj
      subst hj
      subst hjk
      first
        | (exfalso
           simp at hxp
           done)
        | (exfalso
           simp [hr] at hxr
           done)
        | exact hc
        | rfl
        | exact hI.tmp _ w hw hr hpc
    · rename_i hjk
      have h1 := hI.tmp j x hj hxr hxp
      first
        | exact h1
        | (refine absurd (writing_unique s hI j k x w hj ?_ hw ?_) hjk
           · simp [Worker.writing, hxr, hxp]
           · simp [Worker.writing, hr, hpc])
  | rTestLast w hw hr hpc hc =>
    intro j x hj hxr hxp
    simp only [lookup_set hw] at hj
    split at hj
    · rename_i hjk
      simp only [Option.some.injEq] at hj
      subst hj
      subst hjk
      first
        | (exfalso
           simp at hxp
           done)
        | (exfalso
           simp [hr] at hxr
           done)
        | exact hc
        | rfl
        | exact hI.tmp _ w hw hr hpc
    · rename_i hjk
      have h1 := hI.tmp j x hj hxr hxp
      first
        | exact h1
        | (refine absurd (writing_unique s hI j k x w hj ?_ hw ?_) hjk
           · simp [Worker.writing, hxr, hxp]
           · simp [Worker.writing, hr, hpc])
  | rTestNotLast w hw hr hpc hc =>
    intro j x hj hxr hxp
    simp only [lookup_set hw] at hj
    split at hj
    · rename_i hjk
      simp only [Option.some.injEq] at hj
      subst hj
      subst hjk
      first
        | (exfalso
           simp at hxp
           done)
        | (exfalso
           simp [hr] at hxr
           done)
        | exact hc
        | rfl
        | exact hI.tmp _ w hw hr hpc
    · rename_i hjk
      have h1 := hI.tmp j x hj hxr hxp
      first
        | exact h1
        | (refine absurd (writing_unique s hI j k x w hj ?_ hw ?_) hjk
           · simp [Worker.writing, hxr, hxp]
           · simp [Worker.writing, hr, hpc])
  | rUnlockW w hw hr hpc =>
    intro j x hj hxr hxp
    simp only [lookup_set hw] at hj
    split at hj
    · rename_i hjk
      simp only [Option.some.injEq] at hj
      subst hj
      subst hjk
      first
        | (exfalso
           simp at hxp
           done)
        | (exfalso
           simp [hr] at hxr
           done)
        | exact hc
        | rfl
        | exact hI.tmp _ w hw hr hpc
    · rename_i hjk
      have h1 := hI.tmp j x hj hxr hxp
      first
        | exact h1
        | (refine absurd (writing_unique s hI j k x w hj ?_ hw ?_) hjk
           · simp [Worker.writing, hxr, hxp]
           · simp [Worker.writing, hr, hpc])
  | rReleaseExit w hw hr hpc =>
    intro j x hj hxr hxp
    simp only [lookup_set hw] at hj
    split at hj
    · rename_i hjk
      simp only [Option.some.injEq] at hj
      subst hj
      subst hjk
      first
        | (exfalso
           simp at hxp
           done)
        | (exfalso
           simp [hr] at hxr
           done)
        | exact hc
        | rfl
        | exact hI.tmp _ w hw hr hpc
    · rename_i hjk
      have h1 := hI.tmp j x hj hxr hxp
      first
        | exact h1
        | (refine absurd (writing_unique s hI j k x w hj ?_ hw ?_) hjk
           · simp [Worker.writing, hxr, hxp]
           · simp [Worker.writing, hr, hpc])
  | wLock w hw hr hpc hi hm =>
    intro j x hj hxr hxp
    simp only [lookup_set hw] at hj
    split at hj
    · rename_i hjk
      simp only [Option.some.injEq] at hj
      subst hj
      subst hjk
      first
        | (exfalso
           simp at hxp
           done)
        | (exfalso
           simp [hr] at hxr
           done)
        | exact hc
        | rfl
        | exact hI.tmp _ w hw hr hpc
    · rename_i hjk
      have h1 := hI.tmp j x hj hxr hxp
      first
        | exact h1
        | (refine absurd (writing_unique s hI j k x w hj ?_ hw ?_) hjk
           · simp [Worker.writing, hxr, hxp]
           · simp [Worker.writing, hr, hpc])
  | wRead w hw hr hpc =>
    intro j x hj hxr hxp
    simp only [lookup_set hw] at hj
    split at hj
    · rename_i hjk
      simp only [Option.some.injEq] at hj
      subst hj
      subst hjk
      first
        | (exfalso
           simp at hxp
           done)
        | (exfalso
           simp [hr] at hxr
           done)
        | exact hc
        | rfl
        | exact hI.tmp _ w hw hr hpc
    · rename_i hjk
      have h1 := hI.tmp j x hj hxr hxp
      first
        | exact h1
        | (refine absurd (writing_unique s hI j k x w hj ?_ hw ?_) hjk
           · simp [Worker.writing, hxr, hxp]
           · simp [Worker.writing, hr, hpc])
  | wWrite w hw hr hpc =>
    intro j x hj hxr hxp
    simp only [lookup_set hw] at hj
    split at hj
    · rename_i hjk
      simp only [Option.some.injEq] at hj
      subst hj
      subst hjk
      first
        | (exfalso
           simp at hxp
           done)
        | (exfalso
           simp [hr] at hxr
           done)
        | exact hc
        | rfl
        | exact hI.tmp _ w hw hr hpc
    · rename_i hjk
      have h1 := hI.tmp j x hj hxr hxp
      first
        | exact h1
        | (refine absurd (writing_unique s hI j k x w hj ?_ hw ?_) hjk
           · simp [Worker.writing, hxr, hxp]
           · simp [Worker.writing, hr, hpc])
  | wPrint w hw hr hpc =>
    intro j x hj hxr hxp
    simp only [lookup_set hw] at hj
    split at hj
    · rename_i hjk
      simp only [Option.some.injEq] at hj
      subst hj
      subst hjk
      first
        | (exfalso
           simp at hxp
           done)
        | (exfalso
           simp [hr] at hxr
           done)
        | exact hc
        | rfl
        | exact hI.tmp _ w hw hr hpc
    · rename_i hjk
      have h1 := hI.tmp j x hj hxr hxp
      first
        | exact h1
        | (refine absurd (writing_unique s hI j k x w hj ?_ hw ?_) hjk
           · simp [Worker.writing, hxr, hxp]
           · simp [Worker.writing, hr, hpc])
  | wRelease w hw hr hpc =>
    intro j x hj hxr hxp
    simp only [lookup_set hw] at hj
    split at hj
    · rename_i hjk
      simp only [Option.some.injEq] at hj
      subst hj
      subst hjk
      first
        | (exfalso
           simp at hxp
           done)
        | (exfalso
           simp [hr] at hxr
           done)
        | exact hc
        | rfl
        | exact hI.tmp _ w hw hr hpc
    · rename_i hjk
      have h1 := hI.tmp j x hj hxr hxp
      first
        | exact h1
        | (refine absurd (writing_unique s hI j k x w hj ?_ hw ?_) hjk
           · simp [Worker.writing, hxr, hxp]
           · simp [Worker.writing, hr, hpc])

end ReadersWriters

set_option linter.unreachableTactic false
set_option linter.unusedTactic false

/-- A non-zero sum has a non-zero summand. -/
theorem exists_nonzero {α : Type} (f : α → Nat) {l : List α} (h : (l.map f).sum ≠ 0) :
    ∃ (j : Nat) (x : α), l[j]? = some x ∧ f x ≠ 0 := by
  by_contra hc
  apply h
  apply sum_map_eq_zero
  intro k w hk
  by_contra hne
  exact hc ⟨k, w, hk, hne⟩

/-- If the sum differs from the summand at `k`, another position has a non-zero summand. -/
theorem exists_other_nonzero {α : Type} (f : α → Nat) {l : List α} {k : Nat} {w : α}
    (hw : l[k]? = some w) (h : (l.map f).sum ≠ f w) :
    ∃ (j : Nat) (x : α), j ≠ k ∧ l[j]? = some x ∧ f x ≠ 0 := by
  induction l generalizing k with
  | nil => simp at hw
  | cons a l ih =>
    cases k with
    | zero =>
      simp only [List.getElem?_cons_zero, Option.some.injEq] at hw
      subst hw
      simp only [List.map_cons, List.sum_cons] at h
      have h2 : (l.map f).sum ≠ 0 := by omega
      obtain ⟨j, x, hj, hx⟩ := exists_nonzero f h2
      exact ⟨j + 1, x, by omega, by simpa using hj, hx⟩
    | succ n =>
      simp only [List.getElem?_cons_succ] at hw
      simp only [List.map_cons, List.sum_cons] at h
      by_cases ha : f a = 0
      · have h2 : (l.map f).sum ≠ f w := by omega
        obtain ⟨j, x, hj, hjl, hx⟩ := ih hw h2
        exact ⟨j + 1, x, by omega, by simpa using hjl, hx⟩
      · exact ⟨0, a, by omega, by simp, ha⟩

namespace ReadersWriters

theorem counted_cases (x : Worker) (h : x.counted ≠ 0) :
    x.holdsRcm = true ∨ x.covered = true := by
  unfold Worker.counted at h
  split at h
  · rename_i hc
    obtain ⟨hr, hp⟩ := hc
    rcases hp with e | e | e | e | e | e <;> simp [Worker.holdsRcm, Worker.covered, hr, e]
  · exact absurd rfl h

theorem covered_cases (x : Worker) (h : x.covered = true) :
    x.counted ≠ 0 ∨ x.holdsRcm = true := by
  simp only [Worker.covered, Bool.and_eq_true, Bool.or_eq_true, decide_eq_true_eq] at h
  obtain ⟨hr, hp⟩ := h
  rcases hp with ((((e | e) | e) | e) | e) | e <;> simp [Worker.holdsRcm, Worker.counted, hr, e]

/-- The owner of `write_mutex` stays a reader when one thread is updated without changing its
role and `write_mutex` is left alone. -/
theorem readerOwned_frame (s t : State) (k : Nat) (w u : Worker)
    (hw : s.workers[k]? = some w) (hrole : u.role = w.role)
    (hwm : t.write_mutex = s.write_mutex) (hws : t.workers = s.workers.set k u)
    (h : ReaderOwned s) : ReaderOwned t := by
  obtain ⟨m, y, hm, hy, hyr⟩ := h
  by_cases e : m = k
  · subst e
    rw [hw] at hy
    simp only [Option.some.injEq] at hy
    subst hy
    exact ⟨m, u, by rw [hwm, hm], by rw [hws, lookup_set hw]; simp, by rw [hrole, hyr]⟩
  · exact ⟨m, y, by rw [hwm, hm], by rw [hws, lookup_set hw]; simp [e, hy], hyr⟩

/-- A reader whose entry test `read_count == 1` fails finds `write_mutex` already held on
behalf of the readers. -/
theorem gate_of_more (s : State) (hI : GateInv s) (k : Nat) (w : Worker)
    (hw : s.workers[k]? = some w) (hr : w.role = .reader) (hpc : w.pc = .entryTest)
    (hc : s.read_count ≠ 1) : ReaderOwned s := by
  have hcw : w.counted = 1 := by simp [Worker.counted, hr, hpc]
  have hne : (s.workers.map Worker.counted).sum ≠ w.counted := by
    intro e
    apply hc
    rw [hI.cnt, e, hcw]
    rfl
  obtain ⟨j, x, hjk, hj, hx⟩ := exists_other_nonzero Worker.counted hw hne
  rcases counted_cases x hx with h1 | h1
  · exact absurd (rcm_unique s hI j k x w hj h1 hw (by simp [Worker.holdsRcm, hr, hpc])) hjk
  · exact hI.gate j x hj h1

/-- When the last reader is about to unlock `write_mutex`, no other reader is covered. -/
theorem no_covered_of_last (s : State) (hI : GateInv s) (k : Nat) (w : Worker)
    (hw : s.workers[k]? = some w) (hr : w.role = .reader) (hpc : w.pc = .exitUnlockW)
    (j : Nat) (x : Worker) (hj : s.workers[j]? = some x) (hx : x.covered = true)
    (hjk : j ≠ k) : False := by
  have h0 := hI.last k w hw hr hpc
  have hle := le_sum_map Worker.counted hj
  have hcnt := hI.cnt
  rcases covered_cases x hx with h1 | h1
  · omega
  · exact hjk (rcm_unique s hI j k x w hj h1 hw (by simp [Worker.holdsRcm, hr, hpc]))

theorem gate_step (s : State) (k : Nat) (t : State) (hI : GateInv s)
    (h : step s k = some t) :
    ∀ (j : Nat) (x : Worker), t.workers[j]? = some x → x.covered = true → ReaderOwned t := by
  cases rw_step_sound s k t h with
  | rLockEntry w hw hr hpc hi hm =>
    intro j x hj hx
    simp only [lookup_set hw] at hj
    split at hj
    · rename_i hjk
      simp only [Option.some.injEq] at hj
      subst hj
      subst hjk
      first
        | (exfalso
           simp [Worker.covered, hr] at hx
           done)
        | (refine readerOwned_frame s _ _ w { w with pc := .entryInc } hw rfl rfl rfl (hI.gate _ w hw ?_)
           simp [Worker.covered, hr, hpc]
           done)
        | (refine ⟨_, { w with pc := .entryInc }, rfl, ?_, hr⟩
           simp [lookup_set hw]
           done)
        | exact readerOwned_frame s _ _ w { w with pc := .entryInc } hw rfl rfl rfl (gate_of_more s hI _ w hw hr hpc hc)
    · rename_i hjk
      have h1 := hI.gate j x hj hx
      first
        | exact readerOwned_frame s _ k w { w with pc := .entryInc } hw rfl rfl rfl h1
        | (refine ⟨_, { w with pc := .entryInc }, rfl, ?_, hr⟩
           simp [lookup_set hw]
           done)
        | (exfalso
           obtain ⟨m, y, hm2, _, _⟩ := h1
           rw [hm] at hm2
           exact absurd hm2 (by simp))
        | exact absurd (no_covered_of_last s hI k w hw hr hpc j x hj hx hjk) id
        | (exfalso
           refine covered_not_writing s hI j k x w hj hx hw ?_
           simp [Worker.writing, hr, hpc]
           done)
  | rInc w hw hr hpc =>
    intro j x hj hx
    simp only [lookup_set hw] at hj
    split at hj
    · rename_i hjk
      simp only [Option.some.injEq] at hj
      subst hj
      subst hjk
      first
        | (exfalso
           simp [Worker.covered, hr] at hx
           done)
        | (refine readerOwned_frame s _ _ w { w with pc := .entryTest } hw rfl rfl rfl (hI.gate _ w hw ?_)
           simp [Worker.covered, hr, hpc]
           done)
        | (refine ⟨_, { w with pc := .entryTest }, rfl, ?_, hr⟩
           simp [lookup_set hw]
           done)
        | exact readerOwned_frame s _ _ w { w with pc := .entryTest } hw rfl rfl rfl (gate_of_more s hI _ w hw hr hpc hc)
    · rename_i hjk
      have h1 := hI.gate j x hj hx
      first
        | exact readerOwned_frame s _ k w { w with pc := .entryTest } hw rfl rfl rfl h1
        | (refine ⟨_, { w with pc := .entryTest }, rfl, ?_, hr⟩
           simp [lookup_set hw]
           done)
        | (exfalso
           obtain ⟨m, y, hm2, _, _⟩ := h1
           rw [hm] at hm2
           exact absurd hm2 (by simp))
        | exact absurd (no_covered_of_last s hI k w hw hr hpc j x hj hx hjk) id
        | (exfalso
           refine covered_not_writing s hI j k x w hj hx hw ?_
           simp [Worker.writing, hr, hpc]
           done)
  | rTestFirst w hw hr hpc hc =>
    intro j x hj hx
    simp only [lookup_set hw] at hj
    split at hj
    · rename_i hjk
      simp only [Option.some.injEq] at hj
      subst hj
      subst hjk
      first
        | (exfalso
           simp [Worker.covered, hr] at hx
           done)
        | (refine readerOwned_frame s _ _ w { w with pc := .entryLockW } hw rfl rfl rfl (hI.gate _ w hw ?_)
           simp [Worker.covered, hr, hpc]
           done)
        | (refine ⟨_, { w with pc := .entryLockW }, rfl, ?_, hr⟩
           simp [lookup_set hw]
           done)
        | exact readerOwned_frame s _ _ w { w with pc := .entryLockW } hw rfl rfl rfl (gate_of_more s hI _ w hw hr hpc hc)
    · rename_i hjk
      have h1 := hI.gate j x hj hx
      first
        | exact readerOwned_frame s _ k w { w with pc := .entryLockW } hw rfl rfl rfl h1
        | (refine ⟨_, { w with pc := .entryLockW }, rfl, ?_, hr⟩
           simp [lookup_set hw]
           done)
        | (exfalso
           obtain ⟨m, y, hm2, _, _⟩ := h1
           rw [hm] at hm2
           exact absurd hm2 (by simp))
        | exact absurd (no_covered_of_last s hI k w hw hr hpc j x hj hx hjk) id
        | (exfalso
           refine covered_not_writing s hI j k x w hj hx hw ?_
           simp [Worker.writing, hr, hpc]
           done)
  | rTestMore w hw hr hpc hc =>
    intro j x hj hx
    simp only [lookup_set hw] at hj
    split at hj
    · rename_i hjk
      simp only [Option.some.injEq] at hj
      subst hj
      subst hjk
      first
        | (exfalso
           simp [Worker.covered, hr] at hx
           done)
        | (refine readerOwned_frame s _ _ w { w with pc := .entryRelease } hw rfl rfl rfl (hI.gate _ w hw ?_)
           simp [Worker.covered, hr, hpc]
           done)
        | (refine ⟨_, { w with pc := .entryRelease }, rfl, ?_, hr⟩
           simp [lookup_set hw]
           done)
        | exact readerOwned_frame s _ _ w { w with pc := .entryRelease } hw rfl rfl rfl (gate_of_more s hI _ w hw hr hpc hc)
    · rename_i hjk
      have h1 := hI.gate j x hj hx
      first
        | exact readerOwned_frame s _ k w { w with pc := .entryRelease } hw rfl rfl rfl h1
        | (refine ⟨_, { w with pc := .entryRelease }, rfl, ?_, hr⟩
           simp [lookup_set hw]
           done)
        | (exfalso
           obtain ⟨m, y, hm2, _, _⟩ := h1
           rw [hm] at hm2
           exact absurd hm2 (by simp))
        | exact absurd (no_covered_of_last s hI k w hw hr hpc j x hj hx hjk) id
        | (exfalso
           refine covered_not_writing s hI j k x w hj hx hw ?_
           simp [Worker.writing, hr, hpc]
           done)
  | rLockW w hw hr hpc hm =>
    intro j x hj hx
    simp only [lookup_set hw] at hj
    split at hj
    · rename_i hjk
      simp only [Option.some.injEq] at hj
      subst hj
      subst hjk
      first
        | (exfalso
           simp [Worker.covered, hr] at hx
           done)
        | (refine readerOwned_frame s _ _ w { w with pc := .entryRelease } hw rfl rfl rfl (hI.gate _ w hw ?_)
           simp [Worker.covered, hr, hpc]
           done)
        | (refine ⟨_, { w with pc := .entryRelease }, rfl, ?_, hr⟩
           simp [lookup_set hw]
           done)
        | exact readerOwned_frame s _ _ w { w with pc := .entryRelease } hw rfl rfl rfl (gate_of_more s hI _ w hw hr hpc hc)
    · rename_i hjk
      have h1 := hI.gate j x hj hx
      first
        | exact readerOwned_frame s _ k w { w with pc := .entryRelease } hw rfl rfl rfl h1
        | (refine ⟨_, { w with pc := .entryRelease }, rfl, ?_, hr⟩
           simp [lookup_set hw]
           done)
        | (exfalso
           obtain ⟨m, y, hm2, _, _⟩ := h1
           rw [hm] at hm2
           exact absurd hm2 (by simp))
        | exact absurd (no_covered_of_last s hI k w hw hr hpc j x hj hx hjk) id
        | (exfalso
           refine covered_not_writing s hI j k x w hj hx hw ?_
           simp [Worker.writing, hr, hpc]
           done)
  | rReleaseEntry w hw hr hpc =>
    intro j x hj hx
    simp only [lookup_set hw] at hj
    split at hj
    · rename_i hjk
      simp only [Option.some.injEq] at hj
      subst hj
      subst hjk
      first
        | (exfalso
           simp [Worker.covered, hr] at hx
           done)
        | (refine readerOwned_frame s _ _ w { w with pc := .reading } hw rfl rfl rfl (hI.gate _ w hw ?_)
           simp [Worker.covered, hr, hpc]
           done)
        | (refine ⟨_, { w with pc := .reading }, rfl, ?_, hr⟩
           simp [lookup_set hw]
           done)
        | exact readerOwned_frame s _ _ w { w with pc := .reading } hw rfl rfl rfl (gate_of_more s hI _ w hw hr hpc hc)
    · rename_i hjk
      have h1 := hI.gate j x hj hx
      first
        | exact readerOwned_frame s _ k w { w with pc := .reading } hw rfl rfl rfl h1
        | (refine ⟨_, { w with pc := .reading }, rfl, ?_, hr⟩
           simp [lookup_set hw]
           done)
        | (exfalso
           obtain ⟨m, y, hm2, _, _⟩ := h1
           rw [hm] at hm2
           exact absurd hm2 (by simp))
        | exact absurd (no_covered_of_last s hI k w hw hr hpc j x hj hx hjk) id
        | (exfalso
           refine covered_not_writing s hI j k x w hj hx hw ?_
           simp [Worker.writing, hr, hpc]
           done)
  | rRead w hw hr hpc =>
    intro j x hj hx
    simp only [lookup_set hw] at hj
    split at hj
    · rename_i hjk
      simp only [Option.some.injEq] at hj
      subst hj
      subst hjk
      first
        | (exfalso
           simp [Worker.covered, hr] at hx
           done)
        | (refine readerOwned_frame s _ _ w { w with pc := .exitLock, tmp := s.shared_data } hw rfl rfl rfl (hI.gate _ w hw ?_)
           simp [Worker.covered, hr, hpc]
           done)
        | (refine ⟨_, { w with pc := .exitLock, tmp := s.shared_data }, rfl, ?_, hr⟩
           simp [lookup_set hw]
           done)
        | exact readerOwned_frame s _ _ w { w with pc := .exitLock, tmp := s.shared_data } hw rfl rfl rfl (gate_of_more s hI _ w hw hr hpc hc)
    · rename_i hjk
      have h1 := hI.gate j x hj hx
      first
        | exact readerOwned_frame s _ k w { w with pc := .exitLock, tmp := s.shared_data } hw rfl rfl rfl h1
        | (refine ⟨_, { w with pc := .exitLock, tmp := s.shared_data }, rfl, ?_, hr⟩
           simp [lookup_set hw]
           done)
        | (exfalso
           obtain ⟨m, y, hm2, _, _⟩ := h1
           rw [hm] at hm2
           exact absurd hm2 (by simp))
        | exact absurd (no_covered_of_last s hI k w hw hr hpc j x hj hx hjk) id
        | (exfalso
           refine covered_not_writing s hI j k x w hj hx hw ?_
           simp [Worker.writing, hr, hpc]
           done)
  | rLockExit w hw hr hpc hm =>
    intro j x hj hx
    simp only [lookup_set hw] at hj
    split at hj
    · rename_i hjk
      simp only [Option.some.injEq] at hj
      subst hj
      subst hjk
      first
        | (exfalso
           simp [Worker.covered, hr] at hx
           done)
        | (refine readerOwned_frame s _ _ w { w with pc := .exitDec } hw rfl rfl rfl (hI.gate _ w hw ?_)
           simp [Worker.covered, hr, hpc]
           done)
        | (refine ⟨_, { w with pc := .exitDec }, rfl, ?_, hr⟩
           simp [lookup_set hw]
           done)
        | exact readerOwned_frame s _ _ w { w with pc := .exitDec } hw rfl rfl rfl (gate_of_more s hI _ w hw hr hpc hc)
    · rename_i hjk
      have h1 := hI.gate j x hj hx
      first
        | exact readerOwned_frame s _ k w { w with pc := .exitDec } hw rfl rfl rfl h1
        | (refine ⟨_, { w with pc := .exitDec }, rfl, ?_, hr⟩
           simp [lookup_set hw]
           done)
        | (exfalso
           obtain ⟨m, y, hm2, _, _⟩ := h1
           rw [hm] at hm2
           exact absurd hm2 (by simp))
        | exact absurd (no_covered_of_last s hI k w hw hr hpc j x hj hx hjk) id
        | (exfalso
           refine covered_not_writing s hI j k x w hj hx hw ?_
           simp [Worker.writing, hr, hpc]
           done)
  | rDec w hw hr hpc =>
    intro j x hj hx
    simp only [lookup_set hw] at hj
    split at hj
    · rename_i hjk
      simp only [Option.some.injEq] at hj
      subst hj
      subst hjk
      first
        | (exfalso
           simp [Worker.covered, hr] at hx
           done)
        | (refine readerOwned_frame s _ _ w { w with pc := .exitTest } hw rfl rfl rfl (hI.gate _ w hw ?_)
           simp [Worker.covered, hr, hpc]
           done)
        | (refine ⟨_, { w with pc := .exitTest }, rfl, ?_, hr⟩
           simp [lookup_set hw]
           done)
        | exact readerOwned_frame s _ _ w { w with pc := .exitTest } hw rfl rfl rfl (gate_of_more s hI _ w hw hr hpc hc)
    · rename_i hjk
      have h1 := hI.gate j x hj hx
      first
        | exact readerOwned_frame s _ k w { w with pc := .exitTest } hw rfl rfl rfl h1
        | (refine ⟨_, { w with pc := .exitTest }, rfl, ?_, hr⟩
           simp [lookup_set hw]
           done)
        | (exfalso
           obtain ⟨m, y, hm2, _, _⟩ := h1
           rw [hm] at hm2
           exact absurd hm2 (by simp))
        | exact absurd (no_covered_of_last s hI k w hw hr hpc j x hj hx hjk) id
        | (exfalso
           refine covered_not_writing s hI j k x w hj hx hw ?_
           simp [Worker.writing, hr, hpc]
           done)
  | rTestLast w hw hr hpc hc =>
    intro j x hj hx
    simp only [lookup_set hw] at hj
    split at hj
    · rename_i hjk
      simp only [Option.some.injEq] at hj
      subst hj
      subst hjk
      first
        | (exfalso
           simp [Worker.covered, hr] at hx
           done)
        | (refine readerOwned_frame s _ _ w { w with pc := .exitUnlockW } hw rfl rfl rfl (hI.gate _ w hw ?_)
           simp [Worker.covered, hr, hpc]
           done)
        | (refine ⟨_, { w with pc := .exitUnlockW }, rfl, ?_, hr⟩
           simp [lookup_set hw]
           done)
        | exact readerOwned_frame s _ _ w { w with pc := .exitUnlockW } hw rfl rfl rfl (gate_of_more s hI _ w hw hr hpc hc)
    · rename_i hjk
      have h1 := hI.gate j x hj hx
      first
        | exact readerOwned_frame s _ k w { w with pc := .exitUnlockW } hw rfl rfl rfl h1
        | (refine ⟨_, { w with pc := .exitUnlockW }, rfl, ?_, hr⟩
           simp [lookup_set hw]
           done)
        | (exfalso
           obtain ⟨m, y, hm2, _, _⟩ := h1
           rw [hm] at hm2
           exact absurd hm2 (by simp))
        | exact absurd (no_covered_of_last s hI k w hw hr hpc j x hj hx hjk) id
        | (exfalso
           refine covered_not_writing s hI j k x w hj hx hw ?_
           simp [Worker.writing, hr, hpc]
           done)
  | rTestNotLast w hw hr hpc hc =>
    intro j x hj hx
    simp only [lookup_set hw] at hj
    split at hj
    · rename_i hjk
      simp only [Option.some.injEq] at hj
      subst hj
      subst hjk
      first
        | (exfalso
           simp [Worker.covered, hr] at hx
           done)
        | (refine readerOwned_frame s _ _ w { w with pc := .exitRelease } hw rfl rfl rfl (hI.gate _ w hw ?_)
           simp [Worker.covered, hr, hpc]
           done)
        | (refine ⟨_, { w with pc := .exitRelease }, rfl, ?_, hr⟩
           simp [lookup_set hw]
           done)
        | exact readerOwned_frame s _ _ w { w with pc := .exitRelease } hw rfl rfl rfl (gate_of_more s hI _ w hw hr hpc hc)
    · rename_i hjk
      have h1 := hI.gate j x hj hx
      first
        | exact readerOwned_frame s _ k w { w with pc := .exitRelease } hw rfl rfl rfl h1
        | (refine ⟨_, { w with pc := .exitRelease }, rfl, ?_, hr⟩
           simp [lookup_set hw]
           done)
        | (exfalso
           obtain ⟨m, y, hm2, _, _⟩ := h1
           rw [hm] at hm2
           exact absurd hm2 (by simp))
        | exact absurd (no_covered_of_last s hI k w hw hr hpc j x hj hx hjk) id
        | (exfalso
           refine covered_not_writing s hI j k x w hj hx hw ?_
           simp [Worker.writing, hr, hpc]
           done)
  | rUnlockW w hw hr hpc =>
    intro j x hj hx
    simp only [lookup_set hw] at hj
    split at hj
    · rename_i hjk
      simp only [Option.some.injEq] at hj
      subst hj
      subst hjk
      first
        | (exfalso
           simp [Worker.covered, hr] at hx
           done)
        | (refine readerOwned_frame s _ _ w { w with pc := .exitRelease } hw rfl rfl rfl (hI.gate _ w hw ?_)
           simp [Worker.covered, hr, hpc]
           done)
        | (refine ⟨_, { w with pc := .exitRelease }, rfl, ?_, hr⟩
           simp [lookup_set hw]
           done)
        | exact readerOwned_frame s _ _ w { w with pc := .exitRelease } hw rfl rfl rfl (gate_of_more s hI _ w hw hr hpc hc)
    · rename_i hjk
      have h1 := hI.gate j x hj hx
      first
        | exact readerOwned_frame s _ k w { w with pc := .exitRelease } hw rfl rfl rfl h1
        | (refine ⟨_, { w with pc := .exitRelease }, rfl, ?_, hr⟩
           simp [lookup_set hw]
           done)
        | (exfalso
           obtain ⟨m, y, hm2, _, _⟩ := h1
           rw [hm] at hm2
           exact absurd hm2 (by simp))
        | exact absurd (no_covered_of_last s hI k w hw hr hpc j x hj hx hjk) id
        | (exfalso
           refine covered_not_writing s hI j k x w hj hx hw ?_
           simp [Worker.writing, hr, hpc]
           done)
  | rReleaseExit w hw hr hpc =>
    intro j x hj hx
    simp only [lookup_set hw] at hj
    split at hj
    · rename_i hjk
      simp only [Option.some.injEq] at hj
      subst hj
      subst hjk
      first
        | (exfalso
           simp [Worker.covered, hr] at hx
           done)
        | (refine readerOwned_frame s _ _ w { w with i := w.i + 1, pc := .loopHead } hw rfl rfl rfl (hI.gate _ w hw ?_)
           simp [Worker.covered, hr, hpc]
           done)
        | (refine ⟨_, { w with i := w.i + 1, pc := .loopHead }, rfl, ?_, hr⟩
           simp [lookup_set hw]
           done)
        | exact readerOwned_frame s _ _ w { w with i := w.i + 1, pc := .loopHead } hw rfl rfl rfl (gate_of_more s hI _ w hw hr hpc hc)
    · rename_i hjk
      have h1 := hI.gate j x hj hx
      first
        | exact readerOwned_frame s _ k w { w with i := w.i + 1, pc := .loopHead } hw rfl rfl rfl h1
        | (refine ⟨_, { w with i := w.i + 1, pc := .loopHead }, rfl, ?_, hr⟩
           simp [lookup_set hw]
           done)
        | (exfalso
           obtain ⟨m, y, hm2, _, _⟩ := h1
           rw [hm] at hm2
           exact absurd hm2 (by simp))
        | exact absurd (no_covered_of_last s hI k w hw hr hpc j x hj hx hjk) id
        | (exfalso
           refine covered_not_writing s hI j k x w hj hx hw ?_
           simp [Worker.writing, hr, hpc]
           done)
  | wLock w hw hr hpc hi hm =>
    intro j x hj hx
    simp only [lookup_set hw] at hj
    split at hj
    · rename_i hjk
      simp only [Option.some.injEq] at hj
      subst hj
      subst hjk
      first
        | (exfalso
           simp [Worker.covered, hr] at hx
           done)
        | (refine readerOwned_frame s _ _ w { w with pc := .wRead } hw rfl rfl rfl (hI.gate _ w hw ?_)
           simp [Worker.covered, hr, hpc]
           done)
        | (refine ⟨_, { w with pc := .wRead }, rfl, ?_, hr⟩
           simp [lookup_set hw]
           done)
        | exact readerOwned_frame s _ _ w { w with pc := .wRead } hw rfl rfl rfl (gate_of_more s hI _ w hw hr hpc hc)
    · rename_i hjk
      have h1 := hI.gate j x hj hx
      first
        | exact readerOwned_frame s _ k w { w with pc := .wRead } hw rfl rfl rfl h1
        | (refine ⟨_, { w with pc := .wRead }, rfl, ?_, hr⟩
           simp [lookup_set hw]
           done)
        | (exfalso
           obtain ⟨m, y, hm2, _, _⟩ := h1
           rw [hm] at hm2
           exact absurd hm2 (by simp))
        | exact absurd (no_covered_of_last s hI k w hw hr hpc j x hj hx hjk) id
        | (exfalso
           refine covered_not_writing s hI j k x w hj hx hw ?_
           simp [Worker.writing, hr, hpc]
           done)
  | wRead w hw hr hpc =>
    intro j x hj hx
    simp only [lookup_set hw] at hj
    split at hj
    · rename_i hjk
      simp only [Option.some.injEq] at hj
      subst hj
      subst hjk
      first
        | (exfalso
           simp [Worker.covered, hr] at hx
           done)
        | (refine readerOwned_frame s _ _ w { w with pc := .wWrite, tmp := s.shared_data } hw rfl rfl rfl (hI.gate _ w hw ?_)
           simp [Worker.covered, hr, hpc]
           done)
        | (refine ⟨_, { w with pc := .wWrite, tmp := s.shared_data }, rfl, ?_, hr⟩
           simp [lookup_set hw]
           done)
        | exact readerOwned_frame s _ _ w { w with pc := .wWrite, tmp := s.shared_data } hw rfl rfl rfl (gate_of_more s hI _ w hw hr hpc hc)
    · rename_i hjk
      have h1 := hI.gate j x hj hx
      first
        | exact readerOwned_frame s _ k w { w with pc := .wWrite, tmp := s.shared_data } hw rfl rfl rfl h1
        | (refine ⟨_, { w with pc := .wWrite, tmp := s.shared_data }, rfl, ?_, hr⟩
           simp [lookup_set hw]
           done)
        | (exfalso
           obtain ⟨m, y, hm2, _, _⟩ := h1
           rw [hm] at hm2
           exact absurd hm2 (by simp))
        | exact absurd (no_covered_of_last s hI k w hw hr hpc j x hj hx hjk) id
        | (exfalso
           refine covered_not_writing s hI j k x w hj hx hw ?_
           simp [Worker.writing, hr, hpc]
           done)
  | wWrite w hw hr hpc =>
    intro j x hj hx
    simp only [lookup_set hw] at hj
    split at hj
    · rename_i hjk
      simp only [Option.some.injEq] at hj
      subst hj
      subst hjk
      first
        | (exfalso
           simp [Worker.covered, hr] at hx
           done)
        | (refine readerOwned_frame s _ _ w { w with pc := .wPrint } hw rfl rfl rfl (hI.gate _ w hw ?_)
           simp [Worker.covered, hr, hpc]
           done)
        | (refine ⟨_, { w with pc := .wPrint }, rfl, ?_, hr⟩
           simp [lookup_set hw]
           done)
        | exact readerOwned_frame s _ _ w { w with pc := .wPrint } hw rfl rfl rfl (gate_of_more s hI _ w hw hr hpc hc)
    · rename_i hjk
      have h1 := hI.gate j x hj hx
      first
        | exact readerOwned_frame s _ k w { w with pc := .wPrint } hw rfl rfl rfl h1
        | (refine ⟨_, { w with pc := .wPrint }, rfl, ?_, hr⟩
           simp [lookup_set hw]
           done)
        | (exfalso
           obtain ⟨m, y, hm2, _, _⟩ := h1
           rw [hm] at hm2
           exact absurd hm2 (by simp))
        | exact absurd (no_covered_of_last s hI k w hw hr hpc j x hj hx hjk) id
        | (exfalso
           refine covered_not_writing s hI j k x w hj hx hw ?_
           simp [Worker.writing, hr, hpc]
           done)
  | wPrint w hw hr hpc =>
    intro j x hj hx
    simp only [lookup_set hw] at hj
    split at hj
    · rename_i hjk
      simp only [Option.some.injEq] at hj
      subst hj
      subst hjk
      first
        | (exfalso
           simp [Worker.covered, hr] at hx
           done)
        | (refine readerOwned_frame s _ _ w { w with pc := .wRelease } hw rfl rfl rfl (hI.gate _ w hw ?_)
           simp [Worker.covered, hr, hpc]
           done)
        | (refine ⟨_, { w with pc := .wRelease }, rfl, ?_, hr⟩
           simp [lookup_set hw]
           done)
        | exact readerOwned_frame s _ _ w { w with pc := .wRelease } hw rfl rfl rfl (gate_of_more s hI _ w hw hr hpc hc)
    · rename_i hjk
      have h1 := hI.gate j x hj hx
      first
        | exact readerOwned_frame s _ k w { w with pc := .wRelease } hw rfl rfl rfl h1
        | (refine ⟨_, { w with pc := .wRelease }, rfl, ?_, hr⟩
           simp [lookup_set hw]
           done)
        | (exfalso
           obtain ⟨m, y, hm2, _, _⟩ := h1
           rw [hm] at hm2
           exact absurd hm2 (by simp))
        | exact absurd (no_covered_of_last s hI k w hw hr hpc j x hj hx hjk) id
        | (exfalso
           refine covered_not_writing s hI j k x w hj hx hw ?_
           simp [Worker.writing, hr, hpc]
           done)
  | wRelease w hw hr hpc =>
    intro j x hj hx
    simp only [lookup_set hw] at hj
    split at hj
    · rename_i hjk
      simp only [Option.some.injEq] at hj
      subst hj
      subst hjk
      first
        | (exfalso
           simp [Worker.covered, hr] at hx
           done)
        | (refine readerOwned_frame s _ _ w { w with i := w.i + 1, pc := .loopHead } hw rfl rfl rfl (hI.gate _ w hw ?_)
           simp [Worker.covered, hr, hpc]
           done)
        | (refine ⟨_, { w with i := w.i + 1, pc := .loopHead }, rfl, ?_, hr⟩
           simp [lookup_set hw]
           done)
        | exact readerOwned_frame s _ _ w { w with i := w.i + 1, pc := .loopHead } hw rfl rfl rfl (gate_of_more s hI _ w hw hr hpc hc)
    · rename_i hjk
      have h1 := hI.gate j x hj hx
      first
        | exact readerOwned_frame s _ k w { w with i := w.i + 1, pc := .loopHead } hw rfl rfl rfl h1
        | (refine ⟨_, { w with i := w.i + 1, pc := .loopHead }, rfl, ?_, hr⟩
           simp [lookup_set hw]
           done)
        | (exfalso
           obtain ⟨m, y, hm2, _, _⟩ := h1
           rw [hm] at hm2
           exact absurd hm2 (by simp))
        | exact absurd (no_covered_of_last s hI k w hw hr hpc j x hj hx hjk) id
        | (exfalso
           refine covered_not_writing s hI j k x w hj hx hw ?_
           simp [Worker.writing, hr, hpc]
           done)

theorem gateInv_step (s : State) (k : Nat) (t : State) (hI : GateInv s)
    (h : step s k = some t) : GateInv t :=
  ⟨cnt_step s k t hI h, rcmOwn_step s k t hI h, wOwn_step s k t hI h, gate_step s k t hI h,
    first_step s k t hI h, last_step s k t hI h, tmp_step s k t hI h, sum_step s k t hI h⟩

theorem gateInv_init (ws : List Worker) (h : Fresh ws) : GateInv (init ws) := by
  have hf : ∀ (k : Nat) (w : Worker), ws[k]? = some w → w.i = 0 ∧ w.pc = .loopHead :=
    fun k w hk => h w (List.getElem?_mem hk)
  refine ⟨?_, ?_, ?_, ?_, ?_, ?_, ?_, ?_⟩
  · show (0 : Int) = (((ws.map Worker.counted).sum : Nat) : Int)
    rw [sum_map_eq_zero Worker.counted]
    · rfl
    · intro k w hk
      simp [Worker.counted, (hf k w hk).2]
  · intro k w hk hx
    simp [Worker.holdsRcm, (hf k w hk).2] at hx
  · intro k w hk hx
    simp [Worker.writing, (hf k w hk).2] at hx
  · intro k w hk hx
    simp [Worker.covered, (hf k w hk).2] at hx
  · intro k w hk _ hx
    simp [(hf k w hk).2] at hx
  · intro k w hk _ hx
    simp [(hf k w hk).2] at hx
  · intro k w hk _ hx
    simp [(hf k w hk).2] at hx
  · show (0 : Int) = (((ws.map Worker.written).sum : Nat) : Int)
    rw [sum_map_eq_zero Worker.written]
    · rfl
    · intro k w hk
      simp [Worker.written, (hf k w hk).1, (hf k w hk).2]

theorem gateInv_reachable (ws : List Worker) (s : State) (h : Reachable ws s) : GateInv s := by
  obtain ⟨hf, acts, hacts⟩ := h
  exact rw_exec_preserves GateInv gateInv_step acts (init ws) s (gateInv_init ws hf) hacts

end ReadersWriters

namespace ReadersWriters

theorem rw_args_step (ws : List Worker) (s : State) (k : Nat) (t : State)
    (hI : s.workers.map Worker.args = ws.map Worker.args) (h : step s k = some t) :
    t.workers.map Worker.args = ws.map Worker.args := by
  cases rw_step_sound s k t h with
  | rLockEntry w hw hr hpc hi hm =>
    show (s.workers.set k { w with pc := .entryInc }).map Worker.args = _
    rw [map_set_same Worker.args hw { w with pc := .entryInc } rfl]
    exact hI
  | rInc w hw hr hpc =>
    show (s.workers.set k { w with pc := .entryTest }).map Worker.args = _
    rw [map_set_same Worker.args hw { w with pc := .entryTest } rfl]
    exact hI
  | rTestFirst w hw hr hpc hc =>
    show (s.workers.set k { w with pc := .entryLockW }).map Worker.args = _
    rw [map_set_same Worker.args hw { w with pc := .entryLockW } rfl]
    exact hI
  | rTestMore w hw hr hpc hc =>
    show (s.workers.set k { w with pc := .entryRelease }).map Worker.args = _
    rw [map_set_same Worker.args hw { w with pc := .entryRelease } rfl]
    exact hI
  | rLockW w hw hr hpc hm =>
    show (s.workers.set k { w with pc := .entryRelease }).map Worker.args = _
    rw [map_set_same Worker.args hw { w with pc := .entryRelease } rfl]
    exact hI
  | rReleaseEntry w hw hr hpc =>
    show (s.workers.set k { w with pc := .reading }).map Worker.args = _
    rw [map_set_same Worker.args hw { w with pc := .reading } rfl]
    exact hI
  | rRead w hw hr hpc =>
    show (s.workers.set k { w with pc := .exitLock, tmp := s.shared_data }).map Worker.args = _
    rw [map_set_same Worker.args hw { w with pc := .exitLock, tmp := s.shared_data } rfl]
    exact hI
  | rLockExit w hw hr hpc hm =>
    show (s.workers.set k { w with pc := .exitDec }).map Worker.args = _
    rw [map_set_same Worker.args hw { w with pc := .exitDec } rfl]
    exact hI
  | rDec w hw hr hpc =>
    show (s.workers.set k { w with pc := .exitTest }).map Worker.args = _
    rw [map_set_same Worker.args hw { w with pc := .exitTest } rfl]
    exact hI
  | rTestLast w hw hr hpc hc =>
    show (s.workers.set k { w with pc := .exitUnlockW }).map Worker.args = _
    rw [map_set_same Worker.args hw { w with pc := .exitUnlockW } rfl]
    exact hI
  | rTestNotLast w hw hr hpc hc =>
    show (s.workers.set k { w with pc := .exitRelease }).map Worker.args = _
    rw [map_set_same Worker.args hw { w with pc := .exitRelease } rfl]
    exact hI
  | rUnlockW w hw hr hpc =>
    show (s.workers.set k { w with pc := .exitRelease }).map Worker.args = _
    rw [map_set_same Worker.args hw { w with pc := .exitRelease } rfl]
    exact hI
  | rReleaseExit w hw hr hpc =>
    show (s.workers.set k { w with i := w.i + 1, pc := .loopHead }).map Worker.args = _
    rw [map_set_same Worker.args hw { w with i := w.i + 1, pc := .loopHead } rfl]
    exact hI
  | wLock w hw hr hpc hi hm =>
    show (s.workers.set k { w with pc := .wRead }).map Worker.args = _
    rw [map_set_same Worker.args hw { w with pc := .wRead } rfl]
    exact hI
  | wRead w hw hr hpc =>
    show (s.workers.set k { w with pc := .wWrite, tmp := s.shared_data }).map Worker.args = _
    rw [map_set_same Worker.args hw { w with pc := .wWrite, tmp := s.shared_data } rfl]
    exact hI
  | wWrite w hw hr hpc =>
    show (s.workers.set k { w with pc := .wPrint }).map Worker.args = _
    rw [map_set_same Worker.args hw { w with pc := .wPrint } rfl]
    exact hI
  | wPrint w hw hr hpc =>
    show (s.workers.set k { w with pc := .wRelease }).map Worker.args = _
    rw [map_set_same Worker.args hw { w with pc := .wRelease } rfl]
    exact hI
  | wRelease w hw hr hpc =>
    show (s.workers.set k { w with i := w.i + 1, pc := .loopHead }).map Worker.args = _
    rw [map_set_same Worker.args hw { w with i := w.i + 1, pc := .loopHead } rfl]
    exact hI

theorem rw_bound_step (s : State) (k : Nat) (t : State)
    (hI : ∀ (k : Nat) (w : Worker), s.workers[k]? = some w →
      (w.pc ≠ .loopHead → (w.i : Int) < w.iterations) ∧
        (w.i = 0 ∨ (w.i : Int) ≤ w.iterations))
    (h : step s k = some t) :
    ∀ (k : Nat) (w : Worker), t.workers[k]? = some w →
      (w.pc ≠ .loopHead → (w.i : Int) < w.iterations) ∧
        (w.i = 0 ∨ (w.i : Int) ≤ w.iterations) := by
  cases rw_step_sound s k t h with
  | rLockEntry w hw hr hpc hi hm =>
    intro m x hm
    have h0 := hI k w hw
    simp only [lookup_set hw] at hm
    split at hm
    · simp only [Option.some.injEq] at hm
      subst hm
      exact ⟨fun _ => hi, h0.2⟩
    · exact hI m x hm
  | rInc w hw hr hpc =>
    intro m x hm
    have h0 := hI k w hw
    simp only [lookup_set hw] at hm
    split at hm
    · simp only [Option.some.injEq] at hm
      subst hm
      exact ⟨fun _ => h0.1 (by simp [hpc]), h0.2⟩
    · exact hI m x hm
  | rTestFirst w hw hr hpc hc =>
    intro m x hm
    have h0 := hI k w hw
    simp only [lookup_set hw] at hm
    split at hm
    · simp only [Option.some.injEq] at hm
      subst hm
      exact ⟨fun _ => h0.1 (by simp [hpc]), h0.2⟩
    · exact hI m x hm
  | rTestMore w hw hr hpc hc =>
    intro m x hm
    have h0 := hI k w hw
    simp only [lookup_set hw] at hm
    split at hm
    · simp only [Option.some.injEq] at hm
      subst hm
      exact ⟨fun _ => h0.1 (by simp [hpc]), h0.2⟩
    · exact hI m x hm
  | rLockW w hw hr hpc hm =>
    intro m x hm
    have h0 := hI k w hw
    simp only [lookup_set hw] at hm
    split at hm
    · simp only [Option.some.injEq] at hm
      subst hm
      exact ⟨fun _ => h0.1 (by simp [hpc]), h0.2⟩
    · exact hI m x hm
  | rReleaseEntry w hw hr hpc =>
    intro m x hm
    have h0 := hI k w hw
    simp only [lookup_set hw] at hm
    split at hm
    · simp only [Option.some.injEq] at hm
      subst hm
      exact ⟨fun _ => h0.1 (by simp [hpc]), h0.2⟩
    · exact hI m x hm
  | rRead w hw hr hpc =>
    intro m x hm
    have h0 := hI k w hw
    simp only [lookup_set hw] at hm
    split at hm
    · simp only [Option.some.injEq] at hm
      subst hm
      exact ⟨fun _ => h0.1 (by simp [hpc]), h0.2⟩
    · exact hI m x hm
  | rLockExit w hw hr hpc hm =>
    intro m x hm
    have h0 := hI k w hw
    simp only [lookup_set hw] at hm
    split at hm
    · simp only [Option.some.injEq] at hm
      subst hm
      exact ⟨fun _ => h0.1 (by simp [hpc]), h0.2⟩
    · exact hI m x hm
  | rDec w hw hr hpc =>
    intro m x hm
    have h0 := hI k w hw
    simp only [lookup_set hw] at hm
    split at hm
    · simp only [Option.some.injEq] at hm
      subst hm
      exact ⟨fun _ => h0.1 (by simp [hpc]), h0.2⟩
    · exact hI m x hm
  | rTestLast w hw hr hpc hc =>
    intro m x hm
    have h0 := hI k w hw
    simp only [lookup_set hw] at hm
    split at hm
    · simp only [Option.some.injEq] at hm
      subst hm
      exact ⟨fun _ => h0.1 (by simp [hpc]), h0.2⟩
    · exact hI m x hm
  | rTestNotLast w hw hr hpc hc =>
    intro m x hm
    have h0 := hI k w hw
    simp only [lookup_set hw] at hm
    split at hm
    · simp only [Option.some.injEq] at hm
      subst hm
      exact ⟨fun _ => h0.1 (by simp [hpc]), h0.2⟩
    · exact hI m x hm
  | rUnlockW w hw hr hpc =>
    intro m x hm
    have h0 := hI k w hw
    simp only [lookup_set hw] at hm
    split at hm
    · simp only [Option.some.injEq] at hm
      subst hm
      exact ⟨fun _ => h0.1 (by simp [hpc]), h0.2⟩
    · exact hI m x hm
  | rReleaseExit w hw hr hpc =>
    intro m x hm
    have h0 := hI k w hw
    simp only [lookup_set hw] at hm
    split at hm
    · simp only [Option.some.injEq] at hm
      subst hm
      have hlt := h0.1 (by simp [hpc])
      refine ⟨fun hne => absurd rfl hne, Or.inr ?_⟩
      show ((w.i + 1 : Nat) : Int) ≤ w.iterations
      push_cast
      omega
    · exact hI m x hm
  | wLock w hw hr hpc hi hm =>
    intro m x hm
    have h0 := hI k w hw
    simp only [lookup_set hw] at hm
    split at hm
    · simp only [Option.some.injEq] at hm
      subst hm
      exact ⟨fun _ => hi, h0.2⟩
    · exact hI m x hm
  | wRead w hw hr hpc =>
    intro m x hm
    have h0 := hI k w hw
    simp only [lookup_set hw] at hm
    split at hm
    · simp only [Option.some.injEq] at hm
      subst hm
      exact ⟨fun _ => h0.1 (by simp [hpc]), h0.2⟩
    · exact hI m x hm
  | wWrite w hw hr hpc =>
    intro m x hm
    have h0 := hI k w hw
    simp only [lookup_set hw] at hm
    split at hm
    · simp only [Option.some.injEq] at hm
      subst hm
      exact ⟨fun _ => h0.1 (by simp [hpc]), h0.2⟩
    · exact hI m x hm
  | wPrint w hw hr hpc =>
    intro m x hm
    have h0 := hI k w hw
    simp only [lookup_set hw] at hm
    split at hm
    · simp only [Option.some.injEq] at hm
      subst hm
      exact ⟨fun _ => h0.1 (by simp [hpc]), h0.2⟩
    · exact hI m x hm
  | wRelease w hw hr hpc =>
    intro m x hm
    have h0 := hI k w hw
    simp only [lookup_set hw] at hm
    split at hm
    · simp only [Option.some.injEq] at hm
      subst hm
      have hlt := h0.1 (by simp [hpc])
      refine ⟨fun hne => absurd rfl hne, Or.inr ?_⟩
      show ((w.i + 1 : Nat) : Int) ≤ w.iterations
      push_cast
      omega
    · exact hI m x hm

theorem loopInv_reachable (ws : List Worker) (s : State) (h : Reachable ws s) :
    LoopInv ws s := by
  obtain ⟨hf, acts, hacts⟩ := h
  refine rw_exec_preserves (LoopInv ws)
    (fun s k t hI hst => ⟨rw_args_step ws s k t hI.args hst, rw_bound_step s k t hI.bound hst⟩)
    acts (init ws) s ⟨rfl, ?_⟩ hacts
  intro k w hk
  obtain ⟨h1, h2⟩ := hf w (List.getElem?_mem hk)
  exact ⟨fun hne => absurd h2 hne, Or.inl h1⟩

theorem blockedState_reachable : Reachable runWorkers blockedState :=
  ⟨by unfold Fresh; decide, blockedSchedule, by decide⟩

theorem readingState_reachable : Reachable runWorkers readingState :=
  ⟨by unfold Fresh; decide, readingSchedule, by decide⟩

theorem rw_runFinal_reachable : Reachable runWorkers runFinal :=
  ⟨by unfold Fresh; decide, runSchedule, by decide⟩

end ReadersWriters

/-- Two summands at different positions are together at most the sum. -/
theorem add_le_sum_map {α : Type} (f : α → Nat) {l : List α} {j k : Nat} {x w : α}
    (hj : l[j]? = some x) (hk : l[k]? = some w) (hjk : j ≠ k) :
    f x + f w ≤ (l.map f).sum := by
  induction l generalizing j k with
  | nil => simp at hj
  | cons a l ih =>
    simp only [List.map_cons, List.sum_cons]
    cases j with
    | zero =>
      cases k with
      | zero => exact absurd rfl hjk
      | succ n =>
        simp only [List.getElem?_cons_zero, Option.some.injEq] at hj
        simp only [List.getElem?_cons_succ] at hk
        have := le_sum_map f hk
        subst hj
        omega
    | succ m =>
      cases k with
      | zero =>
        simp only [List.getElem?_cons_zero, Option.some.injEq] at hk
        simp only [List.getElem?_cons_succ] at hj
        have := le_sum_map f hj
        subst hk
        omega
      | succ n =>
        simp only [List.getElem?_cons_succ] at hj hk
        have := ih hj hk (by omega)
        omega

namespace ReadersWriters

theorem inReading_covered (x : Worker) (h : x.inReading = true) : x.covered = true := by
  simp only [Worker.inReading, Bool.and_eq_true, Bool.or_eq_true, decide_eq_true_eq] at h
  obtain ⟨hr, hp⟩ := h
  rcases hp with e | e <;> simp [Worker.covered, hr, e]

theorem inReading_counted (x : Worker) (h : x.inReading = true) : x.counted = 1 := by
  simp only [Worker.inReading, Bool.and_eq_true, Bool.or_eq_true, decide_eq_true_eq] at h
  obtain ⟨hr, hp⟩ := h
  rcases hp with e | e <;> simp [Worker.counted, hr, e]

theorem counted_le_one (x : Worker) : x.counted ≤ 1 := by
  unfold Worker.counted
  split <;> omega

/-- C3 (mutual exclusion of the readers-writers gate).  In every state reachable from any
freshly started reader and writer threads under any schedule, at most one writer is inside
its critical section (from the acquisition of `write_mutex`, through the increment and the
print of `shared_data`, to the release), and while a writer is inside its critical section
no reader is inside its reading section. -/
theorem gate_mutual_exclusion (ws : List Worker) (s : State) (h : Reachable ws s) :
    (∀ (j k : Nat) (x w : Worker), s.workers[j]? = some x → s.workers[k]? = some w →
      x.writing = true → w.writing = true → j = k) ∧
    (∀ (j k : Nat) (x w : Worker), s.workers[j]? = some x → s.workers[k]? = some w →
      x.writing = true → w.inReading = true → False) := by
  have hI := gateInv_reachable ws s h
  constructor
  · intro j k x w hj hk hx hw
    exact writing_unique s hI j k x w hj hx hk hw
  · intro j k x w hj hk hx hw
    exact covered_not_writing s hI k j w x hk (inReading_covered w hw) hj hx

/-- Witness of C3 at `readingState`: reader 1 is inside its reading section. -/
theorem gate_mutual_exclusion_witness :
    Reachable runWorkers readingState ∧
    ((∀ (j k : Nat) (x w : Worker), readingState.workers[j]? = some x →
      readingState.workers[k]? = some w → x.writing = true → w.writing = true → j = k) ∧
    (∀ (j k : Nat) (x w : Worker), readingState.workers[j]? = some x →
      readingState.workers[k]? = some w → x.writing = true → w.inReading = true → False)) :=
  ⟨readingState_reachable, gate_mutual_exclusion runWorkers readingState readingState_reachable⟩

/-- C6 (reader preference).  In every reachable state in which some reader is inside its
reading section: `write_mutex` is taken and `read_count >= 1`; a writer at its loop head
cannot acquire `write_mutex` (its step is not enabled); no reader is at
`write_mutex.lock()`, and a reader at the entry test finds `read_count != 1`; and a reader
arriving at its loop head, once `read_count_mutex` is free, completes its entry section in
four steps of its own (lock `read_count_mutex`, `++read_count`, failed test, release),
ending in its reading section without touching `write_mutex`. -/
theorem reader_preference (ws : List Worker) (s : State) (h : Reachable ws s)
    (hread : ∃ (j : Nat) (x : Worker), s.workers[j]? = some x ∧ x.inReading = true) :
    s.write_mutex ≠ none ∧ 1 ≤ s.read_count ∧
    (∀ (k : Nat) (w : Worker), s.workers[k]? = some w → w.role = .writer →
      w.pc = .loopHead → step s k = none) ∧
    (∀ (k : Nat) (w : Worker), s.workers[k]? = some w → w.role = .reader →
      w.pc ≠ .entryLockW) ∧
    (∀ (k : Nat) (w : Worker), s.workers[k]? = some w → w.role = .reader →
      w.pc = .entryTest → s.read_count ≠ 1) ∧
    (∀ (k : Nat) (w : Worker), s.workers[k]? = some w → w.role = .reader →
      w.pc = .loopHead → (w.i : Int) < w.iterations → s.read_count_mutex = none →
      ∃ (t1 t2 t3 t4 : State) (u3 u4 : Worker),
        step s k = some t1 ∧ step t1 k = some t2 ∧ step t2 k = some t3 ∧
        step t3 k = some t4 ∧
        t3.workers[k]? = some u3 ∧ u3.pc = .entryRelease ∧
        t4.workers[k]? = some u4 ∧ u4.inReading = true ∧
        t1.write_mutex = s.write_mutex ∧ t2.write_mutex = s.write_mutex ∧
        t3.write_mutex = s.write_mutex ∧ t4.write_mutex = s.write_mutex ∧
        t4.read_count = s.read_count + 1) := by
  have hI := gateInv_reachable ws s h
  obtain ⟨j, x, hj, hx⟩ := hread
  have hxc := inReading_counted x hx
  have hcnt := hI.cnt
  have hge : 1 ≤ s.read_count := by
    have := le_sum_map Worker.counted hj
    omega
  obtain ⟨m, y, hm, hy, hyr⟩ := hI.gate j x hj (inReading_covered x hx)
  have hxpc : x.pc = .reading ∨ x.pc = .exitLock := by
    simp only [Worker.inReading, Bool.and_eq_true, Bool.or_eq_true, decide_eq_true_eq] at hx
    exact hx.2
  have hother : ∀ (k : Nat) (w : Worker), s.workers[k]? = some w → w.role = .reader →
      (w.pc = .entryTest ∨ w.pc = .entryLockW) → 2 ≤ s.read_count := by
    intro k w hw hr hp
    have hwc : w.counted = 1 := by
      rcases hp with e | e <;> simp [Worker.counted, hr, e]
    have hjk : j ≠ k := by
      intro e
      subst e
      rw [hj] at hw
      simp only [Option.some.injEq] at hw
      subst hw
      rcases hp with e | e <;> rcases hxpc with e2 | e2 <;> rw [e] at e2 <;> cases e2
    have := add_le_sum_map Worker.counted hj hw hjk
    omega
  refine ⟨by rw [hm]; simp, hge, ?_, ?_, ?_, ?_⟩
  · intro k w hw hr hpc
    simp [step, hw, hr, stepWriter, hpc, hm]
  · intro k w hw hr hpc
    have h1 := hI.first k w hw hr hpc
    have h2 := hother k w hw hr (Or.inr hpc)
    omega
  · intro k w hw hr hpc
    have h2 := hother k w hw hr (Or.inl hpc)
    omega
  · intro k w hw hr hpc hi hfree
    have hne : ¬ (s.read_count + 1 = 1) := by omega
    refine ⟨{ s with read_count_mutex := some k,
                     workers := s.workers.set k { w with pc := .entryInc } },
      { s with read_count_mutex := some k, read_count := s.read_count + 1,
               workers := s.workers.set k { w with pc := .entryTest } },
      { s with read_count_mutex := some k, read_count := s.read_count + 1,
               workers := s.workers.set k { w with pc := .entryRelease } },
      { s with read_count_mutex := none, read_count := s.read_count + 1,
               workers := s.workers.set k { w with pc := .reading } },
      { w with pc := .entryRelease }, { w with pc := .reading },
      ?_, ?_, ?_, ?_, ?_, rfl, ?_, ?_, rfl, rfl, rfl, rfl, rfl⟩
    · simp [step, hw, hr, stepReader, hpc, hi, hfree]
    · simp [step, lookup_set hw, hr, stepReader]
    · simp [step, lookup_set hw, hr, stepReader, hne]
    · simp [step, lookup_set hw, hr, stepReader]
    · simp [lookup_set hw]
    · simp [lookup_set hw]
    · simp [Worker.inReading, hr]

/-- Witness of C6 at `readingState`: reader 1 is reading, readers 2 and 3 may still arrive. -/
theorem reader_preference_witness :
    Reachable runWorkers readingState ∧
    (∃ (j : Nat) (x : Worker), readingState.workers[j]? = some x ∧ x.inReading = true) ∧
    (readingState.write_mutex ≠ none ∧ 1 ≤ readingState.read_count ∧
    (∀ (k : Nat) (w : Worker), readingState.workers[k]? = some w → w.role = .writer →
      w.pc = .loopHead → step readingState k = none) ∧
    (∀ (k : Nat) (w : Worker), readingState.workers[k]? = some w → w.role = .reader →
      w.pc ≠ .entryLockW) ∧
    (∀ (k : Nat) (w : Worker), readingState.workers[k]? = some w → w.role = .reader →
      w.pc = .entryTest → readingState.read_count ≠ 1) ∧
    (∀ (k : Nat) (w : Worker), readingState.workers[k]? = some w → w.role = .reader →
      w.pc = .loopHead → (w.i : Int) < w.iterations → readingState.read_count_mutex = none →
      ∃ (t1 t2 t3 t4 : State) (u3 u4 : Worker),
        step readingState k = some t1 ∧ step t1 k = some t2 ∧ step t2 k = some t3 ∧
        step t3 k = some t4 ∧
        t3.workers[k]? = some u3 ∧ u3.pc = .entryRelease ∧
        t4.workers[k]? = some u4 ∧ u4.inReading = true ∧
        t1.write_mutex = readingState.write_mutex ∧ t2.write_mutex = readingState.write_mutex ∧
        t3.write_mutex = readingState.write_mutex ∧ t4.write_mutex = readingState.write_mutex ∧
        t4.read_count = readingState.read_count + 1)) :=
  ⟨readingState_reachable, ⟨0, _, rfl, rfl⟩,
    reader_preference runWorkers readingState readingState_reachable ⟨0, _, rfl, rfl⟩⟩

end ReadersWriters

set_option linter.unreachableTactic false
set_option linter.unusedTactic false

namespace ReadersWriters

/-- A step of a reader thread leaves `shared_data` unchanged. -/
theorem reader_frame (s : State) (k : Nat) (t : State) (w0 : Worker)
    (hw0 : s.workers[k]? = some w0) (hr0 : w0.role = .reader) (h : step s k = some t) :
    t.shared_data = s.shared_data := by
  cases rw_step_sound s k t h with
  | rLockEntry w hw hr hpc hi hm =>
    first
      | rfl
      | (exfalso
         rw [hw0] at hw
         simp only [Option.some.injEq] at hw
         subst hw
         rw [hr0] at hr
         exact absurd hr (by decide))
  | rInc w hw hr hpc =>
    first
      | rfl
      | (exfalso
         rw [hw0] at hw
         simp only [Option.some.injEq] at hw
         subst hw
         rw [hr0] at hr
         exact absurd hr (by decide))
  | rTestFirst w hw hr hpc hc =>
    first
      | rfl
      | (exfalso
         rw [hw0] at hw
         simp only [Option.some.injEq] at hw
         subst hw
         rw [hr0] at hr
         exact absurd hr (by decide))
  | rTestMore w hw hr hpc hc =>
    first
      | rfl
      | (exfalso
         rw [hw0] at hw
         simp only [Option.some.injEq] at hw
         subst hw
         rw [hr0] at hr
         exact absurd hr (by decide))
  | rLockW w hw hr hpc hm =>
    first
      | rfl
      | (exfalso
         rw [hw0] at hw
         simp only [Option.some.injEq] at hw
         subst hw
         rw [hr0] at hr
         exact absurd hr (by decide))
  | rReleaseEntry w hw hr hpc =>
    first
      | rfl
      | (exfalso
         rw [hw0] at hw
         simp only [Option.some.injEq] at hw
         subst hw
         rw [hr0] at hr
         exact absurd hr (by decide))
  | rRead w hw hr hpc =>
    first
      | rfl
      | (exfalso
         rw [hw0] at hw
         simp only [Option.some.injEq] at hw
         subst hw
         rw [hr0] at hr
         exact absurd hr (by decide))
  | rLockExit w hw hr hpc hm =>
    first
      | rfl
      | (exfalso
         rw [hw0] at hw
         simp only [Option.some.injEq] at hw
         subst hw
         rw [hr0] at hr
         exact absurd hr (by decide))
  | rDec w hw hr hpc =>
    first
      | rfl
      | (exfalso
         rw [hw0] at hw
         simp only [Option.some.injEq] at hw
         subst hw
         rw [hr0] at hr
         exact absurd hr (by decide))
  | rTestLast w hw hr hpc hc =>
    first
      | rfl
      | (exfalso
         rw [hw0] at hw
         simp only [Option.some.injEq] at hw
         subst hw
         rw [hr0] at hr
         exact absurd hr (by decide))
  | rTestNotLast w hw hr hpc hc =>
    first
      | rfl
      | (exfalso
         rw [hw0] at hw
         simp only [Option.some.injEq] at hw
         subst hw
         rw [hr0] at hr
         exact absurd hr (by decide))
  | rUnlockW w hw hr hpc =>
    first
      | rfl
      | (exfalso
         rw [hw0] at hw
         simp only [Option.some.injEq] at hw
         subst hw
         rw [hr0] at hr
         exact absurd hr (by decide))
  | rReleaseExit w hw hr hpc =>
    first
      | rfl
      | (exfalso
         rw [hw0] at hw
         simp only [Option.some.injEq] at hw
         subst hw
         rw [hr0] at hr
         exact absurd hr (by decide))
  | wLock w hw hr hpc hi hm =>
    first
      | rfl
      | (exfalso
         rw [hw0] at hw
         simp only [Option.some.injEq] at hw
         subst hw
         rw [hr0] at hr
         exact absurd hr (by decide))
  | wRead w hw hr hpc =>
    first
      | rfl
      | (exfalso
         rw [hw0] at hw
         simp only [Option.some.injEq] at hw
         subst hw
         rw [hr0] at hr
         exact absurd hr (by decide))
  | wWrite w hw hr hpc =>
    first
      | rfl
      | (exfalso
         rw [hw0] at hw
         simp only [Option.some.injEq] at hw
         subst hw
         rw [hr0] at hr
         exact absurd hr (by decide))
  | wPrint w hw hr hpc =>
    first
      | rfl
      | (exfalso
         rw [hw0] at hw
         simp only [Option.some.injEq] at hw
         subst hw
         rw [hr0] at hr
         exact absurd hr (by decide))
  | wRelease w hw hr hpc =>
    first
      | rfl
      | (exfalso
         rw [hw0] at hw
         simp only [Option.some.injEq] at hw
         subst hw
         rw [hr0] at hr
         exact absurd hr (by decide))

/-- The store of a writer's increment adds one to the current `shared_data`. -/
theorem writer_store (s : State) (hI : GateInv s) (k : Nat) (t : State) (w0 : Worker)
    (hw0 : s.workers[k]? = some w0) (hr0 : w0.role = .writer) (hp0 : w0.pc = .wWrite)
    (h : step s k = some t) : t.shared_data = s.shared_data + 1 := by
  have ht := hI.tmp k w0 hw0 hr0 hp0
  simp only [step, hw0, hr0, stepWriter, hp0, Option.some.injEq] at h
  subst h
  simp [ht]

/-- C7, counterexample.  After writer 1 has locked `write_mutex` and reader 1 has locked
`read_count_mutex` and run `++read_count`, `read_count` is 1 while a writer holds
`write_mutex`. -/
theorem gate_count_counterexample :
    Reachable runWorkers blockedState ∧ 0 < blockedState.read_count ∧
      WriterHolds blockedState :=
  ⟨blockedState_reachable, by decide, 3, _, rfl, rfl, rfl⟩

/-- C7, amended.  In every reachable state at most one writer is inside its critical
section; whenever a writer holds `write_mutex`, no reader is between the end of its entry
test and the `write_mutex.unlock()` of the last reader (in particular none is reading), and
`read_count` is 0, or it is 1 and a reader that owns `read_count_mutex` has run
`++read_count` and is at its entry test or at `write_mutex.lock()`; whenever a reader is
inside its reading section, `read_count > 0` and no writer holds `write_mutex`. -/
theorem gate_count_amended (ws : List Worker) (s : State) (h : Reachable ws s) :
    (∀ (j k : Nat) (x w : Worker), s.workers[j]? = some x → s.workers[k]? = some w →
      x.writing = true → w.writing = true → j = k) ∧
    (WriterHolds s →
      (∀ (j : Nat) (x : Worker), s.workers[j]? = some x → x.covered = false) ∧
      (s.read_count = 0 ∨
        (s.read_count = 1 ∧ ∃ (j : Nat) (x : Worker), s.workers[j]? = some x ∧
          x.role = .reader ∧ (x.pc = .entryTest ∨ x.pc = .entryLockW) ∧
          s.read_count_mutex = some j))) ∧
    ((∃ (j : Nat) (x : Worker), s.workers[j]? = some x ∧ x.inReading = true) →
      0 < s.read_count ∧ ¬ WriterHolds s) := by
  have hI := gateInv_reachable ws s h
  have hnc : WriterHolds s → ∀ (j : Nat) (x : Worker), s.workers[j]? = some x →
      x.covered = false := by
    intro hwh j x hj
    obtain ⟨k, w, hw, hr, hm⟩ := hwh
    cases hc : x.covered with
    | false => rfl
    | true =>
      exfalso
      obtain ⟨m, y, hm2, hy, hyr⟩ := hI.gate j x hj hc
      rw [hm] at hm2
      simp only [Option.some.injEq] at hm2
      subst hm2
      rw [hw] at hy
      simp only [Option.some.injEq] at hy
      subst hy
      rw [hr] at hyr
      exact absurd hyr (by decide)
  refine ⟨fun j k x w hj hk hx hw => writing_unique s hI j k x w hj hx hk hw, ?_, ?_⟩
  · intro hwh
    refine ⟨hnc hwh, ?_⟩
    have hcnt := hI.cnt
    by_cases h0 : (s.workers.map Worker.counted).sum = 0
    · left
      omega
    · right
      obtain ⟨j, x, hj, hx⟩ := exists_nonzero Worker.counted h0
      have hxr : x.holdsRcm = true := by
        rcases counted_cases x hx with e | e
        · exact e
        · rw [hnc hwh j x hj] at e
          exact absurd e (by decide)
      have hx1 : x.counted = 1 := by
        have := counted_le_one x
        omega
      have hsum : (s.workers.map Worker.counted).sum = x.counted := by
        by_contra hne
        obtain ⟨j2, x2, hj2, hjx2, hx2⟩ := exists_other_nonzero Worker.counted hj hne
        have hx2r : x2.holdsRcm = true := by
          rcases counted_cases x2 hx2 with e | e
          · exact e
          · rw [hnc hwh j2 x2 hjx2] at e
            exact absurd e (by decide)
        exact hj2 (rcm_unique s hI j2 j x2 x hjx2 hx2r hj hxr)
      refine ⟨by omega, j, x, hj, ?_, ?_, hI.rcmOwn j x hj hxr⟩
      · unfold Worker.counted at hx
        split at hx
        · rename_i hc
          exact hc.1
        · exact absurd rfl hx
      · have hcov := hnc hwh j x hj
        unfold Worker.counted at hx
        split at hx
        · rename_i hc
          obtain ⟨hr, hp⟩ := hc
          rcases hp with e | e | e | e | e | e
          · exact Or.inl e
          · exact Or.inr e
          all_goals simp [Worker.covered, hr, e] at hcov
        · exact absurd rfl hx
  · intro hex
    obtain ⟨j, x, hj, hx⟩ := hex
    constructor
    · have := le_sum_map Worker.counted hj
      have hc := inReading_counted x hx
      have hcnt := hI.cnt
      omega
    · intro hwh
      have := hnc hwh j x hj
      rw [inReading_covered x hx] at this
      exact absurd this (by decide)

/-- Witness of amended C7 at `blockedState`: writer 1 holds `write_mutex`, `read_count` is 1. -/
theorem gate_count_amended_witness :
    Reachable runWorkers blockedState ∧
    ((∀ (j k : Nat) (x w : Worker), blockedState.workers[j]? = some x →
      blockedState.workers[k]? = some w → x.writing = true → w.writing = true → j = k) ∧
    (WriterHolds blockedState →
      (∀ (j : Nat) (x : Worker), blockedState.workers[j]? = some x → x.covered = false) ∧
      (blockedState.read_count = 0 ∨
        (blockedState.read_count = 1 ∧ ∃ (j : Nat) (x : Worker),
          blockedState.workers[j]? = some x ∧
          x.role = .reader ∧ (x.pc = .entryTest ∨ x.pc = .entryLockW) ∧
          blockedState.read_count_mutex = some j))) ∧
    ((∃ (j : Nat) (x : Worker), blockedState.workers[j]? = some x ∧ x.inReading = true) →
      0 < blockedState.read_count ∧ ¬ WriterHolds blockedState)) :=
  ⟨blockedState_reachable, gate_count_amended runWorkers blockedState blockedState_reachable⟩

/-- C10 (reads do not mutate, writes are not lost).  In every reachable state: a step of a
reader thread leaves `shared_data` unchanged; `shared_data` is the number of increments the
writers have stored (their completed critical sections, plus one for a writer past the store
of its current one); the store of a writer adds one to the current value; and once all five
threads of `ReadersWriters::run` are done, `shared_data` is 4. -/
theorem writes_not_lost (ws : List Worker) (s : State) (h : Reachable ws s) :
    (∀ (k : Nat) (w : Worker) (t : State), s.workers[k]? = some w → w.role = .reader →
      step s k = some t → t.shared_data = s.shared_data) ∧
    s.shared_data = (((s.workers.map Worker.written).sum : Nat) : Int) ∧
    (∀ (k : Nat) (w : Worker) (t : State), s.workers[k]? = some w → w.role = .writer →
      w.pc = .wWrite → step s k = some t → t.shared_data = s.shared_data + 1) ∧
    (ws = runWorkers → (∀ (k : Nat) (w : Worker), s.workers[k]? = some w → w.done) →
      s.shared_data = 4) := by
  have hI := gateInv_reachable ws s h
  refine ⟨fun k w t hw hr hst => reader_frame s k t w hw hr hst, hI.sum,
    fun k w t hw hr hp hst => writer_store s hI k t w hw hr hp hst, ?_⟩
  intro hws hdone
  subst hws
  have hL := loopInv_reachable runWorkers s h
  have hargs := hL.args
  have hsum := hI.sum
  rcases hs : s.workers with _ | ⟨a, _ | ⟨b, _ | ⟨c, _ | ⟨d, _ | ⟨e, _ | ⟨f, l⟩⟩⟩⟩⟩⟩ <;>
    simp [hs, runWorkers, spawn] at hargs
  simp only [Worker.args, Prod.mk.injEq] at hargs
  obtain ⟨ha, hb, hc, hd, he⟩ := hargs
  have h3 : s.workers[3]? = some d := by simp [hs]
  have h4 : s.workers[4]? = some e := by simp [hs]
  have dd := hdone 3 d h3
  have de := hdone 4 e h4
  have bd := (hL.bound 3 d h3).2
  have be := (hL.bound 4 e h4).2
  have d2 := dd.2
  have e2 := de.2
  rw [hd.2.2] at bd d2
  rw [he.2.2] at be e2
  simp only [hs, List.map_cons, List.map_nil, List.sum_cons, List.sum_nil, Worker.written,
    ha.1, hb.1, hc.1, hd.1, he.1, dd.1, de.1, reduceCtorEq, if_false, if_true, false_or]
    at hsum
  omega

/-- Witness of C10 at `runFinal`, the final state of a complete schedule of `run`. -/
theorem writes_not_lost_witness :
    Reachable runWorkers runFinal ∧
    ((∀ (k : Nat) (w : Worker) (t : State), runFinal.workers[k]? = some w →
      w.role = .reader → step runFinal k = some t → t.shared_data = runFinal.shared_data) ∧
    runFinal.shared_data = (((runFinal.workers.map Worker.written).sum : Nat) : Int) ∧
    (∀ (k : Nat) (w : Worker) (t : State), runFinal.workers[k]? = some w →
      w.role = .writer → w.pc = .wWrite → step runFinal k = some t →
      t.shared_data = runFinal.shared_data + 1) ∧
    (runWorkers = runWorkers →
      (∀ (k : Nat) (w : Worker), runFinal.workers[k]? = some w → w.done) →
      runFinal.shared_data = 4)) :=
  ⟨rw_runFinal_reachable, writes_not_lost runWorkers runFinal rw_runFinal_reachable⟩

end ReadersWriters

namespace DiningPhilosophers

/-- An invariant of `step` that holds in a state holds after every schedule run from it. -/
theorem dp_exec_preserves (N : Nat) (Inv : State → Prop)
    (hstep : ∀ s k t, Inv s → step N s k = some t → Inv t) :
    ∀ (acts : List Nat) (s t : State), Inv s → exec N s acts = some t → Inv t := by
  intro acts
  induction acts with
  | nil =>
    intro s t hs h
    simp only [exec, Option.some.injEq] at h
    exact h ▸ hs
  | cons a rest ih =>
    intro s t hs h
    simp only [exec] at h
    cases hsa : step N s a with
    | none => simp [hsa] at h
    | some u =>
      rw [hsa] at h
      exact ih u t (hstep s a u hs hsa) h

/-- Every transition of `step` is one of the atomic actions listed by `Step`. -/
theorem dp_step_sound (N : Nat) (s : State) (k : Nat) (t : State)
    (h : step N s k = some t) : Step N s k t := by
  simp only [step] at h
  cases hp : s.phils[k]? with
  | none => simp [hp] at h
  | some p =>
    simp only [hp] at h
    cases hpc : p.pc <;> simp only [hpc] at h
    case thinking =>
      split at h
      · rename_i hc
        simp only [Option.some.injEq] at h
        subst h
        exact Step.think p hp hpc hc
      · simp at h
    case hungry1 =>
      split at h
      · rename_i hc
        simp only [Option.some.injEq] at h
        subst h
        exact Step.takeFirst p hp hpc hc
      · simp at h
    case hungry2 =>
      split at h
      · rename_i hc
        simp only [Option.some.injEq] at h
        subst h
        exact Step.takeSecond p hp hpc hc
      · simp at h
    case eating =>
      simp only [Option.some.injEq] at h
      subst h
      exact Step.eat p hp hpc
    case putLeft =>
      simp only [Option.some.injEq] at h
      subst h
      exact Step.putLeft p hp hpc
    case putRight =>
      simp only [Option.some.injEq] at h
      subst h
      exact Step.putRight p hp hpc

/-- The right fork of philosopher `k` in a ring of size `N`. -/
theorem right_eq (N k : Nat) (hk : k < N) :
    right N k = if k + 1 = N then 0 else k + 1 := by
  unfold right
  split
  · rename_i e
    rw [e]
    exact Nat.mod_self N
  · exact Nat.mod_eq_of_lt (by omega)

theorem right_lt (N k : Nat) (hk : k < N) : right N k < N := by
  rw [right_eq N k hk]
  split <;> omega

theorem right_ne_left (N k : Nat) (hN : 2 ≤ N) (hk : k < N) : right N k ≠ left k := by
  rw [right_eq N k hk]
  unfold left
  split <;> omega

theorem firstFork_lt (N k : Nat) (hk : k < N) : firstFork N k < N := by
  unfold firstFork
  split
  · exact hk
  · exact right_lt N k hk

theorem secondFork_lt (N k : Nat) (hk : k < N) : secondFork N k < N := by
  unfold secondFork
  split
  · exact right_lt N k hk
  · exact hk

/-- The two forks of a philosopher are its first and its second fork. -/
theorem forks_eq (N k f : Nat) :
    (f = left k ∨ f = right N k) ↔ (f = firstFork N k ∨ f = secondFork N k) := by
  unfold firstFork secondFork
  split
  · exact Iff.rfl
  · exact Or.comm

/-- Parity rule: a fork that is the second fork of `k` and the first fork of `j` is fork 0,
with `j = 0`, `k = N - 1` and `N` odd. -/
theorem first_eq_second (N j k : Nat) (hN : 2 ≤ N) (hj : j < N) (hk : k < N)
    (h : firstFork N j = secondFork N k) : j = 0 ∧ k + 1 = N ∧ N % 2 = 1 := by
  unfold firstFork secondFork left at h
  rw [right_eq N j hj, right_eq N k hk] at h
  split_ifs at h <;> omega

/-- In a ring of at least three philosophers fork 1 is nobody's first fork. -/
theorem firstFork_ne_one (N j : Nat) (hj : j < N) : firstFork N j ≠ 1 := by
  unfold firstFork left
  rw [right_eq N j hj]
  split
  · omega
  · split <;> omega

end DiningPhilosophers

namespace DiningPhilosophers

/-- Looking up the fork list after one fork changed owner. -/
theorem fork_set (l : List (Option Nat)) (i : Nat) (hi : i < l.length) (a : Option Nat)
    (j : Nat) : (l.set i a)[j]? = if j = i then some a else l[j]? := by
  rw [List.getElem?_set]
  by_cases e : j = i
  · subst e
    simp [hi]
  · have : ¬ i = j := fun h => e h.symm
    simp [e, this]

/-- Updating philosopher `k` and the fork list keeps `RingInv` when the new fork list agrees
with the new program point of `k` and leaves the forks owned by the others alone. -/
theorem ringInv_update (N : Nat) (s : State) (k : Nat) (p u : Phil) (F : List (Option Nat))
    (hI : RingInv N s) (hp : s.phils[k]? = some p) (hF : F.length = N)
    (hown : ∀ f : Nat, F[f]? = some (some k) → holdsAt N k u.pc f)
    (hheld : ∀ f : Nat, holdsAt N k u.pc f → F[f]? = some (some k))
    (hoth : ∀ (f j : Nat), j ≠ k → (F[f]? = some (some j) ↔ s.forks[f]? = some (some j))) :
    RingInv N { forks := F, phils := s.phils.set k u } := by
  refine ⟨hF, by simp [hI.lenP], ?_, ?_⟩
  · intro f j hf
    by_cases e : j = k
    · subst e
      exact ⟨u, by simp [lookup_set hp], hown f hf⟩
    · obtain ⟨q, hq, hh⟩ := hI.own f j ((hoth f j e).mp hf)
      exact ⟨q, by simp [lookup_set hp, e, hq], hh⟩
  · intro j q hq f hh
    simp only [lookup_set hp] at hq
    split at hq
    · rename_i e
      simp only [Option.some.injEq] at hq
      subst hq
      subst e
      exact hheld f hh
    · rename_i e
      exact (hoth f j e).mpr (hI.held j q hq f hh)

theorem phil_lt (N : Nat) (s : State) (hI : RingInv N s) (k : Nat) (p : Phil)
    (hp : s.phils[k]? = some p) : k < N := by
  rcases List.getElem?_eq_some_iff.mp hp with ⟨h, _⟩
  rw [hI.lenP] at h
  exact h

theorem ringInv_step (N : Nat) (hN : 2 ≤ N) (s : State) (k : Nat) (t : State)
    (hI : RingInv N s) (h : step N s k = some t) : RingInv N t := by
  cases dp_step_sound N s k t h with
  | think p hp hpc hr =>
    refine ringInv_update N s k p _ s.forks hI hp hI.lenF ?_ ?_ (fun f j _ => Iff.rfl)
    · intro f hf
      obtain ⟨q, hq, hh⟩ := hI.own f k hf
      rw [hp] at hq
      simp only [Option.some.injEq] at hq
      subst hq
      rw [hpc] at hh
      exact hh.elim
    · intro f hh
      exact hh.elim
  | takeFirst p hp hpc hf =>
    have hk := phil_lt N s hI k p hp
    have hlt : firstFork N k < s.forks.length := by
      rw [hI.lenF]
      exact firstFork_lt N k hk
    refine ringInv_update N s k p _ _ hI hp (by simp [hI.lenF]) ?_ ?_ ?_
    · intro f hf2
      rw [fork_set _ _ hlt] at hf2
      split at hf2
      · rename_i e
        exact e
      · obtain ⟨q, hq, hh⟩ := hI.own f k hf2
        rw [hp] at hq
        simp only [Option.some.injEq] at hq
        subst hq
        rw [hpc] at hh
        exact hh.elim
    · intro f hh
      have e : f = firstFork N k := hh
      rw [fork_set _ _ hlt, if_pos e]
    · intro f j hjk
      rw [fork_set _ _ hlt]
      split
      · rename_i e
        subst e
        rw [hf]
        constructor
        · intro h2
          simp only [Option.some.injEq] at h2
          exact absurd h2.symm hjk
        · intro h2
          simp at h2
      · exact Iff.rfl
  | takeSecond p hp hpc hf =>
    have hk := phil_lt N s hI k p hp
    have hlt : secondFork N k < s.forks.length := by
      rw [hI.lenF]
      exact secondFork_lt N k hk
    have h1 := hI.held k p hp (firstFork N k) (by rw [hpc]; rfl)
    refine ringInv_update N s k p _ _ hI hp (by simp [hI.lenF]) ?_ ?_ ?_
    · intro f hf2
      rw [fork_set _ _ hlt] at hf2
      show f = left k ∨ f = right N k
      rw [forks_eq]
      split at hf2
      · rename_i e
        exact Or.inr e
      · obtain ⟨q, hq, hh⟩ := hI.own f k hf2
        rw [hp] at hq
        simp only [Option.some.injEq] at hq
        subst hq
        rw [hpc] at hh
        exact Or.inl hh
    · intro f hh
      have hh2 : f = firstFork N k ∨ f = secondFork N k := (forks_eq N k f).mp hh
      rw [fork_set _ _ hlt]
      split
      · rfl
      · rename_i e
        rcases hh2 with e2 | e2
        · rw [e2]
          exact h1
        · exact absurd e2 e
    · intro f j hjk
      rw [fork_set _ _ hlt]
      split
      · rename_i e
        subst e
        rw [hf]
        constructor
        · intro h2
          simp only [Option.some.injEq] at h2
          exact absurd h2.symm hjk
        · intro h2
          simp at h2
      · exact Iff.rfl
  | eat p hp hpc =>
    refine ringInv_update N s k p _ s.forks hI hp hI.lenF ?_ ?_ (fun f j _ => Iff.rfl)
    · intro f hf
      obtain ⟨q, hq, hh⟩ := hI.own f k hf
      rw [hp] at hq
      simp only [Option.some.injEq] at hq
      subst hq
      rw [hpc] at hh
      exact hh
    · intro f hh
      exact hI.held k p hp f (by rw [hpc]; exact hh)
  | putLeft p hp hpc =>
    have hk := phil_lt N s hI k p hp
    have hlt : left k < s.forks.length := by
      rw [hI.lenF]
      exact hk
    have hl := hI.held k p hp (left k) (by rw [hpc]; exact Or.inl rfl)
    have hr := hI.held k p hp (right N k) (by rw [hpc]; exact Or.inr rfl)
    refine ringInv_update N s k p _ _ hI hp (by simp [hI.lenF]) ?_ ?_ ?_
    · intro f hf2
      rw [fork_set _ _ hlt] at hf2
      split at hf2
      · simp at hf2
      · rename_i e
        obtain ⟨q, hq, hh⟩ := hI.own f k hf2
        rw [hp] at hq
        simp only [Option.some.injEq] at hq
        subst hq
        rw [hpc] at hh
        rcases hh with e2 | e2
        · exact absurd e2 e
        · exact e2
    · intro f hh
      have e : f = right N k := hh
      rw [fork_set _ _ hlt, e, if_neg (right_ne_left N k hN hk)]
      exact hr
    · intro f j hjk
      rw [fork_set _ _ hlt]
      split
      · rename_i e
        rw [e, hl]
        constructor
        · intro h2
          simp at h2
        · intro h2
          simp only [Option.some.injEq] at h2
          exact absurd h2.symm hjk
      · exact Iff.rfl
  | putRight p hp hpc =>
    have hk := phil_lt N s hI k p hp
    have hlt : right N k < s.forks.length := by
      rw [hI.lenF]
      exact right_lt N k hk
    have hr := hI.held k p hp (right N k) (by rw [hpc]; rfl)
    refine ringInv_update N s k p _ _ hI hp (by simp [hI.lenF]) ?_ ?_ ?_
    · intro f hf2
      rw [fork_set _ _ hlt] at hf2
      split at hf2
      · simp at hf2
      · rename_i e
        obtain ⟨q, hq, hh⟩ := hI.own f k hf2
        rw [hp] at hq
        simp only [Option.some.injEq] at hq
        subst hq
        rw [hpc] at hh
        exact absurd hh e
    · intro f hh
      exact hh.elim
    · intro f j hjk
      rw [fork_set _ _ hlt]
      split
      · rename_i e
        subst e
        rw [hr]
        constructor
        · intro h2
          simp at h2
        · intro h2
          simp only [Option.some.injEq] at h2
          exact absurd h2.symm hjk
      · exact Iff.rfl

theorem ringInv_init (N : Nat) (rounds : Int) : RingInv N (init N rounds) := by
  refine ⟨by simp [init], by simp [init], ?_, ?_⟩
  · intro f k hf
    simp only [init] at hf
    rcases List.getElem?_eq_some_iff.mp hf with ⟨h1, h2⟩
    simp at h2
  · intro k p hp f hh
    simp only [init] at hp
    rcases List.getElem?_eq_some_iff.mp hp with ⟨h1, h2⟩
    simp only [List.getElem_replicate] at h2
    subst h2
    exact hh.elim

theorem ringInv_reachable (N : Nat) (hN : 2 ≤ N) (rounds : Int) (s : State)
    (h : Reachable N rounds s) : RingInv N s := by
  obtain ⟨acts, hacts⟩ := h
  exact dp_exec_preserves N (RingInv N) (ringInv_step N hN) acts (init N rounds) s
    (ringInv_init N rounds) hacts

end DiningPhilosophers

namespace DiningPhilosophers

/-- A philosopher that owns both forks, or is putting them down, can always move. -/
theorem mover_enabled (N : Nat) (s : State) (k : Nat) (p : Phil) (hp : s.phils[k]? = some p)
    (hpc : p.pc = .eating ∨ p.pc = .putLeft ∨ p.pc = .putRight) :
    ∃ m t, step N s m = some t := by
  refine ⟨k, ?_⟩
  rcases hpc with e | e | e <;> simp only [step, hp, e] <;> exact ⟨_, rfl⟩

theorem fork_lookup (N : Nat) (s : State) (hI : RingInv N s) (f : Nat) (hf : f < N) :
    ∃ o, s.forks[f]? = some o := by
  have : f < s.forks.length := by
    rw [hI.lenF]
    exact hf
  exact ⟨s.forks[f], List.getElem?_eq_getElem this⟩

/-- The owner of a fork either can move or is itself waiting for its second fork, the fork
being its first one. -/
theorem owner_enabled_or (N : Nat) (s : State) (hI : RingInv N s) (f j : Nat)
    (hf : s.forks[f]? = some (some j)) :
    (∃ m t, step N s m = some t) ∨
    (∃ q, s.phils[j]? = some q ∧ q.pc = .hungry2 ∧ f = firstFork N j) := by
  obtain ⟨q, hq, hh⟩ := hI.own f j hf
  cases hpc : q.pc with
  | thinking =>
    rw [hpc] at hh
    exact hh.elim
  | hungry1 =>
    rw [hpc] at hh
    exact hh.elim
  | hungry2 =>
    rw [hpc] at hh
    exact Or.inr ⟨q, hq, hpc, hh⟩
  | eating => exact Or.inl (mover_enabled N s j q hq (Or.inl hpc))
  | putLeft => exact Or.inl (mover_enabled N s j q hq (Or.inr (Or.inl hpc)))
  | putRight => exact Or.inl (mover_enabled N s j q hq (Or.inr (Or.inr hpc)))

/-- A philosopher waiting for its second fork: some step is enabled, or the fork is the first
fork of its owner, who also waits for its second fork. -/
theorem second_enabled_or (N : Nat) (s : State) (hI : RingInv N s) (k : Nat) (p : Phil)
    (hp : s.phils[k]? = some p) (hpc : p.pc = .hungry2) :
    (∃ m t, step N s m = some t) ∨
    (∃ j q, s.phils[j]? = some q ∧ q.pc = .hungry2 ∧ secondFork N k = firstFork N j) := by
  have hk := phil_lt N s hI k p hp
  obtain ⟨o, ho⟩ := fork_lookup N s hI (secondFork N k) (secondFork_lt N k hk)
  cases o with
  | none =>
    left
    refine ⟨k, ?_⟩
    simp only [step, hp, hpc, ho, if_true]
    exact ⟨_, rfl⟩
  | some j =>
    rcases owner_enabled_or N s hI _ j ho with h | ⟨q, hq, hqpc, hf⟩
    · exact Or.inl h
    · exact Or.inr ⟨j, q, hq, hqpc, hf⟩

/-- With the parity rule a philosopher waiting for its second fork never blocks the ring. -/
theorem second_enabled (N : Nat) (hN : 2 ≤ N) (s : State) (hI : RingInv N s) (k : Nat)
    (p : Phil) (hp : s.phils[k]? = some p) (hpc : p.pc = .hungry2) :
    ∃ m t, step N s m = some t := by
  rcases second_enabled_or N s hI k p hp hpc with h | ⟨j, q, hq, hqpc, hf⟩
  · exact h
  · have hk := phil_lt N s hI k p hp
    have hj := phil_lt N s hI j q hq
    obtain ⟨hj0, _, _⟩ := first_eq_second N j k hN hj hk hf.symm
    rcases second_enabled_or N s hI j q hq hqpc with h | ⟨j2, q2, hq2, hq2pc, hf2⟩
    · exact h
    · exfalso
      have hj2 := phil_lt N s hI j2 q2 hq2
      obtain ⟨_, hbad, _⟩ := first_eq_second N j2 j hN hj2 hj hf2.symm
      omega

/-- Deadlock freedom of the ring: a state with an unfinished philosopher has an enabled
step. -/
theorem ring_progress (N : Nat) (hN : 2 ≤ N) (s : State) (hI : RingInv N s) (k : Nat)
    (p : Phil) (hp : s.phils[k]? = some p) (hnd : ¬ p.done) :
    ∃ m t, step N s m = some t := by
  cases hpc : p.pc with
  | thinking =>
    have hr : (p.r : Int) < p.rounds := by
      by_contra hc
      exact hnd ⟨hpc, hc⟩
    refine ⟨k, ?_⟩
    simp only [step, hp, hpc, hr, if_true]
    exact ⟨_, rfl⟩
  | eating => exact mover_enabled N s k p hp (Or.inl hpc)
  | putLeft => exact mover_enabled N s k p hp (Or.inr (Or.inl hpc))
  | putRight => exact mover_enabled N s k p hp (Or.inr (Or.inr hpc))
  | hungry2 => exact second_enabled N hN s hI k p hp hpc
  | hungry1 =>
    have hk := phil_lt N s hI k p hp
    obtain ⟨o, ho⟩ := fork_lookup N s hI (firstFork N k) (firstFork_lt N k hk)
    cases o with
    | none =>
      refine ⟨k, ?_⟩
      simp only [step, hp, hpc, ho, if_true]
      exact ⟨_, rfl⟩
    | some j =>
      rcases owner_enabled_or N s hI _ j ho with h | ⟨q, hq, hqpc, _⟩
      · exact h
      · exact second_enabled N hN s hI j q hq hqpc

/-- Every step strictly decreases the progress measure. -/
theorem dp_fuel_step (N : Nat) (s : State) (k : Nat) (t : State) (h : step N s k = some t) :
    fuel t < fuel s := by
  unfold fuel
  cases dp_step_sound N s k t h with
  | think p hp hpc hr =>
    have e := sum_map_set Phil.fuel hp { p with pc := .hungry1 }
    simp only [Phil.fuel, hpc] at e
    show ((s.phils.set k { p with pc := .hungry1 }).map Phil.fuel).sum < _
    omega
  | takeFirst p hp hpc hf =>
    have e := sum_map_set Phil.fuel hp { p with pc := .hungry2 }
    simp only [Phil.fuel, hpc] at e
    show ((s.phils.set k { p with pc := .hungry2 }).map Phil.fuel).sum < _
    omega
  | takeSecond p hp hpc hf =>
    have e := sum_map_set Phil.fuel hp { p with pc := .eating }
    simp only [Phil.fuel, hpc] at e
    show ((s.phils.set k { p with pc := .eating }).map Phil.fuel).sum < _
    omega
  | eat p hp hpc =>
    have e := sum_map_set Phil.fuel hp { p with pc := .putLeft }
    simp only [Phil.fuel, hpc] at e
    show ((s.phils.set k { p with pc := .putLeft }).map Phil.fuel).sum < _
    omega
  | putLeft p hp hpc =>
    have e := sum_map_set Phil.fuel hp { p with pc := .putRight }
    simp only [Phil.fuel, hpc] at e
    show ((s.phils.set k { p with pc := .putRight }).map Phil.fuel).sum < _
    omega
  | putRight p hp hpc =>
    have e := sum_map_set Phil.fuel hp { p with r := p.r + 1, pc := .thinking }
    simp only [Phil.fuel, hpc] at e
    show ((s.phils.set k { p with r := p.r + 1, pc := .thinking }).map Phil.fuel).sum < _
    push_cast at e
    omega

/-- A schedule is no longer than the progress measure it uses up. -/
theorem dp_exec_fuel (N : Nat) (acts : List Nat) :
    ∀ (s t : State), exec N s acts = some t → acts.length + fuel t ≤ fuel s := by
  induction acts with
  | nil =>
    intro s t h
    simp only [exec, Option.some.injEq] at h
    subst h
    simp
  | cons a rest ih =>
    intro s t h
    simp only [exec] at h
    cases hsa : step N s a with
    | none => simp [hsa] at h
    | some u =>
      rw [hsa] at h
      have h1 := ih u t h
      have h2 := dp_fuel_step N s a u hsa
      simp only [List.length_cons]
      omega

theorem fuel_init (N : Nat) (rounds : Int) :
    fuel (init N rounds) = N * (6 * rounds.toNat) := by
  simp [fuel, init, Phil.fuel]

theorem contendedState_reachable : Reachable 5 3 contendedState :=
  ⟨contendedSchedule, by decide⟩

/-- C4 (deadlock freedom of the dining-philosophers ring).  For every ring size `N >= 2` and
every number of rounds, with philosopher `id` using forks `id` and `(id + 1) mod N` and
locking them in the order of `DiningPhilosophers::philosopher` (even id: left then right;
odd id: right then left): every reachable state in which some philosopher is not done has an
enabled step; every step strictly decreases a progress measure, so a schedule continuing
from the state is no longer than the measure left, every schedule from the start has at most
`6 * rounds * N` steps, and a state without enabled step has all philosophers done. -/
theorem ring_no_deadlock (N : Nat) (hN : 2 ≤ N) (rounds : Int) (s : State)
    (h : Reachable N rounds s) :
    ((∃ (k : Nat) (p : Phil), s.phils[k]? = some p ∧ ¬ p.done) →
      ∃ m t, step N s m = some t) ∧
    (∀ (k : Nat) (t : State), step N s k = some t → fuel t < fuel s) ∧
    (∀ (acts : List Nat) (t : State), exec N s acts = some t →
      acts.length + fuel t ≤ fuel s) ∧
    (∀ acts : List Nat, exec N (init N rounds) acts = some s →
      acts.length ≤ N * (6 * rounds.toNat)) ∧
    ((∀ k : Nat, step N s k = none) →
      ∀ (k : Nat) (p : Phil), s.phils[k]? = some p → p.done) := by
  have hI := ringInv_reachable N hN rounds s h
  have hprog : (∃ (k : Nat) (p : Phil), s.phils[k]? = some p ∧ ¬ p.done) →
      ∃ m t, step N s m = some t := by
    intro hex
    obtain ⟨k, p, hp, hnd⟩ := hex
    exact ring_progress N hN s hI k p hp hnd
  refine ⟨hprog, dp_fuel_step N s, fun acts t => dp_exec_fuel N acts s t, ?_, ?_⟩
  · intro acts hex
    have := dp_exec_fuel N acts (init N rounds) s hex
    rw [fuel_init] at this
    omega
  · intro hnone k p hp
    by_contra hnd
    obtain ⟨m, t, ht⟩ := hprog ⟨k, p, hp, hnd⟩
    rw [hnone m] at ht
    exact absurd ht (by simp)

/-- Witness of C4 at `contendedState` (ring of 5, 3 rounds). -/
theorem ring_no_deadlock_witness :
    2 ≤ 5 ∧ Reachable 5 3 contendedState ∧
    (((∃ (k : Nat) (p : Phil), contendedState.phils[k]? = some p ∧ ¬ p.done) →
      ∃ m t, step 5 contendedState m = some t) ∧
    (∀ (k : Nat) (t : State), step 5 contendedState k = some t →
      fuel t < fuel contendedState) ∧
    (∀ (acts : List Nat) (t : State), exec 5 contendedState acts = some t →
      acts.length + fuel t ≤ fuel contendedState) ∧
    (∀ acts : List Nat, exec 5 (init 5 3) acts = some contendedState →
      acts.length ≤ 5 * (6 * (3 : Int).toNat)) ∧
    ((∀ k : Nat, step 5 contendedState k = none) →
      ∀ (k : Nat) (p : Phil), contendedState.phils[k]? = some p → p.done)) :=
  ⟨by decide, contendedState_reachable,
    ring_no_deadlock 5 (by decide) 3 contendedState contendedState_reachable⟩

end DiningPhilosophers

namespace DiningPhilosophers

theorem eatingState_reachable : Reachable NUM_PHILOSOPHERS 3 eatingState :=
  ⟨eatingSchedule, by decide⟩

/-- C5 (resource pairing in the ring).  In every reachable state of the program's ring
(`NUM_PHILOSOPHERS = 5`, any number of rounds): no fork is held by two philosophers (the
forks a philosopher holds being those its program point says it has locked and not yet
unlocked, which is what the fork owners record); a philosopher at its eating step owns both
fork `id` and fork `(id + 1) mod 5`; a philosopher at its thinking step owns no fork; and two
cyclically adjacent philosophers are never both at the eating step. -/
theorem resource_pairing (rounds : Int) (s : State)
    (h : Reachable NUM_PHILOSOPHERS rounds s) :
    (∀ (f j k : Nat) (pj pk : Phil), s.phils[j]? = some pj → s.phils[k]? = some pk →
      holdsAt NUM_PHILOSOPHERS j pj.pc f → holdsAt NUM_PHILOSOPHERS k pk.pc f → j = k) ∧
    (∀ (f k : Nat), s.forks[f]? = some (some k) →
      ∃ p, s.phils[k]? = some p ∧ holdsAt NUM_PHILOSOPHERS k p.pc f) ∧
    (∀ (k : Nat) (p : Phil), s.phils[k]? = some p → p.pc = .eating →
      s.forks[k]? = some (some k) ∧ s.forks[(k + 1) % 5]? = some (some k)) ∧
    (∀ (k : Nat) (p : Phil), s.phils[k]? = some p → p.pc = .thinking →
      ∀ f : Nat, s.forks[f]? ≠ some (some k)) ∧
    (∀ (j k : Nat) (pj pk : Phil), s.phils[j]? = some pj → s.phils[k]? = some pk →
      (k = (j + 1) % 5 ∨ j = (k + 1) % 5) → pj.pc = .eating → pk.pc = .eating → False) := by
  have hI := ringInv_reachable NUM_PHILOSOPHERS (by decide) rounds s h
  have huniq : ∀ (f j k : Nat) (pj pk : Phil), s.phils[j]? = some pj →
      s.phils[k]? = some pk → holdsAt NUM_PHILOSOPHERS j pj.pc f →
      holdsAt NUM_PHILOSOPHERS k pk.pc f → j = k := by
    intro f j k pj pk hj hk h1 h2
    have e1 := hI.held j pj hj f h1
    have e2 := hI.held k pk hk f h2
    rw [e1] at e2
    simpa using e2
  have hadj : ∀ (j k : Nat) (pj pk : Phil), s.phils[j]? = some pj → s.phils[k]? = some pk →
      k = (j + 1) % 5 → pj.pc = .eating → pk.pc = .eating → False := by
    intro j k pj pk hj hk hjk ej ek
    have hjlt := phil_lt NUM_PHILOSOPHERS s hI j pj hj
    have e := huniq k j k pj pk hj hk (by rw [ej]; exact Or.inr hjk)
      (by rw [ek]; exact Or.inl rfl)
    have hne := right_ne_left NUM_PHILOSOPHERS j (by decide) hjlt
    apply hne
    show (j + 1) % 5 = j
    omega
  refine ⟨huniq, hI.own, ?_, ?_, ?_⟩
  · intro k p hp hpc
    exact ⟨hI.held k p hp k (by rw [hpc]; exact Or.inl rfl),
      hI.held k p hp ((k + 1) % 5) (by rw [hpc]; exact Or.inr rfl)⟩
  · intro k p hp hpc f hf
    obtain ⟨q, hq, hh⟩ := hI.own f k hf
    rw [hp] at hq
    simp only [Option.some.injEq] at hq
    subst hq
    rw [hpc] at hh
    exact hh
  · intro j k pj pk hj hk hjk ej ek
    rcases hjk with e | e
    · exact hadj j k pj pk hj hk e ej ek
    · exact hadj k j pk pj hk hj e ek ej

/-- Witness of C5 at `eatingState`: philosophers 0 and 2 eat. -/
theorem resource_pairing_witness :
    Reachable NUM_PHILOSOPHERS 3 eatingState ∧
    ((∀ (f j k : Nat) (pj pk : Phil), eatingState.phils[j]? = some pj →
      eatingState.phils[k]? = some pk →
      holdsAt NUM_PHILOSOPHERS j pj.pc f → holdsAt NUM_PHILOSOPHERS k pk.pc f → j = k) ∧
    (∀ (f k : Nat), eatingState.forks[f]? = some (some k) →
      ∃ p, eatingState.phils[k]? = some p ∧ holdsAt NUM_PHILOSOPHERS k p.pc f) ∧
    (∀ (k : Nat) (p : Phil), eatingState.phils[k]? = some p → p.pc = .eating →
      eatingState.forks[k]? = some (some k) ∧
      eatingState.forks[(k + 1) % 5]? = some (some k)) ∧
    (∀ (k : Nat) (p : Phil), eatingState.phils[k]? = some p → p.pc = .thinking →
      ∀ f : Nat, eatingState.forks[f]? ≠ some (some k)) ∧
    (∀ (j k : Nat) (pj pk : Phil), eatingState.phils[j]? = some pj →
      eatingState.phils[k]? = some pk →
      (k = (j + 1) % 5 ∨ j = (k + 1) % 5) → pj.pc = .eating → pk.pc = .eating → False)) :=
  ⟨eatingState_reachable, resource_pairing 3 eatingState eatingState_reachable⟩

/-- C8, counterexample.  Philosopher 4 has an even id and neighbour forks 4 and 0; it locks
fork 4, the higher-indexed one, first: after it has thought and taken its first fork it owns
fork 4 while fork 0 is free. -/
theorem parity_order_counterexample :
    4 % 2 = 0 ∧ left 4 = 4 ∧ right NUM_PHILOSOPHERS 4 = 0 ∧
    firstFork NUM_PHILOSOPHERS 4 = 4 ∧ secondFork NUM_PHILOSOPHERS 4 = 0 ∧
    ¬ (firstFork NUM_PHILOSOPHERS 4 < secondFork NUM_PHILOSOPHERS 4) ∧
    exec NUM_PHILOSOPHERS (init NUM_PHILOSOPHERS 3) lastSchedule = some lastState ∧
    lastState.forks[4]? = some (some 4) ∧ lastState.forks[0]? = some none := by
  decide

/-- C8, amended.  For every philosopher `id` in `0..4`, with neighbour forks `id` (left) and
`(id + 1) mod 5` (right): the step from `hungry1` locks the first fork and the step from
`hungry2` the second, no other step takes a fork; an even id locks its left fork `id` first
and then its right fork, an odd id locks its right fork first and then its left fork.  For
ids `0..3` the left fork is the lower-indexed neighbour (even ids lock the lower-indexed
fork first, odd ids the higher-indexed one); for id 4 the left fork 4 is the higher-indexed
neighbour. -/
theorem parity_order_amended (id : Nat) (hid : id < NUM_PHILOSOPHERS) :
    (∀ (s t : State) (p : Phil), s.phils[id]? = some p →
      step NUM_PHILOSOPHERS s id = some t →
      (p.pc = .hungry1 → t.forks = s.forks.set (firstFork NUM_PHILOSOPHERS id) (some id)) ∧
      (p.pc = .hungry2 → t.forks = s.forks.set (secondFork NUM_PHILOSOPHERS id) (some id)) ∧
      (p.pc = .thinking ∨ p.pc = .eating → t.forks = s.forks) ∧
      (p.pc = .putLeft → t.forks = s.forks.set id none) ∧
      (p.pc = .putRight → t.forks = s.forks.set ((id + 1) % 5) none)) ∧
    (id % 2 = 0 → firstFork NUM_PHILOSOPHERS id = id ∧
      secondFork NUM_PHILOSOPHERS id = (id + 1) % 5) ∧
    (id % 2 = 1 → firstFork NUM_PHILOSOPHERS id = (id + 1) % 5 ∧
      secondFork NUM_PHILOSOPHERS id = id) ∧
    (id < 4 → id < (id + 1) % 5 ∧
      (id % 2 = 0 → firstFork NUM_PHILOSOPHERS id < secondFork NUM_PHILOSOPHERS id) ∧
      (id % 2 = 1 → secondFork NUM_PHILOSOPHERS id < firstFork NUM_PHILOSOPHERS id)) ∧
    (id = 4 → firstFork NUM_PHILOSOPHERS id = 4 ∧ secondFork NUM_PHILOSOPHERS id = 0) := by
  refine ⟨?_, ?_, ?_, ?_, ?_⟩
  · intro s t p hp hst
    cases dp_step_sound NUM_PHILOSOPHERS s id t hst with
    | think q hq hpc hr =>
      rw [hp] at hq
      simp only [Option.some.injEq] at hq
      subst hq
      simp [hpc]
    | takeFirst q hq hpc hf =>
      rw [hp] at hq
      simp only [Option.some.injEq] at hq
      subst hq
      simp [hpc]
    | takeSecond q hq hpc hf =>
      rw [hp] at hq
      simp only [Option.some.injEq] at hq
      subst hq
      simp [hpc]
    | eat q hq hpc =>
      rw [hp] at hq
      simp only [Option.some.injEq] at hq
      subst hq
      simp [hpc]
    | putLeft q hq hpc =>
      rw [hp] at hq
      simp only [Option.some.injEq] at hq
      subst hq
      simp [hpc, left]
    | putRight q hq hpc =>
      rw [hp] at hq
      simp only [Option.some.injEq] at hq
      subst hq
      simp [hpc, right, NUM_PHILOSOPHERS]
  · intro he
    simp [firstFork, secondFork, left, right, NUM_PHILOSOPHERS, he]
  · intro ho
    have : ¬ (id % 2 = 0) := by omega
    simp [firstFork, secondFork, left, right, NUM_PHILOSOPHERS, this]
  · intro h4
    unfold NUM_PHILOSOPHERS at hid
    interval_cases id <;> decide
  · intro h4
    subst h4
    decide

/-- Witness of amended C8 at philosopher 4. -/
theorem parity_order_amended_witness :
    4 < NUM_PHILOSOPHERS ∧
    ((∀ (s t : State) (p : Phil), s.phils[4]? = some p →
      step NUM_PHILOSOPHERS s 4 = some t →
      (p.pc = .hungry1 → t.forks = s.forks.set (firstFork NUM_PHILOSOPHERS 4) (some 4)) ∧
      (p.pc = .hungry2 → t.forks = s.forks.set (secondFork NUM_PHILOSOPHERS 4) (some 4)) ∧
      (p.pc = .thinking ∨ p.pc = .eating → t.forks = s.forks) ∧
      (p.pc = .putLeft → t.forks = s.forks.set 4 none) ∧
      (p.pc = .putRight → t.forks = s.forks.set ((4 + 1) % 5) none)) ∧
    (4 % 2 = 0 → firstFork NUM_PHILOSOPHERS 4 = 4 ∧
      secondFork NUM_PHILOSOPHERS 4 = (4 + 1) % 5) ∧
    (4 % 2 = 1 → firstFork NUM_PHILOSOPHERS 4 = (4 + 1) % 5 ∧
      secondFork NUM_PHILOSOPHERS 4 = 4) ∧
    (4 < 4 → 4 < (4 + 1) % 5 ∧
      (4 % 2 = 0 → firstFork NUM_PHILOSOPHERS 4 < secondFork NUM_PHILOSOPHERS 4) ∧
      (4 % 2 = 1 → secondFork NUM_PHILOSOPHERS 4 < firstFork NUM_PHILOSOPHERS 4)) ∧
    (4 = 4 → firstFork NUM_PHILOSOPHERS 4 = 4 ∧ secondFork NUM_PHILOSOPHERS 4 = 0)) :=
  ⟨by decide, parity_order_amended 4 (by decide)⟩

end DiningPhilosophers

/-- Wrapping an intermediate sum does not change the wrapped result. -/
theorem wrapInt_add_left (a b : Int) : wrapInt (wrapInt a + b) = wrapInt (a + b) := by
  unfold wrapInt
  omega

/-- An `int` value is not changed by wrapping. -/
theorem wrapInt_of_range (a : Int) (h1 : INT_MIN ≤ a) (h2 : a ≤ INT_MAX) : wrapInt a = a := by
  unfold wrapInt
  unfold INT_MIN at h1
  unfold INT_MAX at h2
  omega

namespace Assembler

theorem addSymbol_present (t : List Symbol) (label : String) (lc : Int)
    (h : label ∈ t.map Symbol.name) : addSymbol t label lc = t := by
  unfold addSymbol
  rw [if_pos]
  rw [List.any_eq_true]
  obtain ⟨s, hs, hn⟩ := List.mem_map.mp h
  exact ⟨s, hs, by simpa using hn⟩

theorem addSymbol_absent (t : List Symbol) (label : String) (lc : Int)
    (h : label ∉ t.map Symbol.name) :
    addSymbol t label lc = t ++ [{ name := label, addr := lc }] := by
  unfold addSymbol
  rw [if_neg]
  rw [List.any_eq_true]
  rintro ⟨s, hs, hn⟩
  exact h (List.mem_map.mpr ⟨s, hs, by simpa using hn⟩)

theorem addSymbol_nodup (t : List Symbol) (label : String) (lc : Int)
    (h : (t.map Symbol.name).Nodup) : ((addSymbol t label lc).map Symbol.name).Nodup := by
  by_cases hm : label ∈ t.map Symbol.name
  · rw [addSymbol_present t label lc hm]
    exact h
  · rw [addSymbol_absent t label lc hm]
    simp only [List.map_append, List.map_cons, List.map_nil]
    rw [List.nodup_append]
    refine ⟨h, by simp, ?_⟩
    intro a ha hb
    simp only [List.mem_singleton] at hb
    subst hb
    exact hm ha

theorem lookupSym_none (t : List Symbol) (name : String) (h : name ∉ t.map Symbol.name) :
    lookupSym t name = none := by
  unfold lookupSym
  rw [List.find?_eq_none.mpr]
  · rfl
  · intro s hs
    simp only [decide_eq_true_eq]
    intro e
    exact h (List.mem_map.mpr ⟨s, hs, e⟩)

theorem lookupSym_isSome (t : List Symbol) (name : String) (h : name ∈ t.map Symbol.name) :
    (lookupSym t name).isSome = true := by
  unfold lookupSym
  obtain ⟨s, hs, hn⟩ := List.mem_map.mp h
  rw [Option.isSome_map', List.find?_isSome]
  exact ⟨s, hs, by simpa using hn⟩

/-- The address recorded for `name` after one more call. -/
theorem lookupSym_addSymbol (t : List Symbol) (label : String) (lc : Int) (name : String) :
    lookupSym (addSymbol t label lc) name =
      (lookupSym t name).orElse (fun _ => if label = name then some lc else none) := by
  by_cases hm : label ∈ t.map Symbol.name
  · rw [addSymbol_present t label lc hm]
    by_cases e : label = name
    · subst e
      have := lookupSym_isSome t label hm
      cases hl : lookupSym t label with
      | none => simp [hl] at this
      | some a => rfl
    · cases hl : lookupSym t name <;> simp [e]
  · rw [addSymbol_absent t label lc hm]
    unfold lookupSym
    rw [List.find?_append]
    cases hf : List.find? (fun s => decide (s.name = name)) t with
    | some s => rfl
    | none =>
      by_cases e : label = name
      · simp [e]
      · simp [e]

theorem lookupSym_addAll (calls : List (String × Int)) :
    ∀ (t : List Symbol) (name : String),
      lookupSym (addAll t calls) name = (lookupSym t name).orElse (fun _ => firstCall calls name) := by
  induction calls with
  | nil =>
    intro t name
    cases h : lookupSym t name <;> simp [addAll, firstCall, h]
  | cons c rest ih =>
    intro t name
    have := ih (addSymbol t c.1 c.2) name
    simp only [addAll, List.foldl_cons] at this ⊢
    rw [this, lookupSym_addSymbol]
    cases h : lookupSym t name with
    | some a => rfl
    | none =>
      by_cases e : c.1 = name
      · simp [firstCall, e]
      · simp [firstCall, e]

theorem addAll_nodup (calls : List (String × Int)) :
    ∀ t : List Symbol, (t.map Symbol.name).Nodup → ((addAll t calls).map Symbol.name).Nodup := by
  induction calls with
  | nil =>
    intro t h
    exact h
  | cons c rest ih =>
    intro t h
    exact ih (addSymbol t c.1 c.2) (addSymbol_nodup t c.1 c.2 h)

/-- C16 (`addSymbol` avoids duplicates).  For every sequence of `addSymbol` calls starting
from an empty table: the names in `symtab` are pairwise distinct; the address recorded for a
name is the address of the first call with that name (and a name is in the table exactly when
it was passed to some call); a call with a name already present leaves the table unchanged;
a call with a new name appends exactly one entry, at the end. -/
theorem addSymbol_avoids_duplicates (calls : List (String × Int)) :
    ((addAll [] calls).map Symbol.name).Nodup ∧
    (∀ name : String, lookupSym (addAll [] calls) name = firstCall calls name) ∧
    (∀ name : String, name ∈ (addAll [] calls).map Symbol.name ↔ name ∈ calls.map Prod.fst) ∧
    (∀ (label : String) (lc : Int), label ∈ (addAll [] calls).map Symbol.name →
      addSymbol (addAll [] calls) label lc = addAll [] calls) ∧
    (∀ (label : String) (lc : Int), label ∉ (addAll [] calls).map Symbol.name →
      addSymbol (addAll [] calls) label lc =
        addAll [] calls ++ [{ name := label, addr := lc }]) := by
  have hlook : ∀ name : String, lookupSym (addAll [] calls) name = firstCall calls name := by
    intro name
    rw [lookupSym_addAll]
    rfl
  refine ⟨addAll_nodup calls [] (by simp), hlook, ?_, ?_, ?_⟩
  · intro name
    constructor
    · intro h
      have h1 := lookupSym_isSome _ name h
      rw [hlook] at h1
      unfold firstCall at h1
      rw [Option.isSome_map', List.find?_isSome] at h1
      obtain ⟨c, hc, hn⟩ := h1
      exact List.mem_map.mpr ⟨c, hc, by simpa using hn⟩
    · intro h
      by_contra hn
      have h1 := lookupSym_none _ name hn
      rw [hlook] at h1
      unfold firstCall at h1
      obtain ⟨c, hc, he⟩ := List.mem_map.mp h
      have h2 : (calls.find? (fun c => decide (c.1 = name))).isSome = true := by
        rw [List.find?_isSome]
        exact ⟨c, hc, by simpa using he⟩
      cases hf : calls.find? (fun c => decide (c.1 = name)) with
      | none => simp [hf] at h2
      | some v => simp [hf] at h1
  · intro label lc h
    exact addSymbol_present _ label lc h
  · intro label lc h
    exact addSymbol_absent _ label lc h

/-- C11, evaluation at the failing input.  On the documented sample `input.txt`, `runPass1`
records the placeholder `**` of the first unlabeled statement, at address 100, before `A`,
`B` and `C`: `symtab.txt` has four lines, not the three documented ones. -/
theorem sample_symtab_records_placeholder :
    (runPass1 sampleInput).map Pass1.symtab =
      some [{ name := "**", addr := 100 }, { name := "A", addr := 102 },
            { name := "B", addr := 103 }, { name := "C", addr := 108 }] ∧
    (runPass1 sampleInput).map Pass1.symtabTxt = some "**\t100\nA\t102\nB\t103\nC\t108\n" ∧
    (runPass1 sampleInput).map Pass1.symtabTxt ≠ some "A\t102\nB\t103\nC\t108\n" := by
  decide

/-- C12, evaluation at the failing input.  For the program `START 100`, `** MOVER AREG, SEND`,
`SEND DC 7`, `END` (all opcodes in `MOT`), pass 1 writes the imperative line
`100 (IS,04) AREG,, SEND`; pass 2 finds `END` inside it and writes nothing for it, so
`machinecode.txt` holds only the line of the `DC` statement.  On the documented sample the
output is the five documented lines. -/
theorem send_operand_line_dropped :
    (runPass1 sendInput).map Pass1.intermediateTxt =
      some ["100\tSTART\t100", "100\t(IS,04)\tAREG,,\tSEND", "101\t(DL,01)\t(C,7)",
            "102\tEND"] ∧
    (runPass1 sendInput).map Pass1.symtab =
      some [{ name := "**", addr := 100 }, { name := "SEND", addr := 101 }] ∧
    assemble sendInput = some ["101\t00 00 7"] ∧
    assemble sampleInput =
      some ["100\t04 01 102", "101\t01 02 103", "102\t00 00 2", "103\t00 00 5",
            "108\t00 00 1"] := by
  decide

/-- C15, evaluation at the failing input.  For the program `START 200`,
`** ADD BREG, RESTART`, `RESTART DS 2`, `END`, the imperative line
`200 (IS,01) BREG,, RESTART` of `intermediate.txt` contains `START`; pass 2 writes nothing
for it, although it is neither the `START` line nor the `END` line. -/
theorem restart_operand_line_skipped :
    (runPass1 restartInput).map Pass1.intermediateTxt =
      some ["200\tSTART\t200", "200\t(IS,01)\tBREG,,\tRESTART", "201\t(DL,02)\t(C,2)",
            "203\tEND"] ∧
    pass2Line (readSymtab "**\t200\nRESTART\t201\n") "200\t(IS,01)\tBREG,,\tRESTART" =
      some none ∧
    assemble restartInput = some ["201\t00 00 2"] := by
  decide

end Assembler

namespace Assembler

theorem pass1Loop_end (rest : List String) (r : Pass1) :
    pass1Loop ("END" :: rest) r = some { r with out := r.out ++ [.stop r.lc] } := by
  rw [pass1Loop.eq_def]
  simp only [if_true]

theorem pass1Loop_ds (label op1 : String) (more : List String) (r : Pass1)
    (h : label ≠ "END") :
    pass1Loop (label :: "DS" :: op1 :: more) r = (stmtDS r label op1).bind (pass1Loop more) := by
  rw [pass1Loop.eq_def]
  simp only [if_neg h, if_true]

theorem pass1Loop_dc (label op1 : String) (more : List String) (r : Pass1)
    (h : label ≠ "END") :
    pass1Loop (label :: "DC" :: op1 :: more) r = pass1Loop more (stmtDC r label op1) := by
  have hne : ¬ ("DC" = "DS") := by decide
  rw [pass1Loop.eq_def]
  simp only [if_neg h, if_neg hne, if_true]

theorem pass1Loop_is (label opcode op1 op2 : String) (more : List String) (r : Pass1)
    (h : label ≠ "END") (h2 : opcode ≠ "DS") (h3 : opcode ≠ "DC") :
    pass1Loop (label :: opcode :: op1 :: op2 :: more) r =
      pass1Loop more (stmtIS r label opcode op1 op2) := by
  rw [pass1Loop.eq_def]
  simp only [if_neg h, if_neg h2, if_neg h3]

/-- One well-formed statement followed by more tokens: the loop body runs on it and the loop
continues. -/
theorem pass1Loop_stmt (st : Stmt) (more : List String) (r : Pass1) (h : st.WF) :
    ∃ r1 : Pass1, pass1Loop (st.toks ++ more) r = pass1Loop more r1 ∧
      r1.out = r.out ++ [st.line r.lc] ∧ r1.lc = wrapInt (r.lc + st.size) := by
  cases st with
  | ds label op1 =>
    obtain ⟨h1, h2⟩ := h
    obtain ⟨n, hn⟩ := Option.isSome_iff_exists.mp h2
    refine ⟨{ r with opcode := "DS", op1 := op1, symtab := addSymbol r.symtab label r.lc,
                     out := r.out ++ [.dl r.lc "02" op1], lc := wrapInt (r.lc + n) }, ?_, rfl, ?_⟩
    · show pass1Loop (label :: "DS" :: op1 :: more) r = _
      rw [pass1Loop_ds label op1 more r h1]
      simp only [stmtDS, hn]
      rfl
    · simp only [Stmt.size, hn, Option.getD_some]
  | dc label op1 =>
    have h1 : label ≠ "END" := h
    exact ⟨stmtDC r label op1, pass1Loop_dc label op1 more r h1, rfl, rfl⟩
  | is label opcode op1 op2 =>
    obtain ⟨h1, h2, h3⟩ := h
    exact ⟨stmtIS r label opcode op1 op2, pass1Loop_is label opcode op1 op2 more r h1 h2 h3,
      rfl, rfl⟩

theorem pass1Loop_prog (rest : List String) (stmts : List Stmt) :
    ∀ r : Pass1, (∀ st ∈ stmts, st.WF) →
      ∃ r1 : Pass1, pass1Loop (progToks stmts ++ "END" :: rest) r = some r1 ∧
        r1.out = r.out ++ listing r.lc stmts ++ [.stop (finalLc r.lc stmts)] ∧
        r1.lc = finalLc r.lc stmts := by
  induction stmts with
  | nil =>
    intro r _
    refine ⟨{ r with out := r.out ++ [.stop r.lc] }, ?_, ?_, rfl⟩
    · exact pass1Loop_end rest r
    · simp only [listing, finalLc, List.append_nil]
  | cons st more ih =>
    intro r h
    obtain ⟨r1, e1, o1, l1⟩ :=
      pass1Loop_stmt st (progToks more ++ "END" :: rest) r (h st (List.mem_cons_self _ _))
    obtain ⟨r2, e2, o2, l2⟩ := ih r1 (fun x hx => h x (List.mem_cons_of_mem _ hx))
    refine ⟨r2, ?_, ?_, ?_⟩
    · simp only [progToks, List.append_assoc]
      rw [e1, e2]
    · rw [o2, o1, l1]
      simp only [listing, finalLc, List.append_assoc, List.singleton_append]
    · rw [l2, l1]
      rfl

theorem sizeSum_cons (st : Stmt) (rest : List Stmt) :
    sizeSum (st :: rest) = st.size + sizeSum rest := by
  simp only [sizeSum, List.map_cons, List.sum_cons]

theorem finalLc_eq (stmts : List Stmt) :
    ∀ lc : Int, finalLc (wrapInt lc) stmts = wrapInt (lc + sizeSum stmts) := by
  induction stmts with
  | nil =>
    intro lc
    simp [finalLc, sizeSum]
  | cons st rest ih =>
    intro lc
    simp only [finalLc]
    rw [wrapInt_add_left, ih, sizeSum_cons, Int.add_assoc]

theorem listing_length (stmts : List Stmt) : ∀ lc : Int, (listing lc stmts).length = stmts.length := by
  induction stmts with
  | nil =>
    intro lc
    rfl
  | cons st rest ih =>
    intro lc
    simp only [listing, List.length_cons, ih]

theorem listing_get (stmts : List Stmt) :
    ∀ (lc : Int) (k : Nat) (st : Stmt), stmts[k]? = some st →
      (listing (wrapInt lc) stmts)[k]? =
        some (st.line (wrapInt (lc + sizeSum (stmts.take k)))) := by
  induction stmts with
  | nil =>
    intro lc k st h
    simp at h
  | cons s0 rest ih =>
    intro lc k st h
    cases k with
    | zero =>
      simp only [List.getElem?_cons_zero, Option.some.injEq] at h
      subst h
      simp [listing, sizeSum]
    | succ k =>
      simp only [List.getElem?_cons_succ] at h
      simp only [listing, List.getElem?_cons_succ, List.take_succ_cons]
      rw [wrapInt_add_left, ih _ k st h, sizeSum_cons, Int.add_assoc]

theorem readInt_token (sTok : String) (s : Int) (more : List String)
    (hs : parseIntPrefix sTok.data = some (s, [])) (h1 : INT_MIN ≤ s) (h2 : s ≤ INT_MAX) :
    readInt (sTok :: more) = (s, more) := by
  have a : ¬ INT_MAX < s := by omega
  have b : ¬ s < INT_MIN := by omega
  simp only [readInt, hs, if_neg a, if_neg b, List.isEmpty_nil, if_true]

end Assembler

namespace Assembler

/-- C14, counterexample.  `runPass1` reads two operand tokens for every imperative
statement.  In the program `START 100`, `** READ A`, `** STOP`, `A DS 1`, `END` the statement
`READ A` takes the placeholder of the next line as its second operand, `STOP` is read as a
label and `A DS 1` as an operation with two operands: two statement lines are written
instead of three, at 100 and 101, none for `A DS 1`, and `END` carries 102 instead of 103.
When the input stops after a label, the statement is assembled once more from the strings
read before and no `END` line is written. -/
theorem location_counter_counterexample :
    ((runPass1 shortInput).map Pass1.intermediateTxt =
        some ["100\tSTART\t100", "100\t(IS,09)\tA,\t**", "101\t(IS,)\tDS,\t1", "102\tEND"] ∧
      (runPass1 shortInput).map (fun r => r.out.map IRLine.lc) = some [100, 100, 101, 102] ∧
      (runPass1 shortInput).map (fun r => r.out.map IRLine.lc) ≠
        some [100, 100, 101, 102, 103] ∧
      (runPass1 shortInput).map Pass1.symtab =
        some [{ name := "**", addr := 100 }, { name := "STOP", addr := 101 }]) ∧
    ((runPass1 truncatedInput).map Pass1.intermediateTxt =
        some ["100\tSTART\t100", "100\t(IS,10)\tA,\t**", "101\t(IS,10)\tA,\t**"] ∧
      (runPass1 truncatedAfterDS).map Pass1.intermediateTxt =
        some ["100\tSTART\t100", "100\t(IS,04)\tAREG,,\tA", "101\t(DL,02)\t(C,3)",
              "104\t(DL,02)\t(C,3)"] ∧
      (runPass1 truncatedAfterDC).map Pass1.intermediateTxt =
        some ["100\tSTART\t100", "100\t(IS,04)\tAREG,,\tA", "101\t(DL,01)\t(C,3)",
              "102\t(DL,01)\t(C,3)"]) := by
  decide

/-- C14, amended (location counter of pass 1).  For a program `START s`, statements, `END`
in which every statement is read back as written (a label or placeholder other than `END`
followed by `DS n` with a number `n`, by `DC c`, or by an operation with exactly two operand
tokens; `s` an `int`), `runPass1` returns and writes: the `START` line, then for the `k`-th
statement its line with the address `s` plus the sum of the sizes of the statements before
it (`DS n` has size `n`, `DC` and imperative statements size 1), then the `END` line with
`s` plus the sum of all sizes.  The sums are `int` sums: they are the exact integers
whenever these fit in an `int`.  For the documented sample the addresses written are
100 (START), 100, 101, 102, 103, 108 and 109 (END). -/
theorem location_counter_amended (sTok : String) (s : Int) (stmts : List Stmt)
    (rest : List String) (symtab0 : List Symbol)
    (hs : parseIntPrefix sTok.data = some (s, [])) (h1 : INT_MIN ≤ s) (h2 : s ≤ INT_MAX)
    (hwf : ∀ st ∈ stmts, st.WF) :
    (∃ r : Pass1,
      pass1Tokens ("START" :: sTok :: (progToks stmts ++ "END" :: rest)) symtab0 = some r ∧
      r.out.length = stmts.length + 2 ∧
      r.out[0]? = some (.start s s) ∧
      (∀ (k : Nat) (st : Stmt), stmts[k]? = some st →
        r.out[k + 1]? = some (st.line (wrapInt (s + sizeSum (stmts.take k))))) ∧
      r.out[stmts.length + 1]? = some (.stop (wrapInt (s + sizeSum stmts))) ∧
      r.lc = wrapInt (s + sizeSum stmts)) ∧
    (∀ k : Nat, INT_MIN ≤ s + sizeSum (stmts.take k) → s + sizeSum (stmts.take k) ≤ INT_MAX →
      wrapInt (s + sizeSum (stmts.take k)) = s + sizeSum (stmts.take k)) ∧
    (runPass1 sampleInput).map (fun r => r.out.map IRLine.lc) =
      some [100, 100, 101, 102, 103, 108, 109] := by
  refine ⟨?_, fun k a b => wrapInt_of_range _ a b, by decide⟩
  have hw : wrapInt s = s := wrapInt_of_range s h1 h2
  obtain ⟨r, e, o, l⟩ := pass1Loop_prog rest stmts
    { lc := s, opcode := "START", op1 := "", op2 := "", symtab := symtab0,
      out := [.start s s] } hwf
  simp only at o l
  have o2 : r.out = .start s s :: (listing s stmts ++ [.stop (finalLc s stmts)]) := by
    rw [o]
    simp only [List.singleton_append, List.cons_append, List.nil_append]
  have hf : finalLc s stmts = wrapInt (s + sizeSum stmts) := by
    have := finalLc_eq stmts s
    rw [hw] at this
    exact this
  refine ⟨r, ?_, ?_, ?_, ?_, ?_, ?_⟩
  · simp only [pass1Tokens, if_true, readInt_token sTok s _ hs h1 h2]
    exact e
  · rw [o2]
    simp only [List.length_append, List.length_cons, List.length_nil, listing_length]
  · rw [o2]
    exact List.getElem?_cons_zero
  · intro k st hk
    rw [o2]
    simp only [List.getElem?_cons_succ]
    have hlt : k < stmts.length := by
      rcases List.getElem?_eq_some_iff.mp hk with ⟨hlt, _⟩
      exact hlt
    rw [List.getElem?_append_left (by rw [listing_length]; exact hlt)]
    have := listing_get stmts s k st hk
    rw [hw] at this
    exact this
  · rw [o2]
    simp only [List.getElem?_cons_succ]
    rw [List.getElem?_append_right (by rw [listing_length])]
    simp only [listing_length, Nat.sub_self, List.getElem?_cons_zero]
    rw [hf]
  · rw [l, hf]

/-- Witness for C14 (amended): the documented sample is `START 100`, five well-formed statements and
`END`; the theorem applies to it. -/
theorem location_counter_amended_witness :
    tokens sampleInput = "START" :: "100" :: (progToks sampleStmts ++ "END" :: []) ∧
    ∃ r : Pass1,
      pass1Tokens ("START" :: "100" :: (progToks sampleStmts ++ "END" :: [])) [] = some r ∧
      r.out.length = sampleStmts.length + 2 ∧
      r.out[0]? = some (.start 100 100) ∧
      (∀ (k : Nat) (st : Stmt), sampleStmts[k]? = some st →
        r.out[k + 1]? = some (st.line (wrapInt (100 + sizeSum (sampleStmts.take k))))) ∧
      r.out[sampleStmts.length + 1]? = some (.stop (wrapInt (100 + sizeSum sampleStmts))) ∧
      r.lc = wrapInt (100 + sizeSum sampleStmts) :=
  ⟨by decide,
   (location_counter_amended "100" 100 sampleStmts [] [] (by decide) (by decide) (by decide)
      (by decide)).1⟩

end Assembler

namespace Scheduling

theorem firstUnfinished_some (p : List Process) :
    ∀ i : Nat, firstUnfinished p = some i → ∃ x : Process, p[i]? = some x ∧ 0 < x.remaining := by
  induction p with
  | nil =>
    intro i h
    simp [firstUnfinished] at h
  | cons y ys ih =>
    intro i h
    unfold firstUnfinished at h
    by_cases hy : 0 < y.remaining
    · rw [if_pos hy] at h
      cases h
      exact ⟨y, List.getElem?_cons_zero, hy⟩
    · rw [if_neg hy] at h
      cases hf : firstUnfinished ys with
      | none => simp [hf] at h
      | some j =>
        simp only [hf, Option.map_some', Option.some.injEq] at h
        subst h
        obtain ⟨x, hx, hr⟩ := ih j hf
        exact ⟨x, by simpa using hx, hr⟩

theorem firstUnfinished_none (p : List Process) :
    firstUnfinished p = none → ∀ x : Process, x ∈ p → ¬ 0 < x.remaining := by
  induction p with
  | nil =>
    intro _ x hx
    simp at hx
  | cons y ys ih =>
    intro h x hx
    unfold firstUnfinished at h
    by_cases hy : 0 < y.remaining
    · rw [if_pos hy] at h
      cases h
    · rw [if_neg hy] at h
      have hf : firstUnfinished ys = none := by
        cases hf : firstUnfinished ys with
        | none => rfl
        | some j => simp [hf] at h
      rcases List.mem_cons.mp hx with e | e
      · rw [e]
        exact hy
      · exact ih hf x e

theorem doneCount_le (p : List Process) : doneCount p ≤ p.length := by
  induction p with
  | nil => simp [doneCount]
  | cons y ys ih =>
    unfold doneCount at ih ⊢
    simp only [List.map_cons, List.sum_cons, List.length_cons]
    split <;> omega

theorem doneCount_full (p : List Process) :
    p.length ≤ doneCount p → ∀ x : Process, x ∈ p → x.remaining = 0 := by
  induction p with
  | nil =>
    intro _ x hx
    simp at hx
  | cons y ys ih =>
    intro h x hx
    have hle := doneCount_le ys
    unfold doneCount at h ih hle
    simp only [List.map_cons, List.sum_cons, List.length_cons] at h
    by_cases hy : y.remaining = 0
    · rw [if_pos hy] at h
      rcases List.mem_cons.mp hx with e | e
      · rw [e]
        exact hy
      · exact ih (by omega) x e
    · rw [if_neg hy] at h
      omega

theorem doneCount_of_all (p : List Process) (h : ∀ x : Process, x ∈ p → x.remaining = 0) :
    doneCount p = p.length := by
  induction p with
  | nil => simp [doneCount]
  | cons y ys ih =>
    have := ih (fun x hx => h x (List.mem_cons_of_mem _ hx))
    unfold doneCount at this ⊢
    simp only [List.map_cons, List.sum_cons, List.length_cons, h y (List.mem_cons_self _ _),
      if_true]
    omega

theorem PInv.length_eq {ps : List Process} {st : State} (h : PInv ps st) :
    st.p.length = ps.length := by
  have := congrArg List.length h.hkey
  simpa using this

/-- While `completed < n` some process still needs CPU time. -/
theorem exists_unfinished {ps : List Process} {st : State} (hP : PInv ps st)
    (hc : st.completed < st.p.length) : firstUnfinished st.p ≠ none := by
  intro hf
  have h0 : ∀ x : Process, x ∈ st.p → x.remaining = 0 := by
    intro x hx
    have h1 := firstUnfinished_none st.p hf x hx
    have h2 := hP.hrem x hx
    omega
  have := doneCount_of_all st.p h0
  have := hP.hcomp
  omega

theorem refill_p (st : State) : (refill st).p = st.p := by
  unfold refill
  split
  · split
    · split <;> rfl
    · rfl
  · rfl

theorem refill_completed (st : State) : (refill st).completed = st.completed := by
  unfold refill
  split
  · split
    · split <;> rfl
    · rfl
  · rfl

theorem refill_spec {ps : List Process} {st : State} (hQ : QInv st) (hP : PInv ps st)
    (hc : st.completed < st.p.length) : QInv (refill st) ∧ (refill st).q ≠ [] := by
  cases hq : st.q with
  | cons j js =>
    have e : refill st = st := by
      unfold refill
      simp [hq]
    rw [e]
    exact ⟨hQ, by simp [hq]⟩
  | nil =>
    cases hf : firstUnfinished st.p with
    | none => exact absurd hf (exists_unfinished hP hc)
    | some i =>
      obtain ⟨x, hx, hr⟩ := firstUnfinished_some st.p i hf
      have e : refill st = { st with time := max st.time x.at_, q := st.q ++ [i],
                                     inQ := st.inQ.set i true,
                                     last_arrival_check := i + 1 } := by
        unfold refill
        simp [hq, hf, hx]
      rw [e]
      refine ⟨⟨?_, ?_, ?_⟩, ?_⟩
      · intro k hk
        simp only [hq, List.nil_append, List.mem_singleton] at hk
        subst hk
        exact ⟨x, hx, hr⟩
      · simp [hq]
      · intro k hk
        simp only [hq, List.nil_append, List.mem_singleton] at hk
        subst hk
        exact Nat.lt_succ_self _
      · simp [hq]

theorem arrive_p (st : State) (x : Process) :
    (arrive st x).p = st.p ∧ (arrive st x).time = st.time ∧
      (arrive st x).completed = st.completed ∧
      (arrive st x).last_arrival_check = st.last_arrival_check + 1 := by
  unfold arrive
  split <;> exact ⟨rfl, rfl, rfl, rfl⟩

theorem arrive_q (st : State) (x : Process) :
    (arrive st x).q = st.q ∨
      ((arrive st x).q = st.q ++ [st.last_arrival_check] ∧ 0 < x.remaining) := by
  unfold arrive
  split
  · rename_i h
    exact Or.inr ⟨rfl, h.1⟩
  · exact Or.inl rfl

theorem arrive_inv (st : State) (x : Process) (hx : st.p[st.last_arrival_check]? = some x)
    (hQ : QInv st) : QInv (arrive st x) := by
  obtain ⟨hp, _, _, hl⟩ := arrive_p st x
  rcases arrive_q st x with e | ⟨e, hr⟩
  · refine ⟨?_, ?_, ?_⟩
    · intro i hi
      rw [e] at hi
      rw [hp]
      exact hQ.hq i hi
    · rw [e]
      exact hQ.hnd
    · intro i hi
      rw [e] at hi
      rw [hl]
      exact Nat.lt_succ_of_lt (hQ.hlac i hi)
  · refine ⟨?_, ?_, ?_⟩
    · intro i hi
      rw [e] at hi
      rw [hp]
      rcases List.mem_append.mp hi with h | h
      · exact hQ.hq i h
      · simp only [List.mem_singleton] at h
        subst h
        exact ⟨x, hx, hr⟩
    · rw [e]
      refine List.Nodup.append hQ.hnd (List.nodup_singleton _) ?_
      intro a ha hb
      simp only [List.mem_singleton] at hb
      subst hb
      exact Nat.lt_irrefl _ (hQ.hlac _ ha)
    · intro i hi
      rw [e] at hi
      rw [hl]
      rcases List.mem_append.mp hi with h | h
      · exact Nat.lt_succ_of_lt (hQ.hlac i h)
      · simp only [List.mem_singleton] at h
        subst h
        exact Nat.lt_succ_self _

theorem arrive_not_mem (st : State) (x : Process) (idx : Nat)
    (h1 : idx < st.last_arrival_check) (h2 : idx ∉ st.q) : idx ∉ (arrive st x).q := by
  rcases arrive_q st x with e | ⟨e, _⟩
  · rw [e]
    exact h2
  · rw [e]
    intro h
    rcases List.mem_append.mp h with h | h
    · exact h2 h
    · simp only [List.mem_singleton] at h
      omega

theorem arrivals_p (k : Nat) :
    ∀ st : State, (arrivals k st).p = st.p ∧ (arrivals k st).time = st.time ∧
      (arrivals k st).completed = st.completed := by
  induction k with
  | zero =>
    intro st
    exact ⟨rfl, rfl, rfl⟩
  | succ k ih =>
    intro st
    unfold arrivals
    split
    · exact ⟨rfl, rfl, rfl⟩
    · rename_i x hx
      split
      · obtain ⟨a, b, c⟩ := ih (arrive st x)
        obtain ⟨a1, b1, c1, _⟩ := arrive_p st x
        exact ⟨a.trans a1, b.trans b1, c.trans c1⟩
      · exact ⟨rfl, rfl, rfl⟩

theorem arrivals_inv (k : Nat) :
    ∀ st : State, QInv st → QInv (arrivals k st) ∧
      ∀ idx : Nat, idx < st.last_arrival_check → idx ∉ st.q →
        idx < (arrivals k st).last_arrival_check ∧ idx ∉ (arrivals k st).q := by
  induction k with
  | zero =>
    intro st hQ
    exact ⟨hQ, fun idx h1 h2 => ⟨h1, h2⟩⟩
  | succ k ih =>
    intro st hQ
    unfold arrivals
    split
    · exact ⟨hQ, fun idx h1 h2 => ⟨h1, h2⟩⟩
    · rename_i x hx
      split
      · obtain ⟨a, b⟩ := ih (arrive st x) (arrive_inv st x hx hQ)
        refine ⟨a, ?_⟩
        intro idx h1 h2
        refine b idx ?_ (arrive_not_mem st x idx h1 h2)
        rw [(arrive_p st x).2.2.2]
        exact Nat.lt_succ_of_lt h1
      · exact ⟨hQ, fun idx h1 h2 => ⟨h1, h2⟩⟩

end Scheduling

namespace Scheduling

theorem work_set {p : List Process} {idx : Nat} {x : Process} (hx : p[idx]? = some x)
    (z : Process) : work (p.set idx z) + x.remaining.toNat = work p + z.remaining.toNat :=
  sum_map_set (fun y : Process => y.remaining.toNat) hx z

theorem doneCount_set {p : List Process} {idx : Nat} {x : Process} (hx : p[idx]? = some x)
    (z : Process) :
    doneCount (p.set idx z) + (if x.remaining = 0 then 1 else 0) =
      doneCount p + (if z.remaining = 0 then 1 else 0) :=
  sum_map_set (fun y : Process => if y.remaining = 0 then 1 else 0) hx z

/-- Replacing an unfinished process by one with the same identity keeps the invariant of the
process vector, when `completed` is advanced exactly if the new process is finished. -/
theorem PInv_set {ps : List Process} {st : State} (hP : PInv ps st) {idx : Nat} {x : Process}
    (hx : st.p[idx]? = some x) (hxr : 0 < x.remaining) (z : Process) (hk : z.key = x.key)
    (h0 : 0 ≤ z.remaining)
    (hz : z.remaining = 0 → z.tat = wrapInt (z.ct - z.at_) ∧ z.wt = wrapInt (z.tat - z.bt))
    (st1 : State) (hp : st1.p = st.p.set idx z)
    (hc : st1.completed = st.completed + (if z.remaining = 0 then 1 else 0)) :
    PInv ps st1 := by
  refine ⟨?_, ?_, ?_, ?_⟩
  · rw [hp, map_set_same Process.key hx z hk]
    exact hP.hkey
  · intro y hy
    rw [hp] at hy
    rcases List.mem_or_eq_of_mem_set hy with h | h
    · exact hP.hrem y h
    · rw [h]
      exact h0
  · have h1 := doneCount_set hx z
    have h2 := hP.hcomp
    have h3 : ¬ x.remaining = 0 := by omega
    rw [if_neg h3] at h1
    rw [hc, hp]
    omega
  · intro y hy
    rw [hp] at hy
    rcases List.mem_or_eq_of_mem_set hy with h | h
    · exact hP.hdone y h
    · rw [h]
      exact hz

theorem run_inv {st : State} (hQ : QInv st) (quantum : Int) {idx : Nat} {rest : List Nat}
    {x : Process} (hq : st.q = idx :: rest) (hx : st.p[idx]? = some x) :
    QInv (run quantum idx x rest st) ∧
      idx < (run quantum idx x rest st).last_arrival_check ∧
      idx ∉ (run quantum idx x rest st).q := by
  have hnd : (idx :: rest).Nodup := by
    rw [← hq]
    exact hQ.hnd
  have hni : idx ∉ rest := (List.nodup_cons.mp hnd).1
  refine ⟨⟨?_, ?_, ?_⟩, ?_, hni⟩
  · intro i hi
    have hi2 : i ∈ st.q := by
      rw [hq]
      exact List.mem_cons_of_mem _ hi
    have hne : ¬ i = idx := by
      intro e
      rw [e] at hi
      exact hni hi
    obtain ⟨y, hy, hr⟩ := hQ.hq i hi2
    refine ⟨y, ?_, hr⟩
    show (st.p.set idx _)[i]? = some y
    rw [lookup_set hx, if_neg hne]
    exact hy
  · exact (List.nodup_cons.mp hnd).2
  · intro i hi
    exact hQ.hlac i (by rw [hq]; exact List.mem_cons_of_mem _ hi)
  · exact hQ.hlac idx (by rw [hq]; exact List.mem_cons_self _ _)

/-- The state in which step 5 of an iteration starts: the process `idx` at the front of the
queue has run for `min quantum remaining` and is not in the queue. -/
theorem rrStep_shape {ps : List Process} {st : State} (quantum : Int) (hQ : QInv st)
    (hP : PInv ps st) (hc : st.completed < st.p.length) :
    ∃ (idx : Nat) (x : Process) (rest : List Nat) (st3 : State),
      (refill st).q = idx :: rest ∧ st.p[idx]? = some x ∧ 0 < x.remaining ∧
      QInv st3 ∧ idx < st3.last_arrival_check ∧ idx ∉ st3.q ∧
      st3.p = st.p.set idx { x with remaining := x.remaining - min quantum x.remaining } ∧
      st3.time = wrapInt ((refill st).time + min quantum x.remaining) ∧
      st3.completed = st.completed ∧
      rrStep quantum st = finish idx st3 ∧
      st3 = arrivals ((refill st).p.length - (refill st).last_arrival_check)
        (run quantum idx x rest (refill st)) := by
  obtain ⟨hQ1, hne⟩ := refill_spec hQ hP hc
  cases hq1 : (refill st).q with
  | nil => exact absurd hq1 hne
  | cons idx rest =>
    obtain ⟨x, hx, hr⟩ := hQ1.hq idx (by rw [hq1]; exact List.mem_cons_self _ _)
    obtain ⟨hQ2, hl2, hn2⟩ := run_inv hQ1 quantum hq1 hx
    obtain ⟨hQ3, h3⟩ := arrivals_inv ((refill st).p.length - (refill st).last_arrival_check)
      (run quantum idx x rest (refill st)) hQ2
    obtain ⟨hl3, hn3⟩ := h3 idx hl2 hn2
    obtain ⟨hp3, ht3, hc3⟩ := arrivals_p ((refill st).p.length - (refill st).last_arrival_check)
      (run quantum idx x rest (refill st))
    refine ⟨idx, x, rest, _, rfl, ?_, hr, hQ3, hl3, hn3, ?_, ?_, ?_, ?_, rfl⟩
    · rw [← refill_p]
      exact hx
    · rw [hp3]
      show (refill st).p.set idx _ = _
      rw [refill_p]
    · rw [ht3]
      rfl
    · rw [hc3]
      exact refill_completed st
    · unfold rrStep
      simp only [hq1, hx]

/-- One iteration of the main loop has a result, keeps the invariants and uses up at least
one unit of the remaining CPU time. -/
theorem rrStep_inv {ps : List Process} {st : State} {quantum : Int} (hquant : 0 < quantum)
    (hQ : QInv st) (hP : PInv ps st) (hc : st.completed < st.p.length) :
    ∃ st1 : State, rrStep quantum st = some st1 ∧ QInv st1 ∧ PInv ps st1 ∧
      work st1.p < work st.p := by
  obtain ⟨idx, x, rest, st3, _, hx, hr, hQ3, hl3, hn3, hp3, ht3, hc3, hstep, _⟩ :=
    rrStep_shape quantum hQ hP hc
  have hx3 : st3.p[idx]? = some { x with remaining := x.remaining - min quantum x.remaining } := by
    rw [hp3, lookup_set hx, if_pos rfl]
  have hmin1 : 0 < min quantum x.remaining := lt_min hquant hr
  have hmin2 : min quantum x.remaining ≤ x.remaining := min_le_right _ _
  rw [hstep]
  unfold finish
  simp only [hx3]
  by_cases hz : x.remaining - min quantum x.remaining = 0
  · rw [if_pos hz]
    refine ⟨_, rfl, ⟨?_, hQ3.hnd, hQ3.hlac⟩, ?_, ?_⟩
    · intro i hi
      have hne : ¬ i = idx := by
        intro e
        rw [e] at hi
        exact hn3 hi
      obtain ⟨y, hy, hyr⟩ := hQ3.hq i hi
      refine ⟨y, ?_, hyr⟩
      show (st3.p.set idx _)[i]? = some y
      rw [lookup_set hx3, if_neg hne]
      exact hy
    · refine PInv_set hP hx hr
        { x with remaining := x.remaining - min quantum x.remaining,
                 ct := st3.time,
                 tat := wrapInt (st3.time - x.at_),
                 wt := wrapInt (wrapInt (st3.time - x.at_) - x.bt) } rfl ?_ ?_ _ ?_ ?_
      · show 0 ≤ x.remaining - min quantum x.remaining
        omega
      · intro _
        exact ⟨rfl, rfl⟩
      · show st3.p.set idx _ = _
        rw [hp3, List.set_set]
      · show st3.completed + 1 = _
        rw [hc3, if_pos hz]
    · show work (st3.p.set idx _) < _
      rw [hp3, List.set_set]
      have := work_set hx
        { x with remaining := x.remaining - min quantum x.remaining,
                 ct := st3.time,
                 tat := wrapInt (st3.time - x.at_),
                 wt := wrapInt (wrapInt (st3.time - x.at_) - x.bt) }
      simp only at this
      omega
  · rw [if_neg hz]
    refine ⟨_, rfl, ⟨?_, ?_, ?_⟩, ?_, ?_⟩
    · intro i hi
      rcases List.mem_append.mp hi with h | h
      · exact hQ3.hq i h
      · simp only [List.mem_singleton] at h
        rw [h]
        exact ⟨_, hx3, by show 0 < x.remaining - min quantum x.remaining; omega⟩
    · refine List.Nodup.append hQ3.hnd (List.nodup_singleton _) ?_
      intro a ha hb
      simp only [List.mem_singleton] at hb
      rw [hb] at ha
      exact hn3 ha
    · intro i hi
      rcases List.mem_append.mp hi with h | h
      · exact hQ3.hlac i h
      · simp only [List.mem_singleton] at h
        rw [h]
        exact hl3
    · refine PInv_set hP hx hr
        { x with remaining := x.remaining - min quantum x.remaining } rfl ?_ ?_ _ hp3 ?_
      · show 0 ≤ x.remaining - min quantum x.remaining
        omega
      · intro h
        exact absurd h hz
      · show st3.completed = _
        rw [hc3, if_neg hz]
        rfl
    · show work st3.p < _
      rw [hp3]
      have := work_set hx { x with remaining := x.remaining - min quantum x.remaining }
      simp only at this
      omega

end Scheduling

namespace Scheduling

theorem work_zero {p : List Process} (h : work p = 0) (hrem : ∀ x : Process, x ∈ p → 0 ≤ x.remaining) :
    ∀ x : Process, x ∈ p → x.remaining = 0 := by
  intro x hx
  obtain ⟨k, hk⟩ := List.getElem?_of_mem hx
  have h1 := le_sum_map (fun y : Process => y.remaining.toNat) hk
  have h2 := hrem x hx
  unfold work at h
  simp only at h1
  omega

/-- The main loop returns once it has as many iterations as CPU time is still needed. -/
theorem rrLoop_returns {ps : List Process} {quantum : Int} (hquant : 0 < quantum) (fuel : Nat) :
    ∀ st : State, QInv st → PInv ps st → work st.p ≤ fuel →
      ∃ st1 : State, rrLoop quantum fuel st = some st1 ∧ PInv ps st1 ∧
        st1.p.length ≤ st1.completed := by
  induction fuel with
  | zero =>
    intro st _ hP hw
    have h0 := work_zero (Nat.le_zero.mp hw) hP.hrem
    have h1 := doneCount_of_all st.p h0
    have h2 := hP.hcomp
    refine ⟨st, ?_, hP, by omega⟩
    unfold rrLoop
    rw [if_neg (by omega)]
  | succ fuel ih =>
    intro st hQ hP hw
    by_cases hc : st.completed < st.p.length
    · obtain ⟨st1, e1, hQ1, hP1, hlt⟩ := rrStep_inv hquant hQ hP hc
      obtain ⟨st2, e2, hP2, hd2⟩ := ih st1 hQ1 hP1 (by omega)
      refine ⟨st2, ?_, hP2, hd2⟩
      unfold rrLoop
      rw [if_pos hc, e1]
      exact e2
    · refine ⟨st, ?_, hP, by omega⟩
      unfold rrLoop
      rw [if_neg hc]

/-- More fuel does not change the result of the main loop. -/
theorem rrLoop_mono (quantum : Int) (fuel : Nat) :
    ∀ (st st1 : State), rrLoop quantum fuel st = some st1 →
      rrLoop quantum (fuel + 1) st = some st1 := by
  induction fuel with
  | zero =>
    intro st st1 h
    unfold rrLoop at h ⊢
    by_cases hc : st.completed < st.p.length
    · rw [if_pos hc] at h
      cases h
    · rw [if_neg hc] at h ⊢
      exact h
  | succ fuel ih =>
    intro st st1 h
    unfold rrLoop at h
    unfold rrLoop
    by_cases hc : st.completed < st.p.length
    · rw [if_pos hc] at h ⊢
      cases hs : rrStep quantum st with
      | none => simp [hs] at h
      | some st2 =>
        rw [hs] at h
        exact ih st2 st1 h
    · rw [if_neg hc] at h ⊢
      exact h

theorem start_spec {ps : List Process} (hne : ps ≠ [])
    (hbt : ∀ x : Process, x ∈ ps → 0 < x.bt) :
    ∃ st : State, start ps = some st ∧ QInv st ∧ PInv ps st ∧ work st.p = totalBurst ps ∧
      st.p = ps.map (fun y => { y with remaining := y.bt }) := by
  cases ps with
  | nil => exact absurd rfl hne
  | cons x xs =>
    refine ⟨_, rfl, ⟨?_, ?_, ?_⟩, ⟨?_, ?_, ?_, ?_⟩, ?_, rfl⟩
    · intro i hi
      simp only [List.mem_singleton] at hi
      subst hi
      exact ⟨{ x with remaining := x.bt }, by simp, hbt x (List.mem_cons_self _ _)⟩
    · exact List.nodup_singleton _
    · intro i hi
      simp only [List.mem_singleton] at hi
      subst hi
      exact Nat.zero_lt_one
    · dsimp only
      rw [List.map_map]
      rfl
    · intro y hy
      obtain ⟨z, hz, e⟩ := List.mem_map.mp hy
      rw [← e]
      exact le_of_lt (hbt z hz)
    · dsimp only
      symm
      refine sum_map_eq_zero _ ?_
      intro k w hk
      have hw : w ∈ List.map (fun y : Process => { y with remaining := y.bt }) (x :: xs) :=
        List.getElem?_mem hk
      obtain ⟨z, hz, e⟩ := List.mem_map.mp hw
      have := hbt z hz
      rw [← e]
      show (if z.bt = 0 then 1 else 0) = 0
      rw [if_neg (by omega)]
    · intro y hy h0
      obtain ⟨z, hz, e⟩ := List.mem_map.mp hy
      have := hbt z hz
      rw [← e] at h0
      have h1 : z.bt = 0 := h0
      omega
    · dsimp only
      unfold work totalBurst
      rw [List.map_map]
      rfl

end Scheduling

namespace Scheduling

theorem refill_cases (st : State) :
    refill st = st ∨
      ∃ (i : Nat) (x : Process), st.q = [] ∧ st.p[i]? = some x ∧
        refill st = { st with time := max st.time x.at_, q := st.q ++ [i],
                              inQ := st.inQ.set i true, last_arrival_check := i + 1 } := by
  cases hq : st.q with
  | cons j js =>
    left
    unfold refill
    simp [hq]
  | nil =>
    cases hf : firstUnfinished st.p with
    | none =>
      left
      unfold refill
      simp [hq, hf]
    | some i =>
      obtain ⟨x, hx, _⟩ := firstUnfinished_some st.p i hf
      right
      refine ⟨i, x, rfl, hx, ?_⟩
      unfold refill
      simp [hq, hf, hx]

theorem refill_arrived {st : State} (hA : Arrived st) : Arrived (refill st) := by
  rcases refill_cases st with e | ⟨i, x, hq, hx, e⟩
  · rw [e]
    exact hA
  · rw [e]
    intro j y hj
    have hj2 : st.p[j]? = some y := hj
    rcases hA j y hj2 with h | ⟨_, h2⟩
    · left
      show y.at_ + (y.bt - y.remaining) ≤ max st.time x.at_
      exact le_trans h (le_max_left _ _)
    · by_cases hji : j = i
      · left
        show y.at_ + (y.bt - y.remaining) ≤ max st.time x.at_
        rw [hji, hx] at hj2
        cases hj2
        have := le_max_right st.time x.at_
        omega
      · right
        refine ⟨?_, h2⟩
        show j ∉ st.q ++ [i]
        rw [hq]
        simpa using hji

theorem refill_time {st : State} {B : Int} (h0 : 0 ≤ st.time)
    (hat : ∀ x : Process, x ∈ st.p → x.at_ + (work st.p : Int) ≤ B)
    (h1 : st.time + (work st.p : Int) ≤ B) :
    0 ≤ (refill st).time ∧ (refill st).time + (work st.p : Int) ≤ B := by
  rcases refill_cases st with e | ⟨i, x, _, hx, e⟩
  · rw [e]
    exact ⟨h0, h1⟩
  · rw [e]
    have hm := hat x (List.getElem?_mem hx)
    constructor
    · show 0 ≤ max st.time x.at_
      exact le_trans h0 (le_max_left _ _)
    · show max st.time x.at_ + (work st.p : Int) ≤ B
      rcases max_choice st.time x.at_ with h | h <;> rw [h] <;> omega

theorem run_arrived {st : State} (hA : Arrived st) (quantum : Int) {idx : Nat}
    {rest : List Nat} {x : Process} (hq : st.q = idx :: rest) (hx : st.p[idx]? = some x)
    (he : 0 ≤ min quantum x.remaining)
    (ht : (run quantum idx x rest st).time = st.time + min quantum x.remaining) :
    Arrived (run quantum idx x rest st) ∧
      x.at_ + (x.bt - (x.remaining - min quantum x.remaining)) ≤
        st.time + min quantum x.remaining := by
  have hleft : x.at_ + (x.bt - x.remaining) ≤ st.time := by
    rcases hA idx x hx with h | ⟨h, _⟩
    · exact h
    · exact absurd (by rw [hq]; exact List.mem_cons_self _ _) h
  refine ⟨?_, by omega⟩
  intro j y hj
  rw [ht]
  have hj2 : (st.p.set idx { x with remaining := x.remaining - min quantum x.remaining })[j]? =
      some y := hj
  rw [lookup_set hx] at hj2
  by_cases hji : j = idx
  · rw [if_pos hji] at hj2
    cases hj2
    left
    show x.at_ + (x.bt - (x.remaining - min quantum x.remaining)) ≤ _
    omega
  · rw [if_neg hji] at hj2
    rcases hA j y hj2 with h | ⟨h1, h2⟩
    · left
      omega
    · right
      refine ⟨?_, h2⟩
      show j ∉ rest
      intro hm
      exact h1 (by rw [hq]; exact List.mem_cons_of_mem _ hm)

theorem arrive_arrived {st : State} (hA : Arrived st) {x : Process}
    (hx : st.p[st.last_arrival_check]? = some x) (hat : x.at_ ≤ st.time) :
    Arrived (arrive st x) := by
  obtain ⟨hp, ht, _, _⟩ := arrive_p st x
  intro j y hj
  rw [hp] at hj
  rw [ht]
  rcases hA j y hj with h | ⟨h1, h2⟩
  · exact Or.inl h
  · by_cases hjl : j = st.last_arrival_check
    · left
      rw [hjl, hx] at hj
      cases hj
      omega
    · right
      refine ⟨?_, h2⟩
      rcases arrive_q st x with e | ⟨e, _⟩
      · rw [e]
        exact h1
      · rw [e]
        intro hm
        rcases List.mem_append.mp hm with h | h
        · exact h1 h
        · simp only [List.mem_singleton] at h
          exact hjl h

theorem arrivals_arrived (k : Nat) : ∀ st : State, Arrived st → Arrived (arrivals k st) := by
  induction k with
  | zero =>
    intro st h
    exact h
  | succ k ih =>
    intro st h
    unfold arrivals
    split
    · exact h
    · rename_i x hx
      split
      · rename_i hat
        exact ih (arrive st x) (arrive_arrived h hx hat)
      · exact h

/-- The unchanged fields of a process of the vector are those of a process of the input. -/
theorem attrs_of_mem {ps : List Process} {st : State} {A : Int} (hP : PInv ps st)
    (hat : ∀ x : Process, x ∈ ps → 0 ≤ x.at_) (hbt : ∀ x : Process, x ∈ ps → 0 < x.bt)
    (hA : ∀ x : Process, x ∈ ps → x.at_ ≤ A) {x : Process} (hx : x ∈ st.p) :
    0 ≤ x.at_ ∧ 0 < x.bt ∧ x.at_ ≤ A := by
  have h1 : x.key ∈ st.p.map Process.key := List.mem_map_of_mem _ hx
  rw [hP.hkey] at h1
  obtain ⟨y, hy, e⟩ := List.mem_map.mp h1
  unfold Process.key at e
  simp only [Prod.mk.injEq] at e
  obtain ⟨_, e2, e3⟩ := e
  rw [← e2, ← e3]
  exact ⟨hat y hy, hbt y hy, hA y hy⟩

end Scheduling

namespace Scheduling

/-- One iteration of the main loop keeps the clock invariant: with `A` plus the total burst
time an `int`, the clock does not wrap and the finished process gets the exact values. -/
theorem rrStep_exact {ps : List Process} {A : Int} {quantum : Int} {st st1 : State}
    (hat : ∀ x : Process, x ∈ ps → 0 ≤ x.at_) (hbt : ∀ x : Process, x ∈ ps → 0 < x.bt)
    (hA : ∀ x : Process, x ∈ ps → x.at_ ≤ A) (hB : A + (totalBurst ps : Int) ≤ INT_MAX)
    (hquant : 0 < quantum) (hQ : QInv st) (hP : PInv ps st) (hX : XInv ps A st)
    (hc : st.completed < st.p.length) (hs : rrStep quantum st = some st1) : XInv ps A st1 := by
  obtain ⟨idx, x, rest, st3, hq1, hx, hr, _, _, hn3, hp3, ht3, _, hstep, hst3⟩ :=
    rrStep_shape quantum hQ hP hc
  obtain ⟨hat0, hbt0, _⟩ := attrs_of_mem hP hat hbt hA (List.getElem?_mem hx)
  have hmin1 : 0 < min quantum x.remaining := lt_min hquant hr
  have hmin2 : min quantum x.remaining ≤ x.remaining := min_le_right _ _
  have hwx : x.remaining.toNat ≤ work st.p := le_sum_map (fun y : Process => y.remaining.toNat) hx
  have hxw := hX.xw
  obtain ⟨ht0, ht1⟩ := refill_time hX.xt0
    (fun y hy => by
      have := (attrs_of_mem hP hat hbt hA hy).2.2
      omega) hX.xt1
  have hwrap : wrapInt ((refill st).time + min quantum x.remaining) =
      (refill st).time + min quantum x.remaining := by
    refine wrapInt_of_range _ ?_ ?_
    · unfold INT_MIN
      omega
    · omega
  rw [hwrap] at ht3
  have hx1 : (refill st).p[idx]? = some x := by
    rw [refill_p]
    exact hx
  obtain ⟨hA2, hleft⟩ := run_arrived (refill_arrived hX.xarr) quantum hq1 hx1 (le_of_lt hmin1) hwrap
  have hA3 : Arrived st3 := by
    rw [hst3]
    exact arrivals_arrived _ _ hA2
  have hx3 : st3.p[idx]? = some { x with remaining := x.remaining - min quantum x.remaining } := by
    rw [hp3, lookup_set hx, if_pos rfl]
  rw [hstep] at hs
  unfold finish at hs
  simp only [hx3] at hs
  have hB2 : A + (totalBurst ps : Int) ≤ 2147483647 := hB
  by_cases hz : x.remaining - min quantum x.remaining = 0
  · rw [if_pos hz] at hs
    simp only [Option.some.injEq] at hs
    have hwork := work_set hx
      { x with remaining := x.remaining - min quantum x.remaining,
               ct := st3.time,
               tat := wrapInt (st3.time - x.at_),
               wt := wrapInt (wrapInt (st3.time - x.at_) - x.bt) }
    simp only at hwork
    have hp1 : st1.p = st.p.set idx
      { x with remaining := x.remaining - min quantum x.remaining,
               ct := st3.time,
               tat := wrapInt (st3.time - x.at_),
               wt := wrapInt (wrapInt (st3.time - x.at_) - x.bt) } := by
      rw [← hs]
      show st3.p.set idx _ = _
      rw [hp3, List.set_set]
    have hq : st1.q = st3.q := by
      rw [← hs]
    have htm : st1.time = st3.time := by
      rw [← hs]
    have hw1 : wrapInt (st3.time - x.at_) = st3.time - x.at_ := by
      refine wrapInt_of_range _ ?_ ?_
      · unfold INT_MIN
        omega
      · unfold INT_MAX
        omega
    have hw2 : wrapInt (st3.time - x.at_ - x.bt) = st3.time - x.at_ - x.bt := by
      refine wrapInt_of_range _ ?_ ?_
      · unfold INT_MIN
        omega
      · unfold INT_MAX
        omega
    refine ⟨?_, ?_, ?_, ?_, ?_⟩
    · rw [htm]
      omega
    · rw [htm, hp1]
      omega
    · rw [hp1]
      omega
    · intro j y hj
      rw [hp1, lookup_set hx] at hj
      rw [htm, hq]
      by_cases hji : j = idx
      · rw [if_pos hji] at hj
        cases hj
        left
        show x.at_ + (x.bt - (x.remaining - min quantum x.remaining)) ≤ _
        omega
      · rw [if_neg hji] at hj
        have hj3 : st3.p[j]? = some y := by
          rw [hp3, lookup_set hx, if_neg hji]
          exact hj
        exact hA3 j y hj3
    · intro y hy
      rw [hp1] at hy
      rcases List.mem_or_eq_of_mem_set hy with h | h
      · exact hX.xdone y h
      · intro _
        rw [h]
        show wrapInt (st3.time - x.at_) = st3.time - x.at_ ∧
          wrapInt (wrapInt (st3.time - x.at_) - x.bt) = wrapInt (st3.time - x.at_) - x.bt ∧
          x.at_ + x.bt ≤ st3.time
        rw [hw1, hw2]
        exact ⟨rfl, rfl, by omega⟩
  · rw [if_neg hz] at hs
    simp only [Option.some.injEq] at hs
    have hwork := work_set hx { x with remaining := x.remaining - min quantum x.remaining }
    simp only at hwork
    have hp1 : st1.p = st.p.set idx
        { x with remaining := x.remaining - min quantum x.remaining } := by
      rw [← hs]
      exact hp3
    have hq : st1.q = st3.q ++ [idx] := by
      rw [← hs]
    have htm : st1.time = st3.time := by
      rw [← hs]
    refine ⟨?_, ?_, ?_, ?_, ?_⟩
    · rw [htm]
      omega
    · rw [htm, hp1]
      omega
    · rw [hp1]
      omega
    · intro j y hj
      rw [hp1, lookup_set hx] at hj
      rw [htm, hq]
      by_cases hji : j = idx
      · rw [if_pos hji] at hj
        cases hj
        left
        show x.at_ + (x.bt - (x.remaining - min quantum x.remaining)) ≤ _
        omega
      · rw [if_neg hji] at hj
        have hj3 : st3.p[j]? = some y := by
          rw [hp3, lookup_set hx, if_neg hji]
          exact hj
        rcases hA3 j y hj3 with h | ⟨h1, h2⟩
        · exact Or.inl h
        · right
          refine ⟨?_, h2⟩
          intro hm
          rcases List.mem_append.mp hm with h | h
          · exact h1 h
          · simp only [List.mem_singleton] at h
            exact hji h
    · intro y hy
      rw [hp1] at hy
      rcases List.mem_or_eq_of_mem_set hy with h | h
      · exact hX.xdone y h
      · intro h0
        rw [h] at h0
        exact absurd h0 hz

end Scheduling

namespace Scheduling

/-- What holds when the main loop returns. -/
theorem rrLoop_post {ps : List Process} {A : Int} {quantum : Int}
    (hat : ∀ x : Process, x ∈ ps → 0 ≤ x.at_) (hbt : ∀ x : Process, x ∈ ps → 0 < x.bt)
    (hquant : 0 < quantum) (fuel : Nat) :
    ∀ st st1 : State, QInv st → PInv ps st → rrLoop quantum fuel st = some st1 →
      PInv ps st1 ∧ st1.p.length ≤ st1.completed ∧
      ((∀ x : Process, x ∈ ps → x.at_ ≤ A) → A + (totalBurst ps : Int) ≤ INT_MAX →
        XInv ps A st → XInv ps A st1) := by
  induction fuel with
  | zero =>
    intro st st1 _ hP h
    unfold rrLoop at h
    by_cases hc : st.completed < st.p.length
    · rw [if_pos hc] at h
      cases h
    · rw [if_neg hc] at h
      cases h
      exact ⟨hP, by omega, fun _ _ hX => hX⟩
  | succ fuel ih =>
    intro st st1 hQ hP h
    unfold rrLoop at h
    by_cases hc : st.completed < st.p.length
    · rw [if_pos hc] at h
      obtain ⟨st2, e2, hQ2, hP2, _⟩ := rrStep_inv hquant hQ hP hc
      rw [e2] at h
      obtain ⟨a, b, c⟩ := ih st2 st1 hQ2 hP2 h
      exact ⟨a, b, fun hA hB hX => c hA hB (rrStep_exact hat hbt hA hB hquant hQ hP hX hc e2)⟩
    · rw [if_neg hc] at h
      cases h
      exact ⟨hP, by omega, fun _ _ hX => hX⟩

theorem start_exact {ps : List Process} {A : Int} {st : State}
    (hat : ∀ x : Process, x ∈ ps → 0 ≤ x.at_) (hbt : ∀ x : Process, x ∈ ps → 0 < x.bt)
    (hA : ∀ x : Process, x ∈ ps → x.at_ ≤ A) (h : start ps = some st) : XInv ps A st := by
  cases ps with
  | nil => simp [start] at h
  | cons x xs =>
    obtain ⟨st0, e0, _, _, hw, hp⟩ := start_spec (List.cons_ne_nil x xs) hbt
    have hst : st0 = st := by
      rw [e0] at h
      exact Option.some.inj h
    rw [← hst]
    have ht : st0.time = x.at_ := by
      unfold start at e0
      cases e0
      rfl
    have hq : st0.q = [0] := by
      unfold start at e0
      cases e0
      rfl
    have hx0 := hat x (List.mem_cons_self _ _)
    have hxA := hA x (List.mem_cons_self _ _)
    refine ⟨?_, ?_, ?_, ?_, ?_⟩
    · rw [ht]
      exact hx0
    · rw [ht, hw]
      omega
    · rw [hw]
    · intro j y hj
      rw [hp] at hj
      have hy : y ∈ List.map (fun z : Process => { z with remaining := z.bt }) (x :: xs) :=
        List.getElem?_mem hj
      obtain ⟨z, _, e⟩ := List.mem_map.mp hy
      have hrb : y.remaining = y.bt := by
        rw [← e]
      cases j with
      | zero =>
        left
        simp only [List.map_cons, List.getElem?_cons_zero, Option.some.injEq] at hj
        rw [ht, ← hj]
        show x.at_ + (x.bt - x.bt) ≤ x.at_
        omega
      | succ j =>
        right
        rw [hq]
        exact ⟨by simp, hrb⟩
    · intro y hy h0
      rw [hp] at hy
      obtain ⟨z, hz, e⟩ := List.mem_map.mp hy
      have := hbt z hz
      rw [← e] at h0
      have h1 : z.bt = 0 := h0
      omega

/-- The scheduling loop on any vector with positive burst times. -/
theorem schedule_completes (sorted : List Process) (quantum : Int) (fuel : Nat)
    (hne : sorted ≠ []) (hat : ∀ x : Process, x ∈ sorted → 0 ≤ x.at_)
    (hbt : ∀ x : Process, x ∈ sorted → 0 < x.bt) (hquant : 0 < quantum)
    (hfuel : totalBurst sorted ≤ fuel) :
    ∃ res : List Process, schedule sorted quantum fuel = some res ∧ Completed sorted res ∧
      ∀ A : Int, (∀ x : Process, x ∈ sorted → x.at_ ≤ A) →
        A + (totalBurst sorted : Int) ≤ INT_MAX → Exact res := by
  obtain ⟨st0, e0, hQ0, hP0, hw0, _⟩ := start_spec hne hbt
  obtain ⟨st1, e1, _, _⟩ := rrLoop_returns hquant fuel st0 hQ0 hP0 (by omega)
  have hpost := fun A : Int => rrLoop_post (A := A) hat hbt hquant fuel st0 st1 hQ0 hP0 e1
  obtain ⟨hP1, hd1, _⟩ := hpost 0
  have hall : ∀ x : Process, x ∈ st1.p → x.remaining = 0 := by
    refine doneCount_full st1.p ?_
    have := hP1.hcomp
    omega
  refine ⟨st1.p, ?_, ⟨hP1.hkey, ?_⟩, ?_⟩
  · unfold schedule
    simp only [e0, e1, Option.map_some']
  · intro x hx
    exact ⟨hall x hx, hP1.hdone x hx (hall x hx)⟩
  · intro A hA hB x hx
    have hX := (hpost A).2.2 hA hB (start_exact hat hbt hA e0)
    exact hX.xdone x hx (hall x hx)

theorem totalBurst_perm {l1 l2 : List Process} (h : l1.Perm l2) :
    totalBurst l1 = totalBurst l2 := by
  unfold totalBurst
  exact (h.map _).sum_eq

/-- C13 (round-robin completion).  For every non-empty process list with every arrival time
`>= 0`, every burst time `> 0` and a quantum `> 0`, `RoundRobin` returns (the main loop makes
at most as many iterations as the total burst time), and so does the scheduling loop on
every ordering `sorted` of the list that `sort` may produce.  On return the vector holds the
same processes, every process has `remaining = 0`, `tat = ct - at` and `wt = tat - bt`
computed in `int` arithmetic; when the largest arrival time plus the total burst time is an
`int`, nothing wraps: `tat` and `wt` are the exact differences and `ct >= at + bt`. -/
theorem round_robin_completes (ps : List Process) (quantum : Int) (fuel : Nat)
    (hne : ps ≠ []) (hat : ∀ x : Process, x ∈ ps → 0 ≤ x.at_)
    (hbt : ∀ x : Process, x ∈ ps → 0 < x.bt) (hquant : 0 < quantum)
    (hfuel : totalBurst ps ≤ fuel) :
    (∃ res : List Process, RoundRobin ps quantum fuel = some res ∧
      Completed (sortByAt ps) res ∧
      ∀ A : Int, (∀ x : Process, x ∈ ps → x.at_ ≤ A) →
        A + (totalBurst ps : Int) ≤ INT_MAX → Exact res) ∧
    (∀ sorted : List Process, sorted.Perm ps →
      ∃ res : List Process, schedule sorted quantum fuel = some res ∧
        Completed sorted res ∧
        ∀ A : Int, (∀ x : Process, x ∈ ps → x.at_ ≤ A) →
          A + (totalBurst ps : Int) ≤ INT_MAX → Exact res) := by
  have key : ∀ sorted : List Process, sorted.Perm ps →
      ∃ res : List Process, schedule sorted quantum fuel = some res ∧
        Completed sorted res ∧
        ∀ A : Int, (∀ x : Process, x ∈ ps → x.at_ ≤ A) →
          A + (totalBurst ps : Int) ≤ INT_MAX → Exact res := by
    intro sorted hperm
    have hne2 : sorted ≠ [] := by
      intro e
      rw [e] at hperm
      exact hne (List.Perm.nil_eq hperm).symm
    have htb := totalBurst_perm hperm
    obtain ⟨res, e, hc, hx⟩ := schedule_completes sorted quantum fuel hne2
      (fun x hx => hat x (hperm.mem_iff.mp hx)) (fun x hx => hbt x (hperm.mem_iff.mp hx))
      hquant (by omega)
    refine ⟨res, e, hc, ?_⟩
    intro A hA hB
    exact hx A (fun x hx => hA x (hperm.mem_iff.mp hx)) (by rw [htb]; exact hB)
  exact ⟨key (sortByAt ps) (List.perm_insertionSort _ ps), key⟩

/-- Witness for C13: three processes with (arrival, burst) = (1, 3), (0, 5), (2, 1) and
quantum 2; nine iterations are enough, and the run gives completion times 9, 8 and 5. -/
theorem round_robin_completes_witness :
    (RoundRobin demoInput 2 9).map
        (fun r => r.map (fun x => (x.pid, x.ct, x.tat, x.wt, x.remaining))) =
      some [(2, 9, 9, 4, 0), (1, 8, 7, 4, 0), (3, 5, 3, 2, 0)] ∧
    ∃ res : List Process, RoundRobin demoInput 2 9 = some res ∧
      Completed (sortByAt demoInput) res ∧
      ∀ A : Int, (∀ x : Process, x ∈ demoInput → x.at_ ≤ A) →
        A + (totalBurst demoInput : Int) ≤ INT_MAX → Exact res :=
  ⟨by decide,
   (round_robin_completes demoInput 2 9 (by decide) (by decide) (by decide) (by decide)
      (by decide)).1⟩

end Scheduling
